import Mathlib

/-!
# RLAP solver (Jonker-Volgenant) : shallow embedding

Embedding of `src/Numeric/Tensor.hpp` and `src/Algorithm/RLAP/RLAPSolverJV.cpp`.

Modelling conventions
* `std::vector<T>` / `new T[dim]` buffers are total maps `Nat → T` (the cells
  below the vector's size are the vector); a cell write is `upd`.
* `int` locals that hold loop counters are `Nat`; `int` cells that can hold the
  sentinel `-1` (`colsol`, `rowsol`, `i0`) are `Int` and are turned into an
  index with `Int.toNat` where the source indexes with them.
* `double` costs, prices and distances are `Int`: every value the solver
  computes from an integer weight matrix is an integer and is represented
  exactly by a `double` of that magnitude.
* The weights are 32 bit `int`s; the one `int` operation on them, the negation
  in the constructor, is taken modulo `2^32` (`neg32`).
* `BIG` comes from `RLAPSolverJV.hpp`, which is not part of the sources at
  hand; it is a parameter of the model.
* `for` loops with a fixed trip count are `forUp` / `forDown`; `while` and
  `do ... while` loops take a fuel argument and return `none` when it runs out.
* The size of a `Tensor` is computed modulo `2^32` as in the constructor; the
  index arithmetic of the accessors is taken in `Nat`, which is the `unsigned`
  arithmetic of the source as long as the size is below `2^31` (no index wraps
  around, and the `int` parameters of `operator()` hold every index).
-/

/-- Cell write `a[i] = x` on a buffer seen as a total map. -/
def upd {α : Type} (a : Nat → α) (i : Nat) (x : α) : Nat → α :=
  fun k => if k = i then x else a k

/-- Loop `for (i = start; i < start + n; i++) s = body i s`. -/
def forUp {σ : Type} (body : Nat → σ → σ) : Nat → Nat → σ → σ
  | 0, _, s => s
  | n + 1, i, s => forUp body n (i + 1) (body i s)

/-- Loop `for (j = n; j--;) s = body j s`. -/
def forDown {σ : Type} (body : Nat → σ → σ) : Nat → σ → σ
  | 0, s => s
  | n + 1, s => forDown body n (body n s)

/-! ## Tensor.hpp -/

/-- The class `Tensor<T>`: `size`, `dims` and the flat `data` buffer. -/
structure Tensor (α : Type) where
  size : Nat
  dims : List Nat
  data : Nat → α

namespace Tensor

/-- Method `getDims()`. -/
def getDims {α : Type} (t : Tensor α) : List Nat := t.dims

/-- Method `getSize()`. -/
def getSize {α : Type} (t : Tensor α) : Nat := t.size

/-- One dimensional access `t(i)`, `data[i]`. -/
def at1 {α : Type} (t : Tensor α) (i : Nat) : α := t.data i

/-- Two dimensional access `t(row, col)`, `data[row * dims[1] + col]`. -/
def at2 {α : Type} (t : Tensor α) (row col : Nat) : α :=
  t.data (row * t.dims.getD 1 0 + col)

/-- Two dimensional write `t(row, col) = x`. -/
def set2 {α : Type} (t : Tensor α) (row col : Nat) (x : α) : Tensor α :=
  { t with data := upd t.data (row * t.dims.getD 1 0 + col) x }

end Tensor

/-! ## RLAPSolverJV.cpp -/

namespace RLAPSolverJV

/-- Macro `MAX_DIM(m)`: `std::max(m.getDims()[0], m.getDims()[1])`. -/
def MAX_DIM {α : Type} (m : Tensor α) : Nat :=
  max (m.getDims.getD 0 0) (m.getDims.getD 1 0)

/-- The members of `RLAPSolverJV`. -/
structure Solver where
  rows : Nat
  cols : Nat
  size : Nat
  costMat : List (List Int)
  rowsol : Nat → Int
  colsol : Nat → Int

/-- Cell write `costMat[row][col] = x` on the vector of vectors. -/
def setCost (m : List (List Int)) (row col : Nat) (x : Int) : List (List Int) :=
  m.set row ((m.getD row []).set col x)

/-- Cell read `costMat[i][j]`. -/
def getCost (m : List (List Int)) (i j : Nat) : Int :=
  (m.getD i []).getD j 0

/-- Negation of a 32 bit `int`, taken modulo `2^32` as two's complement hardware does:
`-x` for `x` above `INT_MIN`, and `INT_MIN` at `INT_MIN`, where the negation overflows. -/
def neg32 (x : Int) : Int :=
  (-x + 2147483648) % 4294967296 - 2147483648

/-- The constructor `RLAPSolverJV::RLAPSolverJV(const Tensor<int>& mat)`; the entry
`-mat(row, col)` is negated as an `int` and then stored as a `double`. -/
def Solver.new (mat : Tensor Int) : Solver :=
  let rows := mat.getDims.getD 0 0
  let cols := mat.getDims.getD 1 0
  let size := MAX_DIM mat
  let costMat0 := List.replicate (MAX_DIM mat) (List.replicate (MAX_DIM mat) (0 : Int))
  let costMat := forUp (fun row m =>
      forUp (fun col m => setCost m row col (neg32 (mat.at2 row col))) cols 0 m) rows 0 costMat0
  { rows := rows, cols := cols, size := size, costMat := costMat,
    rowsol := fun _ => 0, colsol := fun _ => 0 }

/-- The buffers and counters of `jvlap` that live across its phases. -/
structure Lap where
  rowsol : Nat → Int
  colsol : Nat → Int
  v : Nat → Int
  free_ : Nat → Nat
  numfree : Nat
  matchCnt : Nat → Nat

/-- Column reduction, inner loop body: `if (assigncost[i][j] < min_) ...`. -/
def colMinStep (assigncost : Nat → Nat → Int) (j i : Nat) (p : Int × Nat) : Int × Nat :=
  if assigncost i j < p.1 then (assigncost i j, i) else p

/-- Column reduction, inner loop: `(min_, imin)` of column `j`. -/
def colMin (dim : Nat) (assigncost : Nat → Nat → Int) (j : Nat) : Int × Nat :=
  forUp (colMinStep assigncost j) (dim - 1) 1 (assigncost 0 j, 0)

/-- Column reduction, body of the loop over the columns. -/
def columnReductionStep (dim : Nat) (assigncost : Nat → Nat → Int) (j : Nat) (s : Lap) : Lap :=
  let min_ := (colMin dim assigncost j).1
  let imin := (colMin dim assigncost j).2
  let v := upd s.v j min_
  let cnt := s.matchCnt imin + 1
  let matchCnt := upd s.matchCnt imin cnt
  if cnt = 1 then
    { s with v := v, matchCnt := matchCnt,
             rowsol := upd s.rowsol imin (j : Int), colsol := upd s.colsol j (imin : Int) }
  else if v j < v (s.rowsol imin).toNat then
    let j1 := (s.rowsol imin).toNat
    { s with v := v, matchCnt := matchCnt,
             rowsol := upd s.rowsol imin (j : Int),
             colsol := upd (upd s.colsol j (imin : Int)) j1 (-1) }
  else
    { s with v := v, matchCnt := matchCnt, colsol := upd s.colsol j (-1) }

/-- Column reduction: `for (j = dim; j--;)`. -/
def columnReduction (dim : Nat) (assigncost : Nat → Nat → Int) (s : Lap) : Lap :=
  forDown (columnReductionStep dim assigncost) dim s

/-- Reduction transfer, inner loop: minimum of `assigncost[i][j] - v[j]` over `j != j1`. -/
def transferMin (BIG : Int) (dim : Nat) (assigncost : Nat → Nat → Int) (v : Nat → Int)
    (i j1 : Nat) : Int :=
  forUp (fun j min_ =>
    if j ≠ j1 then (if assigncost i j - v j < min_ then assigncost i j - v j else min_)
    else min_) dim 0 BIG

/-- Reduction transfer, body of the loop over the rows. -/
def reductionTransferStep (BIG : Int) (dim : Nat) (assigncost : Nat → Nat → Int)
    (i : Nat) (s : Lap) : Lap :=
  if s.matchCnt i = 0 then
    { s with free_ := upd s.free_ s.numfree i, numfree := s.numfree + 1 }
  else if s.matchCnt i = 1 then
    let j1 := (s.rowsol i).toNat
    let min_ := transferMin BIG dim assigncost s.v i j1
    { s with v := upd s.v j1 (s.v j1 - min_) }
  else s

/-- Reduction transfer: `for (i = 0; i < dim; i++)`. -/
def reductionTransfer (BIG : Int) (dim : Nat) (assigncost : Nat → Nat → Int) (s : Lap) : Lap :=
  forUp (reductionTransferStep BIG dim assigncost) dim 0 s

/-- The locals `umin`, `usubmin`, `j1`, `j2` of the row scan. -/
structure Scan where
  umin : Int
  usubmin : Int
  j1 : Nat
  j2 : Nat

/-- Augmenting row reduction, body of the scan over the columns. -/
def scanStep (assigncost : Nat → Nat → Int) (v : Nat → Int) (i j : Nat) (c : Scan) : Scan :=
  let h := assigncost i j - v j
  if h < c.usubmin then
    if h ≥ c.umin then { c with usubmin := h, j2 := j }
    else { umin := h, usubmin := c.umin, j2 := c.j1, j1 := j }
  else c

/-- Augmenting row reduction: minimum and second minimum reduced cost of row `i`.
`j2` enters with the value the local holds from before. -/
def scanRow (BIG : Int) (dim : Nat) (assigncost : Nat → Nat → Int) (v : Nat → Int)
    (i j2 : Nat) : Scan :=
  forUp (scanStep assigncost v i) (dim - 1) 1
    { umin := assigncost i 0 - v 0, usubmin := BIG, j1 := 0, j2 := j2 }

/-- The state of one augmenting-row-reduction pass. -/
structure Arr where
  lap : Lap
  k : Nat
  j2 : Nat

/-- Augmenting row reduction, body of `while (k < prvnumfree)`. -/
def arrStep (BIG : Int) (dim : Nat) (assigncost : Nat → Nat → Int) (a : Arr) : Arr :=
  let s := a.lap
  let i := s.free_ a.k
  let k := a.k + 1
  let c := scanRow BIG dim assigncost s.v i a.j2
  let strict : Bool := decide (c.umin < c.usubmin)
  let i0 := s.colsol c.j1
  let v := if strict then upd s.v c.j1 (s.v c.j1 - (c.usubmin - c.umin)) else s.v
  let swap : Bool := !strict && decide (i0 > -1)
  let j1 := if swap then c.j2 else c.j1
  let i0 := if swap then s.colsol c.j2 else i0
  let rowsol := upd s.rowsol i (j1 : Int)
  let colsol := upd s.colsol j1 (i : Int)
  if i0 > -1 then
    if strict then
      { lap := { s with v := v, rowsol := rowsol, colsol := colsol,
                        free_ := upd s.free_ (k - 1) i0.toNat },
        k := k - 1, j2 := c.j2 }
    else
      { lap := { s with v := v, rowsol := rowsol, colsol := colsol,
                        free_ := upd s.free_ s.numfree i0.toNat, numfree := s.numfree + 1 },
        k := k, j2 := c.j2 }
  else
    { lap := { s with v := v, rowsol := rowsol, colsol := colsol }, k := k, j2 := c.j2 }

/-- Augmenting row reduction: `while (k < prvnumfree)`. -/
def arrLoop (BIG : Int) (dim : Nat) (assigncost : Nat → Nat → Int) (prvnumfree : Nat) :
    Nat → Arr → Option Arr
  | 0, a => if a.k < prvnumfree then none else some a
  | fuel + 1, a =>
    if a.k < prvnumfree then arrLoop BIG dim assigncost prvnumfree fuel (arrStep BIG dim assigncost a)
    else some a

/-- One pass of the augmenting row reduction (one trip of the `do` loop). -/
def arrPass (BIG : Int) (dim : Nat) (assigncost : Nat → Nat → Int) (fuel : Nat)
    (s : Lap) (j2 : Nat) : Option (Lap × Nat) :=
  (arrLoop BIG dim assigncost s.numfree fuel
      { lap := { s with numfree := 0 }, k := 0, j2 := j2 }).map (fun a => (a.lap, a.j2))

/-- Augmenting row reduction: the `do ... while (loopcnt < 2)` loop, two passes. -/
def augmentingRowReduction (BIG : Int) (dim : Nat) (assigncost : Nat → Nat → Int) (fuel : Nat)
    (s : Lap) : Option Lap :=
  (arrPass BIG dim assigncost fuel s 0).bind fun p =>
    (arrPass BIG dim assigncost fuel p.1 p.2).map fun q => q.1

/-- The locals of the shortest-path search of one augmentation. -/
structure Search where
  d : Nat → Int
  pred : Nat → Nat
  collist : Nat → Nat
  low : Nat
  up : Nat
  last : Int
  min_ : Int
  endofpath : Nat
  unassignedfound : Bool

/-- Augmentation: initialisation `for (j = dim; j--;)` of `d`, `pred`, `collist`. -/
def searchInit (dim : Nat) (assigncost : Nat → Nat → Int) (v : Nat → Int) (freerow : Nat) :
    Search :=
  forDown (fun j (t : Search) =>
      { t with d := upd t.d j (assigncost freerow j - v j),
               pred := upd t.pred j freerow,
               collist := upd t.collist j j }) dim
    { d := fun _ => 0, pred := fun _ => 0, collist := fun _ => 0, low := 0, up := 0,
      last := 0, min_ := 0, endofpath := 0, unassignedfound := false }

/-- Augmentation: body of the scan `for (k = up; k < dim; k++)` for a new minimum. -/
def minScanStep (k : Nat) (t : Search) : Search :=
  let j := t.collist k
  let h := t.d j
  if h ≤ t.min_ then
    let up := if h < t.min_ then t.low else t.up
    let min_ := if h < t.min_ then h else t.min_
    { t with min_ := min_, collist := upd (upd t.collist k (t.collist up)) up j, up := up + 1 }
  else t

/-- Augmentation: the check `for (k = low; k < up; k++) if (colsol[collist[k]] < 0) ... break`. -/
def findUnassigned (colsol : Nat → Int) (collist : Nat → Nat) : Nat → Nat → Option Nat
  | 0, _ => none
  | n + 1, k => if colsol (collist k) < 0 then some (collist k)
                else findUnassigned colsol collist n (k + 1)

/-- Augmentation: the branch `if (up == low)` of the search loop. -/
def minScan (dim : Nat) (colsol : Nat → Int) (t : Search) : Search :=
  let t1 : Search := { t with last := (t.low : Int) - 1, min_ := t.d (t.collist t.up), up := t.up + 1 }
  let t2 := forUp minScanStep (dim - t1.up) t1.up t1
  match findUnassigned colsol t2.collist (t2.up - t2.low) t2.low with
  | some j => { t2 with endofpath := j, unassignedfound := true }
  | none => t2

/-- Augmentation: the relaxation loop `for (k = up; k < dim; k++)` with its `break`;
the first argument counts the remaining trips. -/
def relax (assigncost : Nat → Nat → Int) (v : Nat → Int) (colsol : Nat → Int) (i : Nat) (h : Int) :
    Nat → Nat → Search → Search
  | 0, _, t => t
  | n + 1, k, t =>
    let j := t.collist k
    let v2 := assigncost i j - v j - h
    if v2 < t.d j then
      let pred := upd t.pred j i
      if v2 = t.min_ then
        if colsol j < 0 then
          { t with pred := pred, endofpath := j, unassignedfound := true }
        else
          relax assigncost v colsol i h n (k + 1)
            { t with pred := pred, collist := upd (upd t.collist k (t.collist t.up)) t.up j,
                     up := t.up + 1, d := upd t.d j v2 }
      else
        relax assigncost v colsol i h n (k + 1) { t with pred := pred, d := upd t.d j v2 }
    else relax assigncost v colsol i h n (k + 1) t

/-- Augmentation: the branch `if (!unassignedfound)` of the search loop. -/
def scanColumn (dim : Nat) (assigncost : Nat → Nat → Int) (v : Nat → Int) (colsol : Nat → Int)
    (t : Search) : Search :=
  let j1 := t.collist t.low
  let t1 : Search := { t with low := t.low + 1 }
  let i := (colsol j1).toNat
  let h := assigncost i j1 - v j1 - t1.min_
  relax assigncost v colsol i h (dim - t1.up) t1.up t1

/-- Augmentation: one trip of the search loop `do ... while (!unassignedfound)`. -/
def searchStep (dim : Nat) (assigncost : Nat → Nat → Int) (v : Nat → Int) (colsol : Nat → Int)
    (t : Search) : Search :=
  let t1 := if t.up = t.low then minScan dim colsol t else t
  if !t1.unassignedfound then scanColumn dim assigncost v colsol t1 else t1

/-- Augmentation: the search loop `do ... while (!unassignedfound)`. -/
def searchLoop (dim : Nat) (assigncost : Nat → Nat → Int) (v : Nat → Int) (colsol : Nat → Int) :
    Nat → Search → Option Search
  | 0, _ => none
  | fuel + 1, t =>
    let t1 := searchStep dim assigncost v colsol t
    if !t1.unassignedfound then searchLoop dim assigncost v colsol fuel t1 else some t1

/-- Augmentation: the price update `for (k = last + 1; k--;)`. -/
def priceUpdate (t : Search) (v : Nat → Int) : Nat → Int :=
  forDown (fun k v => upd v (t.collist k) (v (t.collist k) + t.d (t.collist k) - t.min_))
    (t.last + 1).toNat v

/-- Augmentation: the path flip `do ... while (i != freerow)`; the state is
`(rowsol, colsol, endofpath)`. -/
def flipPath (pred : Nat → Nat) (freerow : Nat) :
    Nat → (Nat → Int) × (Nat → Int) × Int → Option ((Nat → Int) × (Nat → Int))
  | 0, _ => none
  | fuel + 1, (rowsol, colsol, endofpath) =>
    let i := pred endofpath.toNat
    let colsol := upd colsol endofpath.toNat (i : Int)
    let j1 := endofpath
    let endofpath := rowsol i
    let rowsol := upd rowsol i j1
    if i ≠ freerow then flipPath pred freerow fuel (rowsol, colsol, endofpath)
    else some (rowsol, colsol)

/-- Augmentation: body of `for (f = 0; f < numfree; f++)`. -/
def augmentStep (dim : Nat) (assigncost : Nat → Nat → Int) (fuel : Nat) (f : Nat)
    (os : Option Lap) : Option Lap :=
  os.bind fun s =>
    let freerow := s.free_ f
    (searchLoop dim assigncost s.v s.colsol fuel (searchInit dim assigncost s.v freerow)).bind
      fun t =>
        let v := priceUpdate t s.v
        (flipPath t.pred freerow fuel (s.rowsol, s.colsol, (t.endofpath : Int))).map
          fun rc => { s with v := v, rowsol := rc.1, colsol := rc.2 }

/-- Augmentation: `for (f = 0; f < numfree; f++)`. -/
def augmentSolution (dim : Nat) (assigncost : Nat → Nat → Int) (fuel : Nat) (s : Lap) :
    Option Lap :=
  forUp (augmentStep dim assigncost fuel) s.numfree 0 (some s)

/-- The function `RLAPSolverJV::jvlap`; `u` is never written, `rowsol`, `colsol` and `v`
are returned in the `Lap` record. -/
def jvlap (BIG : Int) (fuel : Nat) (dim : Nat) (assigncost : Nat → Nat → Int)
    (rowsol colsol : Nat → Int) (u v : Nat → Int) : Option (Lap × (Nat → Int)) :=
  let s0 : Lap := { rowsol := rowsol, colsol := colsol, v := v, free_ := fun _ => 0,
                    numfree := 0, matchCnt := forUp (fun i m => upd m i 0) dim 0 (fun _ => 0) }
  let s1 := columnReduction dim assigncost s0
  let s2 := reductionTransfer BIG dim assigncost s1
  ((augmentingRowReduction BIG dim assigncost fuel s2).bind
    fun s3 => augmentSolution dim assigncost fuel s3).map fun s4 => (s4, u)

/-- Conversion of an `int` to `unsigned` (32 bit). -/
def toUnsigned (x : Int) : Nat := (x % 4294967296).toNat

/-- The method `RLAPSolverJV::assignMatching`; `.at(i)` throws (`none`) when `i` is not
below the length `size` of `rowsol` / `colsol`. -/
def assignMatching (s : Solver) (assignments : Tensor Nat) : Option (Tensor Nat) :=
  if s.rows > s.cols then
    forUp (fun i (oa : Option (Tensor Nat)) => oa.bind fun a =>
        if i < s.size then some ((a.set2 i 0 (toUnsigned (s.colsol i))).set2 i 1 i) else none)
      (assignments.getDims.getD 0 0) 0 (some assignments)
  else
    forUp (fun i (oa : Option (Tensor Nat)) => oa.bind fun a =>
        if i < s.size then some ((a.set2 i 0 i).set2 i 1 (toUnsigned (s.rowsol i))) else none)
      (assignments.getDims.getD 0 0) 0 (some assignments)

/-- The method `RLAPSolverJV::solve`: the solver after the call and the assignments written. -/
def solve (BIG : Int) (fuel : Nat) (s : Solver) (assignments : Tensor Nat) :
    Option (Solver × Tensor Nat) :=
  (jvlap BIG fuel s.size (getCost s.costMat) s.rowsol s.colsol (fun _ => 0) (fun _ => 0)).bind
    fun r =>
      let s1 : Solver := { s with rowsol := r.1.rowsol, colsol := r.1.colsol }
      (assignMatching s1 assignments).map fun a => (s1, a)

end RLAPSolverJV

open RLAPSolverJV

/-! ## Invariants, relations and scenario data -/

namespace RLAPSolverJV

/-- A partial assignment with feasible column prices: every assigned column points to a row
that points back, the assigned column of a row has minimal reduced cost in that row, and no
price exceeds a cost of its column. -/
structure PInv (N : Nat) (cost : Nat → Nat → Int) (rowsol colsol v : Nat → Int) : Prop where
  col_range : ∀ j, j < N → colsol j = -1 ∨ ∃ i, i < N ∧ colsol j = (i : Int)
  row_back : ∀ i j : Nat, j < N → colsol j = (i : Int) → rowsol i = (j : Int)
  dual : ∀ i j : Nat, j < N → colsol j = (i : Int) → ∀ j', j' < N →
    cost i j - v j ≤ cost i j' - v j'
  nonneg : ∀ i j, i < N → j < N → v j ≤ cost i j

/-- The price of every unassigned column is still a cost of that column. -/
def UnassignedPrice (N : Nat) (cost : Nat → Nat → Int) (colsol v : Nat → Int) : Prop :=
  ∀ j, j < N → colsol j = -1 → ∃ i, i < N ∧ v j = cost i j

/-- No column below `N` is assigned to row `i`. -/
def RowFree (N : Nat) (colsol : Nat → Int) (i : Nat) : Prop :=
  ∀ j, j < N → colsol j ≠ (i : Int)

/-- The cells `free_[p]`, `p` in `pos`, list the free rows: each once, and all of them. -/
structure FreeList (N : Nat) (colsol : Nat → Int) (free_ : Nat → Nat) (pos : Nat → Prop) : Prop where
  free : ∀ p, pos p → free_ p < N ∧ RowFree N colsol (free_ p)
  inj : ∀ p q, pos p → pos q → free_ p = free_ q → p = q
  all : ∀ i, i < N → RowFree N colsol i → ∃ p, pos p ∧ free_ p = i

/-- The sentinel `BIG` exceeds twice the spread of the cost matrix. -/
def BigEnough (BIG : Int) (N : Nat) (cost : Nat → Nat → Int) : Prop :=
  ∀ i j i' j', i < N → j < N → i' < N → j' < N → 2 * (cost i j - cost i' j') < BIG

/-- State of the column reduction when the columns `j0 ≤ j < N` have been processed. -/
structure ColRedInv (N : Nat) (cost : Nat → Nat → Int) (j0 : Nat) (s : Lap) : Prop where
  cnt_zero : ∀ i, i < N → s.matchCnt i = 0 → ∀ j, j0 ≤ j → j < N → s.colsol j ≠ (i : Int)
  cnt_pos : ∀ i, i < N → s.matchCnt i ≠ 0 →
    ∃ j, j0 ≤ j ∧ j < N ∧ s.rowsol i = (j : Int) ∧ s.colsol j = (i : Int)
  col_range : ∀ j, j0 ≤ j → j < N → s.colsol j = -1 ∨ ∃ i, i < N ∧ s.colsol j = (i : Int)
  row_back : ∀ i j : Nat, j0 ≤ j → j < N → s.colsol j = (i : Int) → s.rowsol i = (j : Int)
  v_le : ∀ i j, i < N → j0 ≤ j → j < N → s.v j ≤ cost i j
  v_attained : ∀ j, j0 ≤ j → j < N → ∃ i, i < N ∧ s.v j = cost i j
  tight : ∀ i j : Nat, j0 ≤ j → j < N → s.colsol j = (i : Int) → s.v j = cost i j
  numfree : s.numfree = 0

/-- State of the reduction transfer when the rows below `i0` have been processed. -/
structure TransferInv (N : Nat) (cost : Nat → Nat → Int) (i0 : Nat) (s : Lap) : Prop where
  pinv : PInv N cost s.rowsol s.colsol s.v
  unassigned : UnassignedPrice N cost s.colsol s.v
  cnt_zero : ∀ i, i < N → s.matchCnt i = 0 → RowFree N s.colsol i
  cnt_pos : ∀ i, i < N → s.matchCnt i ≠ 0 →
    ∃ j, j < N ∧ s.rowsol i = (j : Int) ∧ s.colsol j = (i : Int)
  tight : ∀ i j : Nat, j < N → i0 ≤ i → s.colsol j = (i : Int) → s.v j = cost i j
  free_lt : ∀ p, p < s.numfree → s.free_ p < i0 ∧ s.matchCnt (s.free_ p) = 0
  free_mono : ∀ p q, p < q → q < s.numfree → s.free_ p < s.free_ q
  free_all : ∀ i, i < i0 → s.matchCnt i = 0 → ∃ p, p < s.numfree ∧ s.free_ p = i

/-- State of a pass of the augmenting row reduction: the free rows are listed in
`free_[0..numfree)` (kept for the next phase) and `free_[k..prvnumfree)` (still to scan). -/
structure ArrInv (N : Nat) (cost : Nat → Nat → Int) (prv : Nat) (a : Arr) : Prop where
  pinv : PInv N cost a.lap.rowsol a.lap.colsol a.lap.v
  unassigned : UnassignedPrice N cost a.lap.colsol a.lap.v
  freeList : FreeList N a.lap.colsol a.lap.free_
    (fun p => p < a.lap.numfree ∨ (a.k ≤ p ∧ p < prv))
  nf_le : a.lap.numfree ≤ a.k
  k_le : a.k ≤ prv

/-- Sum of the absolute values of the cost matrix. -/
def absSum (N : Nat) (cost : Nat → Nat → Int) : Int :=
  ∑ i in Finset.range N, ∑ j in Finset.range N, |cost i j|

/-- Total height of the prices above the level `L`. -/
def priceHeight (N : Nat) (L : Int) (v : Nat → Int) : Nat :=
  ∑ j in Finset.range N, (v j - L).toNat

/-- The label `lab` of column `j` comes from the free row, or from the row of a scanned
column that stands before position `bound` in `collist`. -/
def PredAt (cost : Nat → Nat → Int) (v colsol : Nat → Int) (fr : Nat) (t : Search)
    (bound j : Nat) (lab : Int) : Prop :=
  (t.pred j = fr ∧ lab = cost fr j - v j) ∨
  ∃ k1 i1 : Nat, k1 < bound ∧ k1 < t.low ∧ colsol (t.collist k1) = (i1 : Int) ∧ t.pred j = i1 ∧
    lab = t.d (t.collist k1) + (cost i1 j - v j) - (cost i1 (t.collist k1) - v (t.collist k1))

/-- The cells of `collist` below `N` are a permutation of `[0, N)`. -/
structure IsPerm (N : Nat) (c : Nat → Nat) : Prop where
  lt : ∀ k, k < N → c k < N
  inj : ∀ k k', k < N → k' < N → c k = c k' → k = k'
  surj : ∀ j, j < N → ∃ k, k < N ∧ c k = j

/-- State of the shortest-path search of one augmentation. The columns at the positions
below `low` are scanned, those in `[low, up)` are at the current minimum; the row of the last
scanned column has been relaxed against the positions below `kp`. -/
structure SCore (N : Nat) (cost : Nat → Nat → Int) (v colsol : Nat → Int) (fr : Nat) (kp : Nat)
    (t : Search) : Prop where
  perm : IsPerm N t.collist
  low_le : t.low ≤ t.up
  up_le : t.up ≤ N
  assigned : ∀ p, p < t.low → ∃ i, i < N ∧ colsol (t.collist p) = (i : Int)
  d_le : ∀ j, j < N → t.d j ≤ cost fr j - v j
  d_todo : ∀ p, t.low ≤ p → p < t.up → t.d (t.collist p) = t.min_
  d_ready : ∀ p, p < t.low → t.d (t.collist p) ≤ t.min_
  d_rest : 0 < t.up → ∀ p, t.up ≤ p → p < N → t.min_ ≤ t.d (t.collist p)
  last_ok : 0 < t.up → -1 ≤ t.last ∧ t.last < t.low ∧
    ∀ p : Nat, t.last < p → p < t.low → t.d (t.collist p) = t.min_
  pred_ok : ∀ p, p < N → PredAt cost v colsol fr t p (t.collist p) (t.d (t.collist p))
  relaxed : ∀ k1 i1 : Nat, k1 + 1 < t.low → colsol (t.collist k1) = (i1 : Int) → ∀ j, j < N →
    t.d j ≤ t.d (t.collist k1) + (cost i1 j - v j) - (cost i1 (t.collist k1) - v (t.collist k1))
  relaxed_upto : ∀ i1 : Nat, 0 < t.low → colsol (t.collist (t.low - 1)) = (i1 : Int) →
    ∀ p, p < kp →
      t.d (t.collist p) ≤ t.d (t.collist (t.low - 1)) + (cost i1 (t.collist p) - v (t.collist p))
        - (cost i1 (t.collist (t.low - 1)) - v (t.collist (t.low - 1)))
  cur_min : kp < N → 0 < t.low → t.d (t.collist (t.low - 1)) = t.min_

/-- State of the search at the head of its loop: the columns listed at the current minimum
are assigned and no unassigned column has been reached. -/
structure SInv (N : Nat) (cost : Nat → Nat → Int) (v colsol : Nat → Int) (fr : Nat) (kp : Nat)
    (t : Search) : Prop where
  core : SCore N cost v colsol fr kp t
  todo : ∀ p, t.low ≤ p → p < t.up → ∃ i, i < N ∧ colsol (t.collist p) = (i : Int)
  not_found : t.unassignedfound = false

/-- State of the search when an unassigned column `endofpath` has been reached. -/
structure SPost (N : Nat) (cost : Nat → Nat → Int) (v colsol : Nat → Int) (fr : Nat)
    (t : Search) : Prop where
  perm : IsPerm N t.collist
  low_le : t.low ≤ N
  assigned : ∀ p, p < t.low → ∃ i, i < N ∧ colsol (t.collist p) = (i : Int)
  d_le : ∀ j, j < N → t.d j ≤ cost fr j - v j
  d_ready : ∀ p, p < t.low → t.d (t.collist p) ≤ t.min_
  d_rest : ∀ p, t.low ≤ p → p < N → t.min_ ≤ t.d (t.collist p)
  last_ok : -1 ≤ t.last ∧ t.last < t.low ∧
    ∀ p : Nat, t.last < p → p < t.low → t.d (t.collist p) = t.min_
  pred_ready : ∀ p, p < t.low → PredAt cost v colsol fr t p (t.collist p) (t.d (t.collist p))
  end_pos : ∃ ke, t.low ≤ ke ∧ ke < N ∧ t.collist ke = t.endofpath ∧
    PredAt cost v colsol fr t ke t.endofpath t.min_
  end_free : colsol t.endofpath = -1
  relaxed : ∀ k1 i1 : Nat, k1 < t.low → colsol (t.collist k1) = (i1 : Int) →
    t.d (t.collist k1) = t.min_ ∨ ∀ j, j < N →
    t.d j ≤ t.d (t.collist k1) + (cost i1 j - v j) - (cost i1 (t.collist k1) - v (t.collist k1))
  found : t.unassignedfound = true

/-- What the path flip relies on: the assignment before the flip, the labelled columns
(positions below `low`, and `ke`, of `c`) with their predecessor rows, and a property `G`
of pairs that holds for the old pairs and for the pairs (predecessor row, labelled column). -/
structure FlipCtx (N : Nat) (rowsol colsol : Nat → Int) (c : Nat → Nat) (low ke : Nat)
    (pred : Nat → Nat) (fr : Nat) (G : Nat → Nat → Prop) : Prop where
  perm : IsPerm N c
  col_range : ∀ j, j < N → colsol j = -1 ∨ ∃ i, i < N ∧ colsol j = (i : Int)
  row_back : ∀ i j : Nat, j < N → colsol j = (i : Int) → rowsol i = (j : Int)
  fr_lt : fr < N
  fr_free : RowFree N colsol fr
  ke_low : low ≤ ke
  ke_lt : ke < N
  end_free : colsol (c ke) = -1
  pred_ok : ∀ p, p < N → (p < low ∨ p = ke) →
    pred (c p) = fr ∨ ∃ k1 i1 : Nat, k1 < p ∧ k1 < low ∧ colsol (c k1) = (i1 : Int) ∧
      pred (c p) = i1
  good_pred : ∀ p, p < N → (p < low ∨ p = ke) → G (pred (c p)) (c p)
  good_orig : ∀ i j : Nat, j < N → colsol j = (i : Int) → G i j

/-- State of the path flip when `endofpath` is the column at position `k`. -/
structure FlipInv (N : Nat) (rowsol colsol : Nat → Int) (c : Nat → Nat) (low : Nat)
    (G : Nat → Nat → Prop) (k : Nat) (rs cs : Nat → Int) : Prop where
  col_range : ∀ j, j < N → j ≠ c k → cs j = -1 ∨ ∃ i, i < N ∧ cs j = (i : Int)
  row_back : ∀ i j : Nat, j < N → j ≠ c k → cs j = (i : Int) → rs i = (j : Int)
  good : ∀ i j : Nat, j < N → j ≠ c k → cs j = (i : Int) → G i j
  keeps : ∀ i, i < N → ¬ RowFree N colsol i → ∃ j, j < N ∧ j ≠ c k ∧ cs j = (i : Int)
  only : ∀ i j : Nat, j < N → j ≠ c k → cs j = (i : Int) → ¬ RowFree N colsol i
  rows_front : ∀ k' i : Nat, k' < k → k' < low → colsol (c k') = (i : Int) → rs i = (c k' : Int)
  cols_front : ∀ k', k' < k → k' < low → cs (c k') = colsol (c k')

/-- The assignment after the flip. -/
structure FlipPost (N : Nat) (colsol : Nat → Int) (fr : Nat) (G : Nat → Nat → Prop)
    (rs cs : Nat → Int) : Prop where
  col_range : ∀ j, j < N → cs j = -1 ∨ ∃ i, i < N ∧ cs j = (i : Int)
  row_back : ∀ i j : Nat, j < N → cs j = (i : Int) → rs i = (j : Int)
  good : ∀ i j : Nat, j < N → cs j = (i : Int) → G i j
  free_iff : ∀ i, i < N → (RowFree N cs i ↔ (RowFree N colsol i ∧ i ≠ fr))

/-- The rows of a two-column tensor, read as index pairs. -/
def pairsOf (t : Tensor Nat) : List (Nat × Nat) :=
  (List.range (t.getDims.getD 0 0)).map fun k => (t.at2 k 0, t.at2 k 1)

/-- Total weight of a list of pairs. -/
def pairWeight (mat : Tensor Int) (ps : List (Nat × Nat)) : Int :=
  (ps.map fun p => mat.at2 p.1 p.2).sum

/-- A solver for the weight matrix `mat` whose `rowsol` and `colsol` hold `r0` and `c0`. -/
def solverWith (mat : Tensor Int) (r0 c0 : Nat → Int) : Solver :=
  { Solver.new mat with rowsol := r0, colsol := c0 }

end RLAPSolverJV

/-- Shape of a cost matrix: `n` rows of `n` entries. -/
def SquareOf (n : Nat) (m : List (List Int)) : Prop :=
  m.length = n ∧ ∀ i, i < n → (m.getD i []).length = n

namespace RLAPSolverJV

/-- State of the scan for a new minimum when the positions below `k` have been looked at. -/
structure MInv (N : Nat) (t0 : Search) (k : Nat) (t : Search) : Prop where
  perm : IsPerm N t.collist
  low_eq : t.low = t0.low
  low_lt : t0.low < t.up
  up_le : t.up ≤ k
  k_le : k ≤ N
  d_eq : t.d = t0.d
  pred_eq : t.pred = t0.pred
  last_eq : t.last = (t0.low : Int) - 1
  found_eq : t.unassignedfound = t0.unassignedfound
  front : ∀ p, p < t0.low → t.collist p = t0.collist p
  colset : ∀ p, t0.low ≤ p → p < N → ∃ q, t0.low ≤ q ∧ q < N ∧ t.collist p = t0.collist q
  d_todo : ∀ p, t0.low ≤ p → p < t.up → t.d (t.collist p) = t.min_
  strict : ∀ p, t.up ≤ p → p < k → t.min_ < t.d (t.collist p)

/-- Two states of `jvlap` that differ at most in the `rowsol` cells of free rows. -/
structure LapRel (N : Nat) (s s' : Lap) : Prop where
  colsol : s.colsol = s'.colsol
  v : s.v = s'.v
  free_ : s.free_ = s'.free_
  numfree : s.numfree = s'.numfree
  matchCnt : s.matchCnt = s'.matchCnt
  rowsol : ∀ i, (i < N → ¬ RowFree N s.colsol i) → s.rowsol i = s'.rowsol i

/-- Two states of the column reduction, started from different buffer contents, when the
columns `j0 ≤ j` have been processed. -/
structure ColRedRel (N : Nat) (j0 : Nat) (s s' : Lap) : Prop where
  colsol : ∀ j, j0 ≤ j → s.colsol j = s'.colsol j
  v : ∀ j, j0 ≤ j → s.v j = s'.v j
  free_ : s.free_ = s'.free_
  numfree : s.numfree = s'.numfree
  matchCnt : s.matchCnt = s'.matchCnt
  rowsol : ∀ i, (i < N → s.matchCnt i ≠ 0) → s.rowsol i = s'.rowsol i

/-- Two states of the reduction transfer, started from different buffer contents. -/
structure TransferRel (N : Nat) (s s' : Lap) : Prop where
  colsol : s.colsol = s'.colsol
  v : s.v = s'.v
  free_ : s.free_ = s'.free_
  numfree : s.numfree = s'.numfree
  matchCnt : s.matchCnt = s'.matchCnt
  rowsol : ∀ i, (i < N → s.matchCnt i ≠ 0) → s.rowsol i = s'.rowsol i

/-- The cells of `rowsol` and `colsol` from index `N` on are the same in both states. -/
def SameTail (N : Nat) (s s' : Lap) : Prop :=
  ∀ i, N ≤ i → s'.rowsol i = s.rowsol i ∧ s'.colsol i = s.colsol i

/-- The weight matrix `[[3,1],[1,3],[2,2]]` (`R = 3`, `C = 2`). -/
def weights32 : Tensor Int :=
  { size := 6, dims := [3, 2], data := fun k => [3, 1, 1, 3, 2, 2].getD k 0 }

/-- The weight matrix `[[1,2],[2,1]]` (`R = 2`, `C = 2`). -/
def weights22 : Tensor Int :=
  { size := 4, dims := [2, 2], data := fun k => [1, 2, 2, 1].getD k 0 }

/-- The weight matrix `[[1,1],[1,1]]`, which every permutation of rows or columns leaves
as it is. -/
def ones22 : Tensor Int :=
  { size := 4, dims := [2, 2], data := fun _ => 1 }

/-- An assignments tensor of dims `[m, 2]` whose cells hold `x`. -/
def pairsTensor (m x : Nat) : Tensor Nat :=
  { size := m * 2, dims := [m, 2], data := fun _ => x }

end RLAPSolverJV

namespace Tensor

/-- The constructor `Tensor()`: `size(0)`, `dims` empty; no buffer is allocated, `mem` stands
for what a read through the null `data` would meet. -/
def empty {α : Type} (mem : Nat → α) : Tensor α :=
  { size := 0, dims := [], data := mem }

/-- The constructor `Tensor(dims)`: `size` is the product of the entries in `unsigned`
arithmetic, `dims` is cleared when it is `0`, otherwise `new T[size]` is allocated; `mem` is
what the new buffer holds. -/
def ofDims {α : Type} (dims : List Nat) (mem : Nat → α) : Tensor α :=
  let size := dims.foldl (fun size dim => size * dim % 4294967296) 1
  if size = 0 then { size := size, dims := [], data := mem }
  else { size := size, dims := dims, data := mem }

/-- One dimensional write `t(i) = x`. -/
def set1 {α : Type} (t : Tensor α) (i : Nat) (x : α) : Tensor α :=
  { t with data := upd t.data i x }

/-- Three dimensional access `t(row, col, offset)`,
`data[row * dims[1] * dims[2] + col * dims[2] + offset]`. -/
def at3 {α : Type} (t : Tensor α) (row col offset : Nat) : α :=
  t.data (row * t.dims.getD 1 0 * t.dims.getD 2 0 + col * t.dims.getD 2 0 + offset)

end Tensor

/-! ## TensorTest.cpp -/

namespace TensorTest

/-- The loop `for (listIndex = 0; listIndex < t.getSize(); ++listIndex) t(listIndex) = listIndex`
of the tests `2DIndexAccess` and `3DIndexAccess`. -/
def fillIndex (t : Tensor Nat) : Tensor Nat :=
  forUp (fun listIndex t => t.set1 listIndex listIndex) t.getSize 0 t

/-- The reading loops of the test `2DIndexAccess`: the pairs `(t(x, y), listIndex)` that the
calls of `EXPECT_EQ` compare, in the order of the calls. -/
def read2D (t : Tensor Nat) : List (Nat × Nat) :=
  (forUp (fun x st =>
      forUp (fun y (st : List (Nat × Nat) × Nat) => (st.1 ++ [(t.at2 x y, st.2)], st.2 + 1))
        (t.getDims.getD 1 0) 0 st)
    (t.getDims.getD 0 0) 0 ([], 0)).1

/-- The reading loops of the test `3DIndexAccess`: the pairs `(t(x, y, z), listIndex)` that the
calls of `EXPECT_EQ` compare, in the order of the calls. -/
def read3D (t : Tensor Nat) : List (Nat × Nat) :=
  (forUp (fun x st =>
      forUp (fun y st =>
          forUp (fun z (st : List (Nat × Nat) × Nat) =>
              (st.1 ++ [(t.at3 x y z, st.2)], st.2 + 1))
            (t.getDims.getD 2 0) 0 st)
        (t.getDims.getD 1 0) 0 st)
    (t.getDims.getD 0 0) 0 ([], 0)).1

end TensorTest

namespace RLAPSolverJV

/-- State of the column reduction, seen through the row `(colMin N cost j).2` that each
column `j` selects, when the columns `j0 ≤ j < N` have been processed: `v[j]` is the column
minimum, `matches[i]` counts the columns that selected `i`, and a selected row holds, of
the columns that selected it, the one of least `v`, the highest-indexed of these. -/
structure ColRedSel (N : Nat) (cost : Nat → Nat → Int) (j0 : Nat) (s : Lap) : Prop where
  v_eq : ∀ j, j0 ≤ j → j < N → s.v j = (colMin N cost j).1
  col_sel : ∀ j, j0 ≤ j → j < N →
    s.colsol j = -1 ∨ s.colsol j = ((colMin N cost j).2 : Int)
  cnt : ∀ i, i < N →
    s.matchCnt i = ((Finset.Ico j0 N).filter (fun j => (colMin N cost j).2 = i)).card
  cnt_pos : ∀ i, i < N → s.matchCnt i ≠ 0 →
    ∃ j, j0 ≤ j ∧ j < N ∧ (colMin N cost j).2 = i ∧ s.rowsol i = (j : Int) ∧
      s.colsol j = (i : Int) ∧
      ∀ j', j0 ≤ j' → j' < N → (colMin N cost j').2 = i →
        s.v j ≤ s.v j' ∧ (s.v j' = s.v j → j' ≤ j) ∧ (j' ≠ j → s.colsol j' = -1)

/-- A partial matching with its free rows listed in `free_[lo..numfree)`: an assigned column
points to a row that points back, the listed rows are pairwise distinct and are the rows no
column is assigned to, and there are as many of them as unassigned columns. -/
structure Checkpoint (N : Nat) (s : Lap) (lo : Nat) : Prop where
  row_back : ∀ i j : Nat, j < N → s.colsol j = (i : Int) → s.rowsol i = (j : Int)
  col_inj : ∀ i j j' : Nat, j < N → j' < N → s.colsol j = (i : Int) → s.colsol j' = (i : Int) →
    j = j'
  distinct : ∀ p q, lo ≤ p → p < s.numfree → lo ≤ q → q < s.numfree →
    s.free_ p = s.free_ q → p = q
  listed_free : ∀ p, lo ≤ p → p < s.numfree →
    s.free_ p < N ∧ ∀ j, j < N → s.colsol j ≠ (s.free_ p : Int)
  free_listed : ∀ i, i < N → (∀ j, j < N → s.colsol j ≠ (i : Int)) →
    ∃ p, lo ≤ p ∧ p < s.numfree ∧ s.free_ p = i
  count : s.numfree - lo = ((Finset.range N).filter (fun j => s.colsol j = -1)).card

end RLAPSolverJV

/-! ## RLAPSolverJV.cpp with checked subscripts

A second embedding of `jvlap`, in which a subscript outside `[0, dim)` and a read of a
local that has not been assigned end the run with `none` (as running out of fuel does).
A checked function tests the subscripts of the statements it embeds, in the state in which
the source evaluates them, and then takes the step of the function it is named after.
* The subscripts tested are those that are not the counter of an enclosing `for` loop
  with the bounds `0` and `dim`; for the loops of the search, whose bounds are `low`, `up`
  and `last`, the counter is tested as well.
* The locals `j2`, `last`, `min_` and `endofpath` carry a ghost flag that is set where the
  source assigns them. The flag of `j2` is cleared at the start of every row scan and the
  flags of `last`, `min_` and `endofpath` at the start of every augmentation, so that a value
  left by an earlier scan or augmentation does not count as assigned.
-/

/-- Checked loop `for (i = start; i < start + n; i++)`: the body may fail. -/
def forUpC {σ : Type} (body : Nat → σ → Option σ) : Nat → Nat → σ → Option σ
  | 0, _, s => some s
  | n + 1, i, s => (body i s).bind (forUpC body n (i + 1))

/-- Checked loop `for (j = n; j--;)`: the body may fail. -/
def forDownC {σ : Type} (body : Nat → σ → Option σ) : Nat → σ → Option σ
  | 0, s => some s
  | n + 1, s => (body n s).bind (forDownC body n)

namespace RLAPSolverJV

/-- The `int` value `x` is a valid subscript of an array of `dim` cells. -/
def inRange (dim : Nat) (x : Int) : Bool :=
  decide (0 ≤ x) && decide (x < (dim : Int))

/-- Column reduction, body of the loop over the columns, with the subscripts
`assigncost[0][j]`, `v[j]`, `matches[imin]`, `rowsol[imin]` and, in the branches that read
them, `v[rowsol[imin]]` and `colsol[j1]` checked. -/
def columnReductionStepC (dim : Nat) (assigncost : Nat → Nat → Int) (j : Nat) (s : Lap) :
    Option Lap :=
  let imin := (colMin dim assigncost j).2
  if decide (0 < dim) && decide (j < dim) && decide (imin < dim) &&
      (decide (s.matchCnt imin + 1 = 1) || inRange dim (s.rowsol imin)) then
    some (columnReductionStep dim assigncost j s)
  else none

/-- Reduction transfer, body of the loop over the rows, with the subscripts `matches[i]`,
`free_[numfree++]`, `rowsol[i]`, `assigncost[i][j]` and `v[j1]` checked. -/
def reductionTransferStepC (BIG : Int) (dim : Nat) (assigncost : Nat → Nat → Int)
    (i : Nat) (s : Lap) : Option Lap :=
  if decide (i < dim) &&
      (if s.matchCnt i = 0 then decide (s.numfree < dim)
       else if s.matchCnt i = 1 then inRange dim (s.rowsol i) else true) then
    some (reductionTransferStep BIG dim assigncost i s)
  else none

/-- Augmenting row reduction, body of the scan over the columns, with the ghost flag
`j2 has been assigned`. -/
def scanStepG (assigncost : Nat → Nat → Int) (v : Nat → Int) (i j : Nat) (c : Scan × Bool) :
    Scan × Bool :=
  let h := assigncost i j - v j
  if h < c.1.usubmin then
    if h ≥ c.1.umin then ({ c.1 with usubmin := h, j2 := j }, true)
    else ({ umin := h, usubmin := c.1.umin, j2 := c.1.j1, j1 := j }, true)
  else c

/-- Augmenting row reduction: the scan of row `i` with the ghost flag of `j2`, cleared at
the start of the scan. -/
def scanRowG (BIG : Int) (dim : Nat) (assigncost : Nat → Nat → Int) (v : Nat → Int)
    (i j2 : Nat) : Scan × Bool :=
  forUp (scanStepG assigncost v i) (dim - 1) 1
    ({ umin := assigncost i 0 - v 0, usubmin := BIG, j1 := 0, j2 := j2 }, false)

/-- Augmenting row reduction, body of `while (k < prvnumfree)`, checked: `free_[k]`, the row
`i` of `assigncost[i][0]` and `rowsol[i]`, `v[0]`, `colsol[j1]` and `v[j1]`; in the tie branch
`j2` has been assigned and `colsol[j2]` is a cell; `colsol[j1]` of the assignment; `free_[--k]`;
and `free_[numfree++]` is a cell below `k`, none of the cells `free_[k..prvnumfree)` that are
still to be scanned. -/
def arrStepC (BIG : Int) (dim : Nat) (assigncost : Nat → Nat → Int) (a : Arr) : Option Arr :=
  let s := a.lap
  let i := s.free_ a.k
  let k := a.k + 1
  let g := scanRowG BIG dim assigncost s.v i a.j2
  let c := g.1
  let strict : Bool := decide (c.umin < c.usubmin)
  let i0 := s.colsol c.j1
  let swap : Bool := !strict && decide (i0 > -1)
  let j1 := if swap then c.j2 else c.j1
  let i0 := if swap then s.colsol c.j2 else i0
  if decide (a.k < dim) && decide (i < dim) && decide (0 < dim) && decide (c.j1 < dim) &&
      (!swap || (g.2 && decide (c.j2 < dim))) && decide (j1 < dim) &&
      (!decide (i0 > -1) ||
        (if strict then decide (0 < k) && decide (k - 1 < dim)
         else decide (s.numfree < k) && decide (s.numfree < dim))) then
    some (arrStep BIG dim assigncost a)
  else none

/-- Augmenting row reduction: `while (k < prvnumfree)`, checked. -/
def arrLoopC (BIG : Int) (dim : Nat) (assigncost : Nat → Nat → Int) (prvnumfree : Nat) :
    Nat → Arr → Option Arr
  | 0, a => if a.k < prvnumfree then none else some a
  | fuel + 1, a =>
    if a.k < prvnumfree then
      (arrStepC BIG dim assigncost a).bind (arrLoopC BIG dim assigncost prvnumfree fuel)
    else some a

/-- One pass of the augmenting row reduction, checked. -/
def arrPassC (BIG : Int) (dim : Nat) (assigncost : Nat → Nat → Int) (fuel : Nat)
    (s : Lap) (j2 : Nat) : Option (Lap × Nat) :=
  (arrLoopC BIG dim assigncost s.numfree fuel
      { lap := { s with numfree := 0 }, k := 0, j2 := j2 }).map (fun a => (a.lap, a.j2))

/-- Augmenting row reduction: the two passes, checked. -/
def augmentingRowReductionC (BIG : Int) (dim : Nat) (assigncost : Nat → Nat → Int) (fuel : Nat)
    (s : Lap) : Option Lap :=
  (arrPassC BIG dim assigncost fuel s 0).bind fun p =>
    (arrPassC BIG dim assigncost fuel p.1 p.2).map fun q => q.1

/-- Ghost flags of one augmentation: the local has been assigned. -/
structure Written where
  last : Bool
  min_ : Bool
  endofpath : Bool

/-- Augmentation: body of the scan `for (k = up; k < dim; k++)` for a new minimum, with the
subscripts `collist[k]`, `d[j]` and, where a column is moved, `collist[up]` checked. -/
def minScanStepC (dim : Nat) (k : Nat) (t : Search) : Option Search :=
  let j := t.collist k
  let h := t.d j
  let up := if h < t.min_ then t.low else t.up
  if decide (k < dim) && decide (j < dim) && (!decide (h ≤ t.min_) || decide (up < dim)) then
    some (minScanStep k t)
  else none

/-- Augmentation: the check `for (k = low; k < up; k++) if (colsol[collist[k]] < 0) ... break`
with the subscripts `collist[k]` and `colsol[collist[k]]` checked. -/
def findUnassignedC (dim : Nat) (colsol : Nat → Int) (collist : Nat → Nat) :
    Nat → Nat → Option (Option Nat)
  | 0, _ => some none
  | n + 1, k =>
    if decide (k < dim) && decide (collist k < dim) then
      if colsol (collist k) < 0 then some (some (collist k))
      else findUnassignedC dim colsol collist n (k + 1)
    else none

/-- Augmentation: the branch `if (up == low)` of the search loop, checked: `collist[up++]`
and `d[collist[up]]` when the scan starts; `last` and `min_` are assigned here, `endofpath`
where an unassigned column is found. -/
def minScanC (dim : Nat) (colsol : Nat → Int) (t : Search) (w : Written) :
    Option (Search × Written) :=
  if decide (t.up < dim) && decide (t.collist t.up < dim) then
    let t1 : Search :=
      { t with last := (t.low : Int) - 1, min_ := t.d (t.collist t.up), up := t.up + 1 }
    let w1 : Written := { w with last := true, min_ := true }
    (forUpC (minScanStepC dim) (dim - t1.up) t1.up t1).bind fun t2 =>
      (findUnassignedC dim colsol t2.collist (t2.up - t2.low) t2.low).map fun r =>
        match r with
        | some j => ({ t2 with endofpath := j, unassignedfound := true },
                     { w1 with endofpath := true })
        | none => (t2, w1)
  else none

/-- Augmentation: the relaxation loop `for (k = up; k < dim; k++)` with its `break`, with the
subscripts `collist[k]`, `assigncost[i][j]`, `v[j]`, `d[j]`, `pred[j]`, `colsol[j]` and, where
a column is moved, `collist[up]` checked; `endofpath` is assigned at the `break`. -/
def relaxC (dim : Nat) (assigncost : Nat → Nat → Int) (v : Nat → Int) (colsol : Nat → Int)
    (i : Nat) (h : Int) : Nat → Nat → Search → Written → Option (Search × Written)
  | 0, _, t, w => some (t, w)
  | n + 1, k, t, w =>
    let j := t.collist k
    let v2 := assigncost i j - v j - h
    if decide (k < dim) && decide (j < dim) && decide (i < dim) then
      if v2 < t.d j then
        let pred := upd t.pred j i
        if v2 = t.min_ then
          if colsol j < 0 then
            some ({ t with pred := pred, endofpath := j, unassignedfound := true },
                  { w with endofpath := true })
          else if t.up < dim then
            relaxC dim assigncost v colsol i h n (k + 1)
              { t with pred := pred, collist := upd (upd t.collist k (t.collist t.up)) t.up j,
                       up := t.up + 1, d := upd t.d j v2 } w
          else none
        else
          relaxC dim assigncost v colsol i h n (k + 1) { t with pred := pred, d := upd t.d j v2 } w
      else relaxC dim assigncost v colsol i h n (k + 1) t w
    else none

/-- Augmentation: the branch `if (!unassignedfound)` of the search loop, checked:
`collist[low]`, `colsol[j1]`, the row `i = colsol[j1]` of `assigncost[i][j1]`, `v[j1]`, and
`min_` has been assigned. -/
def scanColumnC (dim : Nat) (assigncost : Nat → Nat → Int) (v : Nat → Int) (colsol : Nat → Int)
    (t : Search) (w : Written) : Option (Search × Written) :=
  let j1 := t.collist t.low
  let t1 : Search := { t with low := t.low + 1 }
  let i := (colsol j1).toNat
  let h := assigncost i j1 - v j1 - t1.min_
  if decide (t.low < dim) && decide (j1 < dim) && inRange dim (colsol j1) && w.min_ then
    relaxC dim assigncost v colsol i h (dim - t1.up) t1.up t1 w
  else none

/-- Augmentation: one trip of the search loop, checked. -/
def searchStepC (dim : Nat) (assigncost : Nat → Nat → Int) (v : Nat → Int) (colsol : Nat → Int)
    (p : Search × Written) : Option (Search × Written) :=
  (if p.1.up = p.1.low then minScanC dim colsol p.1 p.2 else some p).bind fun p1 =>
    if !p1.1.unassignedfound then scanColumnC dim assigncost v colsol p1.1 p1.2 else some p1

/-- Augmentation: the search loop `do ... while (!unassignedfound)`, checked. -/
def searchLoopC (dim : Nat) (assigncost : Nat → Nat → Int) (v : Nat → Int) (colsol : Nat → Int) :
    Nat → Search × Written → Option (Search × Written)
  | 0, _ => none
  | fuel + 1, p =>
    (searchStepC dim assigncost v colsol p).bind fun p1 =>
      if !p1.1.unassignedfound then searchLoopC dim assigncost v colsol fuel p1 else some p1

/-- Augmentation: the price update `for (k = last + 1; k--;)`, checked: `last` and `min_`
have been assigned, the loop starts at a `k >= 0`, and the subscripts `collist[k]`, `v[j1]`
and `d[j1]` are cells. -/
def priceUpdateC (dim : Nat) (t : Search) (w : Written) (v : Nat → Int) : Option (Nat → Int) :=
  if w.last && w.min_ && decide (-1 ≤ t.last) then
    forDownC (fun k v =>
        if decide (k < dim) && decide (t.collist k < dim) then
          some (upd v (t.collist k) (v (t.collist k) + t.d (t.collist k) - t.min_))
        else none)
      (t.last + 1).toNat v
  else none

/-- Augmentation: the path flip `do ... while (i != freerow)`, with the subscripts
`pred[endofpath]`, `colsol[endofpath]` and `rowsol[i]` checked. -/
def flipPathC (dim : Nat) (pred : Nat → Nat) (freerow : Nat) :
    Nat → (Nat → Int) × (Nat → Int) × Int → Option ((Nat → Int) × (Nat → Int))
  | 0, _ => none
  | fuel + 1, (rowsol, colsol, endofpath) =>
    let i := pred endofpath.toNat
    if inRange dim endofpath && decide (i < dim) then
      let colsol := upd colsol endofpath.toNat (i : Int)
      let j1 := endofpath
      let endofpath := rowsol i
      let rowsol := upd rowsol i j1
      if i ≠ freerow then flipPathC dim pred freerow fuel (rowsol, colsol, endofpath)
      else some (rowsol, colsol)
    else none

/-- Augmentation: body of `for (f = 0; f < numfree; f++)`, checked: `free_[f]`, the row
`freerow` of `assigncost[freerow][j]`, and `endofpath` has been assigned when the path flip
reads it. -/
def augmentStepC (dim : Nat) (assigncost : Nat → Nat → Int) (fuel : Nat) (f : Nat)
    (os : Option Lap) : Option Lap :=
  os.bind fun s =>
    let freerow := s.free_ f
    if decide (f < dim) && decide (freerow < dim) then
      (searchLoopC dim assigncost s.v s.colsol fuel
          (searchInit dim assigncost s.v freerow,
            { last := false, min_ := false, endofpath := false })).bind
        fun p =>
          (priceUpdateC dim p.1 p.2 s.v).bind fun v =>
            if p.2.endofpath then
              (flipPathC dim p.1.pred freerow fuel
                  (s.rowsol, s.colsol, (p.1.endofpath : Int))).map
                fun rc => { s with v := v, rowsol := rc.1, colsol := rc.2 }
            else none
    else none

/-- Augmentation: `for (f = 0; f < numfree; f++)`, checked. -/
def augmentSolutionC (dim : Nat) (assigncost : Nat → Nat → Int) (fuel : Nat) (s : Lap) :
    Option Lap :=
  forUp (augmentStepC dim assigncost fuel) s.numfree 0 (some s)

/-- The function `RLAPSolverJV::jvlap` with checked subscripts and ghost flags. -/
def jvlapC (BIG : Int) (fuel : Nat) (dim : Nat) (assigncost : Nat → Nat → Int)
    (rowsol colsol : Nat → Int) (u v : Nat → Int) : Option (Lap × (Nat → Int)) :=
  let s0 : Lap := { rowsol := rowsol, colsol := colsol, v := v, free_ := fun _ => 0,
                    numfree := 0, matchCnt := forUp (fun i m => upd m i 0) dim 0 (fun _ => 0) }
  (forDownC (columnReductionStepC dim assigncost) dim s0).bind fun s1 =>
    (forUpC (reductionTransferStepC BIG dim assigncost) dim 0 s1).bind fun s2 =>
      (augmentingRowReductionC BIG dim assigncost fuel s2).bind fun s3 =>
        (augmentSolutionC dim assigncost fuel s3).map fun s4 => (s4, u)

end RLAPSolverJV

/-! ## The condition on `BIG`, and the uninitialised local `j2`

`BIG` is compared with the reduced costs `assigncost[i][j] - v[j]` that the reduction
transfer and the row scans of the augmenting row reduction compute. `BelowBig` says that
each of these is below `BIG` in the run of `jvlap` on the given buffers; `BigEnough` is a
condition on the cost matrix alone that implies it.

The local `j2` is declared without initialiser. `jvlap` models the run in which it holds `0`
when the first row is scanned; `jvlapFrom j2` is the run in which it holds `j2`. -/

namespace RLAPSolverJV

/-- The states of the loop `while (k < prvnumfree)` started in `a0`: `ArrReach ... a0 a` when
the loop is in state `a` at the head of a trip, or at its end. -/
inductive ArrReach (BIG : Int) (dim : Nat) (assigncost : Nat → Nat → Int) (prv : Nat)
    (a0 : Arr) : Arr → Prop
  | start : ArrReach BIG dim assigncost prv a0 a0
  | step (a : Arr) : ArrReach BIG dim assigncost prv a0 a → a.k < prv →
      ArrReach BIG dim assigncost prv a0 (arrStep BIG dim assigncost a)

/-- Every reduced cost `assigncost[i][j] - v[j]` that the scan of the row `i = free_[k]`
computes in state `a` is below `BIG`. -/
def ScanBelow (BIG : Int) (dim : Nat) (assigncost : Nat → Nat → Int) (a : Arr) : Prop :=
  ∀ j, j < dim → assigncost (a.lap.free_ a.k) j - a.lap.v j < BIG

/-- Every reduced cost that a row scan computes in the pass of the augmenting row reduction
started from `s`, with `j2` in the local `j2`, is below `BIG`. -/
def PassBelow (BIG : Int) (dim : Nat) (assigncost : Nat → Nat → Int) (s : Lap) (j2 : Nat) :
    Prop :=
  ∀ a, ArrReach BIG dim assigncost s.numfree
      { lap := { s with numfree := 0 }, k := 0, j2 := j2 } a →
    a.k < s.numfree → ScanBelow BIG dim assigncost a

/-- Every reduced cost that a row scan computes in the two passes of the augmenting row
reduction started from `s` is below `BIG`. -/
def ArrBelow (BIG : Int) (dim : Nat) (assigncost : Nat → Nat → Int) (s : Lap) : Prop :=
  PassBelow BIG dim assigncost s 0 ∧
  ∀ fuel p, arrPass BIG dim assigncost fuel s 0 = some p → PassBelow BIG dim assigncost p.1 p.2

/-- The state of `jvlap` when the reduction transfer has processed the rows below `i`. -/
def transferState (BIG : Int) (dim : Nat) (assigncost : Nat → Nat → Int)
    (rowsol colsol v : Nat → Int) (i : Nat) : Lap :=
  forUp (reductionTransferStep BIG dim assigncost) i 0 (columnReduction dim assigncost
    { rowsol := rowsol, colsol := colsol, v := v, free_ := fun _ => 0, numfree := 0,
      matchCnt := forUp (fun i m => upd m i 0) dim 0 (fun _ => 0) })

/-- Every reduced cost that the run of `jvlap` computes in the reduction transfer (for a row
`i` with `matches[i] = 1`, at the columns `j != rowsol[i]`) and in the row scans of the
augmenting row reduction is below `BIG`. -/
structure BelowBig (BIG : Int) (dim : Nat) (assigncost : Nat → Nat → Int)
    (rowsol colsol v : Nat → Int) : Prop where
  transfer : ∀ i, i < dim →
    (transferState BIG dim assigncost rowsol colsol v i).matchCnt i = 1 →
    ∀ j, j < dim → j ≠ ((transferState BIG dim assigncost rowsol colsol v i).rowsol i).toNat →
      assigncost i j - (transferState BIG dim assigncost rowsol colsol v i).v j < BIG
  passes : ArrBelow BIG dim assigncost (transferState BIG dim assigncost rowsol colsol v dim)

/-- The function `RLAPSolverJV::jvlap` when the local `j2` holds `j2` at the first row scan. -/
def jvlapFrom (j2 : Nat) (BIG : Int) (fuel : Nat) (dim : Nat) (assigncost : Nat → Nat → Int)
    (rowsol colsol : Nat → Int) (u v : Nat → Int) : Option (Lap × (Nat → Int)) :=
  let s0 : Lap := { rowsol := rowsol, colsol := colsol, v := v, free_ := fun _ => 0,
                    numfree := 0, matchCnt := forUp (fun i m => upd m i 0) dim 0 (fun _ => 0) }
  let s1 := columnReduction dim assigncost s0
  let s2 := reductionTransfer BIG dim assigncost s1
  (((arrPass BIG dim assigncost fuel s2 j2).bind fun p =>
      (arrPass BIG dim assigncost fuel p.1 p.2).map fun q => q.1).bind
    fun s3 => augmentSolution dim assigncost fuel s3).map fun s4 => (s4, u)

/-- The method `RLAPSolverJV::solve` when the local `j2` of `jvlap` holds `j2` at the first
row scan. -/
def solveFrom (j2 : Nat) (BIG : Int) (fuel : Nat) (s : Solver) (assignments : Tensor Nat) :
    Option (Solver × Tensor Nat) :=
  (jvlapFrom j2 BIG fuel s.size (getCost s.costMat) s.rowsol s.colsol (fun _ => 0)
      (fun _ => 0)).bind
    fun r =>
      let s1 : Solver := { s with rowsol := r.1.rowsol, colsol := r.1.colsol }
      (assignMatching s1 assignments).map fun a => (s1, a)

/-- The weights on the `R × C` block are 32 bit `int`s above `INT_MIN`. -/
def AboveMin (mat : Tensor Int) (R C : Nat) : Prop :=
  ∀ i j, i < R → j < C → -2147483648 < mat.at2 i j ∧ mat.at2 i j ≤ 2147483647

/-- For `R <= C`: `f` pairs the rows `[0, R)` one-to-one with columns in `[0, C)`, and no
such pairing has a larger total weight. -/
def OptRows (mat : Tensor Int) (R C : Nat) (f : Nat → Nat) : Prop :=
  (∀ i, i < R → f i < C) ∧ (∀ i i', i < R → i' < R → f i = f i' → i = i') ∧
  ∀ g : Nat → Nat, (∀ i, i < R → g i < C) → (∀ i i', i < R → i' < R → g i = g i' → i = i') →
    ∑ i in Finset.range R, mat.at2 i (g i) ≤ ∑ i in Finset.range R, mat.at2 i (f i)

/-- For `C < R`: `g` pairs the columns `[0, C)` one-to-one with rows in `[0, R)`, and no
such pairing has a larger total weight. -/
def OptCols (mat : Tensor Int) (R C : Nat) (g : Nat → Nat) : Prop :=
  (∀ j, j < C → g j < R) ∧ (∀ j j', j < C → j' < C → g j = g j' → j = j') ∧
  ∀ f : Nat → Nat, (∀ j, j < C → f j < R) → (∀ j j', j < C → j' < C → f j = f j' → j = j') →
    ∑ j in Finset.range C, mat.at2 (f j) j ≤ ∑ j in Finset.range C, mat.at2 (g j) j

/-- The pairing of maximum total weight is unique. -/
def UniqueOptimum (mat : Tensor Int) (R C : Nat) : Prop :=
  (R ≤ C → ∀ f f', OptRows mat R C f → OptRows mat R C f' → ∀ i, i < R → f i = f' i) ∧
  (C < R → ∀ g g', OptCols mat R C g → OptCols mat R C g' → ∀ j, j < C → g j = g' j)

/-- The `1 × 2` weight matrix `[[INT_MIN, 0]]`. -/
def weightsMin12 : Tensor Int :=
  { size := 2, dims := [1, 2], data := fun k => [-2147483648, 0].getD k 0 }

/-- The weight matrix `[[100001,100000],[0,0]]`, whose weights differ by more than
`BIG = 100000`. -/
def weightsWide22 : Tensor Int :=
  { size := 4, dims := [2, 2], data := fun k => [100001, 100000, 0, 0].getD k 0 }

/-- The weight matrix `[[250000,0,250000],[200000,200000,150000],[50000,150000,150000]]`. -/
def weightsWide33 : Tensor Int :=
  { size := 9, dims := [3, 3],
    data := fun k =>
      [250000, 0, 250000, 200000, 200000, 150000, 50000, 150000, 150000].getD k 0 }

/-- The matrix `weightsWide33` with its columns in reverse order:
`[[250000,0,250000],[150000,200000,200000],[150000,150000,50000]]`. -/
def weightsWide33r : Tensor Int :=
  { size := 9, dims := [3, 3],
    data := fun k =>
      [250000, 0, 250000, 150000, 200000, 200000, 150000, 150000, 50000].getD k 0 }

/-- The weight matrix `[[1,2],[2,1]]` with its rows swapped: `[[2,1],[1,2]]`. -/
def weights22s : Tensor Int :=
  { size := 4, dims := [2, 2], data := fun k => [2, 1, 1, 2].getD k 0 }

/-- The weight matrix `[[0,INT_MIN,2^30],[2^30,2^30,0],[INT_MIN,INT_MAX,2^30]]`. -/
def weightsMin33 : Tensor Int :=
  { size := 9, dims := [3, 3],
    data := fun k =>
      [0, -2147483648, 1073741824, 1073741824, 1073741824, 0,
        -2147483648, 2147483647, 1073741824].getD k 0 }

/-- The matrix `weightsMin33` with its rows and its columns in reverse order:
`[[2^30,INT_MAX,INT_MIN],[0,2^30,2^30],[2^30,INT_MIN,0]]`. -/
def weightsMin33r : Tensor Int :=
  { size := 9, dims := [3, 3],
    data := fun k =>
      [1073741824, 2147483647, -2147483648, 0, 1073741824, 1073741824,
        1073741824, -2147483648, 0].getD k 0 }

/-- The weight matrix `[[0,0],[-100,-100]]`, of cost matrix `[[0,0],[100,100]]`. -/
def weightsTight22 : Tensor Int :=
  { size := 4, dims := [2, 2], data := fun k => [0, 0, -100, -100].getD k 0 }

/-- Test of `ScanBelow`. -/
def scanBelowB (BIG : Int) (dim : Nat) (assigncost : Nat → Nat → Int) (a : Arr) : Bool :=
  (List.range dim).all fun j => decide (assigncost (a.lap.free_ a.k) j - a.lap.v j < BIG)

/-- Test of the row scans of the loop `while (k < prvnumfree)` from state `a`, for `fuel`
trips: each scan computes reduced costs below `BIG`, and the loop ends. -/
def passBelowB (BIG : Int) (dim : Nat) (assigncost : Nat → Nat → Int) (prvnumfree : Nat) :
    Nat → Arr → Bool
  | 0, a => decide (prvnumfree ≤ a.k)
  | fuel + 1, a =>
    if a.k < prvnumfree then
      scanBelowB BIG dim assigncost a &&
        passBelowB BIG dim assigncost prvnumfree fuel (arrStep BIG dim assigncost a)
    else true

/-- Test of `BelowBig` by running the reduction transfer and the two passes of the augmenting
row reduction, with `fuel` trips for each pass. -/
def belowBigB (BIG : Int) (dim : Nat) (assigncost : Nat → Nat → Int)
    (rowsol colsol v : Nat → Int) (fuel : Nat) : Bool :=
  ((List.range dim).all fun i =>
    (List.range dim).all fun j =>
      decide ((transferState BIG dim assigncost rowsol colsol v i).matchCnt i = 1 →
        j ≠ ((transferState BIG dim assigncost rowsol colsol v i).rowsol i).toNat →
        assigncost i j - (transferState BIG dim assigncost rowsol colsol v i).v j < BIG)) &&
  (passBelowB BIG dim assigncost
      (transferState BIG dim assigncost rowsol colsol v dim).numfree fuel
      { lap := { transferState BIG dim assigncost rowsol colsol v dim with numfree := 0 },
        k := 0, j2 := 0 } &&
    match arrPass BIG dim assigncost fuel
        (transferState BIG dim assigncost rowsol colsol v dim) 0 with
    | some p =>
      passBelowB BIG dim assigncost p.1.numfree fuel
        { lap := { p.1 with numfree := 0 }, k := 0, j2 := p.2 }
    | none => false)

end RLAPSolverJV

/-! ## Theorems -/

/-! ### Buffers and counted loops -/

theorem upd_same {α : Type} (a : Nat → α) (i : Nat) (x : α) : upd a i x i = x := by
  simp [upd]

theorem upd_other {α : Type} (a : Nat → α) (i k : Nat) (x : α) (h : k ≠ i) : upd a i x k = a k := by
  simp [upd, h]

theorem forUp_induction {σ : Type} (body : Nat → σ → σ) (P : Nat → σ → Prop) :
    ∀ (n start : Nat) (s : σ), P start s →
      (∀ i s, start ≤ i → i < start + n → P i s → P (i + 1) (body i s)) →
      P (start + n) (forUp body n start s) := by
  intro n
  induction n with
  | zero => intro start s h0 _; simpa [forUp] using h0
  | succ n ih =>
    intro start s h0 hstep
    have h1 : P (start + 1) (body start s) := hstep start s (Nat.le_refl _) (by omega) h0
    have := ih (start + 1) (body start s) h1 (fun i s hi hlt hp => hstep i s (by omega) (by omega) hp)
    simpa [forUp, Nat.add_assoc, Nat.add_comm 1 n] using this

theorem forDown_induction {σ : Type} (body : Nat → σ → σ) (P : Nat → σ → Prop) :
    ∀ (n : Nat) (s : σ), P n s →
      (∀ j s, j < n → P (j + 1) s → P j (body j s)) →
      P 0 (forDown body n s) := by
  intro n
  induction n with
  | zero => intro s h0 _; simpa [forDown] using h0
  | succ n ih =>
    intro s h0 hstep
    exact ih (body n s) (hstep n s (by omega) h0) (fun j s hj hp => hstep j s (by omega) hp)

theorem RLAPSolverJV.SameTail.refl (N : Nat) (s : Lap) : SameTail N s s :=
  fun _ _ => ⟨rfl, rfl⟩

theorem RLAPSolverJV.SameTail.trans {N : Nat} {s s' s'' : Lap} (h : SameTail N s s')
    (h' : SameTail N s' s'') : SameTail N s s'' :=
  fun i hi => ⟨(h' i hi).1.trans (h i hi).1, (h' i hi).2.trans (h i hi).2⟩

/-! ### The constructor -/

theorem squareOf_replicate (n : Nat) : SquareOf n (List.replicate n (List.replicate n (0 : Int))) := by
  refine ⟨by simp, ?_⟩
  intro i hi
  simp [List.getD_eq_getElem?_getD, List.getElem?_replicate, hi]

theorem getCost_replicate (n i j : Nat) :
    getCost (List.replicate n (List.replicate n (0 : Int))) i j = 0 := by
  unfold getCost
  simp only [List.getD_eq_getElem?_getD, List.getElem?_replicate]
  by_cases hi : i < n
  · by_cases hj : j < n <;> simp [hi, hj]
  · simp [hi]

theorem squareOf_setCost (n : Nat) (m : List (List Int)) (r c : Nat) (x : Int)
    (h : SquareOf n m) : SquareOf n (setCost m r c x) := by
  obtain ⟨hl, hr⟩ := h
  refine ⟨by simp [setCost, hl], ?_⟩
  intro i hi
  have := hr i hi
  simp only [setCost, List.getD_eq_getElem?_getD, List.getElem?_set] at *
  by_cases hri : r = i
  · subst hri
    have hlt : r < m.length := by omega
    rw [List.getElem?_eq_getElem hlt] at this
    simp at this
    simp [hl, hi, this]
  · simp [hri, this]

theorem getCost_setCost (n : Nat) (m : List (List Int)) (r c i j : Nat) (x : Int)
    (h : SquareOf n m) (hr : r < n) (hc : c < n) :
    getCost (setCost m r c x) i j = if i = r ∧ j = c then x else getCost m i j := by
  obtain ⟨hl, hrow⟩ := h
  have hrl := hrow r hr
  simp only [getCost, setCost, List.getD_eq_getElem?_getD, List.getElem?_set] at *
  by_cases hri : r = i
  · subst hri
    by_cases hcj : c = j
    · subst hcj
      have hlt : r < m.length := by omega
      rw [List.getElem?_eq_getElem hlt] at hrl
      simp at hrl
      simp [hl, hr, hrl, hc]
    · have : ¬ j = c := fun h => hcj h.symm
      simp [hl, hr, hcj, this]
  · have : ¬ i = r := fun h => hri h.symm
    simp [hri, this]

theorem costMat_fill (mat : Tensor Int) (R C N : Nat) (hRN : R ≤ N) (hCN : C ≤ N) :
    let m := forUp (fun row m =>
      forUp (fun col m => setCost m row col (neg32 (mat.at2 row col))) C 0 m) R 0
        (List.replicate N (List.replicate N (0 : Int)))
    SquareOf N m ∧ ∀ i j, getCost m i j = if i < R ∧ j < C then neg32 (mat.at2 i j) else 0 := by
  intro m
  have key := forUp_induction (fun row m =>
      forUp (fun col m => setCost m row col (neg32 (mat.at2 row col))) C 0 m)
    (fun r m => SquareOf N m ∧ ∀ i j, getCost m i j = if i < r ∧ j < C then neg32 (mat.at2 i j) else 0)
    R 0 (List.replicate N (List.replicate N (0 : Int)))
    ⟨squareOf_replicate N, fun i j => by simp [getCost_replicate]⟩
    (by
      intro r m _ hr hinv
      have inner := forUp_induction (fun col m => setCost m r col (neg32 (mat.at2 r col)))
        (fun c m => SquareOf N m ∧ ∀ i j, getCost m i j =
          if (i < r ∧ j < C) ∨ (i = r ∧ j < c) then neg32 (mat.at2 i j) else 0)
        C 0 m
        ⟨hinv.1, fun i j => by
          rw [hinv.2 i j]
          by_cases h : i < r ∧ j < C <;> simp [h]⟩
        (by
          intro c m' _ hc hin
          refine ⟨squareOf_setCost N m' r c _ hin.1, ?_⟩
          intro i j
          rw [getCost_setCost N m' r c i j _ hin.1 (by omega) (by omega), hin.2 i j]
          by_cases h1 : i = r ∧ j = c
          · obtain ⟨rfl, rfl⟩ := h1
            simp
          · rw [if_neg h1]
            by_cases h2 : i < r ∧ j < C
            · simp [h2]
            · by_cases h3 : i = r ∧ j < c
              · have : i = r ∧ j < c + 1 := ⟨h3.1, by omega⟩
                simp [h3, this]
              · have : ¬ (i = r ∧ j < c + 1) := by
                  intro h
                  rcases h with ⟨h4, h5⟩
                  by_cases h6 : j = c
                  · exact h1 ⟨h4, h6⟩
                  · exact h3 ⟨h4, by omega⟩
                simp [h2, h3, this])
      simp only [Nat.zero_add] at inner
      refine ⟨inner.1, ?_⟩
      intro i j
      rw [inner.2 i j]
      by_cases h : i < r + 1 ∧ j < C
      · have : i < r ∧ j < C ∨ i = r ∧ j < C := by
          rcases h with ⟨h1, h2⟩
          by_cases h3 : i = r
          · exact Or.inr ⟨h3, h2⟩
          · exact Or.inl ⟨by omega, h2⟩
        rw [if_pos this, if_pos h]
      · have : ¬ (i < r ∧ j < C ∨ i = r ∧ j < C) := by
          intro h'
          apply h
          rcases h' with ⟨h1, h2⟩ | ⟨h1, h2⟩
          · exact ⟨by omega, h2⟩
          · exact ⟨by omega, h2⟩
        rw [if_neg this, if_neg h])
  simpa using key

theorem neg32_eq (x : Int) (h1 : -2147483648 < x) (h2 : x ≤ 2147483647) : neg32 x = -x := by
  unfold neg32
  omega

/-- The constructor builds an `N × N` matrix, `N = max R C`, holding the negated weights
on the `R × C` block and `0` on the padding, and records `rows = R`, `cols = C`, `size = N`. -/
theorem costMatrix_spec (mat : Tensor Int) (R C : Nat) (hd : mat.getDims = [R, C]) :
    (Solver.new mat).rows = R ∧ (Solver.new mat).cols = C ∧
    (Solver.new mat).size = max R C ∧
    (Solver.new mat).costMat.length = max R C ∧
    (∀ i, i < max R C → ((Solver.new mat).costMat.getD i []).length = max R C) ∧
    (∀ i j, i < R → j < C → getCost (Solver.new mat).costMat i j = neg32 (mat.at2 i j)) ∧
    (∀ i j, i < max R C → j < max R C → ¬ (i < R ∧ j < C) →
      getCost (Solver.new mat).costMat i j = 0) := by
  have h := costMat_fill mat R C (max R C) (Nat.le_max_left _ _) (Nat.le_max_right _ _)
  simp only [Solver.new, MAX_DIM, hd, List.getD_cons_zero, List.getD_cons_succ]
  obtain ⟨⟨hlen, hrow⟩, hval⟩ := h
  refine ⟨trivial, trivial, trivial, hlen, hrow, ?_, ?_⟩
  · intro i j hi hj
    rw [hval i j]; simp [hi, hj]
  · intro i j _ _ hn
    rw [hval i j]; simp [hn]

/-! ### Partial assignments -/

namespace RLAPSolverJV

theorem PInv.col_inj {N : Nat} {cost : Nat → Nat → Int} {rowsol colsol v : Nat → Int}
    (h : PInv N cost rowsol colsol v) {i j j' : Nat} (hj : j < N) (hj' : j' < N)
    (h1 : colsol j = (i : Int)) (h2 : colsol j' = (i : Int)) : j = j' := by
  have a := h.row_back i j hj h1
  have b := h.row_back i j' hj' h2
  omega

/-- Pigeonhole: an injective map from `[0, N)` to `[0, N)` that misses `i` does not exist. -/
theorem no_inj_missing (N : Nat) (f : Nat → Nat) (i : Nat) (hi : i < N)
    (hf : ∀ j, j < N → f j < N) (hinj : ∀ j j', j < N → j' < N → f j = f j' → j = j')
    (hmiss : ∀ j, j < N → f j ≠ i) : False := by
  let g : Fin N → Fin N := fun j => ⟨f j.1, hf j.1 j.2⟩
  have ginj : Function.Injective g := by
    intro a b hab
    apply Fin.ext
    apply hinj a.1 b.1 a.2 b.2
    simpa [g] using congrArg Fin.val hab
  have gsurj : Function.Surjective g := Finite.injective_iff_surjective.mp ginj
  obtain ⟨j, hj⟩ := gsurj ⟨i, hi⟩
  exact hmiss j.1 j.2 (by simpa [g] using congrArg Fin.val hj)

/-- Pigeonhole: a map from `[0, N)` onto `[0, N)` is injective. -/
theorem surj_inj (N : Nat) (f : Nat → Nat)
    (hf : ∀ j, j < N → f j < N) (hsurj : ∀ i, i < N → ∃ j, j < N ∧ f j = i) :
    ∀ j j', j < N → j' < N → f j = f j' → j = j' := by
  let g : Fin N → Fin N := fun j => ⟨f j.1, hf j.1 j.2⟩
  have gsurj : Function.Surjective g := by
    intro i
    obtain ⟨j, hj, hji⟩ := hsurj i.1 i.2
    exact ⟨⟨j, hj⟩, Fin.ext (by simpa [g] using hji)⟩
  have ginj : Function.Injective g := Finite.injective_iff_surjective.mpr gsurj
  intro j j' hj hj' h
  have : g ⟨j, hj⟩ = g ⟨j', hj'⟩ := Fin.ext (by simpa [g] using h)
  simpa using congrArg Fin.val (ginj this)

/-- While a row is free, some column is unassigned. -/
theorem PInv.exists_unassigned {N : Nat} {cost : Nat → Nat → Int} {rowsol colsol v : Nat → Int}
    (h : PInv N cost rowsol colsol v) {i : Nat} (hi : i < N) (hfree : RowFree N colsol i) :
    ∃ j, j < N ∧ colsol j = -1 := by
  by_contra hne
  have hall : ∀ j, j < N → ∃ i', i' < N ∧ colsol j = (i' : Int) := by
    intro j hj
    rcases h.col_range j hj with h1 | h1
    · exact absurd ⟨j, hj, h1⟩ hne
    · exact h1
  apply no_inj_missing N (fun j => (colsol j).toNat) i hi
  · intro j hj
    obtain ⟨i', hi', he⟩ := hall j hj
    omega
  · intro j j' hj hj' he
    obtain ⟨i', hi', he'⟩ := hall j hj
    obtain ⟨i'', hi'', he''⟩ := hall j' hj'
    have : i' = i'' := by omega
    subst this
    exact h.col_inj hj hj' he' he''
  · intro j hj he
    obtain ⟨i', hi', he'⟩ := hall j hj
    exact hfree j hj (by omega)

/-- When no row is free the assignment is a bijection of `[0, N)`. -/
theorem PInv.bijection {N : Nat} {cost : Nat → Nat → Int} {rowsol colsol v : Nat → Int}
    (h : PInv N cost rowsol colsol v) (hall : ∀ i, i < N → ¬ RowFree N colsol i) :
    (∀ i, i < N → ∃ j, j < N ∧ rowsol i = (j : Int) ∧ colsol j = (i : Int)) ∧
    (∀ j, j < N → ∃ i, i < N ∧ colsol j = (i : Int) ∧ rowsol i = (j : Int)) := by
  have hrow : ∀ i, i < N → ∃ j, j < N ∧ rowsol i = (j : Int) ∧ colsol j = (i : Int) := by
    intro i hi
    have := hall i hi
    unfold RowFree at this
    push_neg at this
    obtain ⟨j, hj, he⟩ := this
    exact ⟨j, hj, h.row_back i j hj he, he⟩
  refine ⟨hrow, ?_⟩
  intro j hj
  rcases h.col_range j hj with h1 | ⟨i, hi, he⟩
  · exfalso
    -- the rows map injectively into the columns and miss `j`
    apply no_inj_missing N (fun i => (rowsol i).toNat) j hj
    · intro i hi; obtain ⟨j', hj', hr, _⟩ := hrow i hi; omega
    · intro i i' hi hi' he
      obtain ⟨j1, hj1, hr1, hc1⟩ := hrow i hi
      obtain ⟨j2, hj2, hr2, hc2⟩ := hrow i' hi'
      have : j1 = j2 := by omega
      subst this
      have : (i : Int) = (i' : Int) := by rw [← hc1, ← hc2]
      omega
    · intro i hi he
      obtain ⟨j1, hj1, hr1, hc1⟩ := hrow i hi
      have : j1 = j := by omega
      subst this
      rw [h1] at hc1
      omega
  · exact ⟨i, hi, he, h.row_back i j hj he⟩

/-! ### Column reduction -/

theorem colMin_spec (N : Nat) (cost : Nat → Nat → Int) (j : Nat) (hN : 1 ≤ N) :
    (colMin N cost j).2 < N ∧ (colMin N cost j).1 = cost (colMin N cost j).2 j ∧
    ∀ i, i < N → (colMin N cost j).1 ≤ cost i j := by
  have key := forUp_induction (colMinStep cost j)
    (fun i p => p.2 < i ∧ p.1 = cost p.2 j ∧ ∀ i', i' < i → p.1 ≤ cost i' j)
    (N - 1) 1 (cost 0 j, 0)
    ⟨by omega, rfl, by
      intro i' hi'
      have : i' = 0 := by omega
      subst this
      exact le_refl _⟩
    (by
      intro i p _ _ ⟨h1, h2, h3⟩
      unfold colMinStep
      by_cases hlt : cost i j < p.1
      · rw [if_pos hlt]
        refine ⟨by simp, rfl, ?_⟩
        intro i' hi'
        by_cases he : i' = i
        · subst he; exact le_refl _
        · have := h3 i' (by omega)
          simp only; omega
      · rw [if_neg hlt]
        refine ⟨by omega, h2, ?_⟩
        intro i' hi'
        by_cases he : i' = i
        · subst he; omega
        · exact h3 i' (by omega))
  have hN' : 1 + (N - 1) = N := by omega
  rw [hN'] at key
  exact key

theorem colRedInv_init (N : Nat) (cost : Nat → Nat → Int) (rowsol colsol v : Nat → Int) :
    ColRedInv N cost N
      { rowsol := rowsol, colsol := colsol, v := v, free_ := fun _ => 0, numfree := 0,
        matchCnt := forUp (fun i m => upd m i 0) N 0 (fun _ => 0) } := by
  have hm : ∀ i, forUp (fun i m => upd m i 0) N 0 (fun _ => 0) i = 0 := by
    have := forUp_induction (fun i (m : Nat → Nat) => upd m i 0) (fun _ m => ∀ i, m i = 0)
      N 0 (fun _ => 0) (fun _ => rfl)
      (by
        intro i m _ _ h k
        by_cases hk : k = i
        · subst hk; simp [upd]
        · simp [upd, hk, h k])
    exact this
  constructor
  · intro i _ _ j h1 h2; omega
  · intro i _ h; exact absurd (hm i) h
  · intro j h1 h2; omega
  · intro i j h1 h2; omega
  · intro i j _ h1 h2; omega
  · intro j h1 h2; omega
  · intro i j h1 h2; omega
  · rfl

theorem colRedInv_step (N : Nat) (cost : Nat → Nat → Int) (j : Nat) (s : Lap) (hN : 1 ≤ N)
    (hj : j < N) (h : ColRedInv N cost (j + 1) s) :
    ColRedInv N cost j (columnReductionStep N cost j s) := by
  obtain ⟨him, hm, hle⟩ := colMin_spec N cost j hN
  simp only [columnReductionStep]
  generalize (colMin N cost j).2 = im at him hm hle ⊢
  generalize (colMin N cost j).1 = m at hm hle ⊢
  by_cases hc : s.matchCnt im + 1 = 1
  · -- first selection of row `im`
    rw [if_pos hc]
    have hz : s.matchCnt im = 0 := by omega
    constructor
    · intro i hi hcnt j' hj1 hj2
      have hne : i ≠ im := by
        intro he; subst he; simp [upd] at hcnt
      have hcnt' : s.matchCnt i = 0 := by simpa [upd, hne] using hcnt
      by_cases hjj : j' = j
      · subst hjj; simp [upd]; omega
      · simp only [upd, hjj, if_false]
        exact h.cnt_zero i hi hcnt' j' (by omega) hj2
    · intro i hi hcnt
      by_cases hne : i = im
      · subst hne
        exact ⟨j, le_refl _, hj, by simp [upd], by simp [upd]⟩
      · have hcnt' : s.matchCnt i ≠ 0 := by simpa [upd, hne] using hcnt
        obtain ⟨j', h1, h2, h3, h4⟩ := h.cnt_pos i hi hcnt'
        have : j' ≠ j := by omega
        exact ⟨j', by omega, h2, by simp [upd, hne, h3], by simp [upd, this, h4]⟩
    · intro j' hj1 hj2
      by_cases hjj : j' = j
      · subst hjj; right; exact ⟨im, him, by simp [upd]⟩
      · simp only [upd, hjj, if_false]
        exact h.col_range j' (by omega) hj2
    · intro i j' hj1 hj2 hcol
      by_cases hjj : j' = j
      · subst hjj
        have : i = im := by simp [upd] at hcol; omega
        subst this; simp [upd]
      · simp only [upd, hjj, if_false] at hcol
        have hne : i ≠ im := by
          intro he; subst he
          exact h.cnt_zero i him hz j' (by omega) hj2 hcol
        simp only [upd, hne, if_false]
        exact h.row_back i j' (by omega) hj2 hcol
    · intro i j' hi hj1 hj2
      by_cases hjj : j' = j
      · subst hjj; simp only [upd, if_true]; exact hle i hi
      · simp only [upd, hjj, if_false]; exact h.v_le i j' hi (by omega) hj2
    · intro j' hj1 hj2
      by_cases hjj : j' = j
      · subst hjj; exact ⟨im, him, by simp [upd, hm]⟩
      · simp only [upd, hjj, if_false]; exact h.v_attained j' (by omega) hj2
    · intro i j' hj1 hj2 hcol
      by_cases hjj : j' = j
      · subst hjj
        have : i = im := by simp [upd] at hcol; omega
        subst this; simp [upd, hm]
      · simp only [upd, hjj, if_false] at hcol ⊢
        exact h.tight i j' (by omega) hj2 hcol
    · exact h.numfree
  · rw [if_neg hc]
    have hnz : s.matchCnt im ≠ 0 := by omega
    obtain ⟨j1, hj1a, hj1b, hr1, hc1⟩ := h.cnt_pos im him hnz
    have hj1ne : j1 ≠ j := by omega
    have htn : (s.rowsol im).toNat = j1 := by omega
    rw [htn]
    have hcntne : ∀ i, upd s.matchCnt im (s.matchCnt im + 1) i = 0 → i ≠ im ∧ s.matchCnt i = 0 := by
      intro i hi
      by_cases he : i = im
      · subst he; simp [upd] at hi
      · exact ⟨he, by simpa [upd, he] using hi⟩
    by_cases hlt : upd s.v j m j < upd s.v j m j1
    · -- the new column steals row `im`
      rw [if_pos hlt]
      constructor
      · intro i hi hcnt j' hj1 hj2
        obtain ⟨hne, hcnt'⟩ := hcntne i hcnt
        by_cases hjj1 : j' = j1
        · subst hjj1; simp [upd]
        · by_cases hjj : j' = j
          · subst hjj; simp [upd, hjj1]; omega
          · simp only [upd, hjj, hjj1, if_false]
            exact h.cnt_zero i hi hcnt' j' (by omega) hj2
      · intro i hi hcnt
        by_cases hne : i = im
        · subst hne
          exact ⟨j, le_refl _, hj, by simp [upd], by simp [upd, Ne.symm hj1ne]⟩
        · have hcnt' : s.matchCnt i ≠ 0 := by simpa [upd, hne] using hcnt
          obtain ⟨j', h1, h2, h3, h4⟩ := h.cnt_pos i hi hcnt'
          have hjj : j' ≠ j := by omega
          have hjj1 : j' ≠ j1 := by
            intro he; subst he; rw [hc1] at h4; omega
          exact ⟨j', by omega, h2, by simp [upd, hne, h3], by simp [upd, hjj, hjj1, h4]⟩
      · intro j' hj1 hj2
        by_cases hjj1 : j' = j1
        · subst hjj1; left; simp [upd]
        · by_cases hjj : j' = j
          · subst hjj; right; exact ⟨im, him, by simp [upd, hjj1]⟩
          · simp only [upd, hjj, hjj1, if_false]
            exact h.col_range j' (by omega) hj2
      · intro i j' hj1 hj2 hcol
        by_cases hjj1 : j' = j1
        · subst hjj1; simp [upd] at hcol
        · by_cases hjj : j' = j
          · subst hjj
            have : i = im := by simp [upd, hjj1] at hcol; omega
            subst this; simp [upd]
          · simp only [upd, hjj, hjj1, if_false] at hcol
            have hne : i ≠ im := by
              intro he; subst he
              have := h.row_back i j' (by omega) hj2 hcol
              omega
            simp only [upd, hne, if_false]
            exact h.row_back i j' (by omega) hj2 hcol
      · intro i j' hi hj1 hj2
        by_cases hjj : j' = j
        · subst hjj; simp only [upd, if_true]; exact hle i hi
        · simp only [upd, hjj, if_false]; exact h.v_le i j' hi (by omega) hj2
      · intro j' hj1 hj2
        by_cases hjj : j' = j
        · subst hjj; exact ⟨im, him, by simp [upd, hm]⟩
        · simp only [upd, hjj, if_false]; exact h.v_attained j' (by omega) hj2
      · intro i j' hj1 hj2 hcol
        by_cases hjj1 : j' = j1
        · subst hjj1; simp [upd] at hcol
        · by_cases hjj : j' = j
          · subst hjj
            have : i = im := by simp [upd, hjj1] at hcol; omega
            subst this; simp [upd, hm]
          · simp only [upd, hjj, hjj1, if_false] at hcol ⊢
            exact h.tight i j' (by omega) hj2 hcol
      · exact h.numfree
    · -- the new column stays unassigned
      rw [if_neg hlt]
      constructor
      · intro i hi hcnt j' hj1 hj2
        obtain ⟨hne, hcnt'⟩ := hcntne i hcnt
        by_cases hjj : j' = j
        · subst hjj; simp [upd]
        · simp only [upd, hjj, if_false]
          exact h.cnt_zero i hi hcnt' j' (by omega) hj2
      · intro i hi hcnt
        have hcnt' : s.matchCnt i ≠ 0 := by
          by_cases hne : i = im
          · subst hne; exact hnz
          · simpa [upd, hne] using hcnt
        obtain ⟨j', h1, h2, h3, h4⟩ := h.cnt_pos i hi hcnt'
        have hjj : j' ≠ j := by omega
        exact ⟨j', by omega, h2, h3, by simp [upd, hjj, h4]⟩
      · intro j' hj1 hj2
        by_cases hjj : j' = j
        · subst hjj; left; simp [upd]
        · simp only [upd, hjj, if_false]
          exact h.col_range j' (by omega) hj2
      · intro i j' hj1 hj2 hcol
        by_cases hjj : j' = j
        · subst hjj; simp [upd] at hcol
        · simp only [upd, hjj, if_false] at hcol
          exact h.row_back i j' (by omega) hj2 hcol
      · intro i j' hi hj1 hj2
        by_cases hjj : j' = j
        · subst hjj; simp only [upd, if_true]; exact hle i hi
        · simp only [upd, hjj, if_false]; exact h.v_le i j' hi (by omega) hj2
      · intro j' hj1 hj2
        by_cases hjj : j' = j
        · subst hjj; exact ⟨im, him, by simp [upd, hm]⟩
        · simp only [upd, hjj, if_false]; exact h.v_attained j' (by omega) hj2
      · intro i j' hj1 hj2 hcol
        by_cases hjj : j' = j
        · subst hjj; simp [upd] at hcol
        · simp only [upd, hjj, if_false] at hcol ⊢
          exact h.tight i j' (by omega) hj2 hcol
      · exact h.numfree

theorem columnReduction_spec (N : Nat) (cost : Nat → Nat → Int) (rowsol colsol v : Nat → Int)
    (hN : 1 ≤ N) :
    ColRedInv N cost 0 (columnReduction N cost
      { rowsol := rowsol, colsol := colsol, v := v, free_ := fun _ => 0, numfree := 0,
        matchCnt := forUp (fun i m => upd m i 0) N 0 (fun _ => 0) }) := by
  unfold columnReduction
  exact forDown_induction (columnReductionStep N cost) (fun j s => ColRedInv N cost j s) N _
    (colRedInv_init N cost rowsol colsol v)
    (fun j s hj h => colRedInv_step N cost j s hN hj h)

theorem columnReductionStep_tail (N : Nat) (cost : Nat → Nat → Int) (j : Nat) (s : Lap)
    (hN : 1 ≤ N) (hj : j < N) (h : ColRedInv N cost (j + 1) s) :
    SameTail N s (columnReductionStep N cost j s) := by
  obtain ⟨him, _, _⟩ := colMin_spec N cost j hN
  simp only [columnReductionStep]
  generalize (colMin N cost j).2 = im at him ⊢
  generalize (colMin N cost j).1 = m
  intro i hi
  have e1 : i ≠ im := by omega
  have e2 : i ≠ j := by omega
  by_cases hc : s.matchCnt im + 1 = 1
  · rw [if_pos hc]
    simp [upd, e1, e2]
  · rw [if_neg hc]
    have hnz : s.matchCnt im ≠ 0 := by omega
    obtain ⟨j1, hj1a, hj1b, hr1, hc1⟩ := h.cnt_pos im him hnz
    have htn : (s.rowsol im).toNat = j1 := by omega
    rw [htn]
    have e3 : i ≠ j1 := by omega
    split_ifs <;> simp [upd, e1, e2, e3]

/-- Column reduction writes no cell of `rowsol` or `colsol` from index `N` on. -/
theorem columnReduction_tail (N : Nat) (cost : Nat → Nat → Int) (rowsol colsol v : Nat → Int)
    (hN : 1 ≤ N) :
    SameTail N
      { rowsol := rowsol, colsol := colsol, v := v, free_ := fun _ => 0, numfree := 0,
        matchCnt := forUp (fun i m => upd m i 0) N 0 (fun _ => 0) }
      (columnReduction N cost
        { rowsol := rowsol, colsol := colsol, v := v, free_ := fun _ => 0, numfree := 0,
          matchCnt := forUp (fun i m => upd m i 0) N 0 (fun _ => 0) }) := by
  unfold columnReduction
  have := forDown_induction (columnReductionStep N cost)
    (fun j s => ColRedInv N cost j s ∧ SameTail N
      { rowsol := rowsol, colsol := colsol, v := v, free_ := fun _ => 0, numfree := 0,
        matchCnt := forUp (fun i m => upd m i 0) N 0 (fun _ => 0) } s) N _
    ⟨colRedInv_init N cost rowsol colsol v, SameTail.refl N _⟩
    (fun j s hj h => ⟨colRedInv_step N cost j s hN hj h.1,
      h.2.trans (columnReductionStep_tail N cost j s hN hj h.1)⟩)
  exact this.2

/-! ### Reduction transfer -/

theorem transferMin_spec (BIG : Int) (N : Nat) (cost : Nat → Nat → Int) (v : Nat → Int)
    (i j1 : Nat) (hB : 0 ≤ BIG) (hnn : ∀ j, j < N → v j ≤ cost i j) :
    0 ≤ transferMin BIG N cost v i j1 ∧ transferMin BIG N cost v i j1 ≤ BIG ∧
    (∀ j, j < N → j ≠ j1 → transferMin BIG N cost v i j1 ≤ cost i j - v j) ∧
    (transferMin BIG N cost v i j1 = BIG ∨
      ∃ j, j < N ∧ j ≠ j1 ∧ transferMin BIG N cost v i j1 = cost i j - v j) := by
  unfold transferMin
  have key := forUp_induction (fun j min_ =>
      if j ≠ j1 then (if cost i j - v j < min_ then cost i j - v j else min_) else min_)
    (fun n (m : Int) => n ≤ N → (0 ≤ m ∧ m ≤ BIG ∧ (∀ j, j < n → j ≠ j1 → m ≤ cost i j - v j) ∧
      (m = BIG ∨ ∃ j, j < n ∧ j ≠ j1 ∧ m = cost i j - v j)))
    N 0 BIG
    (fun _ => ⟨hB, le_refl _, fun j hj => absurd hj (Nat.not_lt_zero j), Or.inl rfl⟩)
    (by
      intro j m _ hjN ih hle
      obtain ⟨h0, h1, h2, h3⟩ := ih (by omega)
      have hv := hnn j (by omega)
      by_cases hj1 : j = j1
      · subst hj1
        simp only [ne_eq, not_true_eq_false, if_false]
        refine ⟨h0, h1, ?_, ?_⟩
        · intro j' hj' hne
          exact h2 j' (by omega) hne
        · rcases h3 with h3 | ⟨j', a, b, c⟩
          · exact Or.inl h3
          · exact Or.inr ⟨j', by omega, b, c⟩
      · simp only [ne_eq, hj1, not_false_eq_true, if_true]
        by_cases hlt : cost i j - v j < m
        · rw [if_pos hlt]
          refine ⟨by omega, by omega, ?_, Or.inr ⟨j, by omega, hj1, rfl⟩⟩
          intro j' hj' hne
          by_cases he : j' = j
          · subst he; exact le_refl _
          · have := h2 j' (by omega) hne
            omega
        · rw [if_neg hlt]
          refine ⟨h0, h1, ?_, ?_⟩
          · intro j' hj' hne
            by_cases he : j' = j
            · subst he; omega
            · exact h2 j' (by omega) hne
          · rcases h3 with h3 | ⟨j', a, b, c⟩
            · exact Or.inl h3
            · exact Or.inr ⟨j', by omega, b, c⟩)
  simpa using key

theorem transferInv_init (N : Nat) (cost : Nat → Nat → Int) (s : Lap)
    (h : ColRedInv N cost 0 s) : TransferInv N cost 0 s := by
  constructor
  · constructor
    · intro j hj; exact h.col_range j (Nat.zero_le _) hj
    · intro i j hj hc; exact h.row_back i j (Nat.zero_le _) hj hc
    · intro i j hj hc j' hj'
      have hi : i < N := by
        rcases h.col_range j (Nat.zero_le _) hj with h1 | ⟨i', hi', h1⟩ <;> omega
      have h1 := h.tight i j (Nat.zero_le _) hj hc
      have h2 := h.v_le i j' hi (Nat.zero_le _) hj'
      omega
    · intro i j hi hj; exact h.v_le i j hi (Nat.zero_le _) hj
  · intro j hj _; exact h.v_attained j (Nat.zero_le _) hj
  · intro i hi hz j hj; exact h.cnt_zero i hi hz j (Nat.zero_le _) hj
  · intro i hi hz
    obtain ⟨j, _, a, b, c⟩ := h.cnt_pos i hi hz
    exact ⟨j, a, b, c⟩
  · intro i j hj _ hc; exact h.tight i j (Nat.zero_le _) hj hc
  · intro p hp; rw [h.numfree] at hp; omega
  · intro p q _ hq; rw [h.numfree] at hq; omega
  · intro i hi; omega

/-- Lowering the price of a column keeps the invariant when the row that owns the column
still prefers it. -/
theorem PInv.lower {N : Nat} {cost : Nat → Nat → Int} {rowsol colsol v : Nat → Int}
    (h : PInv N cost rowsol colsol v) (j1 : Nat) (x : Int) (hx : x ≤ v j1)
    (hpref : ∀ i : Nat, colsol j1 = (i : Int) → ∀ j', j' < N → j' ≠ j1 →
      cost i j1 - x ≤ cost i j' - v j') :
    PInv N cost rowsol colsol (upd v j1 x) := by
  constructor
  · exact h.col_range
  · exact h.row_back
  · intro i j hj hc j' hj'
    by_cases e1 : j = j1
    · subst e1
      by_cases e2 : j' = j
      · subst e2; exact le_refl _
      · simp only [upd, if_true, e2, if_false]
        exact hpref i hc j' hj' e2
    · by_cases e2 : j' = j1
      · subst e2
        simp only [upd, e1, if_false, if_true]
        have := h.dual i j hj hc j' hj'
        omega
      · simp only [upd, e1, e2, if_false]
        exact h.dual i j hj hc j' hj'
  · intro i j hi hj
    by_cases e1 : j = j1
    · subst e1
      simp only [upd, if_true]
      have := h.nonneg i j hi hj
      omega
    · simp only [upd, e1, if_false]
      exact h.nonneg i j hi hj

theorem transferInv_step (BIG : Int) (N : Nat) (cost : Nat → Nat → Int) (i : Nat) (s : Lap)
    (hB : 0 ≤ BIG) (hi : i < N) (h : TransferInv N cost i s) :
    TransferInv N cost (i + 1) (reductionTransferStep BIG N cost i s) := by
  unfold reductionTransferStep
  by_cases hz : s.matchCnt i = 0
  · rw [if_pos hz]
    constructor
    · exact h.pinv
    · exact h.unassigned
    · exact h.cnt_zero
    · exact h.cnt_pos
    · intro i' j hj hle hc; exact h.tight i' j hj (by omega) hc
    · intro p hp
      by_cases e : p = s.numfree
      · subst e; simp only [upd, if_true]; exact ⟨by omega, hz⟩
      · have hp' : p < s.numfree := by simp only at hp; omega
        simp only [upd, e, if_false]
        have := h.free_lt p hp'
        exact ⟨Nat.lt_succ_of_lt this.1, this.2⟩
    · intro p q hpq hq
      simp only at hq
      have ep : p ≠ s.numfree := by omega
      by_cases e : q = s.numfree
      · subst e
        simp only [upd, ep, if_false, if_true]
        exact (h.free_lt p hpq).1
      · simp only [upd, ep, e, if_false]
        exact h.free_mono p q hpq (by omega)
    · intro i' hi' hz'
      by_cases e : i' = i
      · subst e; exact ⟨s.numfree, by simp, by simp [upd]⟩
      · obtain ⟨p, hp, he⟩ := h.free_all i' (by omega) hz'
        have : p ≠ s.numfree := by omega
        exact ⟨p, by simp only; omega, by simp [upd, this, he]⟩
  · rw [if_neg hz]
    by_cases h1 : s.matchCnt i = 1
    · rw [if_pos h1]
      obtain ⟨j1, hj1, hr, hc⟩ := h.cnt_pos i hi hz
      have htn : (s.rowsol i).toNat = j1 := by omega
      simp only [htn]
      obtain ⟨m0, _, mle, _⟩ := transferMin_spec BIG N cost s.v i j1 hB
        (fun j hj => h.pinv.nonneg i j hi hj)
      generalize transferMin BIG N cost s.v i j1 = m at m0 mle
      have htight := h.tight i j1 hj1 (le_refl _) hc
      constructor
      · apply h.pinv.lower j1 (s.v j1 - m) (by omega)
        intro i' hc' j' hj' hne
        have : i' = i := by rw [hc] at hc'; omega
        subst this
        have := mle j' hj' hne
        omega
      · intro j hj hun
        have e : j ≠ j1 := by
          intro e; subst e; rw [hc] at hun; omega
        obtain ⟨i', a, b⟩ := h.unassigned j hj hun
        exact ⟨i', a, by simp [upd, e, b]⟩
      · exact h.cnt_zero
      · exact h.cnt_pos
      · intro i' j hj hle hc'
        have e : j ≠ j1 := by
          intro e; subst e; rw [hc] at hc'; omega
        simp only [upd, e, if_false]
        exact h.tight i' j hj (by omega) hc'
      · intro p hp
        have := h.free_lt p hp
        exact ⟨Nat.lt_succ_of_lt this.1, this.2⟩
      · exact h.free_mono
      · intro i' hi' hz'
        by_cases e : i' = i
        · subst e; exact absurd hz' hz
        · exact h.free_all i' (by omega) hz'
    · rw [if_neg h1]
      constructor
      · exact h.pinv
      · exact h.unassigned
      · exact h.cnt_zero
      · exact h.cnt_pos
      · intro i' j hj hle hc; exact h.tight i' j hj (by omega) hc
      · intro p hp
        have := h.free_lt p hp
        exact ⟨Nat.lt_succ_of_lt this.1, this.2⟩
      · exact h.free_mono
      · intro i' hi' hz'
        by_cases e : i' = i
        · subst e; exact absurd hz' hz
        · exact h.free_all i' (by omega) hz'

/-- After column reduction and reduction transfer: a feasible partial assignment whose free
rows are listed in `free_[0..numfree)`. -/
theorem reductionTransfer_spec (BIG : Int) (N : Nat) (cost : Nat → Nat → Int)
    (rowsol colsol v : Nat → Int) (hN : 1 ≤ N) (hB : 0 ≤ BIG) :
    let s := reductionTransfer BIG N cost (columnReduction N cost
      { rowsol := rowsol, colsol := colsol, v := v, free_ := fun _ => 0, numfree := 0,
        matchCnt := forUp (fun i m => upd m i 0) N 0 (fun _ => 0) })
    PInv N cost s.rowsol s.colsol s.v ∧ UnassignedPrice N cost s.colsol s.v ∧
    FreeList N s.colsol s.free_ (fun p => p < s.numfree) := by
  intro s
  have key : TransferInv N cost N s := by
    have := forUp_induction (reductionTransferStep BIG N cost)
      (fun i s => TransferInv N cost i s) N 0 _
      (transferInv_init N cost _ (columnReduction_spec N cost rowsol colsol v hN))
      (fun i s _ hi h => transferInv_step BIG N cost i s hB (by omega) h)
    simpa using this
  refine ⟨key.pinv, key.unassigned, ?_⟩
  constructor
  · intro p hp
    have := key.free_lt p hp
    exact ⟨this.1, key.cnt_zero _ this.1 this.2⟩
  · intro p q hp hq he
    by_contra hne
    rcases Nat.lt_or_gt_of_ne hne with hlt | hlt
    · have := key.free_mono p q hlt hq; omega
    · have := key.free_mono q p hlt hp; omega
  · intro i hi hfree
    apply key.free_all i hi
    by_contra hz
    obtain ⟨j, hj, _, hc⟩ := key.cnt_pos i hi hz
    exact hfree j hj hc

theorem reductionTransferStep_sol (BIG : Int) (N : Nat) (cost : Nat → Nat → Int) (i : Nat)
    (s : Lap) :
    (reductionTransferStep BIG N cost i s).rowsol = s.rowsol ∧
    (reductionTransferStep BIG N cost i s).colsol = s.colsol := by
  unfold reductionTransferStep
  split_ifs <;> exact ⟨rfl, rfl⟩

/-- Reduction transfer leaves `rowsol` and `colsol` as they are. -/
theorem reductionTransfer_sol (BIG : Int) (N : Nat) (cost : Nat → Nat → Int) (s : Lap) :
    (reductionTransfer BIG N cost s).rowsol = s.rowsol ∧
    (reductionTransfer BIG N cost s).colsol = s.colsol := by
  unfold reductionTransfer
  exact forUp_induction (reductionTransferStep BIG N cost)
    (fun _ t => t.rowsol = s.rowsol ∧ t.colsol = s.colsol) N 0 s ⟨rfl, rfl⟩
    (fun i t _ _ h => ⟨(reductionTransferStep_sol BIG N cost i t).1.trans h.1,
      (reductionTransferStep_sol BIG N cost i t).2.trans h.2⟩)

/-- Column reduction and reduction transfer write no cell of `rowsol` or `colsol` from
index `N` on. -/
theorem reductionTransfer_tail (BIG : Int) (N : Nat) (cost : Nat → Nat → Int)
    (rowsol colsol v : Nat → Int) (hN : 1 ≤ N) :
    ∀ i, N ≤ i →
      (reductionTransfer BIG N cost (columnReduction N cost
        { rowsol := rowsol, colsol := colsol, v := v, free_ := fun _ => 0, numfree := 0,
          matchCnt := forUp (fun i m => upd m i 0) N 0 (fun _ => 0) })).rowsol i = rowsol i ∧
      (reductionTransfer BIG N cost (columnReduction N cost
        { rowsol := rowsol, colsol := colsol, v := v, free_ := fun _ => 0, numfree := 0,
          matchCnt := forUp (fun i m => upd m i 0) N 0 (fun _ => 0) })).colsol i = colsol i := by
  intro i hi
  obtain ⟨a, b⟩ := reductionTransfer_sol BIG N cost (columnReduction N cost
    { rowsol := rowsol, colsol := colsol, v := v, free_ := fun _ => 0, numfree := 0,
      matchCnt := forUp (fun i m => upd m i 0) N 0 (fun _ => 0) })
  rw [a, b]
  exact columnReduction_tail N cost rowsol colsol v hN i hi

/-! ### Augmenting row reduction -/

theorem scanRow_spec (BIG : Int) (N : Nat) (cost : Nat → Nat → Int) (v : Nat → Int)
    (i j2 : Nat) (hN : 1 ≤ N) (h0 : cost i 0 - v 0 ≤ BIG) :
    let c := scanRow BIG N cost v i j2
    c.j1 < N ∧ c.umin = cost i c.j1 - v c.j1 ∧
    (∀ j, j < N → c.umin ≤ cost i j - v j) ∧
    (∀ j, j < N → j ≠ c.j1 → c.usubmin ≤ cost i j - v j) ∧
    c.umin ≤ c.usubmin ∧
    (c.usubmin = BIG ∨ (c.j2 < N ∧ c.j2 ≠ c.j1 ∧ c.usubmin = cost i c.j2 - v c.j2)) := by
  intro c
  have key := forUp_induction (scanStep cost v i)
    (fun n c => c.j1 < n ∧ c.umin = cost i c.j1 - v c.j1 ∧
      (∀ j, j < n → c.umin ≤ cost i j - v j) ∧
      (∀ j, j < n → j ≠ c.j1 → c.usubmin ≤ cost i j - v j) ∧
      c.umin ≤ c.usubmin ∧
      (c.usubmin = BIG ∨ (c.j2 < n ∧ c.j2 ≠ c.j1 ∧ c.usubmin = cost i c.j2 - v c.j2)))
    (N - 1) 1 { umin := cost i 0 - v 0, usubmin := BIG, j1 := 0, j2 := j2 }
    ⟨by simp, rfl, by
        intro j hj
        have : j = 0 := by omega
        subst this; exact le_refl _,
      by
        intro j hj hne
        simp only at hne
        omega,
      h0, Or.inl rfl⟩
    (by
      intro j c _ _ ⟨a, b, b2, c2, d, e⟩
      unfold scanStep
      simp only
      by_cases h1 : cost i j - v j < c.usubmin
      · rw [if_pos h1]
        by_cases h2 : cost i j - v j ≥ c.umin
        · rw [if_pos h2]
          refine ⟨by simp only; omega, b, ?_, ?_, h2, Or.inr ⟨by simp, by simp only; omega, rfl⟩⟩
          · intro j' hj'
            by_cases e1 : j' = j
            · subst e1; exact h2
            · exact b2 j' (by omega)
          · intro j' hj' hne
            simp only at hne ⊢
            by_cases e1 : j' = j
            · subst e1; exact le_refl _
            · have := c2 j' (by omega) hne
              omega
        · rw [if_neg h2]
          refine ⟨by simp, rfl, ?_, ?_, by simp only; omega,
            Or.inr ⟨by simp only; omega, by simp only; omega, by simp only; exact b⟩⟩
          · intro j' hj'
            simp only
            by_cases e1 : j' = j
            · subst e1; exact le_refl _
            · have := b2 j' (by omega)
              omega
          · intro j' hj' hne
            simp only at hne ⊢
            by_cases e2 : j' = c.j1
            · subst e2; omega
            · have := c2 j' (by omega) e2
              omega
      · rw [if_neg h1]
        refine ⟨by omega, b, ?_, ?_, d, ?_⟩
        · intro j' hj'
          by_cases e1 : j' = j
          · subst e1; omega
          · exact b2 j' (by omega)
        · intro j' hj' hne
          by_cases e1 : j' = j
          · subst e1; omega
          · exact c2 j' (by omega) hne
        · rcases e with e | ⟨e1, e2, e3⟩
          · exact Or.inl e
          · exact Or.inr ⟨by omega, e2, e3⟩)
  have hN' : 1 + (N - 1) = N := by omega
  rw [hN'] at key
  exact key

/-- While a row is free, every reduced cost of a free row stays below `BIG`. -/
theorem reduced_lt_big (BIG : Int) (N : Nat) (cost : Nat → Nat → Int)
    (rowsol colsol v : Nat → Int) (hB : BigEnough BIG N cost)
    (h : PInv N cost rowsol colsol v) (hu : UnassignedPrice N cost colsol v)
    (i : Nat) (hi : i < N) (hfree : RowFree N colsol i) (j : Nat) (hj : j < N) :
    cost i j - v j < BIG := by
  obtain ⟨js, hjs, hcs⟩ := h.exists_unassigned hi hfree
  obtain ⟨is, his, hvs⟩ := hu js hjs hcs
  rcases h.col_range j hj with h1 | ⟨i', hi', h1⟩
  · obtain ⟨i2, hi2, hv2⟩ := hu j hj h1
    have := hB i j i2 j hi hj hi2 hj
    have := h.nonneg i j hi hj
    omega
  · have d := h.dual i' j hj h1 js hjs
    have b1 := hB i' js is js hi' hjs his hjs
    have b2 := hB i j i' j hi hj hi' hj
    omega

/-- Assigning a free row to a column whose price is lowered to the row's advantage. -/
theorem PInv.assign {N : Nat} {cost : Nat → Nat → Int} {rowsol colsol v : Nat → Int}
    (h : PInv N cost rowsol colsol v) (i j1 : Nat) (x : Int) (hi : i < N) (hj1 : j1 < N)
    (hfree : RowFree N colsol i) (hx : x ≤ v j1)
    (hpref : ∀ j', j' < N → j' ≠ j1 → cost i j1 - x ≤ cost i j' - v j') :
    PInv N cost (upd rowsol i (j1 : Int)) (upd colsol j1 (i : Int)) (upd v j1 x) := by
  constructor
  · intro j hj
    by_cases e : j = j1
    · subst e; right; exact ⟨i, hi, by simp [upd]⟩
    · simp only [upd, e, if_false]; exact h.col_range j hj
  · intro i' j hj hc
    by_cases e : j = j1
    · subst e
      have : i' = i := by simp [upd] at hc; omega
      subst this; simp [upd]
    · simp only [upd, e, if_false] at hc
      have : i' ≠ i := by
        intro e'; subst e'; exact hfree j hj hc
      simp only [upd, this, if_false]
      exact h.row_back i' j hj hc
  · intro i' j hj hc j' hj'
    by_cases e : j = j1
    · subst e
      have : i' = i := by simp [upd] at hc; omega
      subst this
      by_cases e2 : j' = j
      · subst e2; exact le_refl _
      · simp only [upd, if_true, e2, if_false]
        exact hpref j' hj' e2
    · simp only [upd, e, if_false] at hc
      have d := h.dual i' j hj hc j' hj'
      by_cases e2 : j' = j1
      · subst e2
        simp only [upd, e, if_false, if_true]
        omega
      · simp only [upd, e, e2, if_false]
        exact d
  · intro i' j hi' hj
    by_cases e : j = j1
    · subst e
      simp only [upd, if_true]
      have := h.nonneg i' j hi' hj
      omega
    · simp only [upd, e, if_false]
      exact h.nonneg i' j hi' hj

theorem abs_le_absSum (N : Nat) (cost : Nat → Nat → Int) (i j : Nat) (hi : i < N) (hj : j < N) :
    |cost i j| ≤ absSum N cost := by
  unfold absSum
  have h1 : |cost i j| ≤ ∑ j in Finset.range N, |cost i j| :=
    Finset.single_le_sum (f := fun j => |cost i j|) (fun _ _ => abs_nonneg _)
      (Finset.mem_range.mpr hj)
  have h2 : (∑ j in Finset.range N, |cost i j|) ≤
      ∑ i in Finset.range N, ∑ j in Finset.range N, |cost i j| :=
    Finset.single_le_sum (f := fun i => ∑ j in Finset.range N, |cost i j|)
      (fun _ _ => Finset.sum_nonneg (fun _ _ => abs_nonneg _)) (Finset.mem_range.mpr hi)
  exact le_trans h1 h2

theorem priceHeight_upd_le (N : Nat) (L : Int) (v : Nat → Int) (j : Nat) (x : Int)
    (hx : x ≤ v j) : priceHeight N L (upd v j x) ≤ priceHeight N L v := by
  unfold priceHeight
  apply Finset.sum_le_sum
  intro k _
  by_cases e : k = j
  · subst e; simp only [upd, if_true]; omega
  · simp only [upd, e, if_false]; exact le_refl _

theorem priceHeight_upd_lt (N : Nat) (L : Int) (v : Nat → Int) (j : Nat) (x : Int)
    (hj : j < N) (hL : L ≤ x) (hx : x < v j) :
    priceHeight N L (upd v j x) < priceHeight N L v := by
  unfold priceHeight
  apply Finset.sum_lt_sum
  · intro k _
    by_cases e : k = j
    · subst e; simp only [upd, if_true]; omega
    · simp only [upd, e, if_false]; exact le_refl _
  · exact ⟨j, Finset.mem_range.mpr hj, by simp only [upd, if_true]; omega⟩

theorem upd_eq_self {α : Type} (a : Nat → α) (i : Nat) : upd a i (a i) = a := by
  funext k
  by_cases e : k = i
  · subst e; simp [upd]
  · simp [upd, e]

theorem FreeList.drop {N : Nat} {colsol : Nat → Int}
    {free_ : Nat → Nat} {pos pos' : Nat → Prop}
    (h : FreeList N colsol free_ pos)
    (k jt : Nat) (hk : pos k) (hjt : jt < N) (hun : colsol jt = -1)
    (hpos : ∀ p, pos' p ↔ (pos p ∧ p ≠ k)) :
    FreeList N (upd colsol jt (free_ k : Int)) free_ pos' := by
  constructor
  · intro p hp'
    obtain ⟨h1, h2⟩ := (hpos p).mp hp'
    refine ⟨(h.free p h1).1, ?_⟩
    intro j hj
    by_cases e : j = jt
    · subst e
      simp only [upd, if_true]
      intro heq
      exact h2 (h.inj p k h1 hk (by omega))
    · simp only [upd, e, if_false]
      exact (h.free p h1).2 j hj
  · intro p q hp' hq' he
    exact h.inj p q ((hpos p).mp hp').1 ((hpos q).mp hq').1 he
  · intro i hi hfree
    have hfree0 : RowFree N colsol i := by
      intro j hj
      by_cases e : j = jt
      · subst e; rw [hun]; omega
      · have := hfree j hj
        simpa [upd, e] using this
    obtain ⟨p, hp1, hp2⟩ := h.all i hi hfree0
    refine ⟨p, (hpos p).mpr ⟨hp1, ?_⟩, hp2⟩
    intro e
    subst e
    have := hfree jt hjt
    simp [upd, hp2] at this

theorem FreeList.put {N : Nat} {cost : Nat → Nat → Int} {rowsol colsol v : Nat → Int}
    {free_ : Nat → Nat} {pos pos' : Nat → Prop}
    (h : FreeList N colsol free_ pos) (hp : PInv N cost rowsol colsol v)
    (k jt q r : Nat) (hk : pos k) (hjt : jt < N) (hown : colsol jt = (r : Int))
    (hq : ¬ (pos q ∧ q ≠ k))
    (hpos : ∀ p, pos' p ↔ ((pos p ∧ p ≠ k) ∨ p = q)) :
    FreeList N (upd colsol jt (free_ k : Int)) (upd free_ q r) pos' := by
  have hrN : r < N := by
    rcases hp.col_range jt hjt with h1 | ⟨i', hi', h1⟩ <;> omega
  have hik : free_ k ≠ r := by
    intro e
    exact (h.free k hk).2 jt hjt (by rw [hown, e])
  have hother : ∀ p, pos p → p ≠ k → p ≠ q := by
    intro p h1 h2 e
    subst e
    exact hq ⟨h1, h2⟩
  constructor
  · intro p hp'
    rcases (hpos p).mp hp' with ⟨h1, h2⟩ | h1
    · have e := hother p h1 h2
      rw [upd_other _ _ _ _ e]
      refine ⟨(h.free p h1).1, ?_⟩
      intro j hj
      by_cases e2 : j = jt
      · subst e2
        simp only [upd, if_true]
        intro heq
        exact h2 (h.inj p k h1 hk (by omega))
      · simp only [upd, e2, if_false]
        exact (h.free p h1).2 j hj
    · subst h1
      rw [upd_same]
      refine ⟨hrN, ?_⟩
      intro j hj
      by_cases e2 : j = jt
      · subst e2
        simp only [upd, if_true]
        omega
      · simp only [upd, e2, if_false]
        intro heq
        exact e2 (hp.col_inj hj hjt heq hown)
  · intro p p2 hp' hp2' he
    rcases (hpos p).mp hp' with ⟨h1, h2⟩ | h1
    · have e := hother p h1 h2
      rcases (hpos p2).mp hp2' with ⟨h3, h4⟩ | h3
      · have e' := hother p2 h3 h4
        simp only [upd, e, e', if_false] at he
        exact h.inj p p2 h1 h3 he
      · subst h3
        simp only [upd, e, if_false, if_true] at he
        exfalso
        exact (h.free p h1).2 jt hjt (by rw [hown, he])
    · subst h1
      rcases (hpos p2).mp hp2' with ⟨h3, h4⟩ | h3
      · have e' := hother p2 h3 h4
        simp only [upd, e', if_false, if_true] at he
        exfalso
        exact (h.free p2 h3).2 jt hjt (by rw [hown, he])
      · exact h3.symm
  · intro i hi hfree
    by_cases e : i = r
    · subst e
      exact ⟨q, (hpos q).mpr (Or.inr rfl), by simp [upd]⟩
    · have hfree0 : RowFree N colsol i := by
        intro j hj
        by_cases e2 : j = jt
        · subst e2; rw [hown]; omega
        · have := hfree j hj
          simpa [upd, e2] using this
      obtain ⟨p, hp1, hp2⟩ := h.all i hi hfree0
      have hpk : p ≠ k := by
        intro e2
        subst e2
        have := hfree jt hjt
        simp [upd, hp2] at this
      have e3 := hother p hp1 hpk
      exact ⟨p, (hpos p).mpr (Or.inl ⟨hp1, hpk⟩), by simp [upd, e3, hp2]⟩

theorem UnassignedPrice.assign_col {N : Nat} {cost : Nat → Nat → Int} {colsol v : Nat → Int}
    (h : UnassignedPrice N cost colsol v) (i jt : Nat) (x : Int) :
    UnassignedPrice N cost (upd colsol jt (i : Int)) (upd v jt x) := by
  intro j hj hc
  by_cases e : j = jt
  · subst e; simp [upd] at hc
  · simp only [upd, e, if_false] at hc ⊢
    exact h j hj hc

theorem arrStep_spec (BIG : Int) (N : Nat) (cost : Nat → Nat → Int) (prv : Nat) (a : Arr)
    (hN : 1 ≤ N) (hbig : ScanBelow BIG N cost a) (h : ArrInv N cost prv a) (hk : a.k < prv) :
    ArrInv N cost prv (arrStep BIG N cost a) ∧
    (prv - (arrStep BIG N cost a).k) + priceHeight N (-3 * absSum N cost) (arrStep BIG N cost a).lap.v
      < (prv - a.k) + priceHeight N (-3 * absSum N cost) a.lap.v := by
  have hposk : (fun p => p < a.lap.numfree ∨ (a.k ≤ p ∧ p < prv)) a.k := Or.inr ⟨le_refl _, hk⟩
  obtain ⟨hiN, hifree⟩ := h.freeList.free a.k hposk
  have hsc := scanRow_spec BIG N cost a.lap.v (a.lap.free_ a.k) a.j2 hN
    (le_of_lt (hbig 0 (by omega)))
  simp only [arrStep]
  generalize scanRow BIG N cost a.lap.v (a.lap.free_ a.k) a.j2 = c at hsc ⊢
  obtain ⟨hj1, humin, hmin, hsub, hle, hj2⟩ := hsc
  have hnf := h.nf_le
  by_cases hs : c.umin < c.usubmin
  · -- strict minimum: the price of `j1` is lowered to the second minimum
    have hpinv := h.pinv.assign (a.lap.free_ a.k) c.j1 (a.lap.v c.j1 - (c.usubmin - c.umin))
      hiN hj1 hifree (by omega) (by
        intro j' hj' hne
        have := hsub j' hj' hne
        omega)
    have hun := h.unassigned.assign_col (a.lap.free_ a.k) c.j1 (a.lap.v c.j1 - (c.usubmin - c.umin))
    rcases h.pinv.col_range c.j1 hj1 with hc | ⟨r, hr, hc⟩
    · have hr : ¬ ((-1 : Int) > -1) := by omega
      simp only [hs, hc, decide_True, Bool.not_true, Bool.false_and, if_false, hr, if_true,
        Bool.false_eq_true]
      refine ⟨⟨hpinv, hun, ?_, by simp only; omega, by simp only; omega⟩, ?_⟩
      · exact h.freeList.drop a.k c.j1 hposk hj1 hc (by intro p; simp only; omega)
      · have := priceHeight_upd_le N (-3 * absSum N cost) a.lap.v c.j1
          (a.lap.v c.j1 - (c.usubmin - c.umin)) (by omega)
        omega
    · have hr' : (r : Int) > -1 := by omega
      simp only [hs, hc, decide_True, Bool.not_true, Bool.false_and, if_false, hr', if_true,
        Bool.false_eq_true, Nat.add_sub_cancel, Int.toNat_ofNat]
      refine ⟨⟨hpinv, hun, ?_, hnf, le_of_lt hk⟩, ?_⟩
      · exact h.freeList.put h.pinv a.k c.j1 a.k r hposk hj1 hc (by simp)
          (by intro p; simp only; constructor
              · intro hp
                by_cases e : p = a.k
                · exact Or.inr e
                · exact Or.inl ⟨hp, e⟩
              · rintro (⟨hp, _⟩ | e)
                · exact hp
                · subst e; exact hposk)
      · -- an unassigned column other than `j1` bounds the second minimum
        obtain ⟨js, hjs, hcs⟩ := h.pinv.exists_unassigned hiN hifree
        obtain ⟨is, his, hvs⟩ := h.unassigned js hjs hcs
        have hne : js ≠ c.j1 := by
          intro e; subst e; rw [hcs] at hc; omega
        have h1 := hsub js hjs hne
        have b1 := abs_le.mp (abs_le_absSum N cost (a.lap.free_ a.k) c.j1 hiN hj1)
        have b2 := abs_le.mp (abs_le_absSum N cost (a.lap.free_ a.k) js hiN hjs)
        have b3 := abs_le.mp (abs_le_absSum N cost is js his hjs)
        have := priceHeight_upd_lt N (-3 * absSum N cost) a.lap.v c.j1
          (a.lap.v c.j1 - (c.usubmin - c.umin)) hj1 (by omega) (by omega)
        omega
  · -- minimum and second minimum equal
    have heq : c.umin = c.usubmin := by omega
    rcases h.pinv.col_range c.j1 hj1 with hc | ⟨r, hr, hc⟩
    · have hr : ¬ ((-1 : Int) > -1) := by omega
      simp only [hs, hc, decide_False, Bool.not_false, Bool.true_and, if_false, hr,
        Bool.false_eq_true]
      have hpinv := h.pinv.assign (a.lap.free_ a.k) c.j1 (a.lap.v c.j1)
        hiN hj1 hifree (le_refl _) (by
          intro j' hj' _
          have := hmin j' hj'
          omega)
      have hun := h.unassigned.assign_col (a.lap.free_ a.k) c.j1 (a.lap.v c.j1)
      rw [upd_eq_self] at hpinv hun
      refine ⟨⟨hpinv, hun, ?_, by simp only; omega, by simp only; omega⟩, ?_⟩
      · exact h.freeList.drop a.k c.j1 hposk hj1 hc (by intro p; simp only; omega)
      · omega
    · have hr' : (r : Int) > -1 := by omega
      have hlt := hbig c.j1 hj1
      have hj2' : c.j2 < N ∧ c.j2 ≠ c.j1 ∧ c.usubmin = cost (a.lap.free_ a.k) c.j2 - a.lap.v c.j2 := by
        rcases hj2 with e | e
        · omega
        · exact e
      obtain ⟨hj2N, hj2ne, hj2v⟩ := hj2'
      have hpinv := h.pinv.assign (a.lap.free_ a.k) c.j2 (a.lap.v c.j2)
        hiN hj2N hifree (le_refl _) (by
          intro j' hj' _
          have := hmin j' hj'
          omega)
      have hun := h.unassigned.assign_col (a.lap.free_ a.k) c.j2 (a.lap.v c.j2)
      rw [upd_eq_self] at hpinv hun
      rcases h.pinv.col_range c.j2 hj2N with hc2 | ⟨r2, hr2, hc2⟩
      · have hr : ¬ ((-1 : Int) > -1) := by omega
        simp only [hs, hc, hc2, decide_True, decide_False, Bool.not_false, Bool.true_and,
          if_false, hr, hr', if_true, Bool.false_eq_true]
        refine ⟨⟨hpinv, hun, ?_, by simp only; omega, by simp only; omega⟩, ?_⟩
        · exact h.freeList.drop a.k c.j2 hposk hj2N hc2 (by intro p; simp only; omega)
        · omega
      · have hr2' : (r2 : Int) > -1 := by omega
        simp only [hs, hc, hc2, decide_True, decide_False, Bool.not_false, Bool.true_and,
          if_false, hr', hr2', if_true, Bool.false_eq_true, Int.toNat_ofNat]
        refine ⟨⟨hpinv, hun, ?_, by simp only; omega, by simp only; omega⟩, ?_⟩
        · exact h.freeList.put h.pinv a.k c.j2 a.lap.numfree r2 hposk hj2N hc2
            (by omega) (by intro p; simp only; omega)
        · omega

/-- A step of the augmenting row reduction writes `rowsol` and `colsol` at one index below
`N` each. -/
theorem arrStep_tail (BIG : Int) (N : Nat) (cost : Nat → Nat → Int) (prv : Nat) (a : Arr)
    (hN : 1 ≤ N) (hbig : ScanBelow BIG N cost a) (h : ArrInv N cost prv a) (hk : a.k < prv) :
    SameTail N a.lap (arrStep BIG N cost a).lap := by
  have hposk : (fun p => p < a.lap.numfree ∨ (a.k ≤ p ∧ p < prv)) a.k := Or.inr ⟨le_refl _, hk⟩
  obtain ⟨hiN, hifree⟩ := h.freeList.free a.k hposk
  have hsc := scanRow_spec BIG N cost a.lap.v (a.lap.free_ a.k) a.j2 hN
    (le_of_lt (hbig 0 (by omega)))
  have hsol : ∃ jt : Nat, jt < N ∧
      (arrStep BIG N cost a).lap.rowsol = upd a.lap.rowsol (a.lap.free_ a.k) (jt : Int) ∧
      (arrStep BIG N cost a).lap.colsol = upd a.lap.colsol jt (a.lap.free_ a.k : Int) := by
    simp only [arrStep]
    generalize scanRow BIG N cost a.lap.v (a.lap.free_ a.k) a.j2 = c at hsc ⊢
    obtain ⟨hj1, humin, hmin, hsub, hle, hj2⟩ := hsc
    have hlt := hbig c.j1 hj1
    cases hsw : (!decide (c.umin < c.usubmin) && decide (a.lap.colsol c.j1 > -1))
    rotate_left
    · have hj2N : c.j2 < N := by
        simp only [Bool.and_eq_true, Bool.not_eq_true', decide_eq_false_iff_not,
          decide_eq_true_eq] at hsw
        rcases hj2 with e | e
        · omega
        · exact e.1
      refine ⟨c.j2, hj2N, ?_, ?_⟩ <;> simp only [if_true] <;> split_ifs <;> rfl
    · refine ⟨c.j1, hj1, ?_, ?_⟩ <;> simp only [Bool.false_eq_true, if_false] <;>
        split_ifs <;> rfl
  obtain ⟨jt, hjt, e1, e2⟩ := hsol
  intro i hi
  rw [e1, e2]
  constructor
  · exact upd_other _ _ _ _ (by omega)
  · exact upd_other _ _ _ _ (by omega)

/-- A state reached from the state after a trip is reached from the state before it. -/
theorem ArrReach.head {BIG : Int} {N : Nat} {cost : Nat → Nat → Int} {prv : Nat} {a a' : Arr}
    (hk : a.k < prv) (h : ArrReach BIG N cost prv (arrStep BIG N cost a) a') :
    ArrReach BIG N cost prv a a' := by
  induction h with
  | start => exact ArrReach.step a ArrReach.start hk
  | step b _ hb ih => exact ArrReach.step b ih hb

theorem arrLoop_spec (BIG : Int) (N : Nat) (cost : Nat → Nat → Int) (prv : Nat)
    (hN : 1 ≤ N) :
    ∀ (M : Nat) (a : Arr), ArrInv N cost prv a →
      (∀ a', ArrReach BIG N cost prv a a' → a'.k < prv → ScanBelow BIG N cost a') →
      (prv - a.k) + priceHeight N (-3 * absSum N cost) a.lap.v ≤ M →
      ∃ a', (∀ fuel, M ≤ fuel → arrLoop BIG N cost prv fuel a = some a') ∧
        ArrInv N cost prv a' ∧ a'.k = prv ∧ SameTail N a.lap a'.lap := by
  intro M
  induction M with
  | zero =>
    intro a h _ hM
    have hk : ¬ a.k < prv := by omega
    refine ⟨a, ?_, h, ?_, SameTail.refl N _⟩
    · intro fuel _
      cases fuel <;> simp [arrLoop, hk]
    · have := h.k_le; omega
  | succ M ih =>
    intro a h hbelow hM
    by_cases hk : a.k < prv
    · have hbig := hbelow a ArrReach.start hk
      obtain ⟨hinv, hlt⟩ := arrStep_spec BIG N cost prv a hN hbig h hk
      obtain ⟨a', hrun, hinv', hk', ht⟩ := ih (arrStep BIG N cost a) hinv
        (fun a' hr hk' => hbelow a' (ArrReach.head hk hr) hk') (by omega)
      refine ⟨a', ?_, hinv', hk', (arrStep_tail BIG N cost prv a hN hbig h hk).trans ht⟩
      intro fuel hf
      cases fuel with
      | zero => omega
      | succ f =>
        simp only [arrLoop, hk, if_true]
        exact hrun f (by omega)
    · refine ⟨a, ?_, h, ?_, SameTail.refl N _⟩
      · intro fuel _
        cases fuel <;> simp [arrLoop, hk]
      · have := h.k_le; omega

theorem FreeList.congr {N : Nat} {colsol : Nat → Int} {free_ : Nat → Nat} {pos pos' : Nat → Prop}
    (h : FreeList N colsol free_ pos) (hpos : ∀ p, pos' p ↔ pos p) :
    FreeList N colsol free_ pos' := by
  constructor
  · intro p hp; exact h.free p ((hpos p).mp hp)
  · intro p q hp hq; exact h.inj p q ((hpos p).mp hp) ((hpos q).mp hq)
  · intro i hi hf
    obtain ⟨p, hp, he⟩ := h.all i hi hf
    exact ⟨p, (hpos p).mpr hp, he⟩

/-- A feasible partial assignment whose free rows are listed in `free_[0..numfree)`. -/
theorem arrPass_spec (BIG : Int) (N : Nat) (cost : Nat → Nat → Int)
    (hN : 1 ≤ N) (s : Lap) (j2 : Nat) (hH : PassBelow BIG N cost s j2)
    (hp : PInv N cost s.rowsol s.colsol s.v) (hu : UnassignedPrice N cost s.colsol s.v)
    (hf : FreeList N s.colsol s.free_ (fun p => p < s.numfree)) :
    ∃ (s' : Lap) (j2' M : Nat),
      (∀ fuel, M ≤ fuel → arrPass BIG N cost fuel s j2 = some (s', j2')) ∧
      PInv N cost s'.rowsol s'.colsol s'.v ∧ UnassignedPrice N cost s'.colsol s'.v ∧
      FreeList N s'.colsol s'.free_ (fun p => p < s'.numfree) ∧ SameTail N s s' := by
  have hinv : ArrInv N cost s.numfree { lap := { s with numfree := 0 }, k := 0, j2 := j2 } := by
    refine ⟨hp, hu, ?_, le_refl _, Nat.zero_le _⟩
    exact hf.congr (by intro p; simp)
  obtain ⟨a', hrun, hinv', hk', ht⟩ :=
    arrLoop_spec BIG N cost s.numfree hN _ _ hinv hH (le_refl _)
  refine ⟨a'.lap, a'.j2, (s.numfree - 0) + priceHeight N (-3 * absSum N cost) s.v, ?_,
    hinv'.pinv, hinv'.unassigned, ?_, ht⟩
  · intro fuel hfuel
    unfold arrPass
    rw [hrun fuel hfuel]
    rfl
  · exact hinv'.freeList.congr (by intro p; omega)

theorem augmentingRowReduction_spec (BIG : Int) (N : Nat) (cost : Nat → Nat → Int)
    (hN : 1 ≤ N) (s : Lap) (hH : ArrBelow BIG N cost s)
    (hp : PInv N cost s.rowsol s.colsol s.v) (hu : UnassignedPrice N cost s.colsol s.v)
    (hf : FreeList N s.colsol s.free_ (fun p => p < s.numfree)) :
    ∃ (s' : Lap) (M : Nat),
      (∀ fuel, M ≤ fuel → augmentingRowReduction BIG N cost fuel s = some s') ∧
      PInv N cost s'.rowsol s'.colsol s'.v ∧
      FreeList N s'.colsol s'.free_ (fun p => p < s'.numfree) ∧ SameTail N s s' := by
  obtain ⟨s1, j21, M1, hrun1, hp1, hu1, hf1, ht1⟩ := arrPass_spec BIG N cost hN s 0 hH.1 hp hu hf
  obtain ⟨s2, j22, M2, hrun2, hp2, _, hf2, ht2⟩ :=
    arrPass_spec BIG N cost hN s1 j21 (hH.2 M1 (s1, j21) (hrun1 M1 (le_refl _))) hp1 hu1 hf1
  refine ⟨s2, max M1 M2, ?_, hp2, hf2, ht1.trans ht2⟩
  intro fuel hfuel
  unfold augmentingRowReduction
  rw [hrun1 fuel (le_trans (le_max_left _ _) hfuel)]
  show Option.map _ (arrPass BIG N cost fuel s1 j21) = _
  rw [hrun2 fuel (le_trans (le_max_right _ _) hfuel)]
  rfl

/-- The condition on the row scans, for the state that column reduction and reduction
transfer leave. -/
theorem BelowBig.arr {BIG : Int} {N : Nat} {cost : Nat → Nat → Int} {rowsol colsol v : Nat → Int}
    (h : BelowBig BIG N cost rowsol colsol v) :
    ArrBelow BIG N cost (reductionTransfer BIG N cost (columnReduction N cost
      { rowsol := rowsol, colsol := colsol, v := v, free_ := fun _ => 0, numfree := 0,
        matchCnt := forUp (fun i m => upd m i 0) N 0 (fun _ => 0) })) :=
  h.passes

/-! ### Augmentation: the shortest path search -/

theorem searchInit_fields (N : Nat) (cost : Nat → Nat → Int) (v : Nat → Int) (fr : Nat) :
    let t := searchInit N cost v fr
    (∀ j, j < N → t.d j = cost fr j - v j ∧ t.pred j = fr ∧ t.collist j = j) ∧
    t.low = 0 ∧ t.up = 0 ∧ t.unassignedfound = false := by
  intro t
  have key := forDown_induction (fun j (t : Search) =>
      { t with d := upd t.d j (cost fr j - v j),
               pred := upd t.pred j fr,
               collist := upd t.collist j j })
    (fun j0 t => (∀ j, j0 ≤ j → j < N → t.d j = cost fr j - v j ∧ t.pred j = fr ∧ t.collist j = j) ∧
      t.low = 0 ∧ t.up = 0 ∧ t.unassignedfound = false)
    N { d := fun _ => 0, pred := fun _ => 0, collist := fun _ => 0, low := 0, up := 0,
        last := 0, min_ := 0, endofpath := 0, unassignedfound := false }
    ⟨by intro j h1 h2; omega, rfl, rfl, rfl⟩
    (by
      intro j0 t _ ⟨h1, h2, h3, h4⟩
      refine ⟨?_, h2, h3, h4⟩
      intro j hj hjN
      by_cases e : j = j0
      · subst e; simp [upd]
      · simp only [upd, e, if_false]
        exact h1 j (by omega) hjN)
  obtain ⟨h1, h2, h3, h4⟩ := key
  exact ⟨fun j hj => h1 j (Nat.zero_le _) hj, h2, h3, h4⟩

theorem searchInit_spec (N : Nat) (cost : Nat → Nat → Int) (v colsol : Nat → Int) (fr : Nat) :
    SInv N cost v colsol fr N (searchInit N cost v fr) := by
  obtain ⟨h1, h2, h3, h4⟩ := searchInit_fields N cost v fr
  generalize searchInit N cost v fr = t at h1 h2 h3 h4
  refine ⟨?_, by intro p hp1 hp2; omega, h4⟩
  constructor
  · constructor
    · intro k hk; rw [(h1 k hk).2.2]; exact hk
    · intro k k' hk hk' he; rw [(h1 k hk).2.2, (h1 k' hk').2.2] at he; exact he
    · intro j hj; exact ⟨j, hj, (h1 j hj).2.2⟩
  · omega
  · omega
  · intro p hp; omega
  · intro j hj; rw [(h1 j hj).1]
  · intro p hp1 hp2; omega
  · intro p hp; omega
  · intro h; omega
  · intro h; omega
  · intro p hp
    left
    have := h1 p hp
    rw [this.2.2]
    exact ⟨this.2.1, this.1⟩
  · intro k1 i1 h; omega
  · intro i1 h; omega
  · intro _ h; omega

theorem findUnassigned_spec (colsol : Nat → Int) (collist : Nat → Nat) :
    ∀ (n k : Nat),
      (∀ j, findUnassigned colsol collist n k = some j →
        ∃ p, k ≤ p ∧ p < k + n ∧ collist p = j ∧ colsol j < 0) ∧
      (findUnassigned colsol collist n k = none →
        ∀ p, k ≤ p → p < k + n → ¬ colsol (collist p) < 0) := by
  intro n
  induction n with
  | zero =>
    intro k
    refine ⟨by intro j h; simp [findUnassigned] at h, ?_⟩
    intro _ p h1 h2; omega
  | succ n ih =>
    intro k
    unfold findUnassigned
    by_cases hc : colsol (collist k) < 0
    · rw [if_pos hc]
      refine ⟨?_, by intro h; simp at h⟩
      intro j hj
      have : collist k = j := by simpa using hj
      subst this
      exact ⟨k, le_refl _, by omega, rfl, hc⟩
    · rw [if_neg hc]
      obtain ⟨ih1, ih2⟩ := ih (k + 1)
      refine ⟨?_, ?_⟩
      · intro j hj
        obtain ⟨p, a, b, c, d⟩ := ih1 j hj
        exact ⟨p, by omega, by omega, c, d⟩
      · intro hnone p h1 h2
        by_cases e : p = k
        · subst e; exact hc
        · exact ih2 hnone p (by omega) (by omega)

/-- Exchanging the cells `u` and `k` of a permutation. -/
theorem swap_apply (c : Nat → Nat) (u k p : Nat) :
    upd (upd c k (c u)) u (c k) p = if p = u then c k else if p = k then c u else c p := by
  simp only [upd]

theorem IsPerm.swap {N : Nat} {c : Nat → Nat} (h : IsPerm N c) (u k : Nat) (hu : u < N)
    (hk : k < N) : IsPerm N (upd (upd c k (c u)) u (c k)) := by
  constructor
  · intro p hp
    rw [swap_apply]
    split_ifs
    · exact h.lt k hk
    · exact h.lt u hu
    · exact h.lt p hp
  · intro p q hp hq he
    rw [swap_apply, swap_apply] at he
    split_ifs at he with h1 h2 h3 h4 h5 h6
    · omega
    · have := h.inj k u hk hu he; omega
    · have := h.inj k q hk hq he; omega
    · have := h.inj u k hu hk he; omega
    · omega
    · have := h.inj u q hu hq he; omega
    · have := h.inj p k hp hk he; omega
    · have := h.inj p u hp hu he; omega
    · exact h.inj p q hp hq he
  · intro j hj
    obtain ⟨p, hp, he⟩ := h.surj j hj
    by_cases e1 : p = u
    · exact ⟨k, hk, by rw [swap_apply]; split_ifs with h1 <;> simp_all⟩
    · by_cases e2 : p = k
      · exact ⟨u, hu, by rw [swap_apply]; simp_all⟩
      · exact ⟨p, hp, by rw [swap_apply]; simp_all⟩

theorem SCore.toPost {N : Nat} {cost : Nat → Nat → Int} {v colsol : Nat → Int} {fr kp : Nat}
    {t : Search} (h : SCore N cost v colsol fr kp t) (hup : 0 < t.up) (t' : Search)
    (hd : t'.d = t.d) (hc : t'.collist = t.collist) (hlow : t'.low = t.low)
    (hmin : t'.min_ = t.min_) (hlast : t'.last = t.last)
    (hpred : ∀ p, p < t.low → t'.pred (t.collist p) = t.pred (t.collist p))
    (ke : Nat) (hke1 : t.low ≤ ke) (hke2 : ke < N) (he : t.collist ke = t'.endofpath)
    (hfree : colsol t'.endofpath = -1)
    (hend : PredAt cost v colsol fr t' ke t'.endofpath t.min_)
    (hfound : t'.unassignedfound = true)
    (hrel : kp = N ∨ (0 < t.low → t.d (t.collist (t.low - 1)) = t.min_)) :
    SPost N cost v colsol fr t' := by
  constructor
  · rw [hc]; exact h.perm
  · rw [hlow]; have := h.low_le; have := h.up_le; omega
  · intro p hp; rw [hlow] at hp; rw [hc]; exact h.assigned p hp
  · intro j hj; rw [hd]; exact h.d_le j hj
  · intro p hp; rw [hlow] at hp; rw [hd, hc, hmin]; exact h.d_ready p hp
  · intro p hp1 hp2
    rw [hlow] at hp1
    rw [hd, hc, hmin]
    by_cases e : p < t.up
    · exact le_of_eq (h.d_todo p hp1 e).symm
    · exact h.d_rest hup p (by omega) hp2
  · rw [hlast, hlow, hd, hc, hmin]; exact h.last_ok hup
  · intro p hp
    rw [hlow] at hp
    have := h.pred_ok p (by have := h.low_le; have := h.up_le; omega)
    unfold PredAt at this ⊢
    rw [hd, hc, hlow, hpred p hp]
    exact this
  · exact ⟨ke, by omega, hke2, by rw [hc]; exact he, by rw [hmin]; exact hend⟩
  · exact hfree
  · intro k1 i1 hk1 hcol
    rw [hlow] at hk1
    rw [hc] at hcol
    rw [hd, hc, hmin]
    by_cases e : k1 + 1 < t.low
    · exact Or.inr (h.relaxed k1 i1 e hcol)
    · have e1 : k1 = t.low - 1 := by omega
      subst e1
      rcases hrel with hr | hr
      · right
        intro j hj
        obtain ⟨p, hp, hpj⟩ := h.perm.surj j hj
        have := h.relaxed_upto i1 (by omega) hcol p (by omega)
        rw [hpj] at this
        exact this
      · exact Or.inl (hr (by omega))
  · exact hfound

theorem minScanStep_spec (N : Nat) (t0 : Search) (k : Nat) (t : Search) (hk : k < N)
    (h : MInv N t0 k t) : MInv N t0 (k + 1) (minScanStep k t) := by
  unfold minScanStep
  simp only
  have hlow := h.low_eq
  have hup := h.up_le
  have hlt := h.low_lt
  by_cases h1 : t.d (t.collist k) ≤ t.min_
  · rw [if_pos h1]
    by_cases h2 : t.d (t.collist k) < t.min_
    · -- new minimum: the list restarts at `low`
      simp only [h2, if_true]
      have hsw := swap_apply t.collist t.low k
      constructor
      · exact h.perm.swap t.low k (by omega) hk
      · exact hlow
      · simp only; omega
      · simp only; omega
      · omega
      · exact h.d_eq
      · exact h.pred_eq
      · exact h.last_eq
      · exact h.found_eq
      · intro p hp
        simp only [hsw]
        rw [if_neg (by omega), if_neg (by omega)]
        exact h.front p hp
      · intro p hp1 hp2
        simp only [hsw]
        split_ifs
        · exact h.colset k (by omega) hk
        · exact h.colset t.low (by omega) (by omega)
        · exact h.colset p hp1 hp2
      · intro p hp1 hp2
        simp only at hp2 ⊢
        have : p = t.low := by omega
        subst this
        rw [hsw]; simp
      · intro p hp1 hp2
        simp only at hp1 ⊢
        rw [hsw, if_neg (by omega)]
        split_ifs with e
        · have := h.d_todo t.low (by omega) (by omega)
          omega
        · by_cases e2 : p < t.up
          · have := h.d_todo p (by omega) e2
            omega
          · have := h.strict p (by omega) (by omega)
            omega
    · -- another column at the current minimum
      simp only [h2, if_false]
      have heq : t.d (t.collist k) = t.min_ := by omega
      have hsw := swap_apply t.collist t.up k
      constructor
      · exact h.perm.swap t.up k (by omega) hk
      · exact hlow
      · simp only; omega
      · simp only; omega
      · omega
      · exact h.d_eq
      · exact h.pred_eq
      · exact h.last_eq
      · exact h.found_eq
      · intro p hp
        simp only [hsw]
        rw [if_neg (by omega), if_neg (by omega)]
        exact h.front p hp
      · intro p hp1 hp2
        simp only [hsw]
        split_ifs
        · exact h.colset k (by omega) hk
        · exact h.colset t.up (by omega) (by omega)
        · exact h.colset p hp1 hp2
      · intro p hp1 hp2
        simp only at hp2 ⊢
        rw [hsw]
        split_ifs with e1 e2
        · exact heq
        · omega
        · exact h.d_todo p hp1 (by omega)
      · intro p hp1 hp2
        simp only at hp1 ⊢
        rw [hsw, if_neg (by omega)]
        split_ifs with e
        · exact h.strict t.up (le_refl _) (by omega)
        · exact h.strict p (by omega) (by omega)
  · rw [if_neg h1]
    constructor
    · exact h.perm
    · exact hlow
    · exact hlt
    · omega
    · omega
    · exact h.d_eq
    · exact h.pred_eq
    · exact h.last_eq
    · exact h.found_eq
    · exact h.front
    · exact h.colset
    · exact h.d_todo
    · intro p hp1 hp2
      by_cases e : p = k
      · subst e; omega
      · exact h.strict p hp1 (by omega)

theorem MInv.toCore {N : Nat} {cost : Nat → Nat → Int} {v colsol : Nat → Int} {fr : Nat}
    {t0 t : Search} (h0 : SCore N cost v colsol fr N t0) (heq : t0.up = t0.low)
    (h : MInv N t0 N t) : SCore N cost v colsol fr N t := by
  have hlow := h.low_eq
  have hd := h.d_eq
  have hpr := h.pred_eq
  have hcol : ∀ p, p < N → ∃ q, q < N ∧ (p < t0.low → q = p) ∧ (t0.low ≤ p → t0.low ≤ q) ∧
      t.collist p = t0.collist q := by
    intro p hp
    by_cases e : p < t0.low
    · exact ⟨p, hp, fun _ => rfl, fun _ => by omega, h.front p e⟩
    · obtain ⟨q, a, b, c⟩ := h.colset p (by omega) hp
      exact ⟨q, b, fun _ => by omega, fun _ => a, c⟩
  have hmin : 0 < t0.low → t0.min_ ≤ t.min_ := by
    intro hpos
    have a := h.d_todo t0.low (le_refl _) h.low_lt
    obtain ⟨q, b, c, e⟩ := h.colset t0.low (le_refl _) (by have := h.up_le; have := h.low_lt; omega)
    have := h0.d_rest (by omega) q (by omega) c
    rw [hd, e] at a
    omega
  constructor
  · exact h.perm
  · have := h.low_lt; omega
  · exact h.up_le
  · intro p hp
    rw [hlow] at hp
    rw [h.front p hp]
    exact h0.assigned p hp
  · intro j hj; rw [hd]; exact h0.d_le j hj
  · intro p hp1 hp2
    rw [hlow] at hp1
    exact h.d_todo p hp1 hp2
  · intro p hp
    rw [hlow] at hp
    rw [h.front p hp, hd]
    have := h0.d_ready p hp
    have := hmin (by omega)
    omega
  · intro _ p hp1 hp2
    exact le_of_lt (h.strict p hp1 hp2)
  · intro _
    rw [h.last_eq, hlow]
    refine ⟨by omega, by omega, ?_⟩
    intro p hp1 hp2
    omega
  · intro p hp
    obtain ⟨q, hq, hq1, hq2, hqe⟩ := hcol p hp
    have := h0.pred_ok q hq
    unfold PredAt at this ⊢
    rw [hd, hpr, hlow, hqe]
    rcases this with a | ⟨k1, i1, a, b, c, e, f⟩
    · exact Or.inl a
    · right
      refine ⟨k1, i1, ?_, b, ?_, e, ?_⟩
      · by_cases e' : p < t0.low
        · have := hq1 e'; omega
        · omega
      · rw [h.front k1 b]; exact c
      · rw [h.front k1 b]; exact f
  · intro k1 i1 hk1 hc j hj
    rw [hlow] at hk1
    rw [h.front k1 (by omega)] at hc ⊢
    rw [hd]
    exact h0.relaxed k1 i1 hk1 hc j hj
  · intro i1 hpos hc p hp
    rw [hlow] at hpos hc ⊢
    rw [h.front (t0.low - 1) (by omega)] at hc ⊢
    obtain ⟨q, hq, _, _, hqe⟩ := hcol p hp
    rw [hqe, hd]
    exact h0.relaxed_upto i1 hpos hc q hq
  · intro hlt; omega

theorem minScan_spec (N : Nat) (cost : Nat → Nat → Int) (rowsol colsol v : Nat → Int) (fr : Nat)
    (t : Search) (hp : PInv N cost rowsol colsol v) (hs : SInv N cost v colsol fr N t)
    (heq : t.up = t.low) (hlt : t.up < N) :
    ((minScan N colsol t).unassignedfound = true ∧ SPost N cost v colsol fr (minScan N colsol t)) ∨
    ((minScan N colsol t).unassignedfound = false ∧ SInv N cost v colsol fr N (minScan N colsol t) ∧
      (minScan N colsol t).low = t.low ∧ (minScan N colsol t).low < (minScan N colsol t).up) := by
  have hinit : MInv N t (t.up + 1)
      { t with last := (t.low : Int) - 1, min_ := t.d (t.collist t.up), up := t.up + 1 } := by
    constructor
    · exact hs.core.perm
    · rfl
    · simp only; omega
    · exact le_refl _
    · omega
    · rfl
    · rfl
    · rfl
    · rfl
    · intro p _; rfl
    · intro p hp1 hp2; exact ⟨p, hp1, hp2, rfl⟩
    · intro p hp1 hp2
      simp only at hp2 ⊢
      have : p = t.up := by omega
      subst this; rfl
    · intro p hp1 hp2
      simp only at hp1
      omega
  have hloop := forUp_induction minScanStep (fun k s => MInv N t k s) (N - (t.up + 1)) (t.up + 1)
    _ hinit (fun k s _ hk h => minScanStep_spec N t k s (by omega) h)
  have hN : t.up + 1 + (N - (t.up + 1)) = N := by omega
  rw [hN] at hloop
  have hcore := MInv.toCore hs.core heq hloop
  unfold minScan
  simp only
  generalize forUp minScanStep (N - (t.up + 1)) (t.up + 1)
    { t with last := (t.low : Int) - 1, min_ := t.d (t.collist t.up), up := t.up + 1 } = t2
    at hloop hcore ⊢
  obtain ⟨hf1, hf2⟩ := findUnassigned_spec colsol t2.collist (t2.up - t2.low) t2.low
  cases hfu : findUnassigned colsol t2.collist (t2.up - t2.low) t2.low with
  | some j =>
    left
    simp only
    refine ⟨trivial, ?_⟩
    obtain ⟨ke, hk1, hk2, hk3, hk4⟩ := hf1 j hfu
    have hup := hcore.up_le
    have hjN : j < N := by rw [← hk3]; exact hcore.perm.lt ke (by omega)
    have hfree : colsol j = -1 := by
      rcases hp.col_range j hjN with a | ⟨i, _, a⟩ <;> omega
    have hpk := hcore.pred_ok ke (by omega)
    have hdk := hcore.d_todo ke hk1 (by omega)
    rw [hk3] at hpk hdk
    rw [hdk] at hpk
    exact hcore.toPost (by have := hcore.low_le; omega)
      { t2 with endofpath := j, unassignedfound := true } rfl rfl rfl rfl rfl (fun _ _ => rfl) ke
      hk1 (by omega) hk3 hfree hpk rfl (Or.inl rfl)
  | none =>
    right
    simp only
    refine ⟨?_, ⟨hcore, ?_, ?_⟩, hloop.low_eq, ?_⟩
    · rw [hloop.found_eq]; exact hs.not_found
    · intro p hp1 hp2
      have := hf2 hfu p hp1 (by omega)
      rcases hp.col_range (t2.collist p) (hcore.perm.lt p (by have := hcore.up_le; omega))
        with a | a
      · omega
      · exact a
    · rw [hloop.found_eq]; exact hs.not_found
    · rw [hloop.low_eq]; exact hloop.low_lt

/-- Relaxation, a column whose distance does not improve. -/
theorem SInv.relax_keep {N : Nat} {cost : Nat → Nat → Int} {v colsol : Nat → Int} {fr k : Nat}
    {t : Search} (h : SInv N cost v colsol fr k t) (hk : k < N) (i1 : Nat)
    (hcol : colsol (t.collist (t.low - 1)) = (i1 : Int))
    (hb : t.d (t.collist k) ≤ t.d (t.collist (t.low - 1)) +
      (cost i1 (t.collist k) - v (t.collist k)) -
      (cost i1 (t.collist (t.low - 1)) - v (t.collist (t.low - 1)))) :
    SInv N cost v colsol fr (k + 1) t := by
  refine ⟨?_, h.todo, h.not_found⟩
  have hc := h.core
  constructor
  · exact hc.perm
  · exact hc.low_le
  · exact hc.up_le
  · exact hc.assigned
  · exact hc.d_le
  · exact hc.d_todo
  · exact hc.d_ready
  · exact hc.d_rest
  · exact hc.last_ok
  · exact hc.pred_ok
  · exact hc.relaxed
  · intro i1' hpos hcol' p hp
    by_cases e : p = k
    · subst e
      have : i1' = i1 := by rw [hcol] at hcol'; omega
      subst this
      exact hb
    · exact hc.relaxed_upto i1' hpos hcol' p (by omega)
  · intro _ hpos; exact hc.cur_min hk hpos

/-- Relaxation, a column whose distance improves. -/
theorem SInv.relax_update {N : Nat} {cost : Nat → Nat → Int} {v colsol : Nat → Int} {fr k : Nat}
    {t : Search} (h : SInv N cost v colsol fr k t) (hk : k < N) (hup : t.up ≤ k) (i1 : Nat)
    (hlow : 0 < t.low) (hcol : colsol (t.collist (t.low - 1)) = (i1 : Int)) (v2 : Int)
    (hv2 : v2 = t.d (t.collist (t.low - 1)) +
      (cost i1 (t.collist k) - v (t.collist k)) -
      (cost i1 (t.collist (t.low - 1)) - v (t.collist (t.low - 1))))
    (hmin : t.min_ ≤ v2) (hlt : v2 < t.d (t.collist k)) :
    SInv N cost v colsol fr (k + 1)
      { t with pred := upd t.pred (t.collist k) i1, d := upd t.d (t.collist k) v2 } := by
  have hc := h.core
  have hle := hc.low_le
  have hne : ∀ p, p < N → p ≠ k → t.collist p ≠ t.collist k := by
    intro p hp e he
    exact e (hc.perm.inj p k hp hk he)
  have hd : ∀ p, p < N → p ≠ k → upd t.d (t.collist k) v2 (t.collist p) = t.d (t.collist p) := by
    intro p hp e
    exact upd_other _ _ _ _ (hne p hp e)
  have hpr : ∀ p, p < N → p ≠ k →
      upd t.pred (t.collist k) i1 (t.collist p) = t.pred (t.collist p) := by
    intro p hp e
    exact upd_other _ _ _ _ (hne p hp e)
  refine ⟨?_, h.todo, h.not_found⟩
  constructor
  · exact hc.perm
  · exact hc.low_le
  · exact hc.up_le
  · exact hc.assigned
  · intro j hj
    simp only
    by_cases e : j = t.collist k
    · subst e
      rw [upd_same]
      have := hc.d_le (t.collist k) hj
      omega
    · rw [upd_other _ _ _ _ e]; exact hc.d_le j hj
  · intro p hp1 hp2
    simp only at hp1 hp2 ⊢
    rw [hd p (by omega) (by omega)]
    exact hc.d_todo p hp1 hp2
  · intro p hp
    simp only at hp ⊢
    rw [hd p (by omega) (by omega)]
    exact hc.d_ready p hp
  · intro hpos p hp1 hp2
    simp only at hp1 ⊢
    by_cases e : p = k
    · subst e; rw [upd_same]; exact hmin
    · rw [hd p hp2 e]; exact hc.d_rest hpos p hp1 hp2
  · intro hpos
    obtain ⟨a, b, c⟩ := hc.last_ok hpos
    refine ⟨a, b, ?_⟩
    intro p hp1 hp2
    simp only at hp2 ⊢
    rw [hd p (by omega) (by omega)]
    exact c p hp1 hp2
  · intro p hp
    unfold PredAt
    simp only
    by_cases e : p = k
    · subst e
      right
      refine ⟨t.low - 1, i1, by omega, by omega, hcol, by rw [upd_same], ?_⟩
      rw [upd_same, hd (t.low - 1) (by omega) (by omega)]
      exact hv2
    · rw [hd p hp e, hpr p hp e]
      rcases hc.pred_ok p hp with a | ⟨k1, i1', a, b, c, e1, f⟩
      · exact Or.inl a
      · right
        refine ⟨k1, i1', a, b, c, e1, ?_⟩
        rw [hd k1 (by omega) (by omega)]
        exact f
  · intro k1 i1' hk1 hc1 j hj
    simp only at hk1 hc1 ⊢
    rw [hd k1 (by omega) (by omega)]
    have := hc.relaxed k1 i1' hk1 hc1 j hj
    by_cases e : j = t.collist k
    · subst e; rw [upd_same]; omega
    · rw [upd_other _ _ _ _ e]; exact this
  · intro i1' hpos hcol' p hp
    simp only at hpos hcol' ⊢
    rw [hd (t.low - 1) (by omega) (by omega)]
    have : i1' = i1 := by rw [hcol] at hcol'; omega
    subst this
    by_cases e : p = k
    · subst e
      rw [upd_same]
      omega
    · rw [hd p (by omega) e]
      exact hc.relaxed_upto i1' hpos hcol' p (by omega)
  · intro _ hpos
    simp only at hpos ⊢
    rw [hd (t.low - 1) (by omega) (by omega)]
    exact hc.cur_min hk hpos

/-- Relaxation, a column at the current minimum joins the list of columns to scan. -/
theorem SInv.relax_enlist {N : Nat} {cost : Nat → Nat → Int} {v colsol : Nat → Int} {fr k : Nat}
    {t : Search} (h : SInv N cost v colsol fr (k + 1) t) (hk : k < N) (hup : t.up ≤ k)
    (hlow : 0 < t.low) (hdk : t.d (t.collist k) = t.min_)
    (has : ∃ i, i < N ∧ colsol (t.collist k) = (i : Int)) :
    SInv N cost v colsol fr (k + 1)
      { t with collist := upd (upd t.collist k (t.collist t.up)) t.up (t.collist k),
               up := t.up + 1 } := by
  have hc := h.core
  have hle := hc.low_le
  have hup0 : 0 < t.up := by omega
  have hsw := swap_apply t.collist t.up k
  have hfront : ∀ p, p < t.up →
      upd (upd t.collist k (t.collist t.up)) t.up (t.collist k) p = t.collist p := by
    intro p hp
    rw [hsw, if_neg (by omega), if_neg (by omega)]
  have hat : ∀ p, p < k + 1 → ∃ q, q < k + 1 ∧ (p < t.up → q = p) ∧ (t.up ≤ p → t.up ≤ q) ∧
      upd (upd t.collist k (t.collist t.up)) t.up (t.collist k) p = t.collist q := by
    intro p hp
    rw [hsw]
    split_ifs with e1 e2
    · exact ⟨k, by omega, by omega, by omega, rfl⟩
    · exact ⟨t.up, by omega, by omega, by omega, rfl⟩
    · exact ⟨p, hp, by omega, by omega, rfl⟩
  refine ⟨?_, ?_, h.not_found⟩
  constructor
  · exact hc.perm.swap t.up k (by omega) hk
  · simp only; omega
  · simp only; omega
  · intro p hp
    simp only at hp ⊢
    rw [hfront p (by omega)]
    exact hc.assigned p hp
  · exact hc.d_le
  · intro p hp1 hp2
    simp only at hp1 hp2 ⊢
    by_cases e : p = t.up
    · subst e
      rw [hsw, if_pos rfl]
      exact hdk
    · rw [hfront p (by omega)]
      exact hc.d_todo p hp1 (by omega)
  · intro p hp
    simp only at hp ⊢
    rw [hfront p (by omega)]
    exact hc.d_ready p hp
  · intro _ p hp1 hp2
    simp only at hp1 ⊢
    rw [hsw, if_neg (by omega)]
    split_ifs with e
    · exact hc.d_rest hup0 t.up (le_refl _) (by omega)
    · exact hc.d_rest hup0 p (by omega) hp2
  · intro _
    obtain ⟨a, b, c⟩ := hc.last_ok hup0
    refine ⟨a, b, ?_⟩
    intro p hp1 hp2
    simp only at hp2 ⊢
    rw [hfront p (by omega)]
    exact c p hp1 hp2
  · intro p hp
    unfold PredAt
    simp only
    have hconv : ∀ q, q < N → (q < t.up → q = p) → (t.up ≤ q → t.up ≤ p) →
        PredAt cost v colsol fr t q (t.collist q) (t.d (t.collist q)) →
        (t.pred (t.collist q) = fr ∧ t.d (t.collist q) = cost fr (t.collist q) - v (t.collist q)) ∨
        ∃ k1 i1 : Nat, k1 < p ∧ k1 < t.low ∧
          colsol (upd (upd t.collist k (t.collist t.up)) t.up (t.collist k) k1) = (i1 : Int) ∧
          t.pred (t.collist q) = i1 ∧
          t.d (t.collist q) = t.d (upd (upd t.collist k (t.collist t.up)) t.up (t.collist k) k1) +
            (cost i1 (t.collist q) - v (t.collist q)) -
            (cost i1 (upd (upd t.collist k (t.collist t.up)) t.up (t.collist k) k1) -
              v (upd (upd t.collist k (t.collist t.up)) t.up (t.collist k) k1)) := by
      intro q hq h1 h2 hpa
      rcases hpa with a | ⟨k1, i1, a, b, c, e1, f⟩
      · exact Or.inl a
      · right
        refine ⟨k1, i1, ?_, b, ?_, e1, ?_⟩
        · by_cases e : q < t.up
          · have := h1 e; omega
          · have := h2 (by omega); omega
        · rw [hfront k1 (by omega)]; exact c
        · rw [hfront k1 (by omega)]; exact f
    by_cases e1 : p = t.up
    · subst e1
      rw [hsw, if_pos rfl]
      exact hconv k hk (by omega) (by omega) (hc.pred_ok k hk)
    · by_cases e2 : p = k
      · subst e2
        rw [hsw, if_neg e1, if_pos rfl]
        exact hconv t.up (by omega) (by omega) (by omega) (hc.pred_ok t.up (by omega))
      · rw [hsw, if_neg e1, if_neg e2]
        exact hconv p hp (by omega) (by omega) (hc.pred_ok p hp)
  · intro k1 i1 hk1 hc1 j hj
    simp only at hk1 hc1 ⊢
    rw [hfront k1 (by omega)] at hc1 ⊢
    exact hc.relaxed k1 i1 hk1 hc1 j hj
  · intro i1 hpos hcol p hp
    simp only at hpos hcol ⊢
    rw [hfront (t.low - 1) (by omega)] at hcol ⊢
    obtain ⟨q, hq, _, _, hqe⟩ := hat p hp
    rw [hqe]
    exact hc.relaxed_upto i1 hpos hcol q hq
  · intro hlt hpos
    simp only at hpos ⊢
    rw [hfront (t.low - 1) (by omega)]
    exact hc.cur_min hlt hpos
  · intro p hp1 hp2
    simp only at hp1 hp2 ⊢
    by_cases e : p = t.up
    · subst e
      rw [hsw, if_pos rfl]
      exact has
    · rw [hfront p (by omega)]
      exact h.todo p hp1 (by omega)

theorem relax_spec (N : Nat) (cost : Nat → Nat → Int) (rowsol colsol v : Nat → Int) (fr : Nat)
    (hp : PInv N cost rowsol colsol v) (i1 : Nat) (h : Int) :
    ∀ (n k : Nat) (t : Search), SInv N cost v colsol fr k t → k + n = N → t.up ≤ k →
      0 < t.low → colsol (t.collist (t.low - 1)) = (i1 : Int) →
      h = cost i1 (t.collist (t.low - 1)) - v (t.collist (t.low - 1)) - t.min_ →
      ((relax cost v colsol i1 h n k t).unassignedfound = true ∧
        SPost N cost v colsol fr (relax cost v colsol i1 h n k t)) ∨
      ((relax cost v colsol i1 h n k t).unassignedfound = false ∧
        SInv N cost v colsol fr N (relax cost v colsol i1 h n k t) ∧
        (relax cost v colsol i1 h n k t).low = t.low) := by
  intro n
  induction n with
  | zero =>
    intro k t hs hkn _ _ _ _
    have : k = N := by omega
    subst this
    right
    exact ⟨hs.not_found, hs, rfl⟩
  | succ n ih =>
    intro k t hs hkn hup hlow hcol hh
    have hk : k < N := by omega
    have hc := hs.core
    have hle := hc.low_le
    have hcm := hc.cur_min hk hlow
    have hjN := hc.perm.lt k hk
    have hj1N := hc.perm.lt (t.low - 1) (by omega)
    have hdual := hp.dual i1 (t.collist (t.low - 1)) hj1N hcol (t.collist k) hjN
    unfold relax
    simp only
    by_cases h1 : cost i1 (t.collist k) - v (t.collist k) - h < t.d (t.collist k)
    · rw [if_pos h1]
      by_cases h2 : cost i1 (t.collist k) - v (t.collist k) - h = t.min_
      · rw [if_pos h2]
        by_cases h3 : colsol (t.collist k) < 0
        · rw [if_pos h3]
          left
          refine ⟨rfl, ?_⟩
          have hfree : colsol (t.collist k) = -1 := by
            rcases hp.col_range (t.collist k) hjN with a | ⟨i, _, a⟩ <;> omega
          refine hc.toPost (by omega)
            { t with pred := upd t.pred (t.collist k) i1, endofpath := t.collist k,
                     unassignedfound := true }
            rfl rfl rfl rfl rfl ?_ k (by omega) hk rfl hfree ?_ rfl (Or.inr (fun _ => hcm))
          · intro p hp'
            apply upd_other
            intro he
            have := hc.perm.inj p k (by omega) hk he
            omega
          · right
            refine ⟨t.low - 1, i1, by omega, by simp only; omega, hcol, by simp [upd], ?_⟩
            simp only
            omega
        · rw [if_neg h3]
          have hu := hs.relax_update hk hup i1 hlow hcol
            (cost i1 (t.collist k) - v (t.collist k) - h) (by omega) (by omega) h1
          have has : ∃ i, i < N ∧ colsol (t.collist k) = (i : Int) := by
            rcases hp.col_range (t.collist k) hjN with a | a
            · omega
            · exact a
          have he := hu.relax_enlist hk hup hlow (by simp only [upd_same]; exact h2) has
          have hfront : upd (upd t.collist k (t.collist t.up)) t.up (t.collist k) (t.low - 1)
              = t.collist (t.low - 1) := by
            rw [swap_apply, if_neg (by omega), if_neg (by omega)]
          exact ih (k + 1) _ he (by omega) (by simp only; omega) hlow
            (by simp only; rw [hfront]; exact hcol) (by simp only; rw [hfront]; exact hh)
      · rw [if_neg h2]
        have hu := hs.relax_update hk hup i1 hlow hcol
          (cost i1 (t.collist k) - v (t.collist k) - h) (by omega) (by omega) h1
        exact ih (k + 1) _ hu (by omega) (by simp only; omega) hlow hcol hh
    · rw [if_neg h1]
      have hu := hs.relax_keep hk i1 hcol (by omega)
      exact ih (k + 1) _ hu (by omega) (by omega) hlow hcol hh

theorem scanColumn_spec (N : Nat) (cost : Nat → Nat → Int) (rowsol colsol v : Nat → Int)
    (fr : Nat) (hp : PInv N cost rowsol colsol v) (t : Search)
    (hs : SInv N cost v colsol fr N t) (hlt : t.low < t.up) :
    ((scanColumn N cost v colsol t).unassignedfound = true ∧
      SPost N cost v colsol fr (scanColumn N cost v colsol t)) ∨
    ((scanColumn N cost v colsol t).unassignedfound = false ∧
      SInv N cost v colsol fr N (scanColumn N cost v colsol t) ∧
      (scanColumn N cost v colsol t).low = t.low + 1) := by
  have hc := hs.core
  have hupN := hc.up_le
  obtain ⟨i1, hi1, hcol⟩ := hs.todo t.low (le_refl _) hlt
  have htn : (colsol (t.collist t.low)).toNat = i1 := by omega
  have hd0 := hc.d_todo t.low (le_refl _) hlt
  have hup0 : 0 < t.up := by omega
  -- the state once `low` is advanced: relaxed against the positions below `up`
  have hs1 : SInv N cost v colsol fr t.up { t with low := t.low + 1 } := by
    refine ⟨?_, ?_, hs.not_found⟩
    constructor
    · exact hc.perm
    · simp only; omega
    · exact hc.up_le
    · intro p hp'
      simp only at hp' ⊢
      by_cases e : p < t.low
      · exact hc.assigned p e
      · exact hs.todo p (by omega) (by omega)
    · exact hc.d_le
    · intro p hp1 hp2
      simp only at hp1 hp2 ⊢
      exact hc.d_todo p (by omega) hp2
    · intro p hp'
      simp only at hp' ⊢
      by_cases e : p < t.low
      · exact hc.d_ready p e
      · exact le_of_eq (hc.d_todo p (by omega) (by omega))
    · exact hc.d_rest
    · intro _
      obtain ⟨a, b, c⟩ := hc.last_ok hup0
      refine ⟨a, by simp only; omega, ?_⟩
      intro p hp1 hp2
      simp only at hp2 ⊢
      by_cases e : p < t.low
      · exact c p hp1 e
      · exact hc.d_todo p (by omega) (by omega)
    · intro p hp'
      rcases hc.pred_ok p hp' with a | ⟨k1, i1', a, b, c, e1, f⟩
      · exact Or.inl a
      · exact Or.inr ⟨k1, i1', a, by simp only; omega, c, e1, f⟩
    · intro k1 i1' hk1 hc1 j hj
      simp only at hk1 hc1 ⊢
      by_cases e : k1 + 1 < t.low
      · exact hc.relaxed k1 i1' e hc1 j hj
      · have e1 : k1 = t.low - 1 := by omega
        subst e1
        obtain ⟨p, hp', hpj⟩ := hc.perm.surj j hj
        have := hc.relaxed_upto i1' (by omega) hc1 p hp'
        rw [hpj] at this
        exact this
    · intro i1' _ hcol' p hp'
      simp only [Nat.add_sub_cancel] at hcol' ⊢
      have : i1' = i1 := by rw [hcol] at hcol'; omega
      subst this
      have hpN : p < N := by omega
      have hdual := hp.dual i1' (t.collist t.low) (hc.perm.lt t.low (by omega)) hcol
        (t.collist p) (hc.perm.lt p hpN)
      by_cases e : p < t.low
      · have := hc.d_ready p e
        omega
      · have := hc.d_todo p (by omega) hp'
        omega
    · intro _ _
      simp only [Nat.add_sub_cancel]
      exact hd0
    · intro p hp1 hp2
      simp only at hp1 hp2 ⊢
      exact hs.todo p (by omega) hp2
  unfold scanColumn
  simp only [htn]
  have := relax_spec N cost rowsol colsol v fr hp i1
    (cost i1 (t.collist t.low) - v (t.collist t.low) - t.min_) (N - t.up) t.up
    { t with low := t.low + 1 } hs1 (by omega) (le_refl _) (by simp)
    (by simp only [Nat.add_sub_cancel]; exact hcol) (by simp only [Nat.add_sub_cancel])
  exact this

theorem SInv.low_lt {N : Nat} {cost : Nat → Nat → Int} {rowsol colsol v : Nat → Int} {fr kp : Nat}
    {t : Search} (hs : SInv N cost v colsol fr kp t) (hp : PInv N cost rowsol colsol v)
    (hfr : fr < N) (hfree : RowFree N colsol fr) : t.low < N := by
  by_contra hge
  have h1 := hs.core.low_le
  have h2 := hs.core.up_le
  obtain ⟨j, hj, hcj⟩ := hp.exists_unassigned hfr hfree
  obtain ⟨p, hpN, hpj⟩ := hs.core.perm.surj j hj
  obtain ⟨i, _, hi⟩ := hs.core.assigned p (by omega)
  rw [hpj, hcj] at hi
  omega

theorem searchStep_spec (N : Nat) (cost : Nat → Nat → Int) (rowsol colsol v : Nat → Int)
    (fr : Nat) (hp : PInv N cost rowsol colsol v) (hfr : fr < N) (hfree : RowFree N colsol fr)
    (t : Search) (hs : SInv N cost v colsol fr N t) :
    ((searchStep N cost v colsol t).unassignedfound = true ∧
      SPost N cost v colsol fr (searchStep N cost v colsol t)) ∨
    ((searchStep N cost v colsol t).unassignedfound = false ∧
      SInv N cost v colsol fr N (searchStep N cost v colsol t) ∧
      (searchStep N cost v colsol t).low = t.low + 1) := by
  have hlowN := hs.low_lt hp hfr hfree
  have hle := hs.core.low_le
  unfold searchStep
  simp only
  by_cases he : t.up = t.low
  · rw [if_pos he]
    rcases minScan_spec N cost rowsol colsol v fr t hp hs he (by omega) with
      ⟨hf, hpost⟩ | ⟨hf, hs', hl, hlt⟩
    · left
      simp only [hf, Bool.not_true, Bool.false_eq_true, if_false]
      exact ⟨trivial, hpost⟩
    · simp only [hf, Bool.not_false, if_true]
      have := scanColumn_spec N cost rowsol colsol v fr hp _ hs' hlt
      rw [hl] at this
      exact this
  · rw [if_neg he]
    simp only [hs.not_found, Bool.not_false, if_true]
    exact scanColumn_spec N cost rowsol colsol v fr hp t hs (by omega)

theorem searchLoop_spec (N : Nat) (cost : Nat → Nat → Int) (rowsol colsol v : Nat → Int)
    (fr : Nat) (hp : PInv N cost rowsol colsol v) (hfr : fr < N) (hfree : RowFree N colsol fr) :
    ∀ (M : Nat) (t : Search), SInv N cost v colsol fr N t → N - t.low ≤ M →
      ∃ t', (∀ fuel, M ≤ fuel → searchLoop N cost v colsol fuel t = some t') ∧
        SPost N cost v colsol fr t' := by
  intro M
  induction M with
  | zero =>
    intro t hs hM
    have := hs.low_lt hp hfr hfree
    omega
  | succ M ih =>
    intro t hs hM
    rcases searchStep_spec N cost rowsol colsol v fr hp hfr hfree t hs with
      ⟨hf, hpost⟩ | ⟨hf, hs', hl⟩
    · refine ⟨searchStep N cost v colsol t, ?_, hpost⟩
      intro fuel hfuel
      cases fuel with
      | zero => omega
      | succ f => simp [searchLoop, hf]
    · obtain ⟨t', hrun, hpost⟩ := ih _ hs' (by omega)
      refine ⟨t', ?_, hpost⟩
      intro fuel hfuel
      cases fuel with
      | zero => omega
      | succ f =>
        simp only [searchLoop, hf, Bool.not_false, if_true]
        exact hrun f (by omega)

/-- The search of an augmentation ends, with an unassigned column reached. -/
theorem search_spec (N : Nat) (cost : Nat → Nat → Int) (rowsol colsol v : Nat → Int)
    (fr : Nat) (hp : PInv N cost rowsol colsol v) (hfr : fr < N) (hfree : RowFree N colsol fr) :
    ∃ t', (∀ fuel, N ≤ fuel →
        searchLoop N cost v colsol fuel (searchInit N cost v fr) = some t') ∧
      SPost N cost v colsol fr t' :=
  searchLoop_spec N cost rowsol colsol v fr hp hfr hfree N _
    (searchInit_spec N cost v colsol fr) (Nat.sub_le _ _)

/-! ### Augmentation: path flip and price update -/

theorem flipPath_spec (N : Nat) (rowsol colsol : Nat → Int) (c : Nat → Nat) (low ke : Nat)
    (pred : Nat → Nat) (fr : Nat) (G : Nat → Nat → Prop)
    (hx : FlipCtx N rowsol colsol c low ke pred fr G) :
    ∀ (k : Nat) (rs cs : Nat → Int), k < N → (k < low ∨ k = ke) →
      FlipInv N rowsol colsol c low G k rs cs →
      ∃ rs' cs', (∀ fuel, k + 1 ≤ fuel →
          flipPath pred fr fuel (rs, cs, (c k : Int)) = some (rs', cs')) ∧
        FlipPost N colsol fr G rs' cs' ∧
        (∀ i, N ≤ i → rs' i = rs i ∧ cs' i = cs i) ∧
        ∀ rs2 : Nat → Int, (∀ i, (i < N → ¬ RowFree N colsol i) → rs i = rs2 i) →
          ∃ rs2', (∀ fuel, k + 1 ≤ fuel →
              flipPath pred fr fuel (rs2, cs, (c k : Int)) = some (rs2', cs')) ∧
            ∀ i, (i < N → ¬ RowFree N colsol i ∨ i = fr) → rs' i = rs2' i := by
  intro k
  induction k using Nat.strong_induction_on with
  | _ k ih =>
    intro rs cs hk hlab h
    have hckN := hx.perm.lt k hk
    rcases hx.pred_ok k hk hlab with hfr | ⟨k1, i1, hk1, hk1low, hcol1, hpi⟩
    · -- the path is complete
      refine ⟨upd rs fr (c k : Int), upd cs (c k) (fr : Int), ?_, ?_, ?_, ?_⟩
      · intro fuel hfuel
        cases fuel with
        | zero => omega
        | succ f => simp [flipPath, hfr]
      rotate_left
      · intro i hi
        have := hx.fr_lt
        exact ⟨upd_other _ _ _ _ (by omega), upd_other _ _ _ _ (by omega)⟩
      · intro rs2 hag
        refine ⟨upd rs2 fr (c k : Int), ?_, ?_⟩
        · intro fuel hfuel
          cases fuel with
          | zero => omega
          | succ f => simp [flipPath, hfr]
        · intro i hi
          by_cases e : i = fr
          · subst e; simp [upd]
          · rw [upd_other _ _ _ _ e, upd_other _ _ _ _ e]
            apply hag
            intro hiN
            rcases hi hiN with a | a
            · exact a
            · exact absurd a e
      · constructor
        · intro j hj
          by_cases e : j = c k
          · subst e; right; exact ⟨fr, hx.fr_lt, by simp [upd]⟩
          · rw [upd_other _ _ _ _ e]; exact h.col_range j hj e
        · intro i j hj hc
          by_cases e : j = c k
          · subst e
            have : i = fr := by simp [upd] at hc; omega
            subst this; simp [upd]
          · rw [upd_other _ _ _ _ e] at hc
            have hne : i ≠ fr := by
              intro e'; subst e'
              exact h.only i j hj e hc hx.fr_free
            rw [upd_other _ _ _ _ hne]
            exact h.row_back i j hj e hc
        · intro i j hj hc
          by_cases e : j = c k
          · subst e
            have : i = fr := by simp [upd] at hc; omega
            subst this
            have := hx.good_pred k hk hlab
            rw [hfr] at this
            exact this
          · rw [upd_other _ _ _ _ e] at hc
            exact h.good i j hj e hc
        · intro i hi
          constructor
          · intro hfree
            have hne : i ≠ fr := by
              intro e; subst e
              exact hfree (c k) hckN (by simp [upd])
            refine ⟨?_, hne⟩
            by_contra hnf
            obtain ⟨j, hj, hjne, hcj⟩ := h.keeps i hi hnf
            exact hfree j hj (by rw [upd_other _ _ _ _ hjne]; exact hcj)
          · rintro ⟨hfree, hne⟩ j hj hc
            by_cases e : j = c k
            · subst e
              simp [upd] at hc
              omega
            · rw [upd_other _ _ _ _ e] at hc
              exact h.only i j hj e hc hfree
    · -- the path goes on with the column of row `i1`
      have hk1N : k1 < N := by omega
      have hck1N := hx.perm.lt k1 hk1N
      have hi1N : i1 < N := by
        rcases hx.col_range (c k1) hck1N with a | ⟨i', hi', a⟩ <;> omega
      have hi1fr : i1 ≠ fr := by
        intro e; subst e
        exact hx.fr_free (c k1) hck1N hcol1
      have hrs := h.rows_front k1 i1 hk1 hk1low hcol1
      have hcne : c k ≠ c k1 := by
        intro e
        have := hx.perm.inj k k1 hk hk1N e
        omega
      have hinv : FlipInv N rowsol colsol c low G k1 (upd rs i1 (c k : Int))
          (upd cs (c k) (i1 : Int)) := by
        constructor
        · intro j hj hne
          by_cases e : j = c k
          · subst e; right; exact ⟨i1, hi1N, by simp [upd]⟩
          · rw [upd_other _ _ _ _ e]; exact h.col_range j hj e
        · intro i j hj hne hc
          by_cases e : j = c k
          · subst e
            have : i = i1 := by simp [upd] at hc; omega
            subst this; simp [upd]
          · rw [upd_other _ _ _ _ e] at hc
            have hne' : i ≠ i1 := by
              intro e'; subst e'
              have := h.row_back i j hj e hc
              omega
            rw [upd_other _ _ _ _ hne']
            exact h.row_back i j hj e hc
        · intro i j hj hne hc
          by_cases e : j = c k
          · subst e
            have : i = i1 := by simp [upd] at hc; omega
            subst this
            have := hx.good_pred k hk hlab
            rw [hpi] at this
            exact this
          · rw [upd_other _ _ _ _ e] at hc
            exact h.good i j hj e hc
        · intro i hi hnf
          by_cases e : i = i1
          · subst e
            exact ⟨c k, hckN, hcne, by simp [upd]⟩
          · obtain ⟨j, hj, hjne, hcj⟩ := h.keeps i hi hnf
            have hj1 : j ≠ c k1 := by
              intro e'; subst e'
              rw [h.cols_front k1 hk1 hk1low, hcol1] at hcj
              omega
            exact ⟨j, hj, hj1, by rw [upd_other _ _ _ _ hjne]; exact hcj⟩
        · intro i j hj hne hc
          by_cases e : j = c k
          · subst e
            have : i = i1 := by simp [upd] at hc; omega
            subst this
            intro hfree
            exact hfree (c k1) hck1N hcol1
          · rw [upd_other _ _ _ _ e] at hc
            exact h.only i j hj e hc
        · intro k' i hk' hk'low hc
          have hne' : i ≠ i1 := by
            intro e'; subst e'
            have a := hx.row_back i (c k') (hx.perm.lt k' (by omega)) hc
            have b := hx.row_back i (c k1) hck1N hcol1
            have := hx.perm.inj k' k1 (by omega) hk1N (by omega)
            omega
          rw [upd_other _ _ _ _ hne']
          exact h.rows_front k' i (by omega) hk'low hc
        · intro k' hk' hk'low
          have hne' : c k' ≠ c k := by
            intro e'
            have := hx.perm.inj k' k (by omega) hk e'
            omega
          rw [upd_other _ _ _ _ hne']
          exact h.cols_front k' (by omega) hk'low
      obtain ⟨rs', cs', hrun, hpost, htail, hcong⟩ := ih k1 hk1 _ _ hk1N (Or.inl hk1low) hinv
      refine ⟨rs', cs', ?_, hpost, ?_, ?_⟩
      rotate_left
      · intro i hi
        obtain ⟨a, b⟩ := htail i hi
        rw [a, b]
        exact ⟨upd_other _ _ _ _ (by omega), upd_other _ _ _ _ (by omega)⟩
      rotate_left
      · intro fuel hfuel
        cases fuel with
        | zero => omega
        | succ f =>
          have := hrun f (by omega)
          simp only [flipPath, Int.toNat_ofNat, hpi, ne_eq, hi1fr, not_false_eq_true, if_true, hrs]
          exact this
      · intro rs2 hag
        have hnf : ¬ RowFree N colsol i1 := fun hfree => hfree (c k1) hck1N hcol1
        have hrs2 : rs2 i1 = (c k1 : Int) := by rw [← hag i1 (fun _ => hnf)]; exact hrs
        obtain ⟨rs2', hrun2, hag2⟩ := hcong (upd rs2 i1 (c k : Int)) (by
          intro i hi
          by_cases e : i = i1
          · subst e; simp [upd]
          · rw [upd_other _ _ _ _ e, upd_other _ _ _ _ e]
            exact hag i hi)
        refine ⟨rs2', ?_, hag2⟩
        intro fuel hfuel
        cases fuel with
        | zero => omega
        | succ f =>
          have := hrun2 f (by omega)
          simp only [flipPath, Int.toNat_ofNat, hpi, ne_eq, hi1fr, not_false_eq_true, if_true, hrs2]
          exact this

theorem priceUpdate_spec (N : Nat) (cost : Nat → Nat → Int) (v colsol : Nat → Int) (fr : Nat)
    (t : Search) (h : SPost N cost v colsol fr t) :
    (∀ p, p < t.low → priceUpdate t v (t.collist p) =
      v (t.collist p) + t.d (t.collist p) - t.min_) ∧
    (∀ p, t.low ≤ p → p < N → priceUpdate t v (t.collist p) = v (t.collist p)) := by
  obtain ⟨hl1, hl2, hl3⟩ := h.last_ok
  have hlowN := h.low_le
  have hn : (t.last + 1).toNat ≤ t.low := by omega
  have key := forDown_induction
    (fun k (w : Nat → Int) => upd w (t.collist k) (w (t.collist k) + t.d (t.collist k) - t.min_))
    (fun j0 w => (∀ p, j0 ≤ p → p < (t.last + 1).toNat →
        w (t.collist p) = v (t.collist p) + t.d (t.collist p) - t.min_) ∧
      (∀ j, (∀ p, j0 ≤ p → p < (t.last + 1).toNat → t.collist p ≠ j) → w j = v j))
    (t.last + 1).toNat v
    ⟨by intro p h1 h2; omega, by intro j _; rfl⟩
    (by
      intro j0 w hj0 ⟨h1, h2⟩
      have hw : w (t.collist j0) = v (t.collist j0) := by
        apply h2
        intro p hp1 hp2 he
        have := h.perm.inj p j0 (by omega) (by omega) he
        omega
      refine ⟨?_, ?_⟩
      · intro p hp1 hp2
        beta_reduce
        by_cases e : p = j0
        · subst e; rw [upd_same, hw]
        · have hne : t.collist p ≠ t.collist j0 := by
            intro he
            exact e (h.perm.inj p j0 (by omega) (by omega) he)
          rw [upd_other _ _ _ _ hne]
          exact h1 p (by omega) hp2
      · intro j hj
        beta_reduce
        have hne : j ≠ t.collist j0 := fun e => hj j0 (le_refl _) hj0 e.symm
        rw [upd_other _ _ _ _ hne]
        exact h2 j (fun p hp1 hp2 => hj p (by omega) hp2))
  obtain ⟨k1, k2⟩ := key
  have hout : ∀ p, (t.last + 1).toNat ≤ p → p < N → priceUpdate t v (t.collist p) = v (t.collist p) := by
    intro p hp1 hp2
    apply k2
    intro q _ hq2 he
    have := h.perm.inj q p (by omega) hp2 he
    omega
  refine ⟨?_, ?_⟩
  · intro p hp
    by_cases e : p < (t.last + 1).toNat
    · exact k1 p (Nat.zero_le _) e
    · rw [hout p (by omega) (by omega), hl3 p (by omega) hp]
      omega
  · intro p hp1 hp2
    exact hout p (by omega) hp2

/-- After the price update the old pairs and the pairs along predecessor links are pairs of
minimal reduced cost in their rows, and no price has come above a cost. -/
theorem newPrices_spec (N : Nat) (cost : Nat → Nat → Int) (rowsol colsol v : Nat → Int)
    (fr : Nat) (hp : PInv N cost rowsol colsol v) (t : Search)
    (h : SPost N cost v colsol fr t) :
    (∀ i j : Nat, j < N → colsol j = (i : Int) → ∀ j', j' < N →
      cost i j - priceUpdate t v j ≤ cost i j' - priceUpdate t v j') ∧
    (∀ p ke, ke < N → t.collist ke = t.endofpath → t.low ≤ ke → p < N → (p < t.low ∨ p = ke) →
      ∀ j', j' < N → cost (t.pred (t.collist p)) (t.collist p) - priceUpdate t v (t.collist p) ≤
        cost (t.pred (t.collist p)) j' - priceUpdate t v j') ∧
    (∀ i j, i < N → j < N → priceUpdate t v j ≤ cost i j) := by
  obtain ⟨pu1, pu2⟩ := priceUpdate_spec N cost v colsol fr t h
  generalize priceUpdate t v = v' at pu1 pu2
  have hlowN := h.low_le
  -- the price of every column, by the position of the column
  have hv : ∀ j, j < N → ∃ p, p < N ∧ t.collist p = j ∧
      ((p < t.low ∧ v' j = v j + t.d j - t.min_ ∧ t.d j ≤ t.min_) ∨
       (t.low ≤ p ∧ v' j = v j ∧ t.min_ ≤ t.d j)) := by
    intro j hj
    obtain ⟨p, hpN, hpj⟩ := h.perm.surj j hj
    refine ⟨p, hpN, hpj, ?_⟩
    by_cases e : p < t.low
    · left
      have a := pu1 p e
      have b := h.d_ready p e
      rw [hpj] at a b
      exact ⟨e, a, b⟩
    · right
      have a := pu2 p (by omega) hpN
      have b := h.d_rest p (by omega) hpN
      rw [hpj] at a b
      exact ⟨by omega, a, b⟩
  have horig : ∀ i j : Nat, j < N → colsol j = (i : Int) → ∀ j', j' < N →
      cost i j - v' j ≤ cost i j' - v' j' := by
    intro i j hj hc j' hj'
    have hd := hp.dual i j hj hc j' hj'
    obtain ⟨p, hpN, hpj, hcase⟩ := hv j hj
    obtain ⟨p', hpN', hpj', hcase'⟩ := hv j' hj'
    rcases hcase with ⟨a1, a2, a3⟩ | ⟨a1, a2, a3⟩
    · subst hpj
      rcases h.relaxed p i a1 hc with r | r
      · rcases hcase' with ⟨b1, b2, b3⟩ | ⟨b1, b2, b3⟩ <;> omega
      · have := r j' hj'
        rcases hcase' with ⟨b1, b2, b3⟩ | ⟨b1, b2, b3⟩ <;> omega
    · rcases hcase' with ⟨b1, b2, b3⟩ | ⟨b1, b2, b3⟩ <;> omega
  refine ⟨horig, ?_, ?_⟩
  · intro p ke hke hkee hkel hpN hlab j' hj'
    obtain ⟨_, _, _, hkend⟩ := h.end_pos
    -- the label of the column at position `p`
    have hpa : ∃ lab, PredAt cost v colsol fr t p (t.collist p) lab ∧
        v' (t.collist p) = v (t.collist p) + lab - t.min_ := by
      by_cases e : p < t.low
      · exact ⟨t.d (t.collist p), h.pred_ready p e, pu1 p e⟩
      · have e1 : p = ke := by omega
        subst e1
        obtain ⟨ke', hk1, hk2, hk3, hk4⟩ := h.end_pos
        have : ke' = p := h.perm.inj ke' p hk2 hpN (by rw [hk3, hkee])
        subst this
        refine ⟨t.min_, ?_, ?_⟩
        · rw [hkee]; exact hk4
        · rw [pu2 ke' hkel hpN]; omega
    obtain ⟨lab, hpa, hvl⟩ := hpa
    obtain ⟨p', hpN', hpj', hcase'⟩ := hv j' hj'
    rcases hpa with ⟨a1, a2⟩ | ⟨k1, i1, a1, a2, a3, a4, a5⟩
    · rw [a1]
      have := h.d_le j' hj'
      rcases hcase' with ⟨b1, b2, b3⟩ | ⟨b1, b2, b3⟩ <;> omega
    · rw [a4]
      have hck1 := h.perm.lt k1 (by omega)
      have := horig i1 (t.collist k1) hck1 a3 j' hj'
      have := pu1 k1 a2
      omega
  · intro i j hi hj
    have := hp.nonneg i j hi hj
    obtain ⟨p, hpN, hpj, hcase⟩ := hv j hj
    rcases hcase with ⟨a1, a2, a3⟩ | ⟨a1, a2, a3⟩ <;> omega

/-- One augmentation: the free row `free_[f]` becomes assigned, the other rows keep their
status, and the prices stay feasible. -/
theorem augmentStep_spec (N : Nat) (cost : Nat → Nat → Int) (s : Lap) (f : Nat)
    (hp : PInv N cost s.rowsol s.colsol s.v)
    (hfl : FreeList N s.colsol s.free_ (fun p => f ≤ p ∧ p < s.numfree))
    (hf : f < s.numfree) :
    ∃ s' : Lap, (∀ fuel, N ≤ fuel → augmentStep N cost fuel f (some s) = some s') ∧
      PInv N cost s'.rowsol s'.colsol s'.v ∧
      FreeList N s'.colsol s'.free_ (fun p => f + 1 ≤ p ∧ p < s'.numfree) ∧
      s'.numfree = s.numfree ∧ SameTail N s s' ∧
      ∀ s2 : Lap, LapRel N s s2 → ∃ s2' : Lap,
        (∀ fuel, N ≤ fuel → augmentStep N cost fuel f (some s2) = some s2') ∧
        LapRel N s' s2' := by
  have hposf : (fun p => f ≤ p ∧ p < s.numfree) f := ⟨le_refl _, hf⟩
  obtain ⟨hfr, hfree⟩ := hfl.free f hposf
  obtain ⟨t, hsearch, hpost⟩ := search_spec N cost s.rowsol s.colsol s.v (s.free_ f) hp hfr hfree
  obtain ⟨np1, np2, np3⟩ := newPrices_spec N cost s.rowsol s.colsol s.v (s.free_ f) hp t hpost
  obtain ⟨ke, hke1, hke2, hke3, hke4⟩ := hpost.end_pos
  have hctx : FlipCtx N s.rowsol s.colsol t.collist t.low ke t.pred (s.free_ f)
      (fun i j => ∀ j', j' < N → cost i j - priceUpdate t s.v j ≤ cost i j' - priceUpdate t s.v j') := by
    constructor
    · exact hpost.perm
    · exact hp.col_range
    · exact hp.row_back
    · exact hfr
    · exact hfree
    · exact hke1
    · exact hke2
    · rw [hke3]; exact hpost.end_free
    · intro p hpN hlab
      have hpa : ∃ lab, PredAt cost s.v s.colsol (s.free_ f) t p (t.collist p) lab := by
        by_cases e : p < t.low
        · exact ⟨_, hpost.pred_ready p e⟩
        · have e1 : p = ke := by omega
          subst e1
          rw [hke3]
          exact ⟨_, hke4⟩
      obtain ⟨lab, hpa⟩ := hpa
      rcases hpa with ⟨a, _⟩ | ⟨k1, i1, a1, a2, a3, a4, _⟩
      · exact Or.inl a
      · exact Or.inr ⟨k1, i1, a1, a2, a3, a4⟩
    · intro p hpN hlab
      exact np2 p ke hke2 hke3 hke1 hpN hlab
    · exact np1
  have hinit : FlipInv N s.rowsol s.colsol t.collist t.low
      (fun i j => ∀ j', j' < N → cost i j - priceUpdate t s.v j ≤ cost i j' - priceUpdate t s.v j')
      ke s.rowsol s.colsol := by
    constructor
    · intro j hj _; exact hp.col_range j hj
    · intro i j hj _ hc; exact hp.row_back i j hj hc
    · intro i j hj _ hc; exact np1 i j hj hc
    · intro i hi hnf
      unfold RowFree at hnf
      push_neg at hnf
      obtain ⟨j, hj, hc⟩ := hnf
      refine ⟨j, hj, ?_, hc⟩
      intro e
      subst e
      rw [hke3, hpost.end_free] at hc
      omega
    · intro i j hj _ hc hfree'
      exact hfree' j hj hc
    · intro k' i _ _ hc
      exact hp.row_back i (t.collist k') (hpost.perm.lt k' (by omega)) hc
    · intro k' _ _; rfl
  obtain ⟨rs', cs', hflip, hfp, htail, hcong⟩ := flipPath_spec N s.rowsol s.colsol t.collist t.low ke t.pred
    (s.free_ f) _ hctx ke s.rowsol s.colsol hke2 (Or.inr rfl) hinit
  refine ⟨{ s with v := priceUpdate t s.v, rowsol := rs', colsol := cs' }, ?_, ?_, ?_, rfl, htail, ?_⟩
  rotate_left 3
  · intro s2 hrel
    obtain ⟨rs2', hflip2, hag2⟩ := hcong s2.rowsol hrel.rowsol
    refine ⟨{ s2 with v := priceUpdate t s2.v, rowsol := rs2', colsol := cs' }, ?_, ?_⟩
    · intro fuel hfuel
      unfold augmentStep
      simp only [Option.some_bind]
      rw [← hrel.colsol, ← hrel.v, ← hrel.free_, hsearch fuel hfuel]
      simp only [Option.some_bind]
      rw [← hke3, hflip2 fuel (by omega)]
      rfl
    · constructor
      · rfl
      · show priceUpdate t s.v = priceUpdate t s2.v
        rw [hrel.v]
      · exact hrel.free_
      · exact hrel.numfree
      · exact hrel.matchCnt
      · intro i hi
        apply hag2 i
        intro hiN
        by_cases e : i = s.free_ f
        · exact Or.inr e
        · left
          intro hfree'
          exact hi hiN ((hfp.free_iff i hiN).mpr ⟨hfree', e⟩)
  · intro fuel hfuel
    unfold augmentStep
    simp only [Option.some_bind]
    rw [hsearch fuel hfuel]
    simp only [Option.some_bind]
    rw [← hke3, hflip fuel (by omega)]
    rfl
  · constructor
    · exact hfp.col_range
    · exact hfp.row_back
    · intro i j hj hc j' hj'
      exact hfp.good i j hj hc j' hj'
    · exact np3
  · constructor
    · intro p hpp
      simp only at hpp ⊢
      have hp0 : (fun p => f ≤ p ∧ p < s.numfree) p := ⟨by omega, hpp.2⟩
      obtain ⟨a, b⟩ := hfl.free p hp0
      refine ⟨a, ?_⟩
      apply (hfp.free_iff _ a).mpr
      refine ⟨b, ?_⟩
      intro e
      have := hfl.inj p f hp0 hposf e
      omega
    · intro p q hpp hqq he
      simp only at hpp hqq he
      exact hfl.inj p q ⟨by omega, hpp.2⟩ ⟨by omega, hqq.2⟩ he
    · intro i hi hfree'
      simp only at hfree'
      obtain ⟨a, b⟩ := (hfp.free_iff i hi).mp hfree'
      obtain ⟨p, hp1, hp2⟩ := hfl.all i hi a
      refine ⟨p, ⟨?_, hp1.2⟩, hp2⟩
      by_contra hlt
      have : p = f := by have := hp1.1; omega
      subst this
      exact b hp2.symm

/-! ### The function jvlap -/

theorem augmentLoop_spec (N : Nat) (cost : Nat → Nat → Int) :
    ∀ (n f : Nat) (s : Lap), PInv N cost s.rowsol s.colsol s.v →
      FreeList N s.colsol s.free_ (fun p => f ≤ p ∧ p < s.numfree) → f + n = s.numfree →
      ∃ s' : Lap, (∀ fuel, N ≤ fuel →
          forUp (augmentStep N cost fuel) n f (some s) = some s') ∧
        PInv N cost s'.rowsol s'.colsol s'.v ∧ (∀ i, i < N → ¬ RowFree N s'.colsol i) ∧
        SameTail N s s' ∧
        ∀ s2 : Lap, LapRel N s s2 → ∃ s2' : Lap,
          (∀ fuel, N ≤ fuel → forUp (augmentStep N cost fuel) n f (some s2) = some s2') ∧
          LapRel N s' s2' := by
  intro n
  induction n with
  | zero =>
    intro f s hp hfl hn
    refine ⟨s, fun _ _ => rfl, hp, ?_, SameTail.refl N s, ?_⟩
    · intro i hi hfree
      obtain ⟨p, hp1, _⟩ := hfl.all i hi hfree
      omega
    · intro s2 hrel
      exact ⟨s2, fun _ _ => rfl, hrel⟩
  | succ n ih =>
    intro f s hp hfl hn
    obtain ⟨s1, hrun1, hp1, hfl1, hnf, ht1, hc1⟩ :=
      augmentStep_spec N cost s f hp hfl (by omega)
    obtain ⟨s', hrun, hp', hall, ht, hc⟩ := ih (f + 1) s1 hp1 hfl1 (by omega)
    refine ⟨s', ?_, hp', hall, ht1.trans ht, ?_⟩
    · intro fuel hfuel
      simp only [forUp]
      rw [hrun1 fuel hfuel]
      exact hrun fuel hfuel
    · intro s2 hrel
      obtain ⟨s21, hrun21, hrel1⟩ := hc1 s2 hrel
      obtain ⟨s2', hrun2, hrel'⟩ := hc s21 hrel1
      refine ⟨s2', ?_, hrel'⟩
      intro fuel hfuel
      simp only [forUp]
      rw [hrun21 fuel hfuel]
      exact hrun2 fuel hfuel

theorem augmentSolution_spec (N : Nat) (cost : Nat → Nat → Int) (s : Lap)
    (hp : PInv N cost s.rowsol s.colsol s.v)
    (hfl : FreeList N s.colsol s.free_ (fun p => p < s.numfree)) :
    ∃ s' : Lap, (∀ fuel, N ≤ fuel → augmentSolution N cost fuel s = some s') ∧
      PInv N cost s'.rowsol s'.colsol s'.v ∧ (∀ i, i < N → ¬ RowFree N s'.colsol i) ∧
      SameTail N s s' ∧
      ∀ s2 : Lap, LapRel N s s2 → ∃ s2' : Lap,
        (∀ fuel, N ≤ fuel → augmentSolution N cost fuel s2 = some s2') ∧
        LapRel N s' s2' := by
  obtain ⟨s', hrun, hp', hall, ht, hc⟩ :=
    augmentLoop_spec N cost s.numfree 0 s hp (hfl.congr (by intro p; simp)) (by omega)
  refine ⟨s', hrun, hp', hall, ht, ?_⟩
  intro s2 hrel
  obtain ⟨s2', hrun2, hrel'⟩ := hc s2 hrel
  refine ⟨s2', ?_, hrel'⟩
  intro fuel hfuel
  unfold augmentSolution
  rw [← hrel.numfree]
  exact hrun2 fuel hfuel

/-- With the reduced costs below `BIG`, `jvlap` returns, for every fuel from some bound on, a feasible
assignment without free rows. -/
theorem jvlap_spec (BIG : Int) (N : Nat) (cost : Nat → Nat → Int) (rowsol colsol u v : Nat → Int)
    (hN : 1 ≤ N) (hB0 : 0 ≤ BIG) (hH : BelowBig BIG N cost rowsol colsol v) :
    ∃ (r : Lap) (M : Nat),
      (∀ fuel, M ≤ fuel → jvlap BIG fuel N cost rowsol colsol u v = some (r, u)) ∧
      PInv N cost r.rowsol r.colsol r.v ∧ (∀ i, i < N → ¬ RowFree N r.colsol i) := by
  obtain ⟨hp2, hu2, hf2⟩ := reductionTransfer_spec BIG N cost rowsol colsol v hN hB0
  obtain ⟨s3, M, hrun3, hp3, hf3, _⟩ := augmentingRowReduction_spec BIG N cost hN _ hH.arr hp2 hu2 hf2
  obtain ⟨s4, hrun4, hp4, hall, _, _⟩ := augmentSolution_spec N cost s3 hp3 hf3
  refine ⟨s4, max M N, ?_, hp4, hall⟩
  intro fuel hfuel
  unfold jvlap
  simp only
  rw [hrun3 fuel (le_trans (le_max_left _ _) hfuel)]
  simp only [Option.some_bind]
  rw [hrun4 fuel (le_trans (le_max_right _ _) hfuel)]
  rfl

/-! ### More fuel keeps a result -/

theorem arrLoop_mono (BIG : Int) (N : Nat) (cost : Nat → Nat → Int) (prv : Nat) :
    ∀ (fuel : Nat) (a a' : Arr), arrLoop BIG N cost prv fuel a = some a' →
      arrLoop BIG N cost prv (fuel + 1) a = some a' := by
  intro fuel
  induction fuel with
  | zero =>
    intro a a' h
    by_cases hk : a.k < prv
    · simp [arrLoop, hk] at h
    · simp only [arrLoop, hk, if_false] at h ⊢
      exact h
  | succ f ih =>
    intro a a' h
    by_cases hk : a.k < prv
    · rw [arrLoop, if_pos hk] at h
      rw [arrLoop, if_pos hk]
      exact ih _ _ h
    · rw [arrLoop, if_neg hk] at h
      rw [arrLoop, if_neg hk]
      exact h

theorem searchLoop_mono (N : Nat) (cost : Nat → Nat → Int) (v colsol : Nat → Int) :
    ∀ (fuel : Nat) (t t' : Search), searchLoop N cost v colsol fuel t = some t' →
      searchLoop N cost v colsol (fuel + 1) t = some t' := by
  intro fuel
  induction fuel with
  | zero => intro t t' h; simp [searchLoop] at h
  | succ f ih =>
    intro t t' h
    rw [searchLoop] at h ⊢
    by_cases hf : (!(searchStep N cost v colsol t).unassignedfound) = true
    · rw [if_pos hf] at h ⊢
      exact ih _ _ h
    · rw [if_neg hf] at h ⊢
      exact h

theorem flipPath_mono (pred : Nat → Nat) (fr : Nat) :
    ∀ (fuel : Nat) (x : (Nat → Int) × (Nat → Int) × Int) (y : (Nat → Int) × (Nat → Int)),
      flipPath pred fr fuel x = some y → flipPath pred fr (fuel + 1) x = some y := by
  intro fuel
  induction fuel with
  | zero => intro x y h; simp [flipPath] at h
  | succ f ih =>
    intro x y h
    obtain ⟨rs, cs, e⟩ := x
    rw [flipPath] at h ⊢
    by_cases hf : pred e.toNat ≠ fr
    · rw [if_pos hf] at h ⊢
      exact ih _ _ h
    · rw [if_neg hf] at h ⊢
      exact h

theorem arrPass_mono (BIG : Int) (N : Nat) (cost : Nat → Nat → Int) (fuel : Nat) (s : Lap)
    (j2 : Nat) (r : Lap × Nat) (h : arrPass BIG N cost fuel s j2 = some r) :
    arrPass BIG N cost (fuel + 1) s j2 = some r := by
  unfold arrPass at h ⊢
  cases hl : arrLoop BIG N cost s.numfree fuel { lap := { s with numfree := 0 }, k := 0, j2 := j2 } with
  | none => rw [hl] at h; simp at h
  | some a =>
    rw [hl] at h
    rw [arrLoop_mono BIG N cost s.numfree fuel _ a hl]
    exact h

theorem augmentingRowReduction_mono (BIG : Int) (N : Nat) (cost : Nat → Nat → Int) (fuel : Nat)
    (s r : Lap) (h : augmentingRowReduction BIG N cost fuel s = some r) :
    augmentingRowReduction BIG N cost (fuel + 1) s = some r := by
  unfold augmentingRowReduction at h ⊢
  cases h1 : arrPass BIG N cost fuel s 0 with
  | none => rw [h1] at h; simp at h
  | some p =>
    rw [h1] at h
    simp only [Option.some_bind] at h
    rw [arrPass_mono BIG N cost fuel s 0 p h1]
    simp only [Option.some_bind]
    cases h2 : arrPass BIG N cost fuel p.1 p.2 with
    | none => rw [h2] at h; simp at h
    | some q =>
      rw [h2] at h
      rw [arrPass_mono BIG N cost fuel p.1 p.2 q h2]
      exact h

theorem augmentStep_mono (N : Nat) (cost : Nat → Nat → Int) (fuel f : Nat) (os : Option Lap)
    (r : Lap) (h : augmentStep N cost fuel f os = some r) :
    augmentStep N cost (fuel + 1) f os = some r := by
  cases os with
  | none => simp [augmentStep] at h
  | some s =>
    unfold augmentStep at h ⊢
    simp only [Option.some_bind] at h ⊢
    cases h1 : searchLoop N cost s.v s.colsol fuel (searchInit N cost s.v (s.free_ f)) with
    | none => rw [h1] at h; simp at h
    | some t =>
      rw [h1] at h
      simp only [Option.some_bind] at h
      rw [searchLoop_mono N cost s.v s.colsol fuel _ t h1]
      simp only [Option.some_bind]
      cases h2 : flipPath t.pred (s.free_ f) fuel (s.rowsol, s.colsol, (t.endofpath : Int)) with
      | none => rw [h2] at h; simp at h
      | some rc =>
        rw [h2] at h
        rw [flipPath_mono t.pred (s.free_ f) fuel _ rc h2]
        exact h

theorem augmentLoop_none (N : Nat) (cost : Nat → Nat → Int) (fuel : Nat) :
    ∀ (n f : Nat), forUp (augmentStep N cost fuel) n f none = none := by
  intro n
  induction n with
  | zero => intro f; rfl
  | succ n ih =>
    intro f
    simp only [forUp]
    exact ih (f + 1)

theorem augmentLoop_mono (N : Nat) (cost : Nat → Nat → Int) (fuel : Nat) :
    ∀ (n f : Nat) (os : Option Lap) (r : Lap),
      forUp (augmentStep N cost fuel) n f os = some r →
      forUp (augmentStep N cost (fuel + 1)) n f os = some r := by
  intro n
  induction n with
  | zero => intro f os r h; exact h
  | succ n ih =>
    intro f os r h
    simp only [forUp] at h ⊢
    cases h1 : augmentStep N cost fuel f os with
    | none =>
      rw [h1, augmentLoop_none] at h
      simp at h
    | some s1 =>
      rw [h1] at h
      rw [augmentStep_mono N cost fuel f os s1 h1]
      exact ih (f + 1) (some s1) r h

theorem jvlap_mono_succ (BIG : Int) (N : Nat) (cost : Nat → Nat → Int)
    (rowsol colsol u v : Nat → Int) (fuel : Nat) (r : Lap × (Nat → Int))
    (h : jvlap BIG fuel N cost rowsol colsol u v = some r) :
    jvlap BIG (fuel + 1) N cost rowsol colsol u v = some r := by
  unfold jvlap at h ⊢
  simp only at h ⊢
  generalize reductionTransfer BIG N cost (columnReduction N cost
    { rowsol := rowsol, colsol := colsol, v := v, free_ := fun _ => 0, numfree := 0,
      matchCnt := forUp (fun i m => upd m i 0) N 0 (fun _ => 0) }) = s2 at h ⊢
  cases h1 : augmentingRowReduction BIG N cost fuel s2 with
  | none => rw [h1] at h; simp at h
  | some s3 =>
    rw [h1] at h
    simp only [Option.some_bind] at h
    rw [augmentingRowReduction_mono BIG N cost fuel s2 s3 h1]
    simp only [Option.some_bind]
    unfold augmentSolution at h ⊢
    cases h2 : forUp (augmentStep N cost fuel) s3.numfree 0 (some s3) with
    | none => rw [h2] at h; simp at h
    | some s4 =>
      rw [h2] at h
      rw [augmentLoop_mono N cost fuel s3.numfree 0 (some s3) s4 h2]
      exact h

/-- More fuel does not change a result of `jvlap`. -/
theorem jvlap_mono (BIG : Int) (N : Nat) (cost : Nat → Nat → Int)
    (rowsol colsol u v : Nat → Int) (fuel fuel' : Nat) (r : Lap × (Nat → Int))
    (hle : fuel ≤ fuel') (h : jvlap BIG fuel N cost rowsol colsol u v = some r) :
    jvlap BIG fuel' N cost rowsol colsol u v = some r := by
  induction fuel' with
  | zero =>
    have : fuel = 0 := by omega
    subst this; exact h
  | succ f ih =>
    by_cases e : fuel = f + 1
    · subst e; exact h
    · exact jvlap_mono_succ BIG N cost rowsol colsol u v f r (ih (by omega))

/-- Total correctness of `jvlap`: it returns for every fuel from some bound on, and every
result it returns is a feasible assignment without free rows; `u` is returned as passed. -/
theorem jvlap_total (BIG : Int) (N : Nat) (cost : Nat → Nat → Int) (rowsol colsol u v : Nat → Int)
    (hN : 1 ≤ N) (hB0 : 0 ≤ BIG) (hH : BelowBig BIG N cost rowsol colsol v) :
    (∃ M, ∀ fuel, M ≤ fuel → (jvlap BIG fuel N cost rowsol colsol u v).isSome = true) ∧
    ∀ fuel r, jvlap BIG fuel N cost rowsol colsol u v = some r →
      r.2 = u ∧ PInv N cost r.1.rowsol r.1.colsol r.1.v ∧
      (∀ i, i < N → ¬ RowFree N r.1.colsol i) := by
  obtain ⟨r0, M, hrun, hp, hall⟩ := jvlap_spec BIG N cost rowsol colsol u v hN hB0 hH
  refine ⟨⟨M, fun fuel hf => by rw [hrun fuel hf]; rfl⟩, ?_⟩
  intro fuel r h
  have h1 := jvlap_mono BIG N cost rowsol colsol u v fuel (max fuel M) r (le_max_left _ _) h
  rw [hrun (max fuel M) (le_max_right _ _)] at h1
  have : r = (r0, u) := by
    injection h1 with h1
    exact h1.symm
  subst this
  exact ⟨rfl, hp, hall⟩

/-! ### assignMatching and solve -/

theorem writeRows_spec (size : Nat) (x y : Nat → Nat) (a : Tensor Nat)
    (hd : a.dims.getD 1 0 = 2) :
    ∀ n, n ≤ size →
      ∃ a' : Tensor Nat,
        forUp (fun i (oa : Option (Tensor Nat)) => oa.bind fun a =>
          if i < size then some ((a.set2 i 0 (x i)).set2 i 1 (y i)) else none) n 0 (some a)
          = some a' ∧
        a'.dims = a.dims ∧ a'.size = a.size ∧
        (∀ k, k < n → a'.data (k * 2) = x k ∧ a'.data (k * 2 + 1) = y k) ∧
        (∀ cell, n * 2 ≤ cell → a'.data cell = a.data cell) := by
  intro n hn
  have key := forUp_induction (fun i (oa : Option (Tensor Nat)) => oa.bind fun a =>
      if i < size then some ((a.set2 i 0 (x i)).set2 i 1 (y i)) else none)
    (fun i oa => i ≤ size → ∃ a' : Tensor Nat, oa = some a' ∧ a'.dims = a.dims ∧ a'.size = a.size ∧
      (∀ k, k < i → a'.data (k * 2) = x k ∧ a'.data (k * 2 + 1) = y k) ∧
      (∀ cell, i * 2 ≤ cell → a'.data cell = a.data cell))
    n 0 (some a)
    (fun _ => ⟨a, rfl, rfl, rfl, fun k hk => absurd hk (Nat.not_lt_zero k), fun _ _ => rfl⟩)
    (by
      intro i oa _ _ ih hle
      obtain ⟨a1, h1, h2, h3, h4, h5⟩ := ih (by omega)
      subst h1
      have hi : i < size := by omega
      have hd1 : a1.dims.getD 1 0 = 2 := by rw [h2]; exact hd
      refine ⟨(a1.set2 i 0 (x i)).set2 i 1 (y i), by simp [hi], h2, h3, ?_, ?_⟩
      · intro k hk
        simp only [Tensor.set2, hd1]
        by_cases e : k = i
        · subst e
          constructor
          · rw [upd_other _ _ _ _ (by omega), Nat.add_zero, upd_same]
          · rw [upd_same]
        · have := h4 k (by omega)
          constructor
          · rw [upd_other _ _ _ _ (by omega), upd_other _ _ _ _ (by omega)]; exact this.1
          · rw [upd_other _ _ _ _ (by omega), upd_other _ _ _ _ (by omega)]; exact this.2
      · intro cell hc
        simp only [Tensor.set2, hd1]
        rw [upd_other _ _ _ _ (by omega), upd_other _ _ _ _ (by omega)]
        exact h5 cell (by omega))
  simp only [Nat.zero_add] at key
  exact key hn

theorem writeRows_throws (size : Nat) (x y : Nat → Nat) :
    ∀ (n start : Nat) (oa : Option (Tensor Nat)), size < start + n →
      forUp (fun i (oa : Option (Tensor Nat)) => oa.bind fun a =>
        if i < size then some ((a.set2 i 0 (x i)).set2 i 1 (y i)) else none) n start oa = none ∨
      n = 0 := by
  intro n
  induction n with
  | zero => intro _ _ _; right; rfl
  | succ n ih =>
    intro start oa h
    left
    simp only [forUp]
    rcases ih (start + 1) (oa.bind fun a =>
        if start < size then some ((a.set2 start 0 (x start)).set2 start 1 (y start)) else none)
      (by omega) with h1 | h1
    · exact h1
    · subst h1
      have : ¬ start < size := by omega
      cases oa <;> simp [forUp, this]

theorem assignMatching_spec (s : Solver) (a : Tensor Nat) (m : Nat) (ha : a.getDims = [m, 2])
    (hm : m ≤ s.size) :
    ∃ a' : Tensor Nat, assignMatching s a = some a' ∧ a'.getDims = [m, 2] ∧
      (∀ k, k < m →
        a'.at2 k 0 = (if s.rows > s.cols then toUnsigned (s.colsol k) else k) ∧
        a'.at2 k 1 = (if s.rows > s.cols then k else toUnsigned (s.rowsol k))) ∧
      (∀ cell, m * 2 ≤ cell → a'.data cell = a.data cell) := by
  have hd : a.dims.getD 1 0 = 2 := by
    have : a.dims = [m, 2] := ha
    rw [this]; rfl
  have hn : a.getDims.getD 0 0 = m := by rw [ha]; rfl
  unfold assignMatching
  rw [hn]
  by_cases hrc : s.rows > s.cols
  · rw [if_pos hrc]
    obtain ⟨a', h1, h2, _, h4, h5⟩ := writeRows_spec s.size (fun i => toUnsigned (s.colsol i))
      (fun i => i) a hd m hm
    refine ⟨a', h1, by unfold Tensor.getDims; rw [h2]; exact ha, ?_, h5⟩
    intro k hk
    have hd' : a'.dims.getD 1 0 = 2 := by rw [h2]; exact hd
    simp only [Tensor.at2, hd', if_pos hrc, Nat.add_zero]
    exact h4 k hk
  · rw [if_neg hrc]
    obtain ⟨a', h1, h2, _, h4, h5⟩ := writeRows_spec s.size (fun i => i)
      (fun i => toUnsigned (s.rowsol i)) a hd m hm
    refine ⟨a', h1, by unfold Tensor.getDims; rw [h2]; exact ha, ?_, h5⟩
    intro k hk
    have hd' : a'.dims.getD 1 0 = 2 := by rw [h2]; exact hd
    simp only [Tensor.at2, hd', if_neg hrc, Nat.add_zero]
    exact h4 k hk

theorem solverWith_fields (mat : Tensor Int) (R C : Nat) (r0 c0 : Nat → Int)
    (hd : mat.getDims = [R, C]) :
    (solverWith mat r0 c0).rows = R ∧ (solverWith mat r0 c0).cols = C ∧
    (solverWith mat r0 c0).size = max R C ∧
    (solverWith mat r0 c0).costMat = (Solver.new mat).costMat ∧
    (solverWith mat r0 c0).rowsol = r0 ∧ (solverWith mat r0 c0).colsol = c0 := by
  obtain ⟨h1, h2, h3, _⟩ := costMatrix_spec mat R C hd
  exact ⟨h1, h2, h3, rfl, rfl, rfl⟩

/-- What a call of `solve` returns: the assignment of `jvlap` stored in the solver, and the
rows of the assignments tensor written from it. -/
theorem solve_spec (BIG : Int) (mat : Tensor Int) (R C : Nat) (a : Tensor Nat)
    (r0 c0 : Nat → Int) (m : Nat) (hd : mat.getDims = [R, C]) (hR : 1 ≤ R)
    (hB0 : 0 ≤ BIG)
    (hH : BelowBig BIG (max R C) (getCost (Solver.new mat).costMat) r0 c0 (fun _ => 0))
    (ha : a.getDims = [m, 2]) (hm : m ≤ max R C) :
    (∃ M, ∀ fuel, M ≤ fuel → (solve BIG fuel (solverWith mat r0 c0) a).isSome = true) ∧
    ∀ fuel res, solve BIG fuel (solverWith mat r0 c0) a = some res →
      (∃ lap : Lap, jvlap BIG fuel (max R C) (getCost (Solver.new mat).costMat) r0 c0
          (fun _ => 0) (fun _ => 0) = some (lap, fun _ => 0) ∧
        res.1.rowsol = lap.rowsol ∧ res.1.colsol = lap.colsol ∧
        PInv (max R C) (getCost (Solver.new mat).costMat) lap.rowsol lap.colsol lap.v ∧
        (∀ i, i < max R C → ¬ RowFree (max R C) lap.colsol i)) ∧
      res.1.rows = R ∧ res.1.cols = C ∧ res.1.size = max R C ∧
      res.1.costMat = (Solver.new mat).costMat ∧
      res.2.getDims = [m, 2] ∧
      (∀ k, k < m →
        res.2.at2 k 0 = (if R > C then toUnsigned (res.1.colsol k) else k) ∧
        res.2.at2 k 1 = (if R > C then k else toUnsigned (res.1.rowsol k))) ∧
      (∀ cell, m * 2 ≤ cell → res.2.data cell = a.data cell) := by
  obtain ⟨f1, f2, f3, f4, f5, f6⟩ := solverWith_fields mat R C r0 c0 hd
  have hN : 1 ≤ max R C := le_trans hR (le_max_left _ _)
  obtain ⟨⟨M, hM⟩, hprop⟩ := jvlap_total BIG (max R C) (getCost (Solver.new mat).costMat) r0 c0
    (fun _ => 0) (fun _ => 0) hN hB0 hH
  have hsolve : ∀ fuel, solve BIG fuel (solverWith mat r0 c0) a =
      (jvlap BIG fuel (max R C) (getCost (Solver.new mat).costMat) r0 c0
        (fun _ => 0) (fun _ => 0)).bind fun r =>
          (assignMatching { rows := R, cols := C, size := max R C, costMat := (Solver.new mat).costMat, rowsol := r.1.rowsol, colsol := r.1.colsol } a).map
            fun a' => ({ rows := R, cols := C, size := max R C, costMat := (Solver.new mat).costMat, rowsol := r.1.rowsol, colsol := r.1.colsol }, a') := by
    intro fuel
    unfold solve
    rw [f1, f2, f3, f4, f5, f6]
  refine ⟨⟨M, ?_⟩, ?_⟩
  · intro fuel hf
    have h1 := hM fuel hf
    rw [hsolve]
    cases hj : jvlap BIG fuel (max R C) (getCost (Solver.new mat).costMat) r0 c0
        (fun _ => 0) (fun _ => 0) with
    | none => rw [hj] at h1; simp at h1
    | some r =>
      obtain ⟨a', h2, _⟩ := assignMatching_spec
        { rows := R, cols := C, size := max R C, costMat := (Solver.new mat).costMat, rowsol := r.1.rowsol, colsol := r.1.colsol } a m ha hm
      simp only [Option.some_bind, h2]
      rfl
  · intro fuel res hres
    rw [hsolve] at hres
    cases hj : jvlap BIG fuel (max R C) (getCost (Solver.new mat).costMat) r0 c0
        (fun _ => 0) (fun _ => 0) with
    | none => rw [hj] at hres; simp at hres
    | some r =>
      rw [hj] at hres
      obtain ⟨hu, hp, hall⟩ := hprop fuel r hj
      obtain ⟨a', h2, h3, h4, h5⟩ := assignMatching_spec
        { rows := R, cols := C, size := max R C, costMat := (Solver.new mat).costMat, rowsol := r.1.rowsol, colsol := r.1.colsol } a m ha hm
      simp only [Option.some_bind, h2, Option.map_some'] at hres
      have hres' : res = ({ rows := R, cols := C, size := max R C, costMat := (Solver.new mat).costMat, rowsol := r.1.rowsol, colsol := r.1.colsol }, a') := by
        injection hres with h; exact h.symm
      subst hres'
      refine ⟨⟨r.1, ?_, rfl, rfl, hp, hall⟩, rfl, rfl, rfl, rfl, h3, ?_, h5⟩
      · have : r = (r.1, fun _ => 0) := by
          cases r with
          | mk a b => simp only at hu; rw [hu]
        rw [← this]
      · intro k hk
        exact h4 k hk

/-! ### Bijection, dual feasibility and the extracted pairs -/

theorem toUnsigned_cast (j : Nat) (h : j < 4294967296) : toUnsigned (j : Int) = j := by
  unfold toUnsigned
  omega

/-- The pairs that `solve` writes, by the shape of the weight matrix. -/
theorem solve_pairs (BIG : Int) (mat : Tensor Int) (R C : Nat) (a : Tensor Nat)
    (r0 c0 : Nat → Int) (hd : mat.getDims = [R, C]) (hR : 1 ≤ R)
    (hsz : max R C < 4294967296)
    (hB0 : 0 ≤ BIG)
    (hH : BelowBig BIG (max R C) (getCost (Solver.new mat).costMat) r0 c0 (fun _ => 0))
    (ha : a.getDims = [min R C, 2]) (fuel : Nat) (res : Solver × Tensor Nat)
    (hres : solve BIG fuel (solverWith mat r0 c0) a = some res) :
    (R ≤ C → ∀ k, k < R → res.2.at2 k 0 = k ∧ res.2.at2 k 1 < C ∧
      res.1.rowsol k = (res.2.at2 k 1 : Int) ∧ res.1.colsol (res.2.at2 k 1) = (k : Int)) ∧
    (C < R → ∀ k, k < C → res.2.at2 k 1 = k ∧ res.2.at2 k 0 < R ∧
      res.1.colsol k = (res.2.at2 k 0 : Int) ∧ res.1.rowsol (res.2.at2 k 0) = (k : Int)) := by
  obtain ⟨_, hprop⟩ := solve_spec BIG mat R C a r0 c0 (min R C) hd hR hB0 hH ha
    (le_trans (min_le_left _ _) (le_max_left _ _))
  obtain ⟨⟨lap, _, hrs, hcs, hp, hall⟩, _, _, _, _, _, hrows, _⟩ := hprop fuel res hres
  obtain ⟨hb1, hb2⟩ := hp.bijection hall
  constructor
  · intro hle k hk
    have hN : max R C = C := max_eq_right hle
    have hnot : ¬ R > C := by omega
    obtain ⟨h0, h1⟩ := hrows k (by rw [min_eq_left hle]; exact hk)
    rw [if_neg hnot] at h0 h1
    obtain ⟨j, hj, hrj, hcj⟩ := hb1 k (by omega)
    rw [hrs, hrj, toUnsigned_cast j (by omega)] at h1
    rw [h1, hrs, hcs]
    exact ⟨h0, by omega, hrj, hcj⟩
  · intro hlt k hk
    have hN : max R C = R := max_eq_left (le_of_lt hlt)
    have hgt : R > C := hlt
    obtain ⟨h0, h1⟩ := hrows k (by rw [min_eq_right (le_of_lt hlt)]; exact hk)
    rw [if_pos hgt] at h0 h1
    obtain ⟨i, hi, hci, hri⟩ := hb2 k (by omega)
    rw [hcs, hci, toUnsigned_cast i (by omega)] at h0
    rw [h0, hrs, hcs]
    exact ⟨h1, by omega, hci, hri⟩

/-- The pairs that `solve` writes into a tensor of `min R C` rows, for `BIG >= 0`. -/
theorem extractor_core (BIG : Int) (mat : Tensor Int) (R C : Nat) (a : Tensor Nat)
    (r0 c0 : Nat → Int) (hd : mat.getDims = [R, C]) (hR : 1 ≤ R)
    (hsz : max R C < 4294967296)
    (hB0 : 0 ≤ BIG)
    (hH : BelowBig BIG (max R C) (getCost (Solver.new mat).costMat) r0 c0 (fun _ => 0))
    (ha : a.getDims = [min R C, 2]) :
    (∃ M, ∀ fuel, M ≤ fuel → (solve BIG fuel (solverWith mat r0 c0) a).isSome = true) ∧
    ∀ fuel res, solve BIG fuel (solverWith mat r0 c0) a = some res →
      (∀ k, k < min R C → res.2.at2 k 0 < R ∧ res.2.at2 k 1 < C) ∧
      (∀ k k', k < min R C → k' < min R C → res.2.at2 k 0 = res.2.at2 k' 0 → k = k') ∧
      (∀ k k', k < min R C → k' < min R C → res.2.at2 k 1 = res.2.at2 k' 1 → k = k') ∧
      (R ≤ C → ∀ k, k < R → res.2.at2 k 0 = k ∧ (res.2.at2 k 1 : Int) = res.1.rowsol k) ∧
      (C < R → ∀ k, k < C → res.2.at2 k 1 = k ∧ (res.2.at2 k 0 : Int) = res.1.colsol k) := by
  obtain ⟨hret, _⟩ := solve_spec BIG mat R C a r0 c0 (min R C) hd hR hB0 hH ha
    (le_trans (min_le_left _ _) (le_max_left _ _))
  refine ⟨hret, ?_⟩
  intro fuel res hres
  obtain ⟨h1, h2⟩ := solve_pairs BIG mat R C a r0 c0 hd hR hsz hB0 hH ha fuel res hres
  by_cases hle : R ≤ C
  · have hmin : min R C = R := min_eq_left hle
    rw [hmin]
    have g := h1 hle
    refine ⟨?_, ?_, ?_, ?_, ?_⟩
    · intro k hk
      obtain ⟨a1, a2, _, _⟩ := g k hk
      exact ⟨by omega, a2⟩
    · intro k k' hk hk' he
      have := (g k hk).1
      have := (g k' hk').1
      omega
    · intro k k' hk hk' he
      obtain ⟨_, _, _, a4⟩ := g k hk
      obtain ⟨_, _, _, b4⟩ := g k' hk'
      rw [he] at a4
      omega
    · intro _ k hk
      obtain ⟨a1, _, a3, _⟩ := g k hk
      exact ⟨a1, a3.symm⟩
    · intro hlt; omega
  · have hlt : C < R := by omega
    have hmin : min R C = C := min_eq_right (le_of_lt hlt)
    rw [hmin]
    have g := h2 hlt
    refine ⟨?_, ?_, ?_, ?_, ?_⟩
    · intro k hk
      obtain ⟨a1, a2, _, _⟩ := g k hk
      exact ⟨a2, by omega⟩
    · intro k k' hk hk' he
      obtain ⟨_, _, _, a4⟩ := g k hk
      obtain ⟨_, _, _, b4⟩ := g k' hk'
      rw [he] at a4
      omega
    · intro k k' hk hk' he
      have := (g k hk).1
      have := (g k' hk').1
      omega
    · intro hle'; omega
    · intro _ k hk
      obtain ⟨a1, _, a3, _⟩ := g k hk
      exact ⟨a1, a3.symm⟩

/-- The assignment `jvlap` returns is a bijection, for `BIG >= 0`. -/
theorem bijection_core (BIG : Int) (N : Nat) (cost : Nat → Nat → Int)
    (rowsol colsol u v : Nat → Int) (hN : 1 ≤ N) (hB0 : 0 ≤ BIG)
    (hH : BelowBig BIG N cost rowsol colsol v) :
    (∃ M, ∀ fuel, M ≤ fuel → (jvlap BIG fuel N cost rowsol colsol u v).isSome = true) ∧
    ∀ fuel r, jvlap BIG fuel N cost rowsol colsol u v = some r →
      (∀ i, i < N → 0 ≤ r.1.rowsol i ∧ r.1.rowsol i < N ∧
        r.1.colsol (r.1.rowsol i).toNat = (i : Int)) ∧
      (∀ j, j < N → 0 ≤ r.1.colsol j ∧ r.1.colsol j < N ∧
        r.1.rowsol (r.1.colsol j).toNat = (j : Int)) := by
  obtain ⟨hret, hprop⟩ := jvlap_total BIG N cost rowsol colsol u v hN hB0 hH
  refine ⟨hret, ?_⟩
  intro fuel r hr
  obtain ⟨_, hp, hall⟩ := hprop fuel r hr
  obtain ⟨hb1, hb2⟩ := hp.bijection hall
  constructor
  · intro i hi
    obtain ⟨j, hj, h1, h2⟩ := hb1 i hi
    rw [h1, Int.toNat_ofNat]
    exact ⟨by omega, by omega, h2⟩
  · intro j hj
    obtain ⟨i, hi, h1, h2⟩ := hb2 j hj
    rw [h1, Int.toNat_ofNat]
    exact ⟨by omega, by omega, h2⟩

/-! ### Optimality -/

theorem exists_max_below (N : Nat) (hN : 1 ≤ N) (v : Nat → Int) :
    ∃ js, js < N ∧ ∀ j, j < N → v j ≤ v js := by
  induction N with
  | zero => omega
  | succ n ih =>
    by_cases hn : n = 0
    · subst hn
      exact ⟨0, by omega, fun j hj => by have : j = 0 := by omega
                                         subst this; exact le_refl _⟩
    · obtain ⟨js, hjs, hmax⟩ := ih (by omega)
      by_cases hc : v js ≤ v n
      · refine ⟨n, by omega, ?_⟩
        intro j hj
        by_cases e : j = n
        · subst e; exact le_refl _
        · have := hmax j (by omega); omega
      · refine ⟨js, by omega, ?_⟩
        intro j hj
        by_cases e : j = n
        · subst e; omega
        · exact hmax j (by omega)

theorem sum_perm_range (N : Nat) (ρ : Nat → Nat) (w : Nat → Int)
    (hρ : ∀ i, i < N → ρ i < N) (hinj : ∀ i i', i < N → i' < N → ρ i = ρ i' → i = i') :
    ∑ i in Finset.range N, w (ρ i) = ∑ j in Finset.range N, w j := by
  have hinjOn : Set.InjOn ρ (Finset.range N : Set Nat) := by
    intro i hi i' hi' he
    exact hinj i i' (Finset.mem_range.mp hi) (Finset.mem_range.mp hi') he
  have himg : (Finset.range N).image ρ = Finset.range N := by
    apply Finset.eq_of_subset_of_card_le
    · intro j hj
      obtain ⟨i, hi, rfl⟩ := Finset.mem_image.mp hj
      exact Finset.mem_range.mpr (hρ i (Finset.mem_range.mp hi))
    · rw [Finset.card_image_of_injOn hinjOn]
  rw [← Finset.sum_image (f := w) (g := ρ) hinjOn, himg]

theorem sum_le_of_subset_nonpos (s t : Finset Nat) (w : Nat → Int) (hst : s ⊆ t)
    (hw : ∀ j, j ∈ t → j ∉ s → w j ≤ 0) : ∑ j in t, w j ≤ ∑ j in s, w j := by
  rw [← Finset.sum_sdiff hst]
  have : ∑ j in t \ s, w j ≤ 0 := by
    apply Finset.sum_nonpos
    intro j hj
    obtain ⟨h1, h2⟩ := Finset.mem_sdiff.mp hj
    exact hw j h1 h2
  omega

/-- Optimality on the rectangle from a dual certificate on the padded square: the first `R`
rows of a tight permutation cost no more than any injection of these rows into the columns. -/
theorem rect_optimal (N R : Nat) (hR : R ≤ N) (c : Nat → Nat → Int) (u v : Nat → Int)
    (ρ : Nat → Nat)
    (hfeas : ∀ i j, i < N → j < N → u i + v j ≤ c i j)
    (htight : ∀ i, i < N → u i + v (ρ i) = c i (ρ i))
    (hρ : ∀ i, i < N → ρ i < N) (hρinj : ∀ i i', i < N → i' < N → ρ i = ρ i' → i = i')
    (hpad : ∀ i j, R ≤ i → i < N → j < N → c i j = 0)
    (f : Nat → Nat) (hf : ∀ i, i < R → f i < N)
    (hfinj : ∀ i i', i < R → i' < R → f i = f i' → i = i') :
    ∑ i in Finset.range R, c i (ρ i) ≤ ∑ i in Finset.range R, c i (f i) := by
  by_cases hN : N = 0
  · have : R = 0 := by omega
    subst this; simp
  obtain ⟨js, hjs, hmax⟩ := exists_max_below N (by omega) v
  have hsub : Finset.range R ⊆ Finset.range N := Finset.range_subset.mpr hR
  -- (1) the padding rows cost nothing
  have h1 : ∑ i in Finset.range R, c i (ρ i) = ∑ i in Finset.range N, c i (ρ i) := by
    apply Finset.sum_subset hsub
    intro i hi hni
    have hi' := Finset.mem_range.mp hi
    have : R ≤ i := by
      by_contra hlt
      exact hni (Finset.mem_range.mpr (by omega))
    exact hpad i (ρ i) this hi' (hρ i hi')
  -- (2) the tight permutation, with the potentials shifted by the largest price
  have h2 : ∑ i in Finset.range N, c i (ρ i) =
      ∑ i in Finset.range N, (u i + v js) + ∑ j in Finset.range N, (v j - v js) := by
    rw [← sum_perm_range N ρ (fun j => v j - v js) hρ hρinj, ← Finset.sum_add_distrib]
    apply Finset.sum_congr rfl
    intro i hi
    have := htight i (Finset.mem_range.mp hi)
    omega
  -- (3) the shifted row potentials of the padding rows are nonpositive
  have h3 : ∑ i in Finset.range N, (u i + v js) ≤ ∑ i in Finset.range R, (u i + v js) := by
    apply sum_le_of_subset_nonpos _ _ _ hsub
    intro i hi hni
    have hi' := Finset.mem_range.mp hi
    have hRi : R ≤ i := by
      by_contra hlt
      exact hni (Finset.mem_range.mpr (by omega))
    have := hfeas i js hi' hjs
    have := hpad i js hRi hi' hjs
    omega
  -- (4) the shifted prices are nonpositive
  have hinjOn : Set.InjOn f (Finset.range R : Set Nat) := by
    intro i hi i' hi' he
    exact hfinj i i' (Finset.mem_range.mp hi) (Finset.mem_range.mp hi') he
  have h4 : ∑ j in Finset.range N, (v j - v js) ≤ ∑ i in Finset.range R, (v (f i) - v js) := by
    rw [← Finset.sum_image (f := fun j => v j - v js) (g := f) hinjOn]
    apply sum_le_of_subset_nonpos
    · intro j hj
      obtain ⟨i, hi, rfl⟩ := Finset.mem_image.mp hj
      exact Finset.mem_range.mpr (hf i (Finset.mem_range.mp hi))
    · intro j hj _
      have := hmax j (Finset.mem_range.mp hj)
      omega
  -- (5) feasibility along `f`
  have h5 : ∑ i in Finset.range R, ((u i + v js) + (v (f i) - v js)) ≤
      ∑ i in Finset.range R, c i (f i) := by
    apply Finset.sum_le_sum
    intro i hi
    have hi' := Finset.mem_range.mp hi
    have := hfeas i (f i) (by omega) (hf i hi')
    omega
  rw [Finset.sum_add_distrib] at h5
  omega

theorem sum_map_range (g : Nat → Int) (n : Nat) :
    ((List.range n).map g).sum = ∑ i in Finset.range n, g i := by
  induction n with
  | zero => simp
  | succ n ih =>
    rw [List.range_succ, List.map_append, List.sum_append, ih, Finset.sum_range_succ]
    simp

theorem pairWeight_pairsOf (mat : Tensor Int) (t : Tensor Nat) (m c : Nat)
    (ht : t.getDims = [m, c]) :
    pairWeight mat (pairsOf t) = ∑ k in Finset.range m, mat.at2 (t.at2 k 0) (t.at2 k 1) := by
  unfold pairWeight pairsOf
  rw [ht, List.map_map]
  exact sum_map_range _ m

/-- Optimality of `solve`: it returns, the pairs it writes are a one-to-one pairing of the
smaller index set into the larger one, and their total weight is at least the total weight of
every such pairing (so it is the maximum). -/
theorem solve_optimal_core (BIG : Int) (mat : Tensor Int) (R C : Nat) (a : Tensor Nat)
    (r0 c0 : Nat → Int) (hd : mat.getDims = [R, C]) (hR : 1 ≤ R)
    (hsz : max R C < 4294967296) (hw : AboveMin mat R C)
    (hB0 : 0 ≤ BIG)
    (hH : BelowBig BIG (max R C) (getCost (Solver.new mat).costMat) r0 c0 (fun _ => 0))
    (ha : a.getDims = [min R C, 2]) :
    (∃ M, ∀ fuel, M ≤ fuel → (solve BIG fuel (solverWith mat r0 c0) a).isSome = true) ∧
    ∀ fuel res, solve BIG fuel (solverWith mat r0 c0) a = some res →
      (R ≤ C →
        (∃ f0 : Nat → Nat, (∀ i, i < R → f0 i < C) ∧
          (∀ i i', i < R → i' < R → f0 i = f0 i' → i = i') ∧
          pairsOf res.2 = (List.range R).map (fun i => (i, f0 i)) ∧
          pairWeight mat (pairsOf res.2) = ∑ i in Finset.range R, mat.at2 i (f0 i)) ∧
        ∀ f : Nat → Nat, (∀ i, i < R → f i < C) →
          (∀ i i', i < R → i' < R → f i = f i' → i = i') →
          ∑ i in Finset.range R, mat.at2 i (f i) ≤ pairWeight mat (pairsOf res.2)) ∧
      (C < R →
        (∃ g0 : Nat → Nat, (∀ j, j < C → g0 j < R) ∧
          (∀ j j', j < C → j' < C → g0 j = g0 j' → j = j') ∧
          pairsOf res.2 = (List.range C).map (fun j => (g0 j, j)) ∧
          pairWeight mat (pairsOf res.2) = ∑ j in Finset.range C, mat.at2 (g0 j) j) ∧
        ∀ g : Nat → Nat, (∀ j, j < C → g j < R) →
          (∀ j j', j < C → j' < C → g j = g j' → j = j') →
          ∑ j in Finset.range C, mat.at2 (g j) j ≤ pairWeight mat (pairsOf res.2)) := by
  obtain ⟨hret, hprop⟩ := solve_spec BIG mat R C a r0 c0 (min R C) hd hR hB0 hH ha
    (le_trans (min_le_left _ _) (le_max_left _ _))
  refine ⟨hret, ?_⟩
  intro fuel res hres
  obtain ⟨⟨lap, _, hrs, hcs, hp, hall⟩, _, _, _, _, hdims, _, _⟩ := hprop fuel res hres
  obtain ⟨hb1, hb2⟩ := hp.bijection hall
  obtain ⟨hp1, hp2⟩ := solve_pairs BIG mat R C a r0 c0 hd hR hsz hB0 hH ha fuel res hres
  obtain ⟨_, _, _, _, _, hneg0, hzero⟩ := costMatrix_spec mat R C hd
  have hneg : ∀ i j, i < R → j < C →
      getCost (Solver.new mat).costMat i j = -(mat.at2 i j) := fun i j hi hj =>
    (hneg0 i j hi hj).trans (neg32_eq _ (hw i j hi hj).1 (hw i j hi hj).2)
  have hw := pairWeight_pairsOf mat res.2 (min R C) 2 hdims
  -- the row potentials read off the assignment
  have hfeas : ∀ i j, i < max R C → j < max R C →
      (getCost (Solver.new mat).costMat i (lap.rowsol i).toNat - lap.v (lap.rowsol i).toNat)
        + lap.v j ≤ getCost (Solver.new mat).costMat i j := by
    intro i j hi hj
    obtain ⟨j0, hj0, h1, h2⟩ := hb1 i hi
    rw [h1, Int.toNat_ofNat]
    have := hp.dual i j0 hj0 h2 j hj
    omega
  have hρ : ∀ i, i < max R C → (lap.rowsol i).toNat < max R C := by
    intro i hi
    obtain ⟨j0, hj0, h1, _⟩ := hb1 i hi
    omega
  have hσ : ∀ j, j < max R C → (lap.colsol j).toNat < max R C := by
    intro j hj
    obtain ⟨i0, hi0, h1, _⟩ := hb2 j hj
    omega
  have hρσ : ∀ j, j < max R C → (lap.rowsol (lap.colsol j).toNat).toNat = j := by
    intro j hj
    obtain ⟨i0, hi0, h1, h2⟩ := hb2 j hj
    rw [h1, Int.toNat_ofNat, h2, Int.toNat_ofNat]
  have hσρ : ∀ i, i < max R C → (lap.colsol (lap.rowsol i).toNat).toNat = i := by
    intro i hi
    obtain ⟨j0, hj0, h1, h2⟩ := hb1 i hi
    rw [h1, Int.toNat_ofNat, h2, Int.toNat_ofNat]
  constructor
  · intro hle
    have hN : max R C = C := max_eq_right hle
    have hmin : min R C = R := min_eq_left hle
    have g := hp1 hle
    have hb : ∀ k, k < R → res.2.at2 k 1 = (lap.rowsol k).toNat := by
      intro k hk
      obtain ⟨_, _, a3, _⟩ := g k hk
      rw [hrs] at a3
      omega
    have hval : pairWeight mat (pairsOf res.2) =
        ∑ i in Finset.range R, mat.at2 i ((lap.rowsol i).toNat) := by
      rw [hw, hmin]
      apply Finset.sum_congr rfl
      intro k hk
      have hk' := Finset.mem_range.mp hk
      rw [(g k hk').1, hb k hk']
    refine ⟨⟨fun i => (lap.rowsol i).toNat, ?_, ?_, ?_, hval⟩, ?_⟩
    · intro i hi
      have := hρ i (by omega)
      show (lap.rowsol i).toNat < C
      omega
    · intro i i' hi hi' he
      have a1 := hσρ i (by omega)
      have a2 := hσρ i' (by omega)
      simp only at he
      rw [he] at a1
      omega
    · unfold pairsOf
      rw [hdims, hmin]
      apply List.map_congr_left
      intro k hk
      have hk' := List.mem_range.mp hk
      simp only [List.getD_cons_zero] at hk' ⊢
      rw [(g k hk').1, hb k hk']
    · intro f hf hfinj
      have key := rect_optimal (max R C) R (le_max_left _ _) (getCost (Solver.new mat).costMat)
        (fun i => getCost (Solver.new mat).costMat i (lap.rowsol i).toNat -
          lap.v (lap.rowsol i).toNat) lap.v (fun i => (lap.rowsol i).toNat)
        hfeas (fun i _ => by simp only; omega) hρ
        (by
          intro i i' hi hi' he
          have a1 := hσρ i hi
          have a2 := hσρ i' hi'
          simp only at he
          rw [he] at a1
          omega)
        (by
          intro i j hRi hi hj
          exact hzero i j hi hj (by omega))
        f (fun i hi => by have := hf i hi; omega) hfinj
      have e1 : ∑ i in Finset.range R, getCost (Solver.new mat).costMat i (lap.rowsol i).toNat =
          ∑ i in Finset.range R, -(mat.at2 i (lap.rowsol i).toNat) := by
        apply Finset.sum_congr rfl
        intro i hi
        have hi' := Finset.mem_range.mp hi
        exact hneg i _ hi' (by have := hρ i (by omega); omega)
      have e2 : ∑ i in Finset.range R, getCost (Solver.new mat).costMat i (f i) =
          ∑ i in Finset.range R, -(mat.at2 i (f i)) := by
        apply Finset.sum_congr rfl
        intro i hi
        have hi' := Finset.mem_range.mp hi
        exact hneg i _ hi' (hf i hi')
      simp only at key
      rw [e1, e2, Finset.sum_neg_distrib, Finset.sum_neg_distrib] at key
      rw [hval]
      omega
  · intro hlt
    have hN : max R C = R := max_eq_left (le_of_lt hlt)
    have hmin : min R C = C := min_eq_right (le_of_lt hlt)
    have g := hp2 hlt
    have hb : ∀ k, k < C → res.2.at2 k 0 = (lap.colsol k).toNat := by
      intro k hk
      obtain ⟨_, _, a3, _⟩ := g k hk
      rw [hcs] at a3
      omega
    have hval : pairWeight mat (pairsOf res.2) =
        ∑ j in Finset.range C, mat.at2 ((lap.colsol j).toNat) j := by
      rw [hw, hmin]
      apply Finset.sum_congr rfl
      intro k hk
      have hk' := Finset.mem_range.mp hk
      rw [(g k hk').1, hb k hk']
    refine ⟨⟨fun j => (lap.colsol j).toNat, ?_, ?_, ?_, hval⟩, ?_⟩
    · intro j hj
      have := hσ j (by omega)
      show (lap.colsol j).toNat < R
      omega
    · intro j j' hj hj' he
      have a1 := hρσ j (by omega)
      have a2 := hρσ j' (by omega)
      simp only at he
      rw [he] at a1
      omega
    · unfold pairsOf
      rw [hdims, hmin]
      apply List.map_congr_left
      intro k hk
      have hk' := List.mem_range.mp hk
      simp only [List.getD_cons_zero] at hk' ⊢
      rw [(g k hk').1, hb k hk']
    · intro gg hg hginj
      have key := rect_optimal (max R C) C (le_max_right _ _)
        (fun j i => getCost (Solver.new mat).costMat i j) lap.v
        (fun i => getCost (Solver.new mat).costMat i (lap.rowsol i).toNat -
          lap.v (lap.rowsol i).toNat) (fun j => (lap.colsol j).toNat)
        (fun j i hj hi => by have := hfeas i j hi hj; simp only; omega)
        (fun j hj => by
          simp only
          rw [hρσ j hj]
          omega)
        hσ
        (by
          intro j j' hj hj' he
          have a1 := hρσ j hj
          have a2 := hρσ j' hj'
          simp only at he
          rw [he] at a1
          omega)
        (by
          intro j i hCj hj hi
          exact hzero i j hi hj (by omega))
        gg (fun j hj => by have := hg j hj; omega) hginj
      have e1 : ∑ j in Finset.range C, getCost (Solver.new mat).costMat (lap.colsol j).toNat j =
          ∑ j in Finset.range C, -(mat.at2 (lap.colsol j).toNat j) := by
        apply Finset.sum_congr rfl
        intro j hj
        have hj' := Finset.mem_range.mp hj
        exact hneg _ j (by have := hσ j (by omega); omega) hj'
      have e2 : ∑ j in Finset.range C, getCost (Solver.new mat).costMat (gg j) j =
          ∑ j in Finset.range C, -(mat.at2 (gg j) j) := by
        apply Finset.sum_congr rfl
        intro j hj
        have hj' := Finset.mem_range.mp hj
        exact hneg _ j (hg j hj') hj'
      simp only at key
      rw [e1, e2, Finset.sum_neg_distrib, Finset.sum_neg_distrib] at key
      rw [hval]
      omega

/-! ### Independence from the contents of the buffers -/

theorem forDown_induction2 {σ : Type} (body : Nat → σ → σ) (P : Nat → σ → σ → Prop) :
    ∀ (n : Nat) (s s' : σ), P n s s' →
      (∀ j s s', j < n → P (j + 1) s s' → P j (body j s) (body j s')) →
      P 0 (forDown body n s) (forDown body n s') := by
  intro n
  induction n with
  | zero => intro s s' h0 _; simpa [forDown] using h0
  | succ n ih =>
    intro s s' h0 hstep
    exact ih (body n s) (body n s') (hstep n s s' (by omega) h0)
      (fun j s s' hj hp => hstep j s s' (by omega) hp)

theorem forUp_induction2 {σ : Type} (body : Nat → σ → σ) (P : Nat → σ → σ → Prop) :
    ∀ (n start : Nat) (s s' : σ), P start s s' →
      (∀ i s s', start ≤ i → i < start + n → P i s s' → P (i + 1) (body i s) (body i s')) →
      P (start + n) (forUp body n start s) (forUp body n start s') := by
  intro n
  induction n with
  | zero => intro start s s' h0 _; simpa [forUp] using h0
  | succ n ih =>
    intro start s s' h0 hstep
    have h1 := hstep start s s' (Nat.le_refl _) (by omega) h0
    have := ih (start + 1) (body start s) (body start s') h1
      (fun i s s' hi hlt hp => hstep i s s' (by omega) (by omega) hp)
    simpa [forUp, Nat.add_assoc, Nat.add_comm 1 n] using this

theorem colRedRel_step (N : Nat) (cost : Nat → Nat → Int) (j : Nat) (s s' : Lap)
    (hj : j < N) (h : ColRedInv N cost (j + 1) s) (hr : ColRedRel N (j + 1) s s') :
    ColRedRel N j (columnReductionStep N cost j s) (columnReductionStep N cost j s') := by
  have hN : 1 ≤ N := by omega
  obtain ⟨him, _, _⟩ := colMin_spec N cost j hN
  simp only [columnReductionStep]
  generalize (colMin N cost j).2 = im at him ⊢
  generalize (colMin N cost j).1 = m
  rw [← hr.matchCnt]
  have hcol : ∀ (x : Int) (j' : Nat), j ≤ j' → upd s.colsol j x j' = upd s'.colsol j x j' := by
    intro x j' hj'
    by_cases e : j' = j
    · subst e; simp [upd]
    · simp only [upd, e, if_false]; exact hr.colsol j' (by omega)
  have hv : ∀ j', j ≤ j' → upd s.v j m j' = upd s'.v j m j' := by
    intro j' hj'
    by_cases e : j' = j
    · subst e; simp [upd]
    · simp only [upd, e, if_false]; exact hr.v j' (by omega)
  have hrow : ∀ i, (i < N → upd s.matchCnt im (s.matchCnt im + 1) i ≠ 0) →
      upd s.rowsol im (j : Int) i = upd s'.rowsol im (j : Int) i := by
    intro i hi
    by_cases e : i = im
    · subst e; simp [upd]
    · simp only [upd, e, if_false] at hi ⊢
      exact hr.rowsol i hi
  by_cases hc : s.matchCnt im + 1 = 1
  · rw [if_pos hc, if_pos hc]
    exact ⟨hcol _, hv, hr.free_, hr.numfree, rfl, hrow⟩
  · rw [if_neg hc, if_neg hc]
    have hnz : s.matchCnt im ≠ 0 := by omega
    obtain ⟨j1, hj1a, hj1b, hr1, hc1⟩ := h.cnt_pos im him hnz
    have hre := hr.rowsol im (fun _ => hnz)
    rw [← hre]
    have htn : (s.rowsol im).toNat = j1 := by omega
    rw [htn]
    have hvj1 : upd s'.v j m j1 = upd s.v j m j1 := (hv j1 (by omega)).symm
    have hvj : upd s'.v j m j = upd s.v j m j := (hv j (le_refl _)).symm
    rw [hvj1, hvj]
    by_cases hlt : upd s.v j m j < upd s.v j m j1
    · rw [if_pos hlt, if_pos hlt]
      refine ⟨?_, hv, hr.free_, hr.numfree, rfl, hrow⟩
      intro j' hj'
      by_cases e : j' = j1
      · subst e; simp [upd]
      · simp only [upd, e, if_false]
        have := hcol (im : Int) j' hj'
        simpa [upd] using this
    · rw [if_neg hlt, if_neg hlt]
      refine ⟨hcol _, hv, hr.free_, hr.numfree, rfl, ?_⟩
      intro i hi
      by_cases e : i = im
      · subst e; exact hre
      · simp only [upd, e, if_false] at hi
        exact hr.rowsol i hi

theorem transferRel_step (BIG : Int) (N : Nat) (cost : Nat → Nat → Int) (i : Nat) (s s' : Lap)
    (hr : TransferRel N s s') :
    TransferRel N (reductionTransferStep BIG N cost i s) (reductionTransferStep BIG N cost i s') := by
  unfold reductionTransferStep
  rw [← hr.matchCnt, ← hr.numfree, ← hr.free_, ← hr.v]
  by_cases hz : s.matchCnt i = 0
  · rw [if_pos hz, if_pos hz]
    exact ⟨hr.colsol, rfl, rfl, rfl, rfl, hr.rowsol⟩
  · rw [if_neg hz, if_neg hz]
    by_cases h1 : s.matchCnt i = 1
    · rw [if_pos h1, if_pos h1]
      have hre := hr.rowsol i (fun _ => hz)
      simp only [← hre]
      exact ⟨hr.colsol, rfl, rfl, rfl, rfl, hr.rowsol⟩
    · rw [if_neg h1, if_neg h1]
      exact hr

theorem reductionTransfer_inv (BIG : Int) (N : Nat) (cost : Nat → Nat → Int)
    (rowsol colsol v : Nat → Int) (hN : 1 ≤ N) (hB : 0 ≤ BIG) :
    TransferInv N cost N (reductionTransfer BIG N cost (columnReduction N cost
      { rowsol := rowsol, colsol := colsol, v := v, free_ := fun _ => 0, numfree := 0,
        matchCnt := forUp (fun i m => upd m i 0) N 0 (fun _ => 0) })) := by
  have := forUp_induction (reductionTransferStep BIG N cost)
    (fun i s => TransferInv N cost i s) N 0 _
    (transferInv_init N cost _ (columnReduction_spec N cost rowsol colsol v hN))
    (fun i s _ hi h => transferInv_step BIG N cost i s hB (by omega) h)
  simpa using this

/-- Column reduction and reduction transfer do not depend on what the buffers held. -/
theorem reductionTransfer_congr (BIG : Int) (N : Nat) (cost : Nat → Nat → Int)
    (rowsol colsol v rowsol' colsol' v' : Nat → Int) (hN : 1 ≤ N) (hB : 0 ≤ BIG)
    (hr : ∀ i, N ≤ i → rowsol i = rowsol' i) (hc : ∀ j, N ≤ j → colsol j = colsol' j)
    (hv : ∀ j, N ≤ j → v j = v' j) :
    LapRel N
      (reductionTransfer BIG N cost (columnReduction N cost
        { rowsol := rowsol, colsol := colsol, v := v, free_ := fun _ => 0, numfree := 0,
          matchCnt := forUp (fun i m => upd m i 0) N 0 (fun _ => 0) }))
      (reductionTransfer BIG N cost (columnReduction N cost
        { rowsol := rowsol', colsol := colsol', v := v', free_ := fun _ => 0, numfree := 0,
          matchCnt := forUp (fun i m => upd m i 0) N 0 (fun _ => 0) })) := by
  have hm : ∀ i, forUp (fun i m => upd m i 0) N 0 (fun _ => 0) i = 0 := by
    have := forUp_induction (fun i (m : Nat → Nat) => upd m i 0) (fun _ m => ∀ i, m i = 0)
      N 0 (fun _ => 0) (fun _ => rfl)
      (by
        intro i m _ _ h k
        by_cases hk : k = i
        · subst hk; simp [upd]
        · simp [upd, hk, h k])
    exact this
  have h1 := forDown_induction2 (columnReductionStep N cost)
    (fun j s s' => ColRedInv N cost j s ∧ ColRedRel N j s s') N
    { rowsol := rowsol, colsol := colsol, v := v, free_ := fun _ => 0, numfree := 0,
      matchCnt := forUp (fun i m => upd m i 0) N 0 (fun _ => 0) }
    { rowsol := rowsol', colsol := colsol', v := v', free_ := fun _ => 0, numfree := 0,
      matchCnt := forUp (fun i m => upd m i 0) N 0 (fun _ => 0) }
    ⟨colRedInv_init N cost rowsol colsol v, ⟨hc, hv, rfl, rfl, rfl, by
      intro i hi
      apply hr
      by_contra hlt
      exact hi (by omega) (hm i)⟩⟩
    (fun j s s' hj ⟨a, b⟩ => ⟨colRedInv_step N cost j s hN hj a, colRedRel_step N cost j s s' hj a b⟩)
  obtain ⟨_, h1r⟩ := h1
  have h2 := forUp_induction2 (reductionTransferStep BIG N cost)
    (fun _ s s' => TransferRel N s s') N 0 _ _
    ⟨funext fun j => h1r.colsol j (Nat.zero_le _), funext fun j => h1r.v j (Nat.zero_le _),
      h1r.free_, h1r.numfree, h1r.matchCnt, h1r.rowsol⟩
    (fun i s s' _ _ h => transferRel_step BIG N cost i s s' h)
  have hinv := reductionTransfer_inv BIG N cost rowsol colsol v hN hB
  unfold reductionTransfer columnReduction at hinv ⊢
  refine ⟨h2.colsol, h2.v, h2.free_, h2.numfree, h2.matchCnt, ?_⟩
  intro i hi
  apply h2.rowsol
  intro hiN hz
  exact hi hiN (hinv.cnt_zero i hiN hz)

theorem rowsol_agree_assign (N : Nat) (cs r r' : Nat → Int) (jt i0 : Nat) (x : Int)
    (h : ∀ i, (i < N → ¬ RowFree N cs i) → r i = r' i) :
    ∀ i, (i < N → ¬ RowFree N (upd cs jt (i0 : Int)) i) → upd r i0 x i = upd r' i0 x i := by
  intro i hi
  by_cases e : i = i0
  · subst e; simp [upd]
  · rw [upd_other _ _ _ _ e, upd_other _ _ _ _ e]
    apply h
    intro hiN hfree
    apply hi hiN
    intro j hj
    by_cases e2 : j = jt
    · subst e2
      rw [upd_same]
      omega
    · rw [upd_other _ _ _ _ e2]
      exact hfree j hj

theorem arrStep_congr (BIG : Int) (N : Nat) (cost : Nat → Nat → Int) (a a' : Arr)
    (hk : a.k = a'.k) (hj2 : a.j2 = a'.j2) (hr : LapRel N a.lap a'.lap) :
    (arrStep BIG N cost a).k = (arrStep BIG N cost a').k ∧
    (arrStep BIG N cost a).j2 = (arrStep BIG N cost a').j2 ∧
    LapRel N (arrStep BIG N cost a).lap (arrStep BIG N cost a').lap := by
  simp only [arrStep]
  rw [← hk, ← hj2, ← hr.colsol, ← hr.v, ← hr.free_, ← hr.numfree]
  generalize scanRow BIG N cost a.lap.v (a.lap.free_ a.k) a.j2 = c
  have key := fun jt => rowsol_agree_assign N a.lap.colsol a.lap.rowsol a'.lap.rowsol jt
    (a.lap.free_ a.k) (jt : Int) hr.rowsol
  split_ifs <;> exact ⟨rfl, rfl, ⟨rfl, rfl, rfl, rfl, hr.matchCnt, key _⟩⟩

theorem arrLoop_congr (BIG : Int) (N : Nat) (cost : Nat → Nat → Int) (prv : Nat) :
    ∀ (fuel : Nat) (a a' b : Arr), a.k = a'.k → a.j2 = a'.j2 → LapRel N a.lap a'.lap →
      arrLoop BIG N cost prv fuel a = some b →
      ∃ b', arrLoop BIG N cost prv fuel a' = some b' ∧ b.k = b'.k ∧ b.j2 = b'.j2 ∧
        LapRel N b.lap b'.lap := by
  intro fuel
  induction fuel with
  | zero =>
    intro a a' b hk hj2 hr h
    by_cases hlt : a.k < prv
    · simp [arrLoop, hlt] at h
    · simp only [arrLoop, hlt, if_false] at h
      have : a = b := by injection h
      subst this
      exact ⟨a', by simp [arrLoop, ← hk, hlt], hk, hj2, hr⟩
  | succ f ih =>
    intro a a' b hk hj2 hr h
    by_cases hlt : a.k < prv
    · rw [arrLoop, if_pos hlt] at h
      obtain ⟨s1, s2, s3⟩ := arrStep_congr BIG N cost a a' hk hj2 hr
      obtain ⟨b', hb', rest⟩ := ih _ _ b s1 s2 s3 h
      refine ⟨b', ?_, rest⟩
      rw [arrLoop, if_pos (by omega)]
      exact hb'
    · rw [arrLoop, if_neg hlt] at h
      have : a = b := by injection h
      subst this
      exact ⟨a', by rw [arrLoop, if_neg (by omega)], hk, hj2, hr⟩

theorem arrPass_congr (BIG : Int) (N : Nat) (cost : Nat → Nat → Int) (fuel : Nat)
    (s s' : Lap) (j2 : Nat) (p : Lap × Nat) (hr : LapRel N s s')
    (h : arrPass BIG N cost fuel s j2 = some p) :
    ∃ p', arrPass BIG N cost fuel s' j2 = some p' ∧ p.2 = p'.2 ∧ LapRel N p.1 p'.1 := by
  unfold arrPass at h ⊢
  cases hl : arrLoop BIG N cost s.numfree fuel { lap := { s with numfree := 0 }, k := 0, j2 := j2 } with
  | none => rw [hl] at h; simp at h
  | some b =>
    rw [hl] at h
    have hp : p = (b.lap, b.j2) := by
      simp only [Option.map_some'] at h
      injection h with h
      exact h.symm
    subst hp
    obtain ⟨b', hb', _, h2, h3⟩ := arrLoop_congr BIG N cost s.numfree fuel
      { lap := { s with numfree := 0 }, k := 0, j2 := j2 }
      { lap := { s' with numfree := 0 }, k := 0, j2 := j2 } b rfl rfl
      ⟨hr.colsol, hr.v, hr.free_, rfl, hr.matchCnt, hr.rowsol⟩ hl
    rw [← hr.numfree, hb']
    exact ⟨(b'.lap, b'.j2), rfl, h2, h3⟩

theorem augmentingRowReduction_congr (BIG : Int) (N : Nat) (cost : Nat → Nat → Int)
    (fuel : Nat) (s s' r : Lap) (hr : LapRel N s s')
    (h : augmentingRowReduction BIG N cost fuel s = some r) :
    ∃ r', augmentingRowReduction BIG N cost fuel s' = some r' ∧ LapRel N r r' := by
  unfold augmentingRowReduction at h ⊢
  cases h1 : arrPass BIG N cost fuel s 0 with
  | none => rw [h1] at h; simp at h
  | some p =>
    rw [h1] at h
    simp only [Option.some_bind] at h
    obtain ⟨p', hp', e2, hr1⟩ := arrPass_congr BIG N cost fuel s s' 0 p hr h1
    rw [hp']
    simp only [Option.some_bind]
    cases h2 : arrPass BIG N cost fuel p.1 p.2 with
    | none => rw [h2] at h; simp at h
    | some q =>
      rw [h2] at h
      obtain ⟨q', hq', _, hr2⟩ := arrPass_congr BIG N cost fuel p.1 p'.1 p.2 q hr1 h2
      rw [← e2, hq']
      have : r = q.1 := by
        simp only [Option.map_some'] at h
        injection h with h
        exact h.symm
      subst this
      exact ⟨q'.1, rfl, hr2⟩

/-- Related states without a free row are the same state. -/
theorem LapRel.eq_of_full {N : Nat} {s s' : Lap} (h : LapRel N s s')
    (hall : ∀ i, i < N → ¬ RowFree N s.colsol i) : s = s' := by
  obtain ⟨a, b, c, d, e, f⟩ := h
  have g : s.rowsol = s'.rowsol := funext fun i => f i (fun hi => hall i hi)
  cases s
  cases s'
  simp only at a b c d e g
  subst a b c d e g
  rfl

/-- The result of `jvlap` does not depend on what `rowsol`, `colsol`, `u` and `v` hold in
their `N` cells when it is called, and the cells from `N` on are not written. -/
theorem jvlap_congr (BIG : Int) (N : Nat) (cost : Nat → Nat → Int) (r0 c0 v0 : Nat → Int)
    (hN : 1 ≤ N) (hB0 : 0 ≤ BIG) (hH : BelowBig BIG N cost r0 c0 v0) :
    ∃ (lap : Lap) (M : Nat),
      PInv N cost lap.rowsol lap.colsol lap.v ∧ (∀ i, i < N → ¬ RowFree N lap.colsol i) ∧
      (∀ i, N ≤ i → lap.rowsol i = r0 i ∧ lap.colsol i = c0 i) ∧
      ∀ (rs cs u v : Nat → Int), (∀ i, N ≤ i → r0 i = rs i) → (∀ i, N ≤ i → c0 i = cs i) →
        (∀ i, N ≤ i → v0 i = v i) →
        ∀ fuel, M ≤ fuel → jvlap BIG fuel N cost rs cs u v = some (lap, u) := by
  obtain ⟨hp2, hu2, hf2⟩ := reductionTransfer_spec BIG N cost r0 c0 v0 hN hB0
  have ht2 := reductionTransfer_tail BIG N cost r0 c0 v0 hN
  obtain ⟨s3, M, hrun3, hp3, hf3, ht3⟩ :=
    augmentingRowReduction_spec BIG N cost hN _ hH.arr hp2 hu2 hf2
  obtain ⟨s4, hrun4, hp4, hall, ht4, hc4⟩ := augmentSolution_spec N cost s3 hp3 hf3
  refine ⟨s4, max M N, hp4, hall, ?_, ?_⟩
  · intro i hi
    obtain ⟨a1, a2⟩ := ht4 i hi
    obtain ⟨b1, b2⟩ := ht3 i hi
    obtain ⟨c1, c2⟩ := ht2 i hi
    exact ⟨a1.trans (b1.trans c1), a2.trans (b2.trans c2)⟩
  · intro rs cs u v hr hc hv fuel hfuel
    have hrel2 := reductionTransfer_congr BIG N cost r0 c0 v0 rs cs v hN hB0 hr hc hv
    obtain ⟨s3', hrun3', hrel3⟩ := augmentingRowReduction_congr BIG N cost fuel _ _ s3 hrel2
      (hrun3 fuel (le_trans (le_max_left _ _) hfuel))
    obtain ⟨s4', hrun4', hrel4⟩ := hc4 s3' hrel3
    have e4 : s4 = s4' := hrel4.eq_of_full hall
    unfold jvlap
    simp only
    rw [hrun3']
    simp only [Option.some_bind]
    rw [hrun4' fuel (le_trans (le_max_right _ _) hfuel), e4]
    rfl

/-- More fuel does not change a result of `solve`. -/
theorem solve_mono (BIG : Int) (s : Solver) (a : Tensor Nat) (fuel fuel' : Nat)
    (res : Solver × Tensor Nat) (hle : fuel ≤ fuel') (h : solve BIG fuel s a = some res) :
    solve BIG fuel' s a = some res := by
  unfold solve at h ⊢
  cases hj : jvlap BIG fuel s.size (getCost s.costMat) s.rowsol s.colsol (fun _ => 0)
      (fun _ => 0) with
  | none => rw [hj] at h; simp at h
  | some r =>
    rw [hj] at h
    rw [jvlap_mono BIG s.size (getCost s.costMat) s.rowsol s.colsol _ _ fuel fuel' r hle hj]
    exact h

/-- The call of `solve` when `jvlap` returns `lap` and `assignMatching` returns `t`. -/
theorem solve_run (BIG : Int) (mat : Tensor Int) (rs cs : Nat → Int) (a t : Tensor Nat)
    (lap : Lap) (fuel : Nat)
    (hj : jvlap BIG fuel (Solver.new mat).size (getCost (Solver.new mat).costMat) rs cs
      (fun _ => 0) (fun _ => 0) = some (lap, fun _ => 0))
    (ht : assignMatching (solverWith mat lap.rowsol lap.colsol) a = some t) :
    solve BIG fuel (solverWith mat rs cs) a = some (solverWith mat lap.rowsol lap.colsol, t) := by
  have e : solve BIG fuel (solverWith mat rs cs) a =
      (jvlap BIG fuel (Solver.new mat).size (getCost (Solver.new mat).costMat) rs cs
        (fun _ => 0) (fun _ => 0)).bind fun r =>
          (assignMatching (solverWith mat r.1.rowsol r.1.colsol) a).map
            fun a' => (solverWith mat r.1.rowsol r.1.colsol, a') := rfl
  rw [e, hj]
  simp only [Option.some_bind, ht, Option.map_some']

/-- The pairs written by `assignMatching` do not depend on what the tensor held. -/
theorem assignMatching_pairs (s : Solver) (a a' : Tensor Nat) (m : Nat)
    (ha : a.getDims = [m, 2]) (ha' : a'.getDims = [m, 2]) (hm : m ≤ s.size) :
    ∃ t t', assignMatching s a = some t ∧ assignMatching s a' = some t' ∧
      pairsOf t = pairsOf t' := by
  obtain ⟨t, h1, h2, h3, _⟩ := assignMatching_spec s a m ha hm
  obtain ⟨t', h1', h2', h3', _⟩ := assignMatching_spec s a' m ha' hm
  refine ⟨t, t', h1, h1', ?_⟩
  unfold pairsOf
  rw [h2, h2']
  apply List.map_congr_left
  intro k hk
  have hk' : k < m := by simpa using hk
  rw [(h3 k hk').1, (h3 k hk').2, (h3' k hk').1, (h3' k hk').2]

/-- Two calls of `solve` for the same weight matrix, from different contents of `rowsol`
and `colsol` and into different tensors of the same shape, and a further call on the
solver they leave behind. -/
theorem solve_congr (BIG : Int) (mat : Tensor Int) (R C m : Nat)
    (rs cs rs' cs' : Nat → Int) (a a' : Tensor Nat)
    (hd : mat.getDims = [R, C]) (hR : 1 ≤ R)
    (hB0 : 0 ≤ BIG)
    (hH : BelowBig BIG (max R C) (getCost (Solver.new mat).costMat) rs cs (fun _ => 0))
    (ha : a.getDims = [m, 2]) (ha' : a'.getDims = [m, 2]) (hm : m ≤ max R C)
    (hrs : ∀ i, max R C ≤ i → rs i = rs' i) (hcs : ∀ i, max R C ≤ i → cs i = cs' i) :
    ∃ (s1 : Solver) (t t' : Tensor Nat) (M : Nat),
      pairsOf t = pairsOf t' ∧
      (∃ rs1 cs1 : Nat → Int, s1 = solverWith mat rs1 cs1 ∧
        (∀ i, max R C ≤ i → rs i = rs1 i) ∧ (∀ i, max R C ≤ i → cs i = cs1 i)) ∧
      (∀ fuel, M ≤ fuel →
        solve BIG fuel (solverWith mat rs cs) a = some (s1, t) ∧
        solve BIG fuel (solverWith mat rs' cs') a' = some (s1, t') ∧
        solve BIG fuel s1 a' = some (s1, t')) ∧
      ∀ fuel res,
        (solve BIG fuel (solverWith mat rs cs) a = some res → res = (s1, t)) ∧
        (solve BIG fuel (solverWith mat rs' cs') a' = some res → res = (s1, t')) ∧
        (solve BIG fuel s1 a' = some res → res = (s1, t')) := by
  obtain ⟨_, _, f3, _, _, _⟩ := solverWith_fields mat R C rs cs hd
  have hsize : (Solver.new mat).size = max R C := f3
  have hN : 1 ≤ max R C := le_trans hR (le_max_left _ _)
  obtain ⟨lap, M, _, _, htail, hrun⟩ := jvlap_congr BIG (max R C)
    (getCost (Solver.new mat).costMat) rs cs (fun _ => 0) hN hB0 hH
  obtain ⟨t, t', ht, ht', hpairs⟩ := assignMatching_pairs (solverWith mat lap.rowsol lap.colsol)
    a a' m ha ha' (by rw [show (solverWith mat lap.rowsol lap.colsol).size = max R C from f3]; exact hm)
  have key : ∀ fuel, M ≤ fuel →
      solve BIG fuel (solverWith mat rs cs) a = some (solverWith mat lap.rowsol lap.colsol, t) ∧
      solve BIG fuel (solverWith mat rs' cs') a' =
        some (solverWith mat lap.rowsol lap.colsol, t') ∧
      solve BIG fuel (solverWith mat lap.rowsol lap.colsol) a' =
        some (solverWith mat lap.rowsol lap.colsol, t') := by
    intro fuel hfuel
    refine ⟨?_, ?_, ?_⟩
    · apply solve_run BIG mat rs cs a t lap fuel _ ht
      rw [hsize]
      exact hrun rs cs _ _ (fun _ _ => rfl) (fun _ _ => rfl) (fun _ _ => rfl) fuel hfuel
    · apply solve_run BIG mat rs' cs' a' t' lap fuel _ ht'
      rw [hsize]
      exact hrun rs' cs' _ _ hrs hcs (fun _ _ => rfl) fuel hfuel
    · apply solve_run BIG mat lap.rowsol lap.colsol a' t' lap fuel _ ht'
      rw [hsize]
      exact hrun lap.rowsol lap.colsol _ _ (fun i hi => (htail i hi).1.symm)
        (fun i hi => (htail i hi).2.symm) (fun _ _ => rfl) fuel hfuel
  refine ⟨solverWith mat lap.rowsol lap.colsol, t, t', M, hpairs,
    ⟨lap.rowsol, lap.colsol, rfl, fun i hi => (htail i hi).1.symm,
      fun i hi => (htail i hi).2.symm⟩, key, ?_⟩
  intro fuel res
  obtain ⟨k1, k2, k3⟩ := key (max fuel M) (le_max_right _ _)
  refine ⟨?_, ?_, ?_⟩
  · intro h
    have := solve_mono BIG _ _ fuel (max fuel M) res (le_max_left _ _) h
    rw [k1] at this
    injection this with this
    exact this.symm
  · intro h
    have := solve_mono BIG _ _ fuel (max fuel M) res (le_max_left _ _) h
    rw [k2] at this
    injection this with this
    exact this.symm
  · intro h
    have := solve_mono BIG _ _ fuel (max fuel M) res (le_max_left _ _) h
    rw [k3] at this
    injection this with this
    exact this.symm

/-- Two calls of `jvlap` for the same cost matrix from different contents of `rowsol`,
`colsol`, `u` and `v`. -/
theorem jvlap_two_runs (BIG : Int) (N : Nat) (cost : Nat → Nat → Int)
    (rs cs u v rs' cs' u' v' : Nat → Int) (hN : 1 ≤ N) (hB0 : 0 ≤ BIG)
    (hH : BelowBig BIG N cost rs cs v)
    (hrs : ∀ i, N ≤ i → rs i = rs' i) (hcs : ∀ i, N ≤ i → cs i = cs' i)
    (hv : ∀ i, N ≤ i → v i = v' i) :
    ∃ (lap : Lap) (M : Nat),
      (∀ fuel, M ≤ fuel →
        jvlap BIG fuel N cost rs cs u v = some (lap, u) ∧
        jvlap BIG fuel N cost rs' cs' u' v' = some (lap, u')) ∧
      ∀ fuel r,
        (jvlap BIG fuel N cost rs cs u v = some r → r = (lap, u)) ∧
        (jvlap BIG fuel N cost rs' cs' u' v' = some r → r = (lap, u')) := by
  obtain ⟨lap, M, _, _, _, hrun⟩ := jvlap_congr BIG N cost rs cs v hN hB0 hH
  have key : ∀ fuel, M ≤ fuel →
      jvlap BIG fuel N cost rs cs u v = some (lap, u) ∧
      jvlap BIG fuel N cost rs' cs' u' v' = some (lap, u') := fun fuel hfuel =>
    ⟨hrun rs cs u v (fun _ _ => rfl) (fun _ _ => rfl) (fun _ _ => rfl) fuel hfuel,
     hrun rs' cs' u' v' hrs hcs hv fuel hfuel⟩
  refine ⟨lap, M, key, ?_⟩
  intro fuel r
  obtain ⟨k1, k2⟩ := key (max fuel M) (le_max_right _ _)
  constructor
  · intro h
    have := jvlap_mono BIG N cost rs cs u v fuel (max fuel M) r (le_max_left _ _) h
    rw [k1] at this
    injection this with this
    exact this.symm
  · intro h
    have := jvlap_mono BIG N cost rs' cs' u' v' fuel (max fuel M) r (le_max_left _ _) h
    rw [k2] at this
    injection this with this
    exact this.symm

/-! ### The condition on BIG: reduced costs below BIG -/

theorem forUp_succ_last {σ : Type} (body : Nat → σ → σ) :
    ∀ (n start : Nat) (s : σ),
      forUp body (n + 1) start s = body (start + n) (forUp body n start s) := by
  intro n
  induction n with
  | zero => intro start s; simp [forUp]
  | succ n ih =>
    intro start s
    rw [forUp, ih (start + 1) (body start s)]
    rw [show start + 1 + n = start + (n + 1) by omega]
    rfl

theorem reductionTransferStep_matchCnt (BIG : Int) (N : Nat) (cost : Nat → Nat → Int) (i : Nat)
    (s : Lap) : (reductionTransferStep BIG N cost i s).matchCnt = s.matchCnt := by
  unfold reductionTransferStep
  split_ifs <;> rfl

/-- The state of the reduction transfer when the rows below `n` have been processed. -/
theorem transferInv_prefix (BIG : Int) (N : Nat) (cost : Nat → Nat → Int)
    (rowsol colsol v : Nat → Int) (hN : 1 ≤ N) (hB : 0 ≤ BIG) (n : Nat) (hn : n ≤ N) :
    TransferInv N cost n (forUp (reductionTransferStep BIG N cost) n 0 (columnReduction N cost
      { rowsol := rowsol, colsol := colsol, v := v, free_ := fun _ => 0, numfree := 0,
        matchCnt := forUp (fun i m => upd m i 0) N 0 (fun _ => 0) })) ∧
    (forUp (reductionTransferStep BIG N cost) n 0 (columnReduction N cost
      { rowsol := rowsol, colsol := colsol, v := v, free_ := fun _ => 0, numfree := 0,
        matchCnt := forUp (fun i m => upd m i 0) N 0 (fun _ => 0) })).matchCnt =
      (columnReduction N cost
      { rowsol := rowsol, colsol := colsol, v := v, free_ := fun _ => 0, numfree := 0,
        matchCnt := forUp (fun i m => upd m i 0) N 0 (fun _ => 0) }).matchCnt := by
  have := forUp_induction (reductionTransferStep BIG N cost)
    (fun i s => TransferInv N cost i s ∧ s.matchCnt = (columnReduction N cost
      { rowsol := rowsol, colsol := colsol, v := v, free_ := fun _ => 0, numfree := 0,
        matchCnt := forUp (fun i m => upd m i 0) N 0 (fun _ => 0) }).matchCnt) n 0 _
    ⟨transferInv_init N cost _ (columnReduction_spec N cost rowsol colsol v hN), rfl⟩
    (fun i s _ hi h => ⟨transferInv_step BIG N cost i s hB (by omega) h.1,
      (reductionTransferStep_matchCnt BIG N cost i s).trans h.2⟩)
  simpa using this

/-- During the reduction transfer every reduced cost of a row that is still to be processed
and is assigned stays below `BIG`. -/
theorem transfer_lt_big (BIG : Int) (N : Nat) (cost : Nat → Nat → Int) (i : Nat) (s : Lap)
    (hB : BigEnough BIG N cost) (hi : i < N) (h : TransferInv N cost i s)
    (hnz : s.matchCnt i ≠ 0) (j : Nat) (hj : j < N) : cost i j - s.v j < BIG := by
  obtain ⟨j1, hj1, hr, hc⟩ := h.cnt_pos i hi hnz
  have ht := h.tight i j1 hj1 (le_refl _) hc
  rcases h.pinv.col_range j hj with e | ⟨i', hi', e⟩
  · obtain ⟨i2, hi2, hv⟩ := h.unassigned j hj e
    have := hB i j i2 j hi hj hi2 hj
    have := hB i2 j i j hi2 hj hi hj
    omega
  · have hd := h.pinv.dual i' j hj e j1 hj1
    have b1 := hB i j i j1 hi hj hi hj1
    have b2 := hB i' j1 i' j hi' hj1 hi' hj
    omega

/-- More fuel keeps the result of a pass of the augmenting row reduction. -/
theorem arrPass_mono_add (BIG : Int) (N : Nat) (cost : Nat → Nat → Int) (fuel : Nat) (s : Lap)
    (j2 : Nat) (r : Lap × Nat) (h : arrPass BIG N cost fuel s j2 = some r) :
    ∀ n, arrPass BIG N cost (fuel + n) s j2 = some r := by
  intro n
  induction n with
  | zero => exact h
  | succ n ih => exact arrPass_mono BIG N cost (fuel + n) s j2 r ih

/-- With `BIG` above twice the spread of the cost matrix, every state that a pass reaches
is a feasible partial assignment with its free rows listed. -/
theorem arrReach_inv (BIG : Int) (N : Nat) (cost : Nat → Nat → Int) (prv : Nat) (a0 : Arr)
    (hN : 1 ≤ N) (hB : BigEnough BIG N cost) (h0 : ArrInv N cost prv a0) :
    ∀ a, ArrReach BIG N cost prv a0 a → ArrInv N cost prv a := by
  intro a h
  induction h with
  | start => exact h0
  | step b _ hk ih =>
    have hposk : (fun p => p < b.lap.numfree ∨ (b.k ≤ p ∧ p < prv)) b.k :=
      Or.inr ⟨le_refl _, hk⟩
    obtain ⟨hiN, hifree⟩ := ih.freeList.free b.k hposk
    exact (arrStep_spec BIG N cost prv b hN
      (reduced_lt_big BIG N cost _ _ _ hB ih.pinv ih.unassigned _ hiN hifree) ih hk).1

/-- With `BIG` above twice the spread of the cost matrix, every reduced cost of a row scan
of a pass is below `BIG`. -/
theorem passBelow_of_bigEnough (BIG : Int) (N : Nat) (cost : Nat → Nat → Int)
    (hN : 1 ≤ N) (hB : BigEnough BIG N cost) (s : Lap) (j2 : Nat)
    (hp : PInv N cost s.rowsol s.colsol s.v) (hu : UnassignedPrice N cost s.colsol s.v)
    (hf : FreeList N s.colsol s.free_ (fun p => p < s.numfree)) :
    PassBelow BIG N cost s j2 := by
  intro a hr hk
  have hinv : ArrInv N cost s.numfree { lap := { s with numfree := 0 }, k := 0, j2 := j2 } :=
    ⟨hp, hu, hf.congr (by intro p; simp), le_refl _, Nat.zero_le _⟩
  have ha := arrReach_inv BIG N cost s.numfree _ hN hB hinv a hr
  have hposk : (fun p => p < a.lap.numfree ∨ (a.k ≤ p ∧ p < s.numfree)) a.k :=
    Or.inr ⟨le_refl _, hk⟩
  obtain ⟨hiN, hifree⟩ := ha.freeList.free a.k hposk
  exact reduced_lt_big BIG N cost _ _ _ hB ha.pinv ha.unassigned _ hiN hifree

/-- With `BIG` above twice the spread of the cost matrix, every reduced cost of a row scan
of the two passes is below `BIG`. -/
theorem arrBelow_of_bigEnough (BIG : Int) (N : Nat) (cost : Nat → Nat → Int)
    (hN : 1 ≤ N) (hB : BigEnough BIG N cost) (s : Lap)
    (hp : PInv N cost s.rowsol s.colsol s.v) (hu : UnassignedPrice N cost s.colsol s.v)
    (hf : FreeList N s.colsol s.free_ (fun p => p < s.numfree)) :
    ArrBelow BIG N cost s := by
  have h1 := passBelow_of_bigEnough BIG N cost hN hB s 0 hp hu hf
  refine ⟨h1, ?_⟩
  intro fuel p hrun
  obtain ⟨s', j2', M, hrun', hp', hu', hf', _⟩ := arrPass_spec BIG N cost hN s 0 h1 hp hu hf
  have e : (s', j2') = p := by
    have a1 := hrun' (fuel + M) (by omega)
    rw [arrPass_mono_add BIG N cost fuel s 0 p hrun M] at a1
    exact (Option.some.inj a1).symm
  subst e
  exact passBelow_of_bigEnough BIG N cost hN hB s' j2' hp' hu' hf'

/-- The condition on the cost matrix alone implies the condition on the run: with `BIG`
above twice the spread of the cost matrix, every reduced cost that the reduction transfer
and the row scans compute is below `BIG`. -/
theorem belowBig_of_bigEnough (BIG : Int) (N : Nat) (cost : Nat → Nat → Int)
    (rowsol colsol v : Nat → Int) (hN : 1 ≤ N) (hB : BigEnough BIG N cost) :
    BelowBig BIG N cost rowsol colsol v := by
  have hB0 : 0 ≤ BIG := by
    have := hB 0 0 0 0 (by omega) (by omega) (by omega) (by omega)
    omega
  constructor
  · intro i hi hm j hj _
    have hpre := ( transferInv_prefix BIG N cost rowsol colsol v hN hB0 i (by omega)).1
    exact transfer_lt_big BIG N cost i _ hB hi hpre (by
      show (transferState BIG N cost rowsol colsol v i).matchCnt i ≠ 0
      omega) j hj
  · obtain ⟨hp2, hu2, hf2⟩ := reductionTransfer_spec BIG N cost rowsol colsol v hN hB0
    exact arrBelow_of_bigEnough BIG N cost hN hB _ hp2 hu2 hf2

/-- Nonnegativity of `BIG` follows from the condition on the cost matrix. -/
theorem BigEnough.nonneg {BIG : Int} {N : Nat} {cost : Nat → Nat → Int}
    (hB : BigEnough BIG N cost) (hN : 1 ≤ N) : 0 ≤ BIG := by
  have := hB 0 0 0 0 (by omega) (by omega) (by omega) (by omega)
  omega

/-! ### A test for the condition on BIG -/

/-- A state reached from `a0` is `a0`, or is reached from the state after the trip from
`a0`. -/
theorem ArrReach.uncons {BIG : Int} {N : Nat} {cost : Nat → Nat → Int} {prv : Nat}
    {a0 a : Arr} (h : ArrReach BIG N cost prv a0 a) :
    a = a0 ∨ (a0.k < prv ∧ ArrReach BIG N cost prv (arrStep BIG N cost a0) a) := by
  induction h with
  | start => exact Or.inl rfl
  | step b _ hb ih =>
    rcases ih with e | ⟨h1, h2⟩
    · subst e
      exact Or.inr ⟨hb, ArrReach.start⟩
    · exact Or.inr ⟨h1, ArrReach.step b h2 hb⟩

theorem scanBelowB_sound (BIG : Int) (N : Nat) (cost : Nat → Nat → Int) (a : Arr)
    (h : scanBelowB BIG N cost a = true) : ScanBelow BIG N cost a := by
  intro j hj
  unfold scanBelowB at h
  rw [List.all_eq_true] at h
  exact of_decide_eq_true (h j (List.mem_range.mpr hj))

theorem passBelowB_sound (BIG : Int) (N : Nat) (cost : Nat → Nat → Int) (prv : Nat) :
    ∀ (fuel : Nat) (a0 : Arr), passBelowB BIG N cost prv fuel a0 = true →
      ∀ a, ArrReach BIG N cost prv a0 a → a.k < prv → ScanBelow BIG N cost a := by
  intro fuel
  induction fuel with
  | zero =>
    intro a0 h a hr hk
    have h0 : prv ≤ a0.k := of_decide_eq_true h
    rcases hr.uncons with e | ⟨h1, _⟩
    · subst e; omega
    · omega
  | succ f ih =>
    intro a0 h a hr hk
    simp only [passBelowB] at h
    by_cases h0 : a0.k < prv
    · rw [if_pos h0, Bool.and_eq_true] at h
      rcases hr.uncons with e | ⟨_, h2⟩
      · subst e
        exact scanBelowB_sound BIG N cost a h.1
      · exact ih _ h.2 a h2 hk
    · rcases hr.uncons with e | ⟨h1, _⟩
      · subst e; omega
      · omega

/-- A run that passes the test `belowBigB` computes only reduced costs below `BIG` in the
reduction transfer and in the row scans of the augmenting row reduction. -/
theorem belowBigB_sound (BIG : Int) (N : Nat) (cost : Nat → Nat → Int)
    (rowsol colsol v : Nat → Int) (fuel : Nat)
    (h : belowBigB BIG N cost rowsol colsol v fuel = true) :
    BelowBig BIG N cost rowsol colsol v := by
  unfold belowBigB at h
  rw [Bool.and_eq_true, Bool.and_eq_true] at h
  obtain ⟨ht, hp1, hp2⟩ := h
  constructor
  · intro i hi hm j hj hne
    rw [List.all_eq_true] at ht
    have := ht i (List.mem_range.mpr hi)
    rw [List.all_eq_true] at this
    exact of_decide_eq_true (this j (List.mem_range.mpr hj)) hm hne
  · constructor
    · exact passBelowB_sound BIG N cost _ fuel _ hp1
    · intro fuel' p hrun
      cases h0 : arrPass BIG N cost fuel (transferState BIG N cost rowsol colsol v N) 0 with
      | none => rw [h0] at hp2; exact absurd hp2 Bool.false_ne_true
      | some p0 =>
        rw [h0] at hp2
        have e1 := arrPass_mono_add BIG N cost fuel _ 0 p0 h0 fuel'
        have e2 := arrPass_mono_add BIG N cost fuel' _ 0 p hrun fuel
        rw [Nat.add_comm] at e2
        rw [e1] at e2
        have e : p0 = p := Option.some.inj e2
        subst e
        exact passBelowB_sound BIG N cost _ fuel _ hp2

/-- For the cost matrix `[[0,0],[100,100]]` and `BIG = 101` every reduced cost of the run
is below `BIG` (the largest is `100`), while `BIG` is not above twice the spread of the
matrix. -/
theorem belowBig_tight :
    BelowBig 101 (max 2 2) (getCost (Solver.new weightsTight22).costMat) (fun _ => 0)
      (fun _ => 0) (fun _ => 0) ∧
    ¬ BigEnough 101 (max 2 2) (getCost (Solver.new weightsTight22).costMat) := by
  constructor
  · exact belowBigB_sound 101 (max 2 2) _ _ _ _ 10 (by decide)
  · intro h
    exact absurd (h 1 0 0 0 (by decide) (by decide) (by decide) (by decide)) (by decide)

theorem aboveMinTight : AboveMin weightsTight22 2 2 := by
  intro i j hi hj
  have v : ∀ i j, weightsTight22.at2 i j = [0, 0, -100, -100].getD (i * 2 + j) 0 :=
    fun _ _ => rfl
  rw [v]
  interval_cases i <;> interval_cases j <;> decide

/-! ### The two scenarios -/

theorem bigEnough_of_bounds (BIG : Int) (N : Nat) (cost : Nat → Nat → Int) (lo hi : Int)
    (hb : ∀ i j, i < N → j < N → lo ≤ cost i j ∧ cost i j ≤ hi) (hB : 2 * (hi - lo) < BIG) :
    BigEnough BIG N cost := by
  intro i j i' j' hi hj hi' hj'
  have a := hb i j hi hj
  have b := hb i' j' hi' hj'
  omega

theorem costMat32 : (Solver.new weights32).costMat = ([[-3, -1, 0], [-1, -3, 0], [-2, -2, 0]] : List (List Int)) := by
  decide

theorem costMat22 : (Solver.new weights22).costMat = ([[-1, -2], [-2, -1]] : List (List Int)) := by
  decide

theorem bigEnough32 (BIG : Int) (hB : 6 < BIG) :
    BigEnough BIG (max 3 2) (getCost (Solver.new weights32).costMat) := by
  apply bigEnough_of_bounds BIG _ _ (-3) 0 _ (by omega)
  intro i j hi hj
  rw [costMat32]
  have hi' : i < 3 := hi
  have hj' : j < 3 := hj
  interval_cases i <;> interval_cases j <;> decide

theorem bigEnough22 (BIG : Int) (hB : 2 < BIG) :
    BigEnough BIG (max 2 2) (getCost (Solver.new weights22).costMat) := by
  apply bigEnough_of_bounds BIG _ _ (-2) (-1) _ (by omega)
  intro i j hi hj
  rw [costMat22]
  have hi' : i < 2 := hi
  have hj' : j < 2 := hj
  interval_cases i <;> interval_cases j <;> decide

theorem aboveMin32 : AboveMin weights32 3 2 := by
  intro i j hi hj
  have v : ∀ i j, weights32.at2 i j = [3, 1, 1, 3, 2, 2].getD (i * 2 + j) 0 := fun _ _ => rfl
  rw [v]
  interval_cases i <;> interval_cases j <;> decide

theorem aboveMin22 : AboveMin weights22 2 2 := by
  intro i j hi hj
  have v : ∀ i j, weights22.at2 i j = [1, 2, 2, 1].getD (i * 2 + j) 0 := fun _ _ => rfl
  rw [v]
  interval_cases i <;> interval_cases j <;> decide

/-- C7, scenario `R = 3`, `C = 2`: for the weight matrix `[[3,1],[1,3],[2,2]]` the constructor
builds the cost matrix `[[-3,-1,0],[-1,-3,0],[-2,-2,0]]`, and `solve` with an assignments
tensor of dims `[2, 2]` returns (for every fuel from some bound on) and writes the pairs
`(0,0)`, `(1,1)` in that order, of total weight `6`; row `2` is in no pair. `BIG` is any
value above `6`. -/
theorem scenario_3x2 (BIG : Int) (a : Tensor Nat) (hB : 6 < BIG) (ha : a.getDims = [2, 2]) :
    (Solver.new weights32).costMat = ([[-3, -1, 0], [-1, -3, 0], [-2, -2, 0]] : List (List Int)) ∧
    (∃ M, ∀ fuel, M ≤ fuel → (solve BIG fuel (Solver.new weights32) a).isSome = true) ∧
    ∀ fuel res, solve BIG fuel (Solver.new weights32) a = some res →
      pairsOf res.2 = [(0, 0), (1, 1)] ∧ pairWeight weights32 (pairsOf res.2) = 6 ∧
      ∀ p, p ∈ pairsOf res.2 → p.1 ≠ 2 := by
  obtain ⟨hret, hprop⟩ := solve_optimal_core BIG weights32 3 2 a (fun _ => 0) (fun _ => 0) rfl
    (by omega) (by norm_num) aboveMin32 (by omega)
    (belowBig_of_bigEnough BIG _ _ _ _ _ (by decide) (bigEnough32 BIG hB)) ha
  have e : solverWith weights32 (fun _ => 0) (fun _ => 0) = Solver.new weights32 := rfl
  rw [e] at hret hprop
  refine ⟨costMat32, hret, ?_⟩
  intro fuel res hres
  obtain ⟨⟨g0, hr, hinj, hpairs, hw⟩, hopt⟩ := (hprop fuel res hres).2 (by omega)
  have h6 := hopt (fun j => j) (by intro j hj; show j < 3; omega) (by intro j j2 _ _ h; exact h)
  rw [hw] at h6
  simp only [Finset.sum_range_succ, Finset.sum_range_zero, zero_add] at h6
  have hx := hr 0 (by omega)
  have hy := hr 1 (by omega)
  have hne : g0 0 ≠ g0 1 := by
    intro h
    have := hinj 0 1 (by omega) (by omega) h
    omega
  have hl : pairsOf res.2 = [(g0 0, 0), (g0 1, 1)] := by
    rw [hpairs]
    rfl
  rw [hl]
  generalize g0 0 = x at h6 hx hne
  generalize g0 1 = y at h6 hy hne
  have v : ∀ i j, weights32.at2 i j = [3, 1, 1, 3, 2, 2].getD (i * 2 + j) 0 := fun _ _ => rfl
  rw [v, v, v, v] at h6
  interval_cases x <;> interval_cases y <;> simp at h6 hne ⊢
  decide

/-- C8, scenario `R = 2`, `C = 2`: for the weight matrix `[[1,2],[2,1]]`, `solve` with an
assignments tensor of dims `[2, 2]` returns (for every fuel from some bound on) and writes the
pairs `(0,1)`, `(1,0)` in that order, of total weight `4`. `BIG` is any value above `2`. -/
theorem scenario_2x2 (BIG : Int) (a : Tensor Nat) (hB : 2 < BIG) (ha : a.getDims = [2, 2]) :
    (∃ M, ∀ fuel, M ≤ fuel → (solve BIG fuel (Solver.new weights22) a).isSome = true) ∧
    ∀ fuel res, solve BIG fuel (Solver.new weights22) a = some res →
      pairsOf res.2 = [(0, 1), (1, 0)] ∧ pairWeight weights22 (pairsOf res.2) = 4 := by
  obtain ⟨hret, hprop⟩ := solve_optimal_core BIG weights22 2 2 a (fun _ => 0) (fun _ => 0) rfl
    (by omega) (by norm_num) aboveMin22 (by omega)
    (belowBig_of_bigEnough BIG _ _ _ _ _ (by decide) (bigEnough22 BIG hB)) ha
  have e : solverWith weights22 (fun _ => 0) (fun _ => 0) = Solver.new weights22 := rfl
  rw [e] at hret hprop
  refine ⟨hret, ?_⟩
  intro fuel res hres
  obtain ⟨⟨f0, hr, hinj, hpairs, hw⟩, hopt⟩ := (hprop fuel res hres).1 (by omega)
  have h4 := hopt (fun i => 1 - i) (by intro i hi; show 1 - i < 2; omega)
    (by intro i i2 hi hi2 h; simp only at h; omega)
  rw [hw] at h4
  simp only [Finset.sum_range_succ, Finset.sum_range_zero, zero_add] at h4
  have hx := hr 0 (by omega)
  have hy := hr 1 (by omega)
  have hne : f0 0 ≠ f0 1 := by
    intro h
    have := hinj 0 1 (by omega) (by omega) h
    omega
  have hl : pairsOf res.2 = [(0, f0 0), (1, f0 1)] := by
    rw [hpairs]
    rfl
  rw [hl]
  generalize f0 0 = x at h4 hx hne
  generalize f0 1 = y at h4 hy hne
  have v : ∀ i j, weights22.at2 i j = [1, 2, 2, 1].getD (i * 2 + j) 0 := fun _ _ => rfl
  rw [v, v, v, v] at h4
  interval_cases x <;> interval_cases y <;> simp at h4 hne ⊢
  decide

/-! ### Permuted weight matrices -/

/-- An injective map of `[0, N)` into itself has an inverse. -/
theorem exists_inverse (N : Nat) (s : Nat → Nat) (hs : ∀ i, i < N → s i < N)
    (hinj : ∀ i i', i < N → i' < N → s i = s i' → i = i') :
    ∃ sinv : Nat → Nat, (∀ i, i < N → sinv i < N) ∧ (∀ i, i < N → sinv (s i) = i) ∧
      (∀ i, i < N → s (sinv i) = i) := by
  have hsurj : ∀ i', i' < N → ∃ i, i < N ∧ s i = i' := by
    intro i' hi'
    by_contra hne
    exact no_inj_missing N s i' hi' hs hinj (fun i hi he => hne ⟨i, hi, he⟩)
  refine ⟨fun i' => if h : ∃ i, i < N ∧ s i = i' then Classical.choose h else 0, ?_, ?_, ?_⟩
  · intro i' hi'
    simp only [dif_pos (hsurj i' hi')]
    exact (Classical.choose_spec (hsurj i' hi')).1
  · intro i hi
    have h : ∃ k, k < N ∧ s k = s i := ⟨i, hi, rfl⟩
    simp only [dif_pos h]
    exact hinj _ _ (Classical.choose_spec h).1 hi (Classical.choose_spec h).2
  · intro i' hi'
    simp only [dif_pos (hsurj i' hi')]
    exact (Classical.choose_spec (hsurj i' hi')).2

/-- A one-to-one pairing for `F` becomes, under permutations `s` and `t`, a one-to-one
pairing of the same total for the permuted matrix `F'`. -/
theorem pairing_transfer (R C : Nat) (F F' : Nat → Nat → Int) (s t : Nat → Nat)
    (hs : ∀ i, i < R → s i < R) (hsinj : ∀ i i', i < R → i' < R → s i = s i' → i = i')
    (ht : ∀ j, j < C → t j < C) (htinj : ∀ j j', j < C → j' < C → t j = t j' → j = j')
    (hperm : ∀ i j, i < R → j < C → F' (s i) (t j) = F i j)
    (f : Nat → Nat) (hf : ∀ i, i < R → f i < C)
    (hfinj : ∀ i i', i < R → i' < R → f i = f i' → i = i') :
    ∃ f' : Nat → Nat, (∀ i, i < R → f' i < C) ∧
      (∀ i i', i < R → i' < R → f' i = f' i' → i = i') ∧
      ∑ i in Finset.range R, F i (f i) = ∑ i in Finset.range R, F' i (f' i) := by
  obtain ⟨sinv, h1, h2, h3⟩ := exists_inverse R s hs hsinj
  refine ⟨fun i' => t (f (sinv i')), ?_, ?_, ?_⟩
  · intro i hi
    exact ht _ (hf _ (h1 i hi))
  · intro i i' hi hi' he
    have e1 := htinj _ _ (hf _ (h1 i hi)) (hf _ (h1 i' hi')) he
    have e2 := hfinj _ _ (h1 i hi) (h1 i' hi') e1
    rw [← h3 i hi, ← h3 i' hi', e2]
  · rw [← sum_perm_range R s (fun i' => F' i' (t (f (sinv i')))) hs hsinj]
    apply Finset.sum_congr rfl
    intro i hi
    have hi' := Finset.mem_range.mp hi
    rw [h2 i hi', hperm i (f i) hi' (hf i hi')]

/-- A pairing of maximum total for the permuted matrix `F'` becomes, read through the
permutations, a pairing of maximum total for `F`. -/
theorem optimum_transfer (R C : Nat) (F F' : Nat → Nat → Int) (s t : Nat → Nat)
    (hs : ∀ i, i < R → s i < R) (hsinj : ∀ i i', i < R → i' < R → s i = s i' → i = i')
    (ht : ∀ j, j < C → t j < C) (htinj : ∀ j j', j < C → j' < C → t j = t j' → j = j')
    (hperm : ∀ i j, i < R → j < C → F' (s i) (t j) = F i j)
    (f' : Nat → Nat) (hf' : ∀ i, i < R → f' i < C)
    (hfinj' : ∀ i i', i < R → i' < R → f' i = f' i' → i = i')
    (hopt' : ∀ g : Nat → Nat, (∀ i, i < R → g i < C) →
      (∀ i i', i < R → i' < R → g i = g i' → i = i') →
      ∑ i in Finset.range R, F' i (g i) ≤ ∑ i in Finset.range R, F' i (f' i)) :
    ∃ f1 : Nat → Nat, (∀ i, i < R → f1 i < C) ∧
      (∀ i i', i < R → i' < R → f1 i = f1 i' → i = i') ∧
      (∀ g : Nat → Nat, (∀ i, i < R → g i < C) →
        (∀ i i', i < R → i' < R → g i = g i' → i = i') →
        ∑ i in Finset.range R, F i (g i) ≤ ∑ i in Finset.range R, F i (f1 i)) ∧
      ∀ i, i < R → t (f1 i) = f' (s i) := by
  obtain ⟨tinv, t1, t2, t3⟩ := exists_inverse C t ht htinj
  have hval : ∀ i, i < R → tinv (f' (s i)) < C := fun i hi => t1 _ (hf' _ (hs i hi))
  have hback : ∀ i, i < R → t (tinv (f' (s i))) = f' (s i) := fun i hi => t3 _ (hf' _ (hs i hi))
  refine ⟨fun i => tinv (f' (s i)), hval, ?_, ?_, hback⟩
  · intro i i' hi hi' he
    have e1 : f' (s i) = f' (s i') := by
      rw [← hback i hi, ← hback i' hi']
      exact congrArg t he
    exact hsinj i i' hi hi' (hfinj' _ _ (hs i hi) (hs i' hi') e1)
  · intro g hg hginj
    obtain ⟨g', hg', hginj', hsum⟩ := pairing_transfer R C F F' s t hs hsinj ht htinj hperm
      g hg hginj
    have e : ∑ i in Finset.range R, F i (tinv (f' (s i))) =
        ∑ i in Finset.range R, F' i (f' i) := by
      rw [← sum_perm_range R s (fun i' => F' i' (f' i')) hs hsinj]
      apply Finset.sum_congr rfl
      intro i hi
      have hi' := Finset.mem_range.mp hi
      rw [← hperm i _ hi' (hval i hi'), hback i hi']
    rw [hsum, e]
    exact hopt' g' hg' hginj'

/-- The weights of a permuted matrix are the weights of the original one. -/
theorem aboveMin_perm (mat mat' : Tensor Int) (R C : Nat) (s t : Nat → Nat)
    (hw : AboveMin mat R C)
    (hs : ∀ i, i < R → s i < R) (hsinj : ∀ i i', i < R → i' < R → s i = s i' → i = i')
    (ht : ∀ j, j < C → t j < C) (htinj : ∀ j j', j < C → j' < C → t j = t j' → j = j')
    (hperm : ∀ i j, i < R → j < C → mat'.at2 (s i) (t j) = mat.at2 i j) :
    AboveMin mat' R C := by
  obtain ⟨sinv, s1, s2, s3⟩ := exists_inverse R s hs hsinj
  obtain ⟨tinv, t1, t2, t3⟩ := exists_inverse C t ht htinj
  intro i j hi hj
  have := hperm (sinv i) (tinv j) (s1 i hi) (t1 j hj)
  rw [s3 i hi, t3 j hj] at this
  rw [this]
  exact hw _ _ (s1 i hi) (t1 j hj)

/-- The total weight that `solve` reaches for a weight matrix is at most the one it reaches
for the matrix with rows and columns permuted. -/
theorem solve_weight_le (BIG : Int) (mat mat' : Tensor Int) (R C : Nat) (s t : Nat → Nat)
    (a a' : Tensor Nat) (r0 c0 r0' c0' : Nat → Int)
    (hd : mat.getDims = [R, C]) (hd' : mat'.getDims = [R, C]) (hR : 1 ≤ R)
    (hsz : max R C < 4294967296) (hw : AboveMin mat R C) (hw' : AboveMin mat' R C)
    (hB0 : 0 ≤ BIG)
    (hH : BelowBig BIG (max R C) (getCost (Solver.new mat).costMat) r0 c0 (fun _ => 0))
    (hH' : BelowBig BIG (max R C) (getCost (Solver.new mat').costMat) r0' c0' (fun _ => 0))
    (ha : a.getDims = [min R C, 2]) (ha' : a'.getDims = [min R C, 2])
    (hs : ∀ i, i < R → s i < R) (hsinj : ∀ i i', i < R → i' < R → s i = s i' → i = i')
    (ht : ∀ j, j < C → t j < C) (htinj : ∀ j j', j < C → j' < C → t j = t j' → j = j')
    (hperm : ∀ i j, i < R → j < C → mat'.at2 (s i) (t j) = mat.at2 i j)
    (fuel fuel' : Nat) (res res' : Solver × Tensor Nat)
    (hres : solve BIG fuel (solverWith mat r0 c0) a = some res)
    (hres' : solve BIG fuel' (solverWith mat' r0' c0') a' = some res') :
    pairWeight mat (pairsOf res.2) ≤ pairWeight mat' (pairsOf res'.2) := by
  obtain ⟨_, hprop⟩ := solve_optimal_core BIG mat R C a r0 c0 hd hR hsz hw hB0 hH ha
  obtain ⟨_, hprop'⟩ := solve_optimal_core BIG mat' R C a' r0' c0' hd' hR hsz hw' hB0 hH' ha'
  by_cases hle : R ≤ C
  · obtain ⟨⟨f0, hf, hfinj, _, hw⟩, _⟩ := (hprop fuel res hres).1 hle
    obtain ⟨_, hopt'⟩ := (hprop' fuel' res' hres').1 hle
    obtain ⟨f', hf', hfinj', hsum⟩ := pairing_transfer R C (fun i j => mat.at2 i j)
      (fun i j => mat'.at2 i j) s t hs hsinj ht htinj hperm f0 hf hfinj
    rw [hw, hsum]
    exact hopt' f' hf' hfinj'
  · have hlt : C < R := by omega
    obtain ⟨⟨g0, hg, hginj, _, hw⟩, _⟩ := (hprop fuel res hres).2 hlt
    obtain ⟨_, hopt'⟩ := (hprop' fuel' res' hres').2 hlt
    obtain ⟨g', hg', hginj', hsum⟩ := pairing_transfer C R (fun j i => mat.at2 i j)
      (fun j i => mat'.at2 i j) t s ht htinj hs hsinj (fun j i hj hi => hperm i j hi hj)
      g0 hg hginj
    rw [hw, hsum]
    exact hopt' g' hg' hginj'

/-- The total weight of the pairs that `solve` writes is the same for a weight matrix and
for the matrix with rows and columns permuted; when the pairing of maximum total weight is
unique, the pairs written for the permuted matrix are the images of the pairs written for
the matrix. -/
theorem solve_weight_perm (BIG : Int) (mat mat' : Tensor Int) (R C : Nat) (s t : Nat → Nat)
    (a a' : Tensor Nat) (r0 c0 r0' c0' : Nat → Int)
    (hd : mat.getDims = [R, C]) (hd' : mat'.getDims = [R, C]) (hR : 1 ≤ R)
    (hsz : max R C < 4294967296) (hw : AboveMin mat R C) (hB0 : 0 ≤ BIG)
    (hH : BelowBig BIG (max R C) (getCost (Solver.new mat).costMat) r0 c0 (fun _ => 0))
    (hH' : BelowBig BIG (max R C) (getCost (Solver.new mat').costMat) r0' c0' (fun _ => 0))
    (ha : a.getDims = [min R C, 2]) (ha' : a'.getDims = [min R C, 2])
    (hs : ∀ i, i < R → s i < R) (hsinj : ∀ i i', i < R → i' < R → s i = s i' → i = i')
    (ht : ∀ j, j < C → t j < C) (htinj : ∀ j j', j < C → j' < C → t j = t j' → j = j')
    (hperm : ∀ i j, i < R → j < C → mat'.at2 (s i) (t j) = mat.at2 i j) :
    (∃ M, ∀ fuel, M ≤ fuel →
      (solve BIG fuel (solverWith mat r0 c0) a).isSome = true ∧
      (solve BIG fuel (solverWith mat' r0' c0') a').isSome = true) ∧
    ∀ fuel fuel' res res', solve BIG fuel (solverWith mat r0 c0) a = some res →
      solve BIG fuel' (solverWith mat' r0' c0') a' = some res' →
      pairWeight mat (pairsOf res.2) = pairWeight mat' (pairsOf res'.2) ∧
      (UniqueOptimum mat R C →
        ∀ p : Nat × Nat, p ∈ pairsOf res'.2 ↔ ∃ q, q ∈ pairsOf res.2 ∧ p = (s q.1, t q.2)) := by
  have hw' := aboveMin_perm mat mat' R C s t hw hs hsinj ht htinj hperm
  obtain ⟨⟨M, hM⟩, hprop⟩ := solve_optimal_core BIG mat R C a r0 c0 hd hR hsz hw hB0 hH ha
  obtain ⟨⟨M', hM'⟩, hprop'⟩ :=
    solve_optimal_core BIG mat' R C a' r0' c0' hd' hR hsz hw' hB0 hH' ha'
  refine ⟨⟨max M M', fun fuel hf => ⟨hM fuel (le_trans (le_max_left _ _) hf),
    hM' fuel (le_trans (le_max_right _ _) hf)⟩⟩, ?_⟩
  intro fuel fuel' res res' hres hres'
  obtain ⟨sinv, s1, s2, s3⟩ := exists_inverse R s hs hsinj
  obtain ⟨tinv, t1, t2, t3⟩ := exists_inverse C t ht htinj
  refine ⟨?_, ?_⟩
  · apply le_antisymm
    · exact solve_weight_le BIG mat mat' R C s t a a' r0 c0 r0' c0' hd hd' hR hsz hw hw' hB0
        hH hH' ha ha' hs hsinj ht htinj hperm fuel fuel' res res' hres hres'
    · apply solve_weight_le BIG mat' mat R C sinv tinv a' a r0' c0' r0 c0 hd' hd hR hsz hw' hw
        hB0 hH' hH ha' ha s1 _ t1 _ _ fuel' fuel res' res hres' hres
      · intro i i' hi hi' he
        rw [← s3 i hi, ← s3 i' hi', he]
      · intro j j' hj hj' he
        rw [← t3 j hj, ← t3 j' hj', he]
      · intro i j hi hj
        have := hperm (sinv i) (tinv j) (s1 i hi) (t1 j hj)
        rw [s3 i hi, t3 j hj] at this
        exact this.symm
  · intro huniq p
    by_cases hle : R ≤ C
    · obtain ⟨⟨f0, hf, hfinj, hpairs, hsum⟩, hopt⟩ := (hprop fuel res hres).1 hle
      obtain ⟨⟨f0', hf', hfinj', hpairs', hsum'⟩, hopt'⟩ := (hprop' fuel' res' hres').1 hle
      obtain ⟨f1, hf1, hf1inj, hf1opt, hf1t⟩ := optimum_transfer R C (fun i j => mat.at2 i j)
        (fun i j => mat'.at2 i j) s t hs hsinj ht htinj hperm f0' hf' hfinj'
        (fun g hg hginj => by rw [← hsum']; exact hopt' g hg hginj)
      have heq := huniq.1 hle f0 f1
        ⟨hf, hfinj, fun g hg hginj => by rw [← hsum]; exact hopt g hg hginj⟩
        ⟨hf1, hf1inj, hf1opt⟩
      rw [hpairs, hpairs']
      simp only [List.mem_map, List.mem_range]
      constructor
      · rintro ⟨i', hi', rfl⟩
        refine ⟨(sinv i', f0 (sinv i')), ⟨sinv i', s1 i' hi', rfl⟩, ?_⟩
        simp only
        rw [s3 i' hi', heq _ (s1 i' hi'), hf1t _ (s1 i' hi'), s3 i' hi']
      · rintro ⟨q, ⟨i, hi, rfl⟩, rfl⟩
        refine ⟨s i, hs i hi, ?_⟩
        simp only
        rw [heq i hi, hf1t i hi]
    · have hlt : C < R := by omega
      obtain ⟨⟨g0, hg, hginj, hpairs, hsum⟩, hopt⟩ := (hprop fuel res hres).2 hlt
      obtain ⟨⟨g0', hg', hginj', hpairs', hsum'⟩, hopt'⟩ := (hprop' fuel' res' hres').2 hlt
      obtain ⟨g1, hg1, hg1inj, hg1opt, hg1s⟩ := optimum_transfer C R (fun j i => mat.at2 i j)
        (fun j i => mat'.at2 i j) t s ht htinj hs hsinj (fun j i hj hi => hperm i j hi hj)
        g0' hg' hginj' (fun g hg hginj => by rw [← hsum']; exact hopt' g hg hginj)
      have heq := huniq.2 hlt g0 g1
        ⟨hg, hginj, fun g hg hginj => by rw [← hsum]; exact hopt g hg hginj⟩
        ⟨hg1, hg1inj, hg1opt⟩
      rw [hpairs, hpairs']
      simp only [List.mem_map, List.mem_range]
      constructor
      · rintro ⟨j', hj', rfl⟩
        refine ⟨(g0 (tinv j'), tinv j'), ⟨tinv j', t1 j' hj', rfl⟩, ?_⟩
        simp only
        rw [t3 j' hj', heq _ (t1 j' hj'), hg1s _ (t1 j' hj'), t3 j' hj']
      · rintro ⟨q, ⟨j, hj, rfl⟩, rfl⟩
        refine ⟨t j, ht j hj, ?_⟩
        simp only
        rw [heq j hj, hg1s j hj]

end RLAPSolverJV

/-! ### Tensor: constructors and index access -/

open TensorTest

theorem foldl_mul_mod (M : Nat) :
    ∀ (dims : List Nat) (s : Nat),
      dims.foldl (fun size dim => size * dim % M) s =
        if dims = [] then s else (s * dims.prod) % M := by
  intro dims
  induction dims with
  | nil => intro s; simp
  | cons d ds ih =>
    intro s
    rw [List.foldl_cons, ih]
    by_cases h : ds = []
    · subst h; simp
    · simp only [h, if_false, List.prod_cons, reduceCtorEq]
      rw [Nat.mod_mul_mod, Nat.mul_assoc]

/-- The size computed by the constructor is the product of the entries modulo `2^32`. -/
theorem ofDims_size {α : Type} (dims : List Nat) (mem : Nat → α) :
    (Tensor.ofDims dims mem).getSize = dims.prod % 4294967296 := by
  have h : (Tensor.ofDims dims mem).getSize =
      dims.foldl (fun size dim => size * dim % 4294967296) 1 := by
    unfold Tensor.ofDims Tensor.getSize
    simp only
    split_ifs <;> rfl
  rw [h, foldl_mul_mod]
  by_cases e : dims = []
  · subst e; simp
  · simp [e]

/-- The dims kept by the constructor: the list given, or none when the size is `0`. -/
theorem ofDims_dims {α : Type} (dims : List Nat) (mem : Nat → α) :
    (Tensor.ofDims dims mem).getDims = if dims.prod % 4294967296 = 0 then [] else dims := by
  have hs := ofDims_size dims mem
  have h : (Tensor.ofDims dims mem).getDims =
      if (Tensor.ofDims dims mem).getSize = 0 then [] else dims := by
    unfold Tensor.ofDims Tensor.getSize Tensor.getDims
    simp only
    split_ifs <;> rfl
  rw [h, hs]

theorem prod_eq_zero_of_mem (dims : List Nat) (h : 0 ∈ dims) : dims.prod = 0 :=
  List.prod_eq_zero h

/-- The fill loop writes `k` into cell `k` for `k` below the size and nothing else. -/
theorem fillIndex_spec (t : Tensor Nat) :
    (fillIndex t).getDims = t.getDims ∧ (fillIndex t).getSize = t.getSize ∧
    ∀ k, (fillIndex t).data k = if k < t.getSize then k else t.data k := by
  have key := forUp_induction (fun listIndex (t : Tensor Nat) => t.set1 listIndex listIndex)
    (fun n u => u.dims = t.dims ∧ u.size = t.size ∧
      ∀ k, u.data k = if k < n then k else t.data k)
    t.getSize 0 t ⟨rfl, rfl, fun k => by simp⟩
    (by
      intro i u _ _ h
      obtain ⟨h1, h2, h3⟩ := h
      refine ⟨h1, h2, ?_⟩
      intro k
      simp only [Tensor.set1, upd]
      by_cases e : k = i
      · subst e; simp
      · rw [if_neg e, h3 k]
        by_cases e2 : k < i
        · rw [if_pos e2, if_pos (by omega)]
        · rw [if_neg e2, if_neg (by omega)])
  simp only [Nat.zero_add] at key
  exact key

theorem forUp_collect (g : Nat → Nat) :
    ∀ (n start : Nat) (l : List (Nat × Nat)) (cnt : Nat),
      forUp (fun y (st : List (Nat × Nat) × Nat) => (st.1 ++ [(g y, st.2)], st.2 + 1))
          n start (l, cnt) =
        (l ++ (List.range n).map (fun d => (g (start + d), cnt + d)), cnt + n) := by
  intro n
  induction n with
  | zero => intro start l cnt; simp [forUp]
  | succ n ih =>
    intro start l cnt
    simp only [forUp]
    rw [ih, List.range_succ_eq_map, List.map_cons, List.map_map]
    simp only [List.append_assoc, List.singleton_append, Nat.add_zero]
    refine Prod.ext ?_ (by simp only; omega)
    simp only
    congr 2
    apply List.map_congr_left
    intro d _
    simp only [Function.comp]
    rw [show start + 1 + d = start + (d + 1) by omega, show cnt + 1 + d = cnt + (d + 1) by omega]

theorem range_pairs_append (a b : Nat) :
    (List.range a).map (fun k => (k, k)) ++ (List.range b).map (fun d => (a + d, a + d)) =
      (List.range (a + b)).map (fun k => (k, k)) := by
  rw [List.range_add, List.map_append, List.map_map]
  rfl

/-- The reading loops of the two dimensional test on a tensor whose cell `k` holds `k`. -/
theorem read2D_spec (t : Tensor Nat) (r c : Nat) (hd : t.getDims = [r, c])
    (hk : ∀ k, k < r * c → t.data k = k) :
    read2D t = (List.range (r * c)).map (fun k => (k, k)) := by
  have hd' : t.dims = [r, c] := hd
  unfold read2D
  rw [hd]
  simp only [List.getD_cons_zero, List.getD_cons_succ]
  have key := forUp_induction
    (fun x (st : List (Nat × Nat) × Nat) =>
      forUp (fun y (st : List (Nat × Nat) × Nat) => (st.1 ++ [(t.at2 x y, st.2)], st.2 + 1))
        c 0 st)
    (fun x st => st = ((List.range (x * c)).map (fun k => (k, k)), x * c))
    r 0 ([], 0) (by simp)
    (by
      intro x st _ hx h
      subst h
      show forUp (fun y (st : List (Nat × Nat) × Nat) => (st.1 ++ [(t.at2 x y, st.2)], st.2 + 1))
        c 0 ((List.range (x * c)).map (fun k => (k, k)), x * c) = _
      rw [forUp_collect (fun y => t.at2 x y)]
      refine Prod.ext ?_ (by simp only; rw [Nat.add_mul, Nat.one_mul])
      simp only
      rw [Nat.add_mul, Nat.one_mul, ← range_pairs_append]
      congr 1
      apply List.map_congr_left
      intro d hdl
      have hdc : d < c := List.mem_range.mp hdl
      have hlt : x * c + d < r * c := by
        have : x + 1 ≤ r := by omega
        calc x * c + d < x * c + c := by omega
          _ = (x + 1) * c := by rw [Nat.add_mul, Nat.one_mul]
          _ ≤ r * c := Nat.mul_le_mul_right c this
      simp only [Tensor.at2, hd', List.getD_cons_zero, List.getD_cons_succ, Nat.zero_add]
      rw [hk _ hlt])
  simp only [Nat.zero_add] at key
  rw [key]

theorem index3_lt (a b c x y z : Nat) (hx : x < a) (hy : y < b) (hz : z < c) :
    x * b * c + y * c + z < a * b * c := by
  have h1 : y * c + z < b * c := by
    calc y * c + z < y * c + c := by omega
      _ = (y + 1) * c := by rw [Nat.add_mul, Nat.one_mul]
      _ ≤ b * c := Nat.mul_le_mul_right c (by omega)
  calc x * b * c + y * c + z = x * (b * c) + (y * c + z) := by rw [Nat.mul_assoc]; omega
    _ < x * (b * c) + b * c := by omega
    _ = (x + 1) * (b * c) := by rw [Nat.add_mul, Nat.one_mul]
    _ ≤ a * (b * c) := Nat.mul_le_mul_right _ (by omega)
    _ = a * b * c := by rw [Nat.mul_assoc]

/-- The reading loops of the three dimensional test on a tensor whose cell `k` holds `k`. -/
theorem read3D_spec (t : Tensor Nat) (a b c : Nat) (hd : t.getDims = [a, b, c])
    (hk : ∀ k, k < a * b * c → t.data k = k) :
    read3D t = (List.range (a * b * c)).map (fun k => (k, k)) := by
  have hd' : t.dims = [a, b, c] := hd
  unfold read3D
  rw [hd]
  simp only [List.getD_cons_zero, List.getD_cons_succ]
  have inner : ∀ x y, x < a → y < b →
      forUp (fun z (st : List (Nat × Nat) × Nat) => (st.1 ++ [(t.at3 x y z, st.2)], st.2 + 1))
          c 0 ((List.range (x * b * c + y * c)).map (fun k => (k, k)), x * b * c + y * c) =
        ((List.range (x * b * c + (y + 1) * c)).map (fun k => (k, k)),
          x * b * c + (y + 1) * c) := by
    intro x y hx hy
    rw [forUp_collect (fun z => t.at3 x y z)]
    have e : x * b * c + (y + 1) * c = x * b * c + y * c + c := by
      rw [Nat.add_mul, Nat.one_mul]; omega
    refine Prod.ext ?_ (by simp only; omega)
    simp only
    rw [e]
    have hm : (List.range c).map (fun d => (t.at3 x y (0 + d), x * b * c + y * c + d)) =
        (List.range c).map (fun d => (x * b * c + y * c + d, x * b * c + y * c + d)) := by
      apply List.map_congr_left
      intro d hdl
      have hdc : d < c := List.mem_range.mp hdl
      have hlt := index3_lt a b c x y d hx hy hdc
      simp only [Tensor.at3, hd', List.getD_cons_zero, List.getD_cons_succ, Nat.zero_add]
      rw [hk _ hlt]
    rw [hm]
    exact range_pairs_append (x * b * c + y * c) c
  have middle : ∀ x, x < a →
      forUp (fun y st =>
          forUp (fun z (st : List (Nat × Nat) × Nat) =>
              (st.1 ++ [(t.at3 x y z, st.2)], st.2 + 1)) c 0 st)
          b 0 ((List.range (x * b * c)).map (fun k => (k, k)), x * b * c) =
        ((List.range ((x + 1) * b * c)).map (fun k => (k, k)), (x + 1) * b * c) := by
    intro x hx
    have key := forUp_induction
      (fun y st =>
        forUp (fun z (st : List (Nat × Nat) × Nat) =>
            (st.1 ++ [(t.at3 x y z, st.2)], st.2 + 1)) c 0 st)
      (fun y st => st = ((List.range (x * b * c + y * c)).map (fun k => (k, k)),
        x * b * c + y * c))
      b 0 ((List.range (x * b * c)).map (fun k => (k, k)), x * b * c) (by simp)
      (by
        intro y st _ hy h
        subst h
        exact inner x y hx (by omega))
    simp only [Nat.zero_add] at key
    rw [key]
    have e : x * b * c + b * c = (x + 1) * b * c := by
      rw [Nat.add_mul, Nat.one_mul, Nat.add_mul]
    rw [e]
  have key := forUp_induction
    (fun x st =>
      forUp (fun y st =>
          forUp (fun z (st : List (Nat × Nat) × Nat) =>
              (st.1 ++ [(t.at3 x y z, st.2)], st.2 + 1)) c 0 st) b 0 st)
    (fun x st => st = ((List.range (x * b * c)).map (fun k => (k, k)), x * b * c))
    a 0 ([], 0) (by simp)
    (by
      intro x st _ hx h
      subst h
      exact middle x (by omega))
  simp only [Nat.zero_add] at key
  rw [key]

theorem index2_lt (r c x y : Nat) (hx : x < r) (hy : y < c) : x * c + y < r * c := by
  calc x * c + y < x * c + c := by omega
    _ = (x + 1) * c := by rw [Nat.add_mul, Nat.one_mul]
    _ ≤ r * c := Nat.mul_le_mul_right c (by omega)

theorem index2_inj (c x y x' y' : Nat) (hy : y < c) (hy' : y' < c)
    (h : x * c + y = x' * c + y') : x = x' ∧ y = y' := by
  have hx : x = x' := by
    rcases Nat.lt_trichotomy x x' with hlt | heq | hgt
    · exfalso
      have : (x + 1) * c ≤ x' * c := Nat.mul_le_mul_right c (by omega)
      rw [Nat.add_mul, Nat.one_mul] at this
      omega
    · exact heq
    · exfalso
      have : (x' + 1) * c ≤ x * c := Nat.mul_le_mul_right c (by omega)
      rw [Nat.add_mul, Nat.one_mul] at this
      omega
  subst hx
  exact ⟨rfl, by omega⟩

theorem index2_surj (r c k : Nat) (hk : k < r * c) : ∃ x y, x < r ∧ y < c ∧ x * c + y = k := by
  have hc : 0 < c := by
    rcases Nat.eq_zero_or_pos c with h | h
    · subst h; simp at hk
    · exact h
  refine ⟨k / c, k % c, ?_, Nat.mod_lt _ hc, ?_⟩
  · exact Nat.div_lt_of_lt_mul (by rw [Nat.mul_comm]; exact hk)
  · rw [Nat.mul_comm]; exact Nat.div_add_mod k c

theorem index3_inj (b c x y z x' y' z' : Nat) (hy : y < b) (hz : z < c) (hy' : y' < b)
    (hz' : z' < c) (h : x * b * c + y * c + z = x' * b * c + y' * c + z') :
    x = x' ∧ y = y' ∧ z = z' := by
  have h1 : (x * b + y) * c + z = (x' * b + y') * c + z' := by
    rw [Nat.add_mul, Nat.add_mul]; exact h
  obtain ⟨h2, h3⟩ := index2_inj c (x * b + y) z (x' * b + y') z' hz hz' h1
  obtain ⟨h4, h5⟩ := index2_inj b x y x' y' hy hy' h2
  exact ⟨h4, h5, h3⟩

theorem index3_surj (a b c k : Nat) (hk : k < a * b * c) :
    ∃ x y z, x < a ∧ y < b ∧ z < c ∧ x * b * c + y * c + z = k := by
  obtain ⟨w, z, hw, hz, e⟩ := index2_surj (a * b) c k hk
  obtain ⟨x, y, hx, hy, e'⟩ := index2_surj a b w hw
  refine ⟨x, y, z, hx, hy, hz, ?_⟩
  rw [← e, ← e', Nat.add_mul]

/-- The fill loop on a constructed tensor whose size does not wrap: cell `k` holds `k`. -/
theorem fillIndex_ofDims (dims : List Nat) (mem : Nat → Nat) (hp : dims.prod < 4294967296)
    (hne : dims.prod ≠ 0) :
    (fillIndex (Tensor.ofDims dims mem)).getDims = dims ∧
    ∀ k, k < dims.prod → (fillIndex (Tensor.ofDims dims mem)).data k = k := by
  obtain ⟨h1, _, h3⟩ := fillIndex_spec (Tensor.ofDims dims mem)
  have hs := ofDims_size dims mem
  have hd := ofDims_dims dims mem
  rw [Nat.mod_eq_of_lt hp] at hs hd
  rw [if_neg hne] at hd
  refine ⟨h1.trans hd, ?_⟩
  intro k hk
  rw [h3 k, hs, if_pos hk]

/-- The fill loop on a constructed tensor of size `0` leaves a tensor without dims. -/
theorem fillIndex_ofDims_zero (dims : List Nat) (mem : Nat → Nat) (h0 : dims.prod = 0) :
    (fillIndex (Tensor.ofDims dims mem)).getDims = [] := by
  obtain ⟨h1, _, _⟩ := fillIndex_spec (Tensor.ofDims dims mem)
  have hd := ofDims_dims dims mem
  rw [h0] at hd
  exact h1.trans hd

/-- C12, empty tensor: the default-constructed tensor, and every tensor constructed from a
dims list with an entry `0`, has `getSize() = 0` and an empty `getDims()`. -/
theorem empty_tensor {α : Type} (mem : Nat → α) (dims : List Nat) (h0 : 0 ∈ dims) :
    (Tensor.empty mem).getSize = 0 ∧ (Tensor.empty mem).getDims = [] ∧
    (Tensor.ofDims dims mem).getSize = 0 ∧ (Tensor.ofDims dims mem).getDims = [] := by
  have hp : dims.prod = 0 := List.prod_eq_zero h0
  refine ⟨rfl, rfl, ?_, ?_⟩
  · rw [ofDims_size, hp]
  · rw [ofDims_dims, hp]; rfl

/-- Instance of C12: the dims lists `{0}`, `{0,0}` and `{0,0,0}` of the test. -/
theorem empty_tensor_witness :
    ((Tensor.ofDims [0] (fun _ => (0 : Nat))).getSize = 0 ∧
      (Tensor.ofDims [0] (fun _ => (0 : Nat))).getDims = []) ∧
    ((Tensor.ofDims [0, 0] (fun _ => (0 : Nat))).getSize = 0 ∧
      (Tensor.ofDims [0, 0] (fun _ => (0 : Nat))).getDims = []) ∧
    ((Tensor.ofDims [0, 0, 0] (fun _ => (0 : Nat))).getSize = 0 ∧
      (Tensor.ofDims [0, 0, 0] (fun _ => (0 : Nat))).getDims = []) :=
  ⟨(empty_tensor (fun _ => (0 : Nat)) [0] (by decide)).2.2,
   (empty_tensor (fun _ => (0 : Nat)) [0, 0] (by decide)).2.2,
   (empty_tensor (fun _ => (0 : Nat)) [0, 0, 0] (by decide)).2.2⟩

/-- C13, tensor size and dims: the tensor constructed from a dims list has `getSize()` equal
to the product of the entries modulo `2^32` (for one, two and three entries `a`, `a * b`,
`a * b * c` modulo `2^32`), and when that value is not `0`, `getDims()` is the list given. -/
theorem tensor_size_dims {α : Type} (mem : Nat → α) (dims : List Nat) :
    (Tensor.ofDims dims mem).getSize = dims.prod % 4294967296 ∧
    (dims.prod % 4294967296 ≠ 0 → (Tensor.ofDims dims mem).getDims = dims) ∧
    (∀ a, (Tensor.ofDims [a] mem).getSize = a % 4294967296) ∧
    (∀ a b, (Tensor.ofDims [a, b] mem).getSize = a * b % 4294967296) ∧
    (∀ a b c, (Tensor.ofDims [a, b, c] mem).getSize = a * b * c % 4294967296) := by
  refine ⟨ofDims_size dims mem, ?_, ?_, ?_, ?_⟩
  · intro h
    rw [ofDims_dims, if_neg h]
  · intro a; rw [ofDims_size]; simp
  · intro a b; rw [ofDims_size]; simp
  · intro a b c; rw [ofDims_size]; simp [Nat.mul_assoc]

/-- Instance of C13: the dims lists `{42}`, `{42,42}` and `{42,42,42}` of the test. -/
theorem tensor_size_dims_witness :
    ((Tensor.ofDims [42] (fun _ => (0 : Nat))).getSize = 42 ∧
      (Tensor.ofDims [42] (fun _ => (0 : Nat))).getDims = [42]) ∧
    ((Tensor.ofDims [42, 42] (fun _ => (0 : Nat))).getSize = 42 * 42 ∧
      (Tensor.ofDims [42, 42] (fun _ => (0 : Nat))).getDims = [42, 42]) ∧
    ((Tensor.ofDims [42, 42, 42] (fun _ => (0 : Nat))).getSize = 42 * 42 * 42 ∧
      (Tensor.ofDims [42, 42, 42] (fun _ => (0 : Nat))).getDims = [42, 42, 42]) :=
  ⟨⟨(tensor_size_dims (fun _ => (0 : Nat)) [42]).1,
    (tensor_size_dims (fun _ => (0 : Nat)) [42]).2.1 (by decide)⟩,
   ⟨(tensor_size_dims (fun _ => (0 : Nat)) [42, 42]).1,
    (tensor_size_dims (fun _ => (0 : Nat)) [42, 42]).2.1 (by decide)⟩,
   ⟨(tensor_size_dims (fun _ => (0 : Nat)) [42, 42, 42]).1,
    (tensor_size_dims (fun _ => (0 : Nat)) [42, 42, 42]).2.1 (by decide)⟩⟩

/-- C14, two dimensional access is row-major: in a tensor with dims `[r, c]`, `t(x, y)` for
`x < r`, `y < c` is the cell of flat index `x * c + y`, which is below `r * c`; distinct
pairs address distinct cells and every flat index below `r * c` is addressed; and on the
tensor constructed from `[r, c]` (its size `r * c` below `2^31`, so no index wraps), after the
fill loop `t(k) = k` the reading loops (`x` outer, `y` inner) read `0, 1, ..., r * c - 1` in
order, each equal to the running `listIndex`. -/
theorem access2D_row_major (t : Tensor Nat) (r c : Nat) (mem : Nat → Nat)
    (hd : t.getDims = [r, c]) (hrc : r * c < 2147483648) :
    (∀ x y, x < r → y < c → t.at2 x y = t.at1 (x * c + y) ∧ x * c + y < r * c) ∧
    (∀ x y x' y', x < r → y < c → x' < r → y' < c → x * c + y = x' * c + y' →
      x = x' ∧ y = y') ∧
    (∀ k, k < r * c → ∃ x y, x < r ∧ y < c ∧ x * c + y = k) ∧
    read2D (fillIndex (Tensor.ofDims [r, c] mem)) = (List.range (r * c)).map (fun k => (k, k)) := by
  have hd' : t.dims = [r, c] := hd
  refine ⟨?_, ?_, ?_, ?_⟩
  · intro x y hx hy
    refine ⟨?_, index2_lt r c x y hx hy⟩
    simp only [Tensor.at2, Tensor.at1, hd', List.getD_cons_zero, List.getD_cons_succ]
  · intro x y x' y' _ hy _ hy' h
    exact index2_inj c x y x' y' hy hy' h
  · intro k hk
    exact index2_surj r c k hk
  · have hprod : [r, c].prod = r * c := by simp
    by_cases h0 : r * c = 0
    · have hdz := fillIndex_ofDims_zero [r, c] mem (by rw [hprod]; exact h0)
      unfold read2D
      rw [hdz, h0]
      rfl
    · obtain ⟨g1, g2⟩ := fillIndex_ofDims [r, c] mem (by rw [hprod]; omega)
        (by rw [hprod]; exact h0)
      exact read2D_spec _ r c g1 (fun k hk => g2 k (by rw [hprod]; exact hk))

/-- Instance of C14: the tensor of dims `{2, 2}` of the test. -/
theorem access2D_row_major_witness :
    read2D (fillIndex (Tensor.ofDims [2, 2] (fun _ => 0))) = [(0, 0), (1, 1), (2, 2), (3, 3)] :=
  (access2D_row_major (Tensor.ofDims [2, 2] (fun _ => 0)) 2 2 (fun _ => 0) rfl (by decide)).2.2.2

/-- C15, three dimensional access is row-major: in a tensor with dims `[a, b, c]`,
`t(x, y, z)` for `x < a`, `y < b`, `z < c` is the cell of flat index `x * b * c + y * c + z`,
which is below `a * b * c`; the index map is one-to-one on these triples and onto
`[0, a * b * c)`; and on the tensor constructed from `[a, b, c]` (its size `a * b * c` below
`2^31`, so no index wraps), after the fill loop `t(k) = k` the reading loops (`x`, `y`, `z`
nested in that order) read `0, 1, ..., a * b * c - 1` in order, each equal to the running
`listIndex`. -/
theorem access3D_row_major (t : Tensor Nat) (a b c : Nat) (mem : Nat → Nat)
    (hd : t.getDims = [a, b, c]) (habc : a * b * c < 2147483648) :
    (∀ x y z, x < a → y < b → z < c →
      t.at3 x y z = t.at1 (x * b * c + y * c + z) ∧ x * b * c + y * c + z < a * b * c) ∧
    (∀ x y z x' y' z', x < a → y < b → z < c → x' < a → y' < b → z' < c →
      x * b * c + y * c + z = x' * b * c + y' * c + z' → x = x' ∧ y = y' ∧ z = z') ∧
    (∀ k, k < a * b * c → ∃ x y z, x < a ∧ y < b ∧ z < c ∧ x * b * c + y * c + z = k) ∧
    read3D (fillIndex (Tensor.ofDims [a, b, c] mem)) =
      (List.range (a * b * c)).map (fun k => (k, k)) := by
  have hd' : t.dims = [a, b, c] := hd
  refine ⟨?_, ?_, ?_, ?_⟩
  · intro x y z hx hy hz
    refine ⟨?_, index3_lt a b c x y z hx hy hz⟩
    simp only [Tensor.at3, Tensor.at1, hd', List.getD_cons_zero, List.getD_cons_succ]
  · intro x y z x' y' z' _ hy hz _ hy' hz' h
    exact index3_inj b c x y z x' y' z' hy hz hy' hz' h
  · intro k hk
    exact index3_surj a b c k hk
  · have hprod : [a, b, c].prod = a * b * c := by simp [Nat.mul_assoc]
    by_cases h0 : a * b * c = 0
    · have hdz := fillIndex_ofDims_zero [a, b, c] mem (by rw [hprod]; exact h0)
      unfold read3D
      rw [hdz, h0]
      rfl
    · obtain ⟨g1, g2⟩ := fillIndex_ofDims [a, b, c] mem (by rw [hprod]; omega)
        (by rw [hprod]; exact h0)
      exact read3D_spec _ a b c g1 (fun k hk => g2 k (by rw [hprod]; exact hk))

/-- Instance of C15: the tensor of dims `{2, 2, 2}` of the test. -/
theorem access3D_row_major_witness :
    read3D (fillIndex (Tensor.ofDims [2, 2, 2] (fun _ => 0))) =
      [(0, 0), (1, 1), (2, 2), (3, 3), (4, 4), (5, 5), (6, 6), (7, 7)] :=
  (access3D_row_major (Tensor.ofDims [2, 2, 2] (fun _ => 0)) 2 2 2 (fun _ => 0) rfl
    (by decide)).2.2.2

/-! ### Column reduction: the rows the columns select -/

namespace RLAPSolverJV

/-- The row that `colMin` returns is the lowest-indexed minimiser of the column. -/
theorem colMin_lowest (N : Nat) (cost : Nat → Nat → Int) (j : Nat) :
    ∀ i, i < (colMin N cost j).2 → (colMin N cost j).1 < cost i j := by
  have key := forUp_induction (colMinStep cost j)
    (fun i p => p.2 < i ∧ p.1 = cost p.2 j ∧ (∀ i', i' < i → p.1 ≤ cost i' j) ∧
      ∀ i', i' < p.2 → p.1 < cost i' j)
    (N - 1) 1 (cost 0 j, 0)
    ⟨by omega, rfl, by
      intro i' hi'
      have : i' = 0 := by omega
      subst this
      exact le_refl _, by intro i' hi'; simp only at hi'; omega⟩
    (by
      intro i p _ _ ⟨h1, h2, h3, h4⟩
      unfold colMinStep
      by_cases hlt : cost i j < p.1
      · rw [if_pos hlt]
        refine ⟨by simp, rfl, ?_, ?_⟩
        · intro i' hi'
          by_cases he : i' = i
          · subst he; exact le_refl _
          · have := h3 i' (by omega)
            simp only; omega
        · intro i' hi'
          simp only at hi' ⊢
          have := h3 i' hi'
          omega
      · rw [if_neg hlt]
        refine ⟨by omega, h2, ?_, h4⟩
        intro i' hi'
        by_cases he : i' = i
        · subst he; omega
        · exact h3 i' (by omega))
  exact key.2.2.2

theorem matchCnt_init (N : Nat) (i : Nat) :
    forUp (fun i m => upd m i 0) N 0 (fun _ => 0) i = 0 := by
  have := forUp_induction (fun i (m : Nat → Nat) => upd m i 0) (fun _ m => ∀ i, m i = 0)
    N 0 (fun _ => 0) (fun _ => rfl)
    (by
      intro i m _ _ h k
      by_cases hk : k = i
      · subst hk; simp [upd]
      · simp [upd, hk, h k])
  exact this i

theorem colRedSel_init (N : Nat) (cost : Nat → Nat → Int) (rowsol colsol v : Nat → Int) :
    ColRedSel N cost N
      { rowsol := rowsol, colsol := colsol, v := v, free_ := fun _ => 0, numfree := 0,
        matchCnt := forUp (fun i m => upd m i 0) N 0 (fun _ => 0) } := by
  constructor
  · intro j h1 h2; omega
  · intro j h1 h2; omega
  · intro i _
    simp [matchCnt_init]
  · intro i _ h; exact absurd (matchCnt_init N i) h

theorem card_sel_step (N : Nat) (sel : Nat → Nat) (j i : Nat) (hj : j < N) :
    ((Finset.Ico j N).filter (fun j' => sel j' = i)).card =
      ((Finset.Ico (j + 1) N).filter (fun j' => sel j' = i)).card +
        (if sel j = i then 1 else 0) := by
  rw [← Nat.Ico_insert_succ_left hj, Finset.filter_insert]
  by_cases h : sel j = i
  · rw [if_pos h, if_pos h, Finset.card_insert_of_not_mem]
    simp
  · rw [if_neg h, if_neg h]; rfl

theorem colRedSel_step (N : Nat) (cost : Nat → Nat → Int) (j : Nat) (s : Lap)
    (hj : j < N) (h : ColRedSel N cost (j + 1) s) :
    ColRedSel N cost j (columnReductionStep N cost j s) := by
  have hN : 1 ≤ N := by omega
  obtain ⟨him, _, _⟩ := colMin_spec N cost j hN
  have hcard := fun i => card_sel_step N (fun j' => (colMin N cost j').2) j i hj
  simp only [columnReductionStep]
  generalize hime : (colMin N cost j).2 = im at him ⊢
  generalize hme : (colMin N cost j).1 = m
  have hveq : ∀ j', j ≤ j' → j' < N → upd s.v j m j' = (colMin N cost j').1 := by
    intro j' h1 h2
    by_cases e : j' = j
    · subst e; rw [upd_same]; exact hme.symm
    · rw [upd_other _ _ _ _ e]; exact h.v_eq j' (by omega) h2
  have hcnt : ∀ i, i < N → upd s.matchCnt im (s.matchCnt im + 1) i =
      ((Finset.Ico j N).filter (fun j' => (colMin N cost j').2 = i)).card := by
    intro i hi
    rw [hcard i, ← h.cnt i hi]
    simp only [hime]
    by_cases e : i = im
    · subst e; rw [upd_same, if_pos rfl]
    · rw [upd_other _ _ _ _ e, if_neg (fun e' => e e'.symm)]; rfl
  -- the rows other than `im` keep their column
  have hother : ∀ (rs cs : Nat → Int), (∀ i, i ≠ im → rs i = s.rowsol i) →
      (∀ j', j + 1 ≤ j' → j' < N → (colMin N cost j').2 ≠ im → cs j' = s.colsol j') →
      ∀ i, i < N → i ≠ im → s.matchCnt i ≠ 0 →
      ∃ j0, j ≤ j0 ∧ j0 < N ∧ (colMin N cost j0).2 = i ∧ rs i = (j0 : Int) ∧
        cs j0 = (i : Int) ∧
        ∀ j', j ≤ j' → j' < N → (colMin N cost j').2 = i →
          upd s.v j m j0 ≤ upd s.v j m j' ∧ (upd s.v j m j' = upd s.v j m j0 → j' ≤ j0) ∧
            (j' ≠ j0 → cs j' = -1) := by
    intro rs cs hrs hcs i hi hne hnz
    obtain ⟨j0, a1, a2, a3, a4, a5, a6⟩ := h.cnt_pos i hi hnz
    have hsel0 : (colMin N cost j0).2 ≠ im := by rw [a3]; exact hne
    refine ⟨j0, by omega, a2, a3, by rw [hrs i hne]; exact a4,
      by rw [hcs j0 a1 a2 hsel0]; exact a5, ?_⟩
    intro j' b1 b2 b3
    have hj'j : j' ≠ j := by
      intro e; subst e; rw [hime] at b3; exact hne b3.symm
    have hsel' : (colMin N cost j').2 ≠ im := by rw [b3]; exact hne
    obtain ⟨c1, c2, c3⟩ := a6 j' (by omega) b2 b3
    rw [upd_other _ _ _ _ hj'j, upd_other _ _ _ _ (show j0 ≠ j by omega),
      hcs j' (by omega) b2 hsel']
    exact ⟨c1, c2, c3⟩
  by_cases hc : s.matchCnt im + 1 = 1
  · -- first selection of row `im`
    rw [if_pos hc]
    have hz : s.matchCnt im = 0 := by omega
    have hnone : ∀ j', j + 1 ≤ j' → j' < N → (colMin N cost j').2 ≠ im := by
      intro j' h1 h2 he
      have hcz := h.cnt im him
      rw [hz] at hcz
      have := Finset.card_eq_zero.mp hcz.symm
      have hmem : j' ∈ (Finset.Ico (j + 1) N).filter (fun j' => (colMin N cost j').2 = im) :=
        Finset.mem_filter.mpr ⟨Finset.mem_Ico.mpr ⟨h1, h2⟩, he⟩
      rw [this] at hmem
      exact absurd hmem (Finset.not_mem_empty _)
    constructor
    · exact hveq
    · intro j' h1 h2
      by_cases e : j' = j
      · subst e; right; simp only [upd_same, hime]
      · simp only [upd_other _ _ _ _ e]; exact h.col_sel j' (by omega) h2
    · exact hcnt
    · intro i hi hnz
      by_cases e : i = im
      · subst e
        refine ⟨j, le_refl _, hj, hime, by simp only [upd_same], by simp only [upd_same], ?_⟩
        intro j' b1 b2 b3
        have : j' = j := by
          by_contra hne
          exact hnone j' (by omega) b2 b3
        subst this
        exact ⟨le_refl _, fun _ => le_refl _, fun hh => absurd rfl hh⟩
      · have hnz' : s.matchCnt i ≠ 0 := by
          simp only [upd_other _ _ _ _ e] at hnz; exact hnz
        exact hother (upd s.rowsol im (j : Int)) (upd s.colsol j (im : Int))
          (fun i hi => upd_other _ _ _ _ hi)
          (fun j' h1 _ _ => upd_other _ _ _ _ (by omega)) i hi e hnz'
  · rw [if_neg hc]
    have hnz : s.matchCnt im ≠ 0 := by omega
    obtain ⟨j1, a1, a2, a3, a4, a5, a6⟩ := h.cnt_pos im him hnz
    have htn : (s.rowsol im).toNat = j1 := by omega
    rw [htn]
    have hj1j : j1 ≠ j := by omega
    by_cases hlt : upd s.v j m j < upd s.v j m j1
    · -- the column `j` steals row `im` from `j1`
      rw [if_pos hlt]
      rw [upd_same, upd_other _ _ _ _ hj1j] at hlt
      constructor
      · exact hveq
      · intro j' h1 h2
        by_cases e1 : j' = j1
        · subst e1; left; simp only [upd_same]
        · by_cases e : j' = j
          · subst e; right
            simp only [upd_other _ _ _ _ e1, upd_same, hime]
          · simp only [upd_other _ _ _ _ e1, upd_other _ _ _ _ e]
            exact h.col_sel j' (by omega) h2
      · exact hcnt
      · intro i hi hnz'
        by_cases e : i = im
        · subst e
          refine ⟨j, le_refl _, hj, hime, by simp only [upd_same],
            by simp only [upd_other _ _ _ _ (Ne.symm hj1j), upd_same], ?_⟩
          intro j' b1 b2 b3
          by_cases e' : j' = j
          · subst e'
            exact ⟨le_refl _, fun _ => le_refl _, fun hh => absurd rfl hh⟩
          · obtain ⟨c1, c2, c3⟩ := a6 j' (by omega) b2 b3
            dsimp only
            rw [upd_same, upd_other _ _ _ _ e']
            refine ⟨by omega, fun hh => by omega, fun _ => ?_⟩
            by_cases e1 : j' = j1
            · subst e1; simp only [upd_same]
            · simp only [upd_other _ _ _ _ e1, upd_other _ _ _ _ e']
              exact c3 e1
        · have hnz'' : s.matchCnt i ≠ 0 := by
            simp only [upd_other _ _ _ _ e] at hnz'; exact hnz'
          exact hother (upd s.rowsol im (j : Int))
            (upd (upd s.colsol j (im : Int)) j1 (-1))
            (fun i hi => upd_other _ _ _ _ hi)
            (fun j' h1 _ hs => by
              have : j' ≠ j1 := by intro e'; subst e'; exact hs a3
              rw [upd_other _ _ _ _ this, upd_other _ _ _ _ (show j' ≠ j by omega)])
            i hi e hnz''
    · -- the column `j` stays unassigned
      rw [if_neg hlt]
      rw [upd_same, upd_other _ _ _ _ hj1j] at hlt
      constructor
      · exact hveq
      · intro j' h1 h2
        by_cases e : j' = j
        · subst e; left; simp only [upd_same]
        · simp only [upd_other _ _ _ _ e]; exact h.col_sel j' (by omega) h2
      · exact hcnt
      · intro i hi hnz'
        by_cases e : i = im
        · subst e
          refine ⟨j1, by omega, a2, a3, a4, by simp only [upd_other _ _ _ _ hj1j]; exact a5, ?_⟩
          intro j' b1 b2 b3
          by_cases e' : j' = j
          · subst e'
            dsimp only
            rw [upd_same, upd_other _ _ _ _ hj1j]
            exact ⟨by omega, fun _ => by omega, fun _ => by simp only [upd_same]⟩
          · obtain ⟨c1, c2, c3⟩ := a6 j' (by omega) b2 b3
            dsimp only
            rw [upd_other _ _ _ _ hj1j, upd_other _ _ _ _ e']
            exact ⟨c1, c2, fun hh => by simp only [upd_other _ _ _ _ e']; exact c3 hh⟩
        · have hnz'' : s.matchCnt i ≠ 0 := by
            simp only [upd_other _ _ _ _ e] at hnz'; exact hnz'
          exact hother s.rowsol (upd s.colsol j (-1))
            (fun _ _ => rfl)
            (fun j' h1 _ _ => upd_other _ _ _ _ (by omega)) i hi e hnz''

/-- After the column reduction: prices, counts and assignments in terms of the rows the
columns select. -/
theorem columnReduction_sel (N : Nat) (cost : Nat → Nat → Int) (rowsol colsol v : Nat → Int) :
    ColRedSel N cost 0 (columnReduction N cost
      { rowsol := rowsol, colsol := colsol, v := v, free_ := fun _ => 0, numfree := 0,
        matchCnt := forUp (fun i m => upd m i 0) N 0 (fun _ => 0) }) := by
  unfold columnReduction
  exact forDown_induction (columnReductionStep N cost) (fun j s => ColRedSel N cost j s) N _
    (colRedSel_init N cost rowsol colsol v)
    (fun j s hj h => colRedSel_step N cost j s hj h)

/-- C16, column reduction postcondition: after the column-reduction loop, `v[j]` is the
minimum of column `j` of the cost matrix, attained at the selected row `(colMin N cost j).2`,
which is the lowest-indexed minimiser; so `cost[i][j] - v[j] >= 0` for all `i`, `j`; a column
is unassigned or assigned to its selected row, and `cost[colsol[j]][j] - v[j] = 0` for every
assigned column `j`. -/
theorem columnReduction_post (N : Nat) (cost : Nat → Nat → Int) (rowsol colsol v : Nat → Int) :
    ∀ s1 : Lap, s1 = columnReduction N cost
      { rowsol := rowsol, colsol := colsol, v := v, free_ := fun _ => 0, numfree := 0,
        matchCnt := forUp (fun i m => upd m i 0) N 0 (fun _ => 0) } →
    ∀ j, j < N →
      (colMin N cost j).2 < N ∧ s1.v j = cost (colMin N cost j).2 j ∧
      (∀ i, i < N → s1.v j ≤ cost i j) ∧
      (∀ i, i < (colMin N cost j).2 → s1.v j < cost i j) ∧
      (∀ i, i < N → cost i j - s1.v j ≥ 0) ∧
      (s1.colsol j = -1 ∨ s1.colsol j = ((colMin N cost j).2 : Int)) ∧
      (∀ i : Nat, s1.colsol j = (i : Int) → cost i j - s1.v j = 0) := by
  intro s1 hs1 j hj
  subst hs1
  have hsel := columnReduction_sel N cost rowsol colsol v
  obtain ⟨h1, h2, h3⟩ := colMin_spec N cost j (by omega)
  have h4 := colMin_lowest N cost j
  have hv := hsel.v_eq j (Nat.zero_le _) hj
  have hc := hsel.col_sel j (Nat.zero_le _) hj
  refine ⟨h1, by rw [hv]; exact h2, ?_, ?_, ?_, hc, ?_⟩
  · intro i hi; rw [hv]; exact h3 i hi
  · intro i hi; rw [hv]; exact h4 i hi
  · intro i hi
    have := h3 i hi
    rw [hv]; omega
  · intro i hci
    have hi : (i : Int) = ((colMin N cost j).2 : Int) := by
      rcases hc with e | e
      · omega
      · rw [← hci]; exact e
    have hi' : i = (colMin N cost j).2 := by omega
    rw [hv, hi', h2]
    omega

/-- Instance of C16: the cost matrix `[[-1,0],[1,1]]`, column `0`. -/
theorem columnReduction_post_witness :
    (colMin 2 (getCost [[-1, 0], [1, 1]]) 0).2 < 2 ∧
    (columnReduction 2 (getCost [[-1, 0], [1, 1]])
      { rowsol := fun _ => 0, colsol := fun _ => 0, v := fun _ => 0, free_ := fun _ => 0,
        numfree := 0, matchCnt := forUp (fun i m => upd m i 0) 2 0 (fun _ => 0) }).v 0 =
      getCost [[-1, 0], [1, 1]] (colMin 2 (getCost [[-1, 0], [1, 1]]) 0).2 0 :=
  ⟨(columnReduction_post 2 (getCost [[-1, 0], [1, 1]]) (fun _ => 0) (fun _ => 0) (fun _ => 0)
      _ rfl 0 (by decide)).1,
   (columnReduction_post 2 (getCost [[-1, 0], [1, 1]]) (fun _ => 0) (fun _ => 0) (fun _ => 0)
      _ rfl 0 (by decide)).2.1⟩

/-- C17, column reduction stealing: after the column-reduction loop `matches[i]` is the number
of columns that selected row `i`; a row selected by at least one column is assigned, of the
columns that selected it, the one of least `v`, the highest-indexed among those of least `v`;
that column is assigned to the row and every other column that selected the row is left at
`-1`. -/
theorem columnReduction_stealing (N : Nat) (cost : Nat → Nat → Int)
    (rowsol colsol v : Nat → Int) :
    ∀ s1 : Lap, s1 = columnReduction N cost
      { rowsol := rowsol, colsol := colsol, v := v, free_ := fun _ => 0, numfree := 0,
        matchCnt := forUp (fun i m => upd m i 0) N 0 (fun _ => 0) } →
    ∀ i, i < N →
      s1.matchCnt i = ((Finset.range N).filter (fun j => (colMin N cost j).2 = i)).card ∧
      (s1.matchCnt i ≥ 1 ↔ ∃ j, j < N ∧ (colMin N cost j).2 = i) ∧
      (s1.matchCnt i ≥ 1 →
        ∃ j, j < N ∧ s1.rowsol i = (j : Int) ∧ (colMin N cost j).2 = i ∧
          s1.colsol j = (i : Int) ∧
          ∀ j', j' < N → (colMin N cost j').2 = i →
            s1.v j ≤ s1.v j' ∧ (s1.v j' = s1.v j → j' ≤ j) ∧ (j' ≠ j → s1.colsol j' = -1)) := by
  intro s1 hs1 i hi
  have hsel := columnReduction_sel N cost rowsol colsol v
  rw [← hs1] at hsel
  have hcnt : s1.matchCnt i =
      ((Finset.range N).filter (fun j => (colMin N cost j).2 = i)).card := by
    have := hsel.cnt i hi
    rw [← Finset.range_eq_Ico] at this
    exact this
  refine ⟨hcnt, ?_, ?_⟩
  · rw [hcnt]
    constructor
    · intro hge
      have hpos : 0 < ((Finset.range N).filter (fun j => (colMin N cost j).2 = i)).card := hge
      obtain ⟨j, hjm⟩ := Finset.card_pos.mp hpos
      obtain ⟨a, b⟩ := Finset.mem_filter.mp hjm
      exact ⟨j, Finset.mem_range.mp a, b⟩
    · rintro ⟨j, hj, he⟩
      exact Finset.card_pos.mpr ⟨j, Finset.mem_filter.mpr ⟨Finset.mem_range.mpr hj, he⟩⟩
  · intro hge
    obtain ⟨j, _, a2, a3, a4, a5, a6⟩ := hsel.cnt_pos i hi (Nat.pos_iff_ne_zero.mp hge)
    exact ⟨j, a2, a4, a3, a5, fun j' hj' hs => a6 j' (Nat.zero_le _) hj' hs⟩

/-- Instance of C17: the cost matrix `[[-1,0],[1,1]]`, whose two columns select row `0`. -/
theorem columnReduction_stealing_witness :
    (columnReduction 2 (getCost [[-1, 0], [1, 1]])
      { rowsol := fun _ => 0, colsol := fun _ => 0, v := fun _ => 0, free_ := fun _ => 0,
        numfree := 0, matchCnt := forUp (fun i m => upd m i 0) 2 0 (fun _ => 0) }).matchCnt 0 =
      ((Finset.range 2).filter (fun j => (colMin 2 (getCost [[-1, 0], [1, 1]]) j).2 = 0)).card :=
  (columnReduction_stealing 2 (getCost [[-1, 0], [1, 1]]) (fun _ => 0) (fun _ => 0)
    (fun _ => 0) _ rfl 0 (by decide)).1

/-! ### Reduction transfer: the trips of the loop -/

/-- The cost matrix `[[2,1,0],[2,1,0],[0,0,0]]`: column reduction leaves row `1` free, the
augmenting row reduction leaves row `2` free, and the augmentation assigns it. -/
theorem cost3_bigEnough :
    BigEnough 100000 3 (getCost [[2, 1, 0], [2, 1, 0], [0, 0, 0]]) :=
  bigEnough_of_bounds 100000 3 _ 0 2
    (by intro i j hi hj; interval_cases i <;> interval_cases j <;> decide) (by decide)

/-- C18 fails as stated: for the cost matrix `[[0,200000],[200000,0]]` and `BIG = 100000`,
row `0` has `matches[0] = 1` and `rowsol[0] = 0`, the minimum of `cost[0][j] - v[j]` over
`j != 0` is `200000`, not below `BIG`, and the reduction transfer lowers `v[0]` from `0` to
`-100000`, by `BIG`; for the same matrix and `BIG = -1` it raises `v[0]` from `0` to `1`. -/
theorem transfer_amount_counterexample :
    (transferState 100000 2 (getCost [[0, 200000], [200000, 0]]) (fun _ => 0) (fun _ => 0)
      (fun _ => 0) 0).matchCnt 0 = 1 ∧
    (transferState 100000 2 (getCost [[0, 200000], [200000, 0]]) (fun _ => 0) (fun _ => 0)
      (fun _ => 0) 0).rowsol 0 = 0 ∧
    (transferState 100000 2 (getCost [[0, 200000], [200000, 0]]) (fun _ => 0) (fun _ => 0)
      (fun _ => 0) 0).v 0 = 0 ∧
    getCost [[0, 200000], [200000, 0]] 0 1 -
      (transferState 100000 2 (getCost [[0, 200000], [200000, 0]]) (fun _ => 0) (fun _ => 0)
        (fun _ => 0) 0).v 1 = 200000 ∧
    (transferState 100000 2 (getCost [[0, 200000], [200000, 0]]) (fun _ => 0) (fun _ => 0)
      (fun _ => 0) 1).v 0 = -100000 ∧
    (transferState (-1) 2 (getCost [[0, 200000], [200000, 0]]) (fun _ => 0) (fun _ => 0)
      (fun _ => 0) 1).v 0 = 1 := by
  decide

/-- C18 as amended, reduction transfer: for `N >= 2` and `BIG >= 0`, after the loop
`free_[0..numfree)` lists exactly the rows with `matches = 0`, in increasing order, and
`rowsol`, `colsol` are as before; the trip for row `i` (from the state `s` the rows below `i`
have left, to the state `s'`) appends `i` to the list when `matches[i] = 0`; when
`matches[i] = 1` it lowers `v[j1]`, `j1 = rowsol[i]`, by `m`, the smaller of `BIG` and the
minimum over `j != j1` of `cost[i][j] - v[j]` at the prices of `s`, with `0 <= m <= BIG`
(so `m` is that minimum, and below `BIG`, as soon as one of these reduced costs is below
`BIG`), and changes nothing else; it changes nothing at all when `matches[i] >= 2`. -/
theorem reductionTransfer_rows (BIG : Int) (N : Nat) (cost : Nat → Nat → Int)
    (rowsol colsol v : Nat → Int) (hN : 2 ≤ N) (hB0 : 0 ≤ BIG) :
    (let s1 := columnReduction N cost
      { rowsol := rowsol, colsol := colsol, v := v, free_ := fun _ => 0, numfree := 0,
        matchCnt := forUp (fun i m => upd m i 0) N 0 (fun _ => 0) }
    let s2 := reductionTransfer BIG N cost s1
    (∀ p, p < s2.numfree → s2.free_ p < N ∧ s1.matchCnt (s2.free_ p) = 0) ∧
    (∀ p q, p < q → q < s2.numfree → s2.free_ p < s2.free_ q) ∧
    (∀ i, i < N → s1.matchCnt i = 0 → ∃ p, p < s2.numfree ∧ s2.free_ p = i) ∧
    s2.rowsol = s1.rowsol ∧ s2.colsol = s1.colsol ∧
    ∀ i, i < N →
      let s := forUp (reductionTransferStep BIG N cost) i 0 s1
      let s' := forUp (reductionTransferStep BIG N cost) (i + 1) 0 s1
      (s1.matchCnt i = 0 →
        s' = { s with free_ := upd s.free_ s.numfree i, numfree := s.numfree + 1 }) ∧
      (s1.matchCnt i = 1 →
        ∃ (j1 : Nat) (m : Int), j1 < N ∧ s.rowsol i = (j1 : Int) ∧ 0 ≤ m ∧ m ≤ BIG ∧
          (∀ j, j < N → j ≠ j1 → m ≤ cost i j - s.v j) ∧
          (m = BIG ∨ ∃ j, j < N ∧ j ≠ j1 ∧ m = cost i j - s.v j) ∧
          ((∃ j, j < N ∧ j ≠ j1 ∧ cost i j - s.v j < BIG) →
            m < BIG ∧ ∃ j, j < N ∧ j ≠ j1 ∧ m = cost i j - s.v j) ∧
          s' = { s with v := upd s.v j1 (s.v j1 - m) }) ∧
      (2 ≤ s1.matchCnt i → s' = s)) := by
  intro s1 s2
  obtain ⟨hfin, hmc⟩ := transferInv_prefix BIG N cost rowsol colsol v (by omega) hB0 N (le_refl _)
  have hs2 : s2 = forUp (reductionTransferStep BIG N cost) N 0 s1 := rfl
  obtain ⟨hr, hc⟩ := reductionTransfer_sol BIG N cost s1
  refine ⟨?_, ?_, ?_, hr, hc, ?_⟩
  · intro p hp
    have := hfin.free_lt p hp
    exact ⟨this.1, by rw [← hmc]; exact this.2⟩
  · exact hfin.free_mono
  · intro i hi hz
    exact hfin.free_all i hi (by rw [hmc]; exact hz)
  · intro i hi s s'
    obtain ⟨hinv, hcnt⟩ := transferInv_prefix BIG N cost rowsol colsol v (by omega) hB0 i
      (le_of_lt hi)
    have hstep : s' = reductionTransferStep BIG N cost i s := by
      have := forUp_succ_last (reductionTransferStep BIG N cost) i 0 s1
      rw [Nat.zero_add] at this
      exact this
    have hcnt' : s.matchCnt i = s1.matchCnt i := by
      have : s.matchCnt = s1.matchCnt := hcnt
      rw [this]
    refine ⟨?_, ?_, ?_⟩
    · intro hz
      rw [hstep]
      unfold reductionTransferStep
      rw [if_pos (by rw [hcnt']; exact hz)]
    · intro h1
      have hs1 : s.matchCnt i = 1 := by rw [hcnt']; exact h1
      obtain ⟨j1, hj1, hrs, hcs⟩ := hinv.cnt_pos i hi (by rw [hs1]; decide)
      have htn : (s.rowsol i).toNat = j1 := by
        rw [show s.rowsol i = (j1 : Int) from hrs]
        exact Int.toNat_ofNat j1
      obtain ⟨m0, m1, m2, m3⟩ := transferMin_spec BIG N cost s.v i j1 hB0
        (fun j hj => hinv.pinv.nonneg i j hi hj)
      refine ⟨j1, transferMin BIG N cost s.v i j1, hj1, hrs, m0, m1, m2, m3, ?_, ?_⟩
      · rintro ⟨j, hj, hne, hlt⟩
        have a := m2 j hj hne
        have hlt' : transferMin BIG N cost s.v i j1 < BIG := by omega
        refine ⟨hlt', ?_⟩
        rcases m3 with e | e
        · omega
        · exact e
      · rw [hstep]
        unfold reductionTransferStep
        rw [if_neg (by rw [hs1]; decide), if_pos hs1]
        simp only [htn]
    · intro h2
      have hs1 : 2 ≤ s.matchCnt i := by rw [hcnt']; exact h2
      rw [hstep]
      unfold reductionTransferStep
      rw [if_neg (by omega), if_neg (by omega)]

/-- Instance of C18 as amended: the cost matrix `[[2,1,0],[2,1,0],[0,0,0]]` with
`BIG = 100000`; column reduction leaves `matches = [1, 0, 2]`, so the trip for row `0` lowers
a price, the trip for row `1` lists the row as free, and the trip for row `2` changes
nothing. -/
theorem reductionTransfer_rows_witness :
    ((columnReduction 3 (getCost [[2, 1, 0], [2, 1, 0], [0, 0, 0]])
      { rowsol := fun _ => 0, colsol := fun _ => 0, v := fun _ => 0, free_ := fun _ => 0,
        numfree := 0, matchCnt := forUp (fun i m => upd m i 0) 3 0 (fun _ => 0) }).matchCnt 0 = 1 ∧
     (columnReduction 3 (getCost [[2, 1, 0], [2, 1, 0], [0, 0, 0]])
      { rowsol := fun _ => 0, colsol := fun _ => 0, v := fun _ => 0, free_ := fun _ => 0,
        numfree := 0, matchCnt := forUp (fun i m => upd m i 0) 3 0 (fun _ => 0) }).matchCnt 1 = 0 ∧
     (columnReduction 3 (getCost [[2, 1, 0], [2, 1, 0], [0, 0, 0]])
      { rowsol := fun _ => 0, colsol := fun _ => 0, v := fun _ => 0, free_ := fun _ => 0,
        numfree := 0, matchCnt := forUp (fun i m => upd m i 0) 3 0 (fun _ => 0) }).matchCnt 2 = 2) ∧
    (∃ (j1 : Nat) (m : Int), j1 < 3 ∧
      (forUp (reductionTransferStep 100000 3 (getCost [[2, 1, 0], [2, 1, 0], [0, 0, 0]])) 0 0
        (columnReduction 3 (getCost [[2, 1, 0], [2, 1, 0], [0, 0, 0]])
          { rowsol := fun _ => 0, colsol := fun _ => 0, v := fun _ => 0, free_ := fun _ => 0,
            numfree := 0, matchCnt := forUp (fun i m => upd m i 0) 3 0 (fun _ => 0) })).rowsol 0
        = (j1 : Int) ∧ 0 ≤ m ∧ m ≤ 100000 ∧
      forUp (reductionTransferStep 100000 3 (getCost [[2, 1, 0], [2, 1, 0], [0, 0, 0]])) 1 0
        (columnReduction 3 (getCost [[2, 1, 0], [2, 1, 0], [0, 0, 0]])
          { rowsol := fun _ => 0, colsol := fun _ => 0, v := fun _ => 0, free_ := fun _ => 0,
            numfree := 0, matchCnt := forUp (fun i m => upd m i 0) 3 0 (fun _ => 0) }) =
        { forUp (reductionTransferStep 100000 3 (getCost [[2, 1, 0], [2, 1, 0], [0, 0, 0]])) 0 0
            (columnReduction 3 (getCost [[2, 1, 0], [2, 1, 0], [0, 0, 0]])
              { rowsol := fun _ => 0, colsol := fun _ => 0, v := fun _ => 0, free_ := fun _ => 0,
                numfree := 0, matchCnt := forUp (fun i m => upd m i 0) 3 0 (fun _ => 0) }) with
          v := upd (forUp (reductionTransferStep 100000 3
              (getCost [[2, 1, 0], [2, 1, 0], [0, 0, 0]])) 0 0
            (columnReduction 3 (getCost [[2, 1, 0], [2, 1, 0], [0, 0, 0]])
              { rowsol := fun _ => 0, colsol := fun _ => 0, v := fun _ => 0, free_ := fun _ => 0,
                numfree := 0, matchCnt := forUp (fun i m => upd m i 0) 3 0 (fun _ => 0) })).v j1
            ((forUp (reductionTransferStep 100000 3
                (getCost [[2, 1, 0], [2, 1, 0], [0, 0, 0]])) 0 0
              (columnReduction 3 (getCost [[2, 1, 0], [2, 1, 0], [0, 0, 0]])
                { rowsol := fun _ => 0, colsol := fun _ => 0, v := fun _ => 0,
                  free_ := fun _ => 0, numfree := 0,
                  matchCnt := forUp (fun i m => upd m i 0) 3 0 (fun _ => 0) })).v j1 - m) }) ∧
    ∃ p, p < (reductionTransfer 100000 3 (getCost [[2, 1, 0], [2, 1, 0], [0, 0, 0]])
        (columnReduction 3 (getCost [[2, 1, 0], [2, 1, 0], [0, 0, 0]])
          { rowsol := fun _ => 0, colsol := fun _ => 0, v := fun _ => 0, free_ := fun _ => 0,
            numfree := 0, matchCnt := forUp (fun i m => upd m i 0) 3 0 (fun _ => 0) })).numfree ∧
      (reductionTransfer 100000 3 (getCost [[2, 1, 0], [2, 1, 0], [0, 0, 0]])
        (columnReduction 3 (getCost [[2, 1, 0], [2, 1, 0], [0, 0, 0]])
          { rowsol := fun _ => 0, colsol := fun _ => 0, v := fun _ => 0, free_ := fun _ => 0,
            numfree := 0, matchCnt := forUp (fun i m => upd m i 0) 3 0 (fun _ => 0) })).free_ p
        = 1 := by
  have h := reductionTransfer_rows 100000 3 (getCost [[2, 1, 0], [2, 1, 0], [0, 0, 0]])
    (fun _ => 0) (fun _ => 0) (fun _ => 0) (by decide) (by decide)
  refine ⟨by decide, ?_, h.2.2.1 1 (by decide) (by decide)⟩
  obtain ⟨j1, m, a1, a2, a3, a4, _, _, _, a8⟩ := (h.2.2.2.2.2 0 (by decide)).2.1 (by decide)
  exact ⟨j1, m, a1, a2, a3, a4, a8⟩

/-! ### Checkpoints of the partial matching -/

/-- In a partial matching the rows without a column are as many as the unassigned columns. -/
theorem card_free_eq (N : Nat) (cs : Nat → Int)
    (col_range : ∀ j, j < N → cs j = -1 ∨ ∃ i, i < N ∧ cs j = (i : Int))
    (inj : ∀ i j j' : Nat, j < N → j' < N → cs j = (i : Int) → cs j' = (i : Int) → j = j')
    (F : Finset Nat) (hF : ∀ i, i ∈ F ↔ i < N ∧ RowFree N cs i) :
    F.card = ((Finset.range N).filter (fun j => cs j = -1)).card := by
  have hsub : F ⊆ Finset.range N := by
    intro i hi
    exact Finset.mem_range.mpr ((hF i).mp hi).1
  have h1 := Finset.filter_card_add_filter_neg_card_eq_card (s := Finset.range N)
    (fun j => cs j = -1)
  rw [Finset.card_range] at h1
  have h2 := Finset.card_sdiff hsub
  rw [Finset.card_range] at h2
  have h3 : ((Finset.range N).filter (fun j => ¬ cs j = -1)).card =
      (Finset.range N \ F).card := by
    apply Finset.card_bij (fun j _ => (cs j).toNat)
    · intro j hj
      obtain ⟨a, b⟩ := Finset.mem_filter.mp hj
      have hjN := Finset.mem_range.mp a
      rcases col_range j hjN with e | ⟨i, hi, e⟩
      · exact absurd e b
      · rw [e, Int.toNat_ofNat]
        refine Finset.mem_sdiff.mpr ⟨Finset.mem_range.mpr hi, ?_⟩
        intro hiF
        exact ((hF i).mp hiF).2 j hjN e
    · intro j hj j' hj' he
      obtain ⟨a, b⟩ := Finset.mem_filter.mp hj
      obtain ⟨a', b'⟩ := Finset.mem_filter.mp hj'
      have hjN := Finset.mem_range.mp a
      have hjN' := Finset.mem_range.mp a'
      rcases col_range j hjN with e | ⟨i, hi, e⟩
      · exact absurd e b
      · rcases col_range j' hjN' with e' | ⟨i', hi', e'⟩
        · exact absurd e' b'
        · rw [e, e', Int.toNat_ofNat, Int.toNat_ofNat] at he
          subst he
          exact inj i j j' hjN hjN' e e'
    · intro i hi
      obtain ⟨a, b⟩ := Finset.mem_sdiff.mp hi
      have hiN := Finset.mem_range.mp a
      have hnf : ¬ RowFree N cs i := fun hfree => b ((hF i).mpr ⟨hiN, hfree⟩)
      unfold RowFree at hnf
      push_neg at hnf
      obtain ⟨j, hj, hc⟩ := hnf
      refine ⟨j, Finset.mem_filter.mpr ⟨Finset.mem_range.mpr hj, by rw [hc]; omega⟩, ?_⟩
      rw [hc, Int.toNat_ofNat]
  have h4 := Finset.card_le_card hsub
  rw [Finset.card_range] at h4
  omega

/-- A feasible partial assignment with its free rows listed is a checkpoint. -/
theorem checkpoint_of (N : Nat) (cost : Nat → Nat → Int) (s : Lap) (lo : Nat)
    (hp : PInv N cost s.rowsol s.colsol s.v)
    (hf : FreeList N s.colsol s.free_ (fun p => lo ≤ p ∧ p < s.numfree)) :
    Checkpoint N s lo := by
  have hinj : ∀ i j j' : Nat, j < N → j' < N → s.colsol j = (i : Int) →
      s.colsol j' = (i : Int) → j = j' := fun i j j' hj hj' h1 h2 => hp.col_inj hj hj' h1 h2
  refine ⟨hp.row_back, hinj, ?_, ?_, ?_, ?_⟩
  · intro p q h1 h2 h3 h4 he
    exact hf.inj p q ⟨h1, h2⟩ ⟨h3, h4⟩ he
  · intro p h1 h2
    exact hf.free p ⟨h1, h2⟩
  · intro i hi hfree
    obtain ⟨p, ⟨a, b⟩, c⟩ := hf.all i hi hfree
    exact ⟨p, a, b, c⟩
  · have hcard : ((Finset.Ico lo s.numfree).image s.free_).card = s.numfree - lo := by
      rw [Finset.card_image_of_injOn, Nat.card_Ico]
      intro p hp' q hq' he
      have hp'' := Finset.mem_Ico.mp (Finset.mem_coe.mp hp')
      have hq'' := Finset.mem_Ico.mp (Finset.mem_coe.mp hq')
      exact hf.inj p q hp'' hq'' he
    rw [← hcard]
    apply card_free_eq N s.colsol hp.col_range hinj
    intro i
    constructor
    · intro hi
      obtain ⟨p, hp', he⟩ := Finset.mem_image.mp hi
      have := hf.free p (Finset.mem_Ico.mp hp')
      rw [he] at this
      exact this
    · rintro ⟨hi, hfree⟩
      obtain ⟨p, hp', he⟩ := hf.all i hi hfree
      exact Finset.mem_image.mpr ⟨p, Finset.mem_Ico.mpr hp', he⟩

/-- The first `n` augmentations, started at `free_[f]`. -/
theorem augmentPrefix_spec (N : Nat) (cost : Nat → Nat → Int) :
    ∀ (n f : Nat) (s : Lap), PInv N cost s.rowsol s.colsol s.v →
      FreeList N s.colsol s.free_ (fun p => f ≤ p ∧ p < s.numfree) → f + n ≤ s.numfree →
      ∃ s' : Lap, (∀ fuel, N ≤ fuel →
          forUp (augmentStep N cost fuel) n f (some s) = some s') ∧
        PInv N cost s'.rowsol s'.colsol s'.v ∧
        FreeList N s'.colsol s'.free_ (fun p => f + n ≤ p ∧ p < s'.numfree) ∧
        s'.numfree = s.numfree := by
  intro n
  induction n with
  | zero =>
    intro f s hp hfl _
    exact ⟨s, fun _ _ => rfl, hp, hfl, rfl⟩
  | succ n ih =>
    intro f s hp hfl hn
    obtain ⟨s1, hrun1, hp1, hfl1, hnf, _, _⟩ := augmentStep_spec N cost s f hp hfl (by omega)
    obtain ⟨s', hrun, hp', hfl', hnf'⟩ := ih (f + 1) s1 hp1 hfl1 (by omega)
    refine ⟨s', ?_, hp', hfl'.congr (by intro p; omega), by omega⟩
    intro fuel hfuel
    simp only [forUp]
    rw [hrun1 fuel hfuel]
    exact hrun fuel hfuel

/-- An augmentation that returns has ended its search loop and its walk along `pred`. -/
theorem augmentStep_parts (N : Nat) (cost : Nat → Nat → Int) (fuel f : Nat) (s s' : Lap)
    (h : augmentStep N cost fuel f (some s) = some s') :
    ∃ (t : Search) (rc : (Nat → Int) × (Nat → Int)),
      searchLoop N cost s.v s.colsol fuel (searchInit N cost s.v (s.free_ f)) = some t ∧
      flipPath t.pred (s.free_ f) fuel (s.rowsol, s.colsol, (t.endofpath : Int)) = some rc ∧
      s' = { s with v := priceUpdate t s.v, rowsol := rc.1, colsol := rc.2 } := by
  unfold augmentStep at h
  simp only [Option.some_bind] at h
  cases ht : searchLoop N cost s.v s.colsol fuel (searchInit N cost s.v (s.free_ f)) with
  | none => rw [ht] at h; simp at h
  | some t =>
    rw [ht] at h
    simp only [Option.some_bind] at h
    cases hrc : flipPath t.pred (s.free_ f) fuel (s.rowsol, s.colsol, (t.endofpath : Int)) with
    | none => rw [hrc] at h; simp at h
    | some rc =>
      rw [hrc] at h
      simp only [Option.map_some'] at h
      injection h with h
      exact ⟨t, rc, rfl, hrc, h.symm⟩

/-! ### The sign of BIG and the size 1 -/

/-- While it meets no row with `matches = 1`, the reduction transfer only lists free rows:
it leaves `v`, `rowsol` and `matches` as they are, whatever `BIG` is. -/
theorem transfer_skip (BIG : Int) (N : Nat) (cost : Nat → Nat → Int) (s1 : Lap) :
    ∀ n, (∀ i, i < n → s1.matchCnt i ≠ 1) →
      (forUp (reductionTransferStep BIG N cost) n 0 s1).v = s1.v ∧
      (forUp (reductionTransferStep BIG N cost) n 0 s1).rowsol = s1.rowsol ∧
      (forUp (reductionTransferStep BIG N cost) n 0 s1).matchCnt = s1.matchCnt ∧
      forUp (reductionTransferStep BIG N cost) n 0 s1 =
        forUp (reductionTransferStep 0 N cost) n 0 s1 := by
  intro n
  induction n with
  | zero => intro _; exact ⟨rfl, rfl, rfl, rfl⟩
  | succ n ih =>
    intro h
    obtain ⟨a, b, c, d⟩ := ih (fun i hi => h i (by omega))
    have hn := h n (by omega)
    have e1 := forUp_succ_last (reductionTransferStep BIG N cost) n 0 s1
    have e2 := forUp_succ_last (reductionTransferStep 0 N cost) n 0 s1
    rw [Nat.zero_add] at e1 e2
    rw [e1, e2, ← d]
    generalize forUp (reductionTransferStep BIG N cost) n 0 s1 = s at a b c
    have hs : s.matchCnt n ≠ 1 := by rw [c]; exact hn
    unfold reductionTransferStep
    by_cases hz : s.matchCnt n = 0
    · rw [if_pos hz, if_pos hz]
      exact ⟨a, b, c, rfl⟩
    · rw [if_neg hz, if_neg hs, if_neg hz, if_neg hs]
      exact ⟨a, b, c, rfl⟩

/-- The counts `matches[i]` of the column reduction add up to `N`. -/
theorem matchCnt_sum (N : Nat) (cost : Nat → Nat → Int) (rowsol colsol v : Nat → Int)
    (hN : 1 ≤ N) :
    ∑ i in Finset.range N, (columnReduction N cost
      { rowsol := rowsol, colsol := colsol, v := v, free_ := fun _ => 0, numfree := 0,
        matchCnt := forUp (fun i m => upd m i 0) N 0 (fun _ => 0) }).matchCnt i = N := by
  have hsel := columnReduction_sel N cost rowsol colsol v
  have hfib := Finset.card_eq_sum_card_fiberwise (s := Finset.Ico 0 N) (t := Finset.range N)
    (f := fun j => (colMin N cost j).2)
    (fun j _ => Finset.mem_range.mpr (colMin_spec N cost j hN).1)
  rw [Nat.card_Ico, Nat.sub_zero] at hfib
  refine Eq.trans ?_ hfib.symm
  apply Finset.sum_congr rfl
  intro i hi
  exact hsel.cnt i (Finset.mem_range.mp hi)

/-- For `N >= 2` a run whose reduced costs are below `BIG` has `BIG >= 0`: the reduction
transfer or the first row scan computes a reduced cost, and none is negative then. -/
theorem BelowBig.big_nonneg {BIG : Int} {N : Nat} {cost : Nat → Nat → Int}
    {rowsol colsol v : Nat → Int} (h : BelowBig BIG N cost rowsol colsol v) (hN : 2 ≤ N) :
    0 ≤ BIG := by
  by_contra hneg
  have hlt : BIG < 0 := by omega
  have hcr := columnReduction_spec N cost rowsol colsol v (by omega)
  have hsum := matchCnt_sum N cost rowsol colsol v (by omega)
  have htrans := h.transfer
  have hpass := h.passes.1
  unfold transferState at htrans hpass
  generalize columnReduction N cost
      { rowsol := rowsol, colsol := colsol, v := v, free_ := fun _ => 0, numfree := 0,
        matchCnt := forUp (fun i m => upd m i 0) N 0 (fun _ => 0) } = s1
    at hcr hsum htrans hpass
  -- no row is assigned once
  have h1 : ∀ i, i < N → s1.matchCnt i ≠ 1 := by
    intro i
    induction i using Nat.strong_induction_on with
    | _ i ih =>
      intro hi he
      obtain ⟨a, b, c, _⟩ := transfer_skip BIG N cost s1 i (fun i' hi' => ih i' hi' (by omega))
      have ht := htrans i hi (by rw [c]; exact he)
      rw [a] at ht
      obtain ⟨j, hj, hne⟩ : ∃ j, j < N ∧
          j ≠ ((forUp (reductionTransferStep BIG N cost) i 0 s1).rowsol i).toNat := by
        by_cases e : ((forUp (reductionTransferStep BIG N cost) i 0 s1).rowsol i).toNat = 0
        · exact ⟨1, by omega, by omega⟩
        · exact ⟨0, by omega, fun e' => e e'.symm⟩
      have h2 := ht j hj hne
      have h3 := hcr.v_le i j hi (Nat.zero_le _) hj
      omega
  -- so some row is free
  have h0 : ∃ i, i < N ∧ s1.matchCnt i = 0 := by
    by_contra hno
    have hge : ∀ i, i ∈ Finset.range N → 2 ≤ s1.matchCnt i := by
      intro i hi
      have hi' := Finset.mem_range.mp hi
      have a := h1 i hi'
      have b : s1.matchCnt i ≠ 0 := fun e => hno ⟨i, hi', e⟩
      omega
    have := Finset.sum_le_sum hge
    rw [hsum, Finset.sum_const, Finset.card_range, smul_eq_mul] at this
    omega
  obtain ⟨i0, hi0, hz0⟩ := h0
  obtain ⟨a, _, c, d⟩ := transfer_skip BIG N cost s1 N h1
  -- the state after the reduction transfer, seen as the run with `BIG = 0`
  have hinv : TransferInv N cost N (forUp (reductionTransferStep BIG N cost) N 0 s1) := by
    rw [d]
    have := forUp_induction (reductionTransferStep 0 N cost)
      (fun i s => TransferInv N cost i s) N 0 _ (transferInv_init N cost _ hcr)
      (fun i s _ hi h => transferInv_step 0 N cost i s (le_refl _) (by omega) h)
    simpa using this
  obtain ⟨p, hp, _⟩ := hinv.free_all i0 hi0 (by rw [c]; exact hz0)
  have hpos : 0 < (forUp (reductionTransferStep BIG N cost) N 0 s1).numfree := by omega
  have hfree := (hinv.free_lt 0 hpos).1
  have hscan := hpass _ ArrReach.start hpos 0 (by omega)
  have hnn := hinv.pinv.nonneg ((forUp (reductionTransferStep BIG N cost) N 0 s1).free_ 0) 0
    hfree (by omega)
  simp only at hscan
  omega

/-- For `N = 1` no reduced cost is computed: the condition on `BIG` holds for every `BIG`. -/
theorem belowBig_one (BIG : Int) (cost : Nat → Nat → Int) (rowsol colsol v : Nat → Int) :
    BelowBig BIG 1 cost rowsol colsol v := by
  constructor
  · intro i hi _ j hj hne
    have hi0 : i = 0 := by omega
    have hj0 : j = 0 := by omega
    subst hi0 hj0
    exact absurd rfl hne
  · constructor
    · intro a _ hk
      exact absurd hk (Nat.not_lt_zero _)
    · intro fuel p hrun a _ hk
      have hp : p.1.numfree = 0 := by
        cases fuel with
        | zero =>
          have := Option.some.inj hrun
          rw [← this]
        | succ f =>
          have := Option.some.inj hrun
          rw [← this]
      rw [hp] at hk
      exact absurd hk (Nat.not_lt_zero _)

/-- For `N = 1` the run of `jvlap` assigns row `0` to column `0`, whatever `BIG` is. -/
theorem jvlap_one (BIG : Int) (fuel : Nat) (cost : Nat → Nat → Int)
    (rowsol colsol u v : Nat → Int) :
    ∃ r : Lap, jvlap BIG fuel 1 cost rowsol colsol u v = some (r, u) ∧
      r.rowsol = upd rowsol 0 0 ∧ r.colsol = upd colsol 0 0 := by
  cases fuel with
  | zero => exact ⟨_, rfl, rfl, rfl⟩
  | succ f => exact ⟨_, rfl, rfl, rfl⟩

/-- For `N = 1` the run of `jvlap` with checked subscripts is the run of `jvlap`. -/
theorem jvlapC_one (BIG : Int) (fuel : Nat) (cost : Nat → Nat → Int)
    (rowsol colsol u v : Nat → Int) :
    jvlapC BIG fuel 1 cost rowsol colsol u v = jvlap BIG fuel 1 cost rowsol colsol u v := by
  cases fuel with
  | zero => rfl
  | succ f => rfl

/-- A solver of size `1` is left in the same state, with the same pairs written, whatever
`BIG` is. -/
theorem solve_one (BIG BIG' : Int) (fuel : Nat) (s : Solver) (a : Tensor Nat)
    (hs : s.size = 1) : solve BIG fuel s a = solve BIG' fuel s a := by
  unfold solve
  rw [hs]
  obtain ⟨r, hr, h1, h2⟩ := jvlap_one BIG fuel (getCost s.costMat) s.rowsol s.colsol
    (fun _ => 0) (fun _ => 0)
  obtain ⟨r', hr', h1', h2'⟩ := jvlap_one BIG' fuel (getCost s.costMat) s.rowsol s.colsol
    (fun _ => 0) (fun _ => 0)
  rw [hr, hr']
  simp only [Option.some_bind, h1, h2, h1', h2']

/-- For `N = 1` the result of `jvlap` does not depend on the fuel. -/
theorem jvlap_one_fuel (BIG : Int) (fuel : Nat) (cost : Nat → Nat → Int)
    (rowsol colsol u v : Nat → Int) :
    jvlap BIG fuel 1 cost rowsol colsol u v = jvlap BIG 0 1 cost rowsol colsol u v := by
  cases fuel with
  | zero => rfl
  | succ f => rfl

/-- A pass of the augmenting row reduction without free rows returns at once. -/
theorem arrPass_idle (BIG : Int) (N : Nat) (cost : Nat → Nat → Int) (fuel : Nat) (s : Lap)
    (j2 : Nat) (h : s.numfree = 0) :
    arrPass BIG N cost fuel s j2 = some ({ s with numfree := 0 }, j2) := by
  unfold arrPass
  cases fuel with
  | zero => simp [arrLoop, h]
  | succ f => simp [arrLoop, h]

/-- For `N = 1`, column reduction and reduction transfer assign row `0` to column `0` and
list no free row, whatever `BIG` is. -/
theorem transfer_one (BIG : Int) (cost : Nat → Nat → Int) (rowsol colsol v : Nat → Int) :
    (reductionTransfer BIG 1 cost (columnReduction 1 cost
      { rowsol := rowsol, colsol := colsol, v := v, free_ := fun _ => 0, numfree := 0,
        matchCnt := forUp (fun i m => upd m i 0) 1 0 (fun _ => 0) })).numfree = 0 ∧
    (reductionTransfer BIG 1 cost (columnReduction 1 cost
      { rowsol := rowsol, colsol := colsol, v := v, free_ := fun _ => 0, numfree := 0,
        matchCnt := forUp (fun i m => upd m i 0) 1 0 (fun _ => 0) })).rowsol 0 = 0 ∧
    (reductionTransfer BIG 1 cost (columnReduction 1 cost
      { rowsol := rowsol, colsol := colsol, v := v, free_ := fun _ => 0, numfree := 0,
        matchCnt := forUp (fun i m => upd m i 0) 1 0 (fun _ => 0) })).colsol 0 = 0 :=
  ⟨rfl, rfl, rfl⟩

/-- A state of size `1` with row `0` and column `0` assigned to each other and no free row
listed is a consistent partial matching. -/
theorem checkpoint_one (s : Lap) (h1 : s.rowsol 0 = 0) (h2 : s.colsol 0 = 0)
    (h3 : s.numfree = 0) : Checkpoint 1 s 0 := by
  refine ⟨?_, ?_, ?_, ?_, ?_, ?_⟩
  · intro i j hj e
    have hj0 : j = 0 := by omega
    subst hj0
    rw [h2] at e
    have hi0 : i = 0 := by omega
    subst hi0
    rw [h1]
    rfl
  · intro i j j' hj hj' _ _
    omega
  · intro p q _ hp _ _ _
    omega
  · intro p _ hp
    omega
  · intro i hi hfree
    have hi0 : i = 0 := by omega
    subst hi0
    exact absurd h2 (hfree 0 (by omega))
  · rw [h3]
    have : (Finset.range 1).filter (fun j => s.colsol j = -1) = ∅ := by
      apply Finset.filter_eq_empty_iff.mpr
      intro j hj
      have hj0 : j = 0 := by
        have := Finset.mem_range.mp hj
        omega
      subst hj0
      rw [h2]
      decide
    rw [this]
    rfl

/-! ### The uninitialised local j2 -/

/-- A row scan that meets a reduced cost below `BIG` at every column writes `j2`: what the
local held before does not matter. -/
theorem scanRow_j2 (BIG : Int) (N : Nat) (cost : Nat → Nat → Int) (v : Nat → Int)
    (i g g' : Nat) (hN : 2 ≤ N) (hb : ∀ j, j < N → cost i j - v j < BIG) :
    scanRow BIG N cost v i g = scanRow BIG N cost v i g' := by
  have key := forUp_induction2 (scanStep cost v i)
    (fun _ c c' => c.umin = c'.umin ∧ c.usubmin = c'.usubmin ∧ c.j1 = c'.j1 ∧
      (c.j2 = c'.j2 ∨ c.usubmin = BIG))
    (N - 1) 1 { umin := cost i 0 - v 0, usubmin := BIG, j1 := 0, j2 := g }
    { umin := cost i 0 - v 0, usubmin := BIG, j1 := 0, j2 := g' }
    ⟨rfl, rfl, rfl, Or.inr rfl⟩
    (by
      intro j c c' _ hj ⟨e1, e2, e3, e4⟩
      have hlt := hb j (by omega)
      unfold scanStep
      simp only
      by_cases h1 : cost i j - v j < c.usubmin
      · have h1' : cost i j - v j < c'.usubmin := by rw [← e2]; exact h1
        rw [if_pos h1, if_pos h1']
        by_cases h2 : cost i j - v j ≥ c.umin
        · have h2' : cost i j - v j ≥ c'.umin := by rw [← e1]; exact h2
          rw [if_pos h2, if_pos h2']
          exact ⟨e1, rfl, e3, Or.inl rfl⟩
        · have h2' : ¬ cost i j - v j ≥ c'.umin := by rw [← e1]; exact h2
          rw [if_neg h2, if_neg h2']
          exact ⟨rfl, e1, rfl, Or.inl e3⟩
      · have h1' : ¬ cost i j - v j < c'.usubmin := by rw [← e2]; exact h1
        rw [if_neg h1, if_neg h1']
        refine ⟨e1, e2, e3, ?_⟩
        rcases e4 with e | e
        · exact Or.inl e
        · omega)
  have hspec := scanRow_spec BIG N cost v i g (by omega) (le_of_lt (hb 0 (by omega)))
  simp only at hspec
  unfold scanRow at hspec ⊢
  generalize forUp (scanStep cost v i) (N - 1) 1
    { umin := cost i 0 - v 0, usubmin := BIG, j1 := 0, j2 := g } = c at key hspec ⊢
  generalize forUp (scanStep cost v i) (N - 1) 1
    { umin := cost i 0 - v 0, usubmin := BIG, j1 := 0, j2 := g' } = c' at key ⊢
  obtain ⟨e1, e2, e3, e4⟩ := key
  obtain ⟨_, _, _, hsub, _, _⟩ := hspec
  have hne : c.usubmin ≠ BIG := by
    by_cases h0 : c.j1 = 0
    · have a := hsub 1 (by omega) (by omega)
      have b := hb 1 (by omega)
      omega
    · have a := hsub 0 (by omega) (fun e => h0 e.symm)
      have b := hb 0 (by omega)
      omega
  have e5 : c.j2 = c'.j2 := by
    rcases e4 with e | e
    · exact e
    · exact absurd e hne
  cases c
  cases c'
  simp only at e1 e2 e3 e5
  subst e1 e2 e3 e5
  rfl

theorem arrStep_j2 (BIG : Int) (N : Nat) (cost : Nat → Nat → Int) (l : Lap) (k g g' : Nat)
    (hN : 2 ≤ N) (hb : ∀ j, j < N → cost (l.free_ k) j - l.v j < BIG) :
    arrStep BIG N cost { lap := l, k := k, j2 := g } =
      arrStep BIG N cost { lap := l, k := k, j2 := g' } := by
  unfold arrStep
  simp only
  rw [scanRow_j2 BIG N cost l.v (l.free_ k) g g' hN hb]

/-- A pass of the augmenting row reduction whose first row scan meets only reduced costs
below `BIG` does not depend on what `j2` holds at its start. -/
theorem arrPass_j2 (BIG : Int) (N : Nat) (cost : Nat → Nat → Int) (fuel : Nat) (s : Lap)
    (g : Nat) (hN : 2 ≤ N) (hpos : 0 < s.numfree)
    (hb : ∀ j, j < N → cost (s.free_ 0) j - s.v j < BIG) :
    arrPass BIG N cost fuel s g = arrPass BIG N cost fuel s 0 := by
  unfold arrPass
  cases fuel with
  | zero => simp [arrLoop, hpos]
  | succ f =>
    simp only [arrLoop, hpos, if_true]
    rw [arrStep_j2 BIG N cost { s with numfree := 0 } 0 g 0 hN hb]

/-- The two passes of the augmenting row reduction, entered with any value in `j2`. -/
theorem arr_j2 (BIG : Int) (N : Nat) (cost : Nat → Nat → Int) (fuel : Nat) (s : Lap)
    (g : Nat)
    (h : 0 < s.numfree → 2 ≤ N ∧ ∀ j, j < N → cost (s.free_ 0) j - s.v j < BIG) :
    ((arrPass BIG N cost fuel s g).bind fun p =>
      (arrPass BIG N cost fuel p.1 p.2).map fun q => q.1) =
      augmentingRowReduction BIG N cost fuel s := by
  unfold augmentingRowReduction
  by_cases hpos : 0 < s.numfree
  · obtain ⟨hN, hb⟩ := h hpos
    rw [arrPass_j2 BIG N cost fuel s g hN hpos hb]
  · have h0 : s.numfree = 0 := by omega
    rw [arrPass_idle BIG N cost fuel s g h0, arrPass_idle BIG N cost fuel s 0 h0]
    simp only [Option.some_bind]
    rw [arrPass_idle BIG N cost fuel _ g rfl, arrPass_idle BIG N cost fuel _ 0 rfl]
    rfl

/-- When the reduced costs of the run from `rs`, `cs`, `v` are below `BIG`, the run from
buffers that hold other values in the cells `[0, N)` does not depend on what the local `j2`
holds at entry. -/
theorem jvlapFrom_eq_tail (BIG : Int) (N : Nat) (cost : Nat → Nat → Int)
    (rs cs v rs' cs' u v' : Nat → Int) (hN : 1 ≤ N) (hH : BelowBig BIG N cost rs cs v)
    (hrs : ∀ i, N ≤ i → rs i = rs' i) (hcs : ∀ i, N ≤ i → cs i = cs' i)
    (hv : ∀ i, N ≤ i → v i = v' i) (g fuel : Nat) :
    jvlapFrom g BIG fuel N cost rs' cs' u v' = jvlap BIG fuel N cost rs' cs' u v' := by
  unfold jvlapFrom jvlap
  simp only
  rw [arr_j2]
  intro hpos
  by_cases h2 : 2 ≤ N
  · refine ⟨h2, ?_⟩
    have hB0 := hH.big_nonneg h2
    have hr := reductionTransfer_congr BIG N cost rs cs v rs' cs' v' hN hB0 hrs hcs hv
    rw [← hr.numfree] at hpos
    rw [← hr.free_, ← hr.v]
    exact hH.arr.1 _ ArrReach.start hpos
  · have h1 : N = 1 := by omega
    subst h1
    rw [(transfer_one BIG cost rs' cs' v').1] at hpos
    exact absurd hpos (Nat.lt_irrefl 0)

/-- When the reduced costs of the run are below `BIG`, the run does not depend on what the
local `j2` holds at entry: `jvlap`, the run in which it holds `0`, is every run. -/
theorem jvlapFrom_eq (BIG : Int) (N : Nat) (cost : Nat → Nat → Int)
    (rowsol colsol u v : Nat → Int) (hN : 1 ≤ N) (hH : BelowBig BIG N cost rowsol colsol v)
    (g fuel : Nat) :
    jvlapFrom g BIG fuel N cost rowsol colsol u v = jvlap BIG fuel N cost rowsol colsol u v :=
  jvlapFrom_eq_tail BIG N cost rowsol colsol v rowsol colsol u v hN hH (fun _ _ => rfl)
    (fun _ _ => rfl) (fun _ _ => rfl) g fuel

/-- The first row scan of the augmenting row reduction, in a run whose reduced costs are
below `BIG`. -/
theorem BelowBig.first_scan {BIG : Int} {N : Nat} {cost : Nat → Nat → Int}
    {rowsol colsol v : Nat → Int} (hH : BelowBig BIG N cost rowsol colsol v) (hN : 1 ≤ N) :
    0 < (reductionTransfer BIG N cost (columnReduction N cost
      { rowsol := rowsol, colsol := colsol, v := v, free_ := fun _ => 0, numfree := 0,
        matchCnt := forUp (fun i m => upd m i 0) N 0 (fun _ => 0) })).numfree →
    2 ≤ N ∧ ∀ j, j < N →
      cost ((reductionTransfer BIG N cost (columnReduction N cost
        { rowsol := rowsol, colsol := colsol, v := v, free_ := fun _ => 0, numfree := 0,
          matchCnt := forUp (fun i m => upd m i 0) N 0 (fun _ => 0) })).free_ 0) j -
        (reductionTransfer BIG N cost (columnReduction N cost
        { rowsol := rowsol, colsol := colsol, v := v, free_ := fun _ => 0, numfree := 0,
          matchCnt := forUp (fun i m => upd m i 0) N 0 (fun _ => 0) })).v j < BIG := by
  intro hpos
  by_cases h2 : 2 ≤ N
  · exact ⟨h2, hH.arr.1 _ ArrReach.start hpos⟩
  · have h1 : N = 1 := by omega
    subst h1
    rw [(transfer_one BIG cost rowsol colsol v).1] at hpos
    exact absurd hpos (Nat.lt_irrefl 0)

/-- The two passes of the augmenting row reduction leave the same states whatever `j2` holds
at entry. -/
theorem arrPasses_j2 (BIG : Int) (N : Nat) (cost : Nat → Nat → Int) (fuel : Nat) (s : Lap)
    (h : 0 < s.numfree → 2 ≤ N ∧ ∀ j, j < N → cost (s.free_ 0) j - s.v j < BIG)
    (p1 p2 : Lap × Nat) (h1 : arrPass BIG N cost fuel s 0 = some p1)
    (h2 : arrPass BIG N cost fuel p1.1 p1.2 = some p2) (g : Nat) :
    ∃ ja jb, arrPass BIG N cost fuel s g = some (p1.1, ja) ∧
      arrPass BIG N cost fuel p1.1 ja = some (p2.1, jb) := by
  by_cases hpos : 0 < s.numfree
  · obtain ⟨hN, hb⟩ := h hpos
    exact ⟨p1.2, p2.2, by rw [arrPass_j2 BIG N cost fuel s g hN hpos hb]; exact h1, h2⟩
  · have h0 : s.numfree = 0 := by omega
    rw [arrPass_idle BIG N cost fuel s 0 h0] at h1
    have e1 : p1 = ({ s with numfree := 0 }, 0) := (Option.some.inj h1).symm
    subst e1
    rw [arrPass_idle BIG N cost fuel _ 0 rfl] at h2
    have e2 := (Option.some.inj h2).symm
    subst e2
    exact ⟨g, g, arrPass_idle BIG N cost fuel s g h0, arrPass_idle BIG N cost fuel _ g rfl⟩

/-- The method `solve`, for any value of the local `j2` of `jvlap` at entry. -/
theorem solveFrom_eq_tail (BIG : Int) (mat : Tensor Int) (R C : Nat)
    (rs cs rs' cs' : Nat → Int) (a : Tensor Nat) (hd : mat.getDims = [R, C]) (hR : 1 ≤ R)
    (hH : BelowBig BIG (max R C) (getCost (Solver.new mat).costMat) rs cs (fun _ => 0))
    (hrs : ∀ i, max R C ≤ i → rs i = rs' i) (hcs : ∀ i, max R C ≤ i → cs i = cs' i)
    (g fuel : Nat) :
    solveFrom g BIG fuel (solverWith mat rs' cs') a = solve BIG fuel (solverWith mat rs' cs') a := by
  obtain ⟨_, _, f3, f4, f5, f6⟩ := solverWith_fields mat R C rs' cs' hd
  unfold solveFrom solve
  rw [f3, f4, f5, f6]
  rw [jvlapFrom_eq_tail BIG (max R C) _ rs cs (fun _ => 0) rs' cs' (fun _ => 0) (fun _ => 0)
    (le_trans hR (le_max_left _ _)) hH hrs hcs (fun _ _ => rfl) g fuel]

theorem solveFrom_eq (BIG : Int) (mat : Tensor Int) (R C : Nat)
    (rs cs : Nat → Int) (a : Tensor Nat) (hd : mat.getDims = [R, C]) (hR : 1 ≤ R)
    (hH : BelowBig BIG (max R C) (getCost (Solver.new mat).costMat) rs cs (fun _ => 0))
    (g fuel : Nat) :
    solveFrom g BIG fuel (solverWith mat rs cs) a = solve BIG fuel (solverWith mat rs cs) a :=
  solveFrom_eq_tail BIG mat R C rs cs rs cs a hd hR hH (fun _ _ => rfl) (fun _ _ => rfl) g fuel

/-! ### Termination and the certificate on the prices -/

/-- The two passes of the augmenting row reduction after column reduction and reduction
transfer. -/
theorem arrPasses_spec (BIG : Int) (N : Nat) (cost : Nat → Nat → Int)
    (rowsol colsol v : Nat → Int) (hN : 1 ≤ N) (hB0 : 0 ≤ BIG)
    (hH : BelowBig BIG N cost rowsol colsol v) :
    ∃ (p1 p2 : Lap × Nat) (M : Nat),
      (∀ fuel, M ≤ fuel →
        arrPass BIG N cost fuel (reductionTransfer BIG N cost (columnReduction N cost
          { rowsol := rowsol, colsol := colsol, v := v, free_ := fun _ => 0, numfree := 0,
            matchCnt := forUp (fun i m => upd m i 0) N 0 (fun _ => 0) })) 0 = some p1 ∧
        arrPass BIG N cost fuel p1.1 p1.2 = some p2 ∧
        augmentingRowReduction BIG N cost fuel (reductionTransfer BIG N cost
          (columnReduction N cost
          { rowsol := rowsol, colsol := colsol, v := v, free_ := fun _ => 0, numfree := 0,
            matchCnt := forUp (fun i m => upd m i 0) N 0 (fun _ => 0) })) = some p2.1) ∧
      PInv N cost p1.1.rowsol p1.1.colsol p1.1.v ∧
      FreeList N p1.1.colsol p1.1.free_ (fun p => p < p1.1.numfree) ∧
      PInv N cost p2.1.rowsol p2.1.colsol p2.1.v ∧
      FreeList N p2.1.colsol p2.1.free_ (fun p => p < p2.1.numfree) := by
  obtain ⟨hp2, hu2, hf2⟩ := reductionTransfer_spec BIG N cost rowsol colsol v hN hB0
  obtain ⟨s3a, j2a, M1, hrun1, hp1, hu1, hf1, _⟩ :=
    arrPass_spec BIG N cost hN _ 0 hH.arr.1 hp2 hu2 hf2
  obtain ⟨s3, j2b, M2, hrun2, hp3, _, hf3, _⟩ :=
    arrPass_spec BIG N cost hN s3a j2a (hH.arr.2 M1 (s3a, j2a) (hrun1 M1 (le_refl _)))
      hp1 hu1 hf1
  refine ⟨(s3a, j2a), (s3, j2b), max M1 M2, ?_, hp1, hf1, hp3, hf3⟩
  intro fuel hfuel
  have r1 := hrun1 fuel (le_trans (le_max_left _ _) hfuel)
  have r2 := hrun2 fuel (le_trans (le_max_right _ _) hfuel)
  refine ⟨r1, r2, ?_⟩
  unfold augmentingRowReduction
  rw [r1]
  show Option.map _ (arrPass BIG N cost fuel s3a j2a) = _
  rw [r2]
  rfl

/-- Termination of the three loops of `jvlap`, for `BIG >= 0`. -/
theorem terminates_core (BIG : Int) (N : Nat) (cost : Nat → Nat → Int)
    (rowsol colsol u v : Nat → Int) (hN : 1 ≤ N) (hB0 : 0 ≤ BIG)
    (hH : BelowBig BIG N cost rowsol colsol v) :
    ∃ (p1 p2 : Lap × Nat) (s4 : Lap) (M : Nat),
      (∀ fuel, M ≤ fuel →
        arrPass BIG N cost fuel (reductionTransfer BIG N cost (columnReduction N cost
          { rowsol := rowsol, colsol := colsol, v := v, free_ := fun _ => 0, numfree := 0,
            matchCnt := forUp (fun i m => upd m i 0) N 0 (fun _ => 0) })) 0 = some p1 ∧
        arrPass BIG N cost fuel p1.1 p1.2 = some p2) ∧
      (∀ f, f < p2.1.numfree → ∀ fuel, N ≤ fuel →
        ∃ (s : Lap) (t : Search) (rc : (Nat → Int) × (Nat → Int)),
          forUp (augmentStep N cost fuel) f 0 (some p2.1) = some s ∧
          searchLoop N cost s.v s.colsol fuel (searchInit N cost s.v (s.free_ f)) = some t ∧
          flipPath t.pred (s.free_ f) fuel (s.rowsol, s.colsol, (t.endofpath : Int))
            = some rc) ∧
      (∀ fuel, max M N ≤ fuel → jvlap BIG fuel N cost rowsol colsol u v = some (s4, u)) := by
  obtain ⟨p1, p2, M, hrun, _, _, hp3, hf3⟩ := arrPasses_spec BIG N cost rowsol colsol v hN hB0 hH
  obtain ⟨s4, hrun4, _, _, _, _⟩ := augmentSolution_spec N cost p2.1 hp3 hf3
  refine ⟨p1, p2, s4, M, fun fuel hf => ⟨(hrun fuel hf).1, (hrun fuel hf).2.1⟩, ?_, ?_⟩
  · intro f hf fuel hfuel
    obtain ⟨s, hs, hps, hfs, hnf⟩ := augmentPrefix_spec N cost f 0 p2.1 hp3
      (hf3.congr (by intro p; simp)) (by omega)
    obtain ⟨s', hs', _⟩ := augmentStep_spec N cost s f hps (hfs.congr (by intro p; omega))
      (by omega)
    obtain ⟨t, rc, h1, h2, _⟩ := augmentStep_parts N cost fuel f s s' (hs' fuel hfuel)
    exact ⟨s, t, rc, hs fuel hfuel, h1, h2⟩
  · intro fuel hfuel
    unfold jvlap
    simp only
    rw [(hrun fuel (le_trans (le_max_left _ _) hfuel)).2.2]
    simp only [Option.some_bind]
    rw [hrun4 fuel (le_trans (le_max_right _ _) hfuel)]
    rfl

/-- Termination of the three loops of the run in which `j2` holds `0` at entry. -/
theorem terminates_run (BIG : Int) (N : Nat) (cost : Nat → Nat → Int)
    (rowsol colsol u v : Nat → Int) (hN : 1 ≤ N) (hH : BelowBig BIG N cost rowsol colsol v) :
    ∃ (p1 p2 : Lap × Nat) (s4 : Lap) (M : Nat),
      (∀ fuel, M ≤ fuel →
        arrPass BIG N cost fuel (reductionTransfer BIG N cost (columnReduction N cost
          { rowsol := rowsol, colsol := colsol, v := v, free_ := fun _ => 0, numfree := 0,
            matchCnt := forUp (fun i m => upd m i 0) N 0 (fun _ => 0) })) 0 = some p1 ∧
        arrPass BIG N cost fuel p1.1 p1.2 = some p2) ∧
      (∀ f, f < p2.1.numfree → ∀ fuel, N ≤ fuel →
        ∃ (s : Lap) (t : Search) (rc : (Nat → Int) × (Nat → Int)),
          forUp (augmentStep N cost fuel) f 0 (some p2.1) = some s ∧
          searchLoop N cost s.v s.colsol fuel (searchInit N cost s.v (s.free_ f)) = some t ∧
          flipPath t.pred (s.free_ f) fuel (s.rowsol, s.colsol, (t.endofpath : Int))
            = some rc) ∧
      (∀ fuel, max M N ≤ fuel → jvlap BIG fuel N cost rowsol colsol u v = some (s4, u)) := by
  by_cases h2 : 2 ≤ N
  · exact terminates_core BIG N cost rowsol colsol u v hN (hH.big_nonneg h2) hH
  · have h1 : N = 1 := by omega
    subst h1
    obtain ⟨t1, t2, t3⟩ := transfer_one BIG cost rowsol colsol v
    obtain ⟨r, hr, _, _⟩ := jvlap_one BIG 0 cost rowsol colsol u v
    refine ⟨(_, 0), (_, 0), r, 0, fun fuel _ => ⟨arrPass_idle BIG 1 cost fuel _ 0 t1,
      arrPass_idle BIG 1 cost fuel _ 0 rfl⟩, ?_, ?_⟩
    · intro f hf
      exact absurd hf (Nat.not_lt_zero f)
    · intro fuel _
      rw [jvlap_one_fuel]
      exact hr

/-- C11 as amended, termination: for `N >= 1` and a run in which every reduced cost computed
in the reduction transfer and in the row scans of the augmenting row reduction is below
`BIG`, whatever the local `j2` holds at entry (`g`), the loop `while (k < prvnumfree)` of
each of the two passes of the augmenting row reduction ends (both passes return for every
fuel from a bound `M` on, leaving the states `p1` and `p2`), the search loop and the walk
along `pred` of every augmentation end within `N` trips, and `jvlap` returns for every fuel
from `max M N` on. -/
theorem jvlap_terminates (BIG : Int) (N : Nat) (cost : Nat → Nat → Int)
    (rowsol colsol u v : Nat → Int) (hN : 1 ≤ N) (hH : BelowBig BIG N cost rowsol colsol v) :
    ∃ (p1 p2 s4 : Lap) (M : Nat),
      (∀ fuel, M ≤ fuel → ∀ g : Nat, ∃ ja jb : Nat,
        arrPass BIG N cost fuel (reductionTransfer BIG N cost (columnReduction N cost
          { rowsol := rowsol, colsol := colsol, v := v, free_ := fun _ => 0, numfree := 0,
            matchCnt := forUp (fun i m => upd m i 0) N 0 (fun _ => 0) })) g = some (p1, ja) ∧
        arrPass BIG N cost fuel p1 ja = some (p2, jb)) ∧
      (∀ f, f < p2.numfree → ∀ fuel, N ≤ fuel →
        ∃ (s : Lap) (t : Search) (rc : (Nat → Int) × (Nat → Int)),
          forUp (augmentStep N cost fuel) f 0 (some p2) = some s ∧
          searchLoop N cost s.v s.colsol fuel (searchInit N cost s.v (s.free_ f)) = some t ∧
          flipPath t.pred (s.free_ f) fuel (s.rowsol, s.colsol, (t.endofpath : Int))
            = some rc) ∧
      (∀ fuel, max M N ≤ fuel → ∀ g : Nat,
        jvlapFrom g BIG fuel N cost rowsol colsol u v = some (s4, u)) := by
  obtain ⟨p1, p2, s4, M, hpass, haug, hret⟩ :=
    terminates_run BIG N cost rowsol colsol u v hN hH
  refine ⟨p1.1, p2.1, s4, M, ?_, haug, ?_⟩
  · intro fuel hf g
    exact arrPasses_j2 BIG N cost fuel _ (hH.first_scan hN) p1 p2 (hpass fuel hf).1
      (hpass fuel hf).2 g
  · intro fuel hf g
    rw [jvlapFrom_eq BIG N cost rowsol colsol u v hN hH g fuel]
    exact hret fuel hf

/-- Instance of C11 as amended: the cost matrix `[[2,1,0],[2,1,0],[0,0,0]]` with `BIG = 100000`. The
reduction transfer leaves one free row, the augmenting row reduction re-assigns and leaves one
free row, and one augmentation runs: each of the three loops is entered. -/
theorem jvlap_terminates_witness :
    ((transferState 100000 3 (getCost [[2, 1, 0], [2, 1, 0], [0, 0, 0]]) (fun _ => 0)
        (fun _ => 0) (fun _ => 0) 3).numfree = 1 ∧
      (augmentingRowReduction 100000 3 (getCost [[2, 1, 0], [2, 1, 0], [0, 0, 0]]) 10
        (transferState 100000 3 (getCost [[2, 1, 0], [2, 1, 0], [0, 0, 0]]) (fun _ => 0)
          (fun _ => 0) (fun _ => 0) 3)).map (fun s => s.numfree) = some 1) ∧
    ∃ (p1 p2 s4 : Lap) (M : Nat),
      (∀ fuel, M ≤ fuel → ∀ g : Nat, ∃ ja jb : Nat,
        arrPass 100000 3 (getCost [[2, 1, 0], [2, 1, 0], [0, 0, 0]]) fuel
          (reductionTransfer 100000 3 (getCost [[2, 1, 0], [2, 1, 0], [0, 0, 0]])
            (columnReduction 3 (getCost [[2, 1, 0], [2, 1, 0], [0, 0, 0]])
          { rowsol := fun _ => 0, colsol := fun _ => 0, v := fun _ => 0, free_ := fun _ => 0,
            numfree := 0, matchCnt := forUp (fun i m => upd m i 0) 3 0 (fun _ => 0) })) g
          = some (p1, ja) ∧
        arrPass 100000 3 (getCost [[2, 1, 0], [2, 1, 0], [0, 0, 0]]) fuel p1 ja
          = some (p2, jb)) ∧
      (∀ f, f < p2.numfree → ∀ fuel, 3 ≤ fuel →
        ∃ (s : Lap) (t : Search) (rc : (Nat → Int) × (Nat → Int)),
          forUp (augmentStep 3 (getCost [[2, 1, 0], [2, 1, 0], [0, 0, 0]]) fuel) f 0
            (some p2) = some s ∧
          searchLoop 3 (getCost [[2, 1, 0], [2, 1, 0], [0, 0, 0]]) s.v s.colsol fuel
            (searchInit 3 (getCost [[2, 1, 0], [2, 1, 0], [0, 0, 0]]) s.v (s.free_ f))
            = some t ∧
          flipPath t.pred (s.free_ f) fuel (s.rowsol, s.colsol, (t.endofpath : Int))
            = some rc) ∧
      (∀ fuel, max M 3 ≤ fuel → ∀ g : Nat,
        jvlapFrom g 100000 fuel 3 (getCost [[2, 1, 0], [2, 1, 0], [0, 0, 0]]) (fun _ => 0)
          (fun _ => 0) (fun _ => 0) (fun _ => 0) = some (s4, fun _ => 0)) :=
  ⟨⟨by decide, by decide⟩,
   jvlap_terminates 100000 3 (getCost [[2, 1, 0], [2, 1, 0], [0, 0, 0]]) (fun _ => 0)
    (fun _ => 0) (fun _ => 0) (fun _ => 0) (by decide)
    (belowBig_of_bigEnough 100000 3 _ _ _ _ (by decide) cost3_bigEnough)⟩

/-- C19, certificate on `v` alone: for `N >= 1` and a run in which every reduced cost
computed in the reduction transfer and in the row scans of the augmenting row reduction is
below `BIG`, `jvlap` returns, and whenever it returns every row `i < N` is assigned a column
`rowsol[i]` in `[0, N)` of minimum reduced cost,
`cost[i][rowsol[i]] - v[rowsol[i]] <= cost[i][j] - v[j]` for all `j < N`; so every `u` with
`u[i] = cost[i][rowsol[i]] - v[rowsol[i]]` makes `cost[i][j] - u[i] - v[j] >= 0` for all `i`,
`j`, with the value `0` at `j = rowsol[i]`. -/
theorem min_reduced_cost_certificate (BIG : Int) (N : Nat) (cost : Nat → Nat → Int)
    (rowsol colsol u v : Nat → Int) (hN : 1 ≤ N) (hH : BelowBig BIG N cost rowsol colsol v) :
    (∃ M, ∀ fuel, M ≤ fuel → (jvlap BIG fuel N cost rowsol colsol u v).isSome = true) ∧
    ∀ fuel r, jvlap BIG fuel N cost rowsol colsol u v = some r →
      (∀ i, i < N → 0 ≤ r.1.rowsol i ∧ r.1.rowsol i < N) ∧
      (∀ i j, i < N → j < N →
        cost i (r.1.rowsol i).toNat - r.1.v (r.1.rowsol i).toNat ≤ cost i j - r.1.v j) ∧
      ∀ u' : Nat → Int,
        (∀ i, i < N → u' i = cost i (r.1.rowsol i).toNat - r.1.v (r.1.rowsol i).toNat) →
        (∀ i j, i < N → j < N → cost i j - u' i - r.1.v j ≥ 0) ∧
        (∀ i, i < N → cost i (r.1.rowsol i).toNat - u' i - r.1.v (r.1.rowsol i).toNat = 0) := by
  have hmain : ∀ (B : Int), 0 ≤ B → BelowBig B N cost rowsol colsol v →
      (∃ M, ∀ fuel, M ≤ fuel → (jvlap B fuel N cost rowsol colsol u v).isSome = true) ∧
      ∀ fuel r, jvlap B fuel N cost rowsol colsol u v = some r →
        (∀ i, i < N → 0 ≤ r.1.rowsol i ∧ r.1.rowsol i < N) ∧
        (∀ i j, i < N → j < N →
          cost i (r.1.rowsol i).toNat - r.1.v (r.1.rowsol i).toNat ≤ cost i j - r.1.v j) := by
    intro B hB0 hHB
    obtain ⟨hret, hprop⟩ := jvlap_total B N cost rowsol colsol u v hN hB0 hHB
    refine ⟨hret, ?_⟩
    intro fuel r hr
    obtain ⟨_, hp, hall⟩ := hprop fuel r hr
    obtain ⟨hb1, _⟩ := hp.bijection hall
    constructor
    · intro i hi
      obtain ⟨j0, hj0, h1, _⟩ := hb1 i hi
      rw [h1]
      omega
    · intro i j hi hj
      obtain ⟨j0, hj0, h1, h2⟩ := hb1 i hi
      rw [h1, Int.toNat_ofNat]
      exact hp.dual i j0 hj0 h2 j hj
  have hcore :
      (∃ M, ∀ fuel, M ≤ fuel → (jvlap BIG fuel N cost rowsol colsol u v).isSome = true) ∧
      ∀ fuel r, jvlap BIG fuel N cost rowsol colsol u v = some r →
        (∀ i, i < N → 0 ≤ r.1.rowsol i ∧ r.1.rowsol i < N) ∧
        (∀ i j, i < N → j < N →
          cost i (r.1.rowsol i).toNat - r.1.v (r.1.rowsol i).toNat ≤ cost i j - r.1.v j) := by
    by_cases h2 : 2 ≤ N
    · exact hmain BIG (hH.big_nonneg h2) hH
    · have h1 : N = 1 := by omega
      subst h1
      refine ⟨⟨0, fun fuel _ => ?_⟩, ?_⟩
      · obtain ⟨r, hr, _, _⟩ := jvlap_one BIG fuel cost rowsol colsol u v
        rw [hr]
        rfl
      · intro fuel r hr
        obtain ⟨r', hr', h1, _⟩ := jvlap_one BIG fuel cost rowsol colsol u v
        rw [hr'] at hr
        have e : r = (r', u) := (Option.some.inj hr).symm
        subst e
        have hz : r'.rowsol 0 = 0 := by rw [h1]; rfl
        constructor
        · intro i hi
          have hi0 : i = 0 := by omega
          subst hi0
          show 0 ≤ r'.rowsol 0 ∧ r'.rowsol 0 < 1
          rw [hz]
          omega
        · intro i j hi hj
          have hi0 : i = 0 := by omega
          have hj0 : j = 0 := by omega
          subst hi0 hj0
          show cost 0 (r'.rowsol 0).toNat - r'.v (r'.rowsol 0).toNat ≤ cost 0 0 - r'.v 0
          rw [hz]
          exact le_refl _
  refine ⟨hcore.1, ?_⟩
  intro fuel r hr
  obtain ⟨hrng, hmin⟩ := hcore.2 fuel r hr
  refine ⟨hrng, hmin, ?_⟩
  intro u' hu'
  constructor
  · intro i j hi hj
    have := hmin i j hi hj
    rw [hu' i hi]
    omega
  · intro i hi
    rw [hu' i hi]
    omega

/-- Instance of C19: the cost matrix `[[2,1,0],[2,1,0],[0,0,0]]` with `BIG = 100000`, a run
that goes through the reduction transfer, both passes of the augmenting row reduction and
one augmentation; and the cost matrix `[[0,0],[100,100]]` with `BIG = 101`, just above the
largest reduced cost `100` of the run. -/
theorem min_reduced_cost_certificate_witness :
    ((∃ M, ∀ fuel, M ≤ fuel →
      (jvlap 100000 fuel 3 (getCost [[2, 1, 0], [2, 1, 0], [0, 0, 0]]) (fun _ => 0)
        (fun _ => 0) (fun _ => 0) (fun _ => 0)).isSome = true) ∧
    ∀ fuel r, jvlap 100000 fuel 3 (getCost [[2, 1, 0], [2, 1, 0], [0, 0, 0]]) (fun _ => 0)
        (fun _ => 0) (fun _ => 0) (fun _ => 0) = some r →
      ∀ i j, i < 3 → j < 3 →
        getCost [[2, 1, 0], [2, 1, 0], [0, 0, 0]] i (r.1.rowsol i).toNat
            - r.1.v (r.1.rowsol i).toNat ≤
          getCost [[2, 1, 0], [2, 1, 0], [0, 0, 0]] i j - r.1.v j) ∧
    ((∃ M, ∀ fuel, M ≤ fuel →
      (jvlap 101 fuel (max 2 2) (getCost (Solver.new weightsTight22).costMat) (fun _ => 0)
        (fun _ => 0) (fun _ => 0) (fun _ => 0)).isSome = true) ∧
    ∀ fuel r, jvlap 101 fuel (max 2 2) (getCost (Solver.new weightsTight22).costMat)
        (fun _ => 0) (fun _ => 0) (fun _ => 0) (fun _ => 0) = some r →
      ∀ i j, i < max 2 2 → j < max 2 2 →
        getCost (Solver.new weightsTight22).costMat i (r.1.rowsol i).toNat
            - r.1.v (r.1.rowsol i).toNat ≤
          getCost (Solver.new weightsTight22).costMat i j - r.1.v j) :=
  ⟨⟨(min_reduced_cost_certificate 100000 3
      (getCost [[2, 1, 0], [2, 1, 0], [0, 0, 0]]) (fun _ => 0) (fun _ => 0) (fun _ => 0)
      (fun _ => 0) (by decide)
      (belowBig_of_bigEnough 100000 3 _ _ _ _ (by decide) cost3_bigEnough)).1,
   fun fuel r h => ((min_reduced_cost_certificate 100000 3
      (getCost [[2, 1, 0], [2, 1, 0], [0, 0, 0]]) (fun _ => 0) (fun _ => 0) (fun _ => 0)
      (fun _ => 0) (by decide)
      (belowBig_of_bigEnough 100000 3 _ _ _ _ (by decide) cost3_bigEnough)).2 fuel r h).2.1⟩,
   ⟨(min_reduced_cost_certificate 101 (max 2 2)
      (getCost (Solver.new weightsTight22).costMat) (fun _ => 0) (fun _ => 0) (fun _ => 0)
      (fun _ => 0) (by decide) belowBig_tight.1).1,
   fun fuel r h => ((min_reduced_cost_certificate 101 (max 2 2)
      (getCost (Solver.new weightsTight22).costMat) (fun _ => 0) (fun _ => 0) (fun _ => 0)
      (fun _ => 0) (by decide) belowBig_tight.1).2 fuel r h).2.1⟩⟩

/-- For the cost matrix `[[-100001,-100000],[0,0]]` and `BIG = 100000` the run of `jvlap`
with checked reads fails whatever the fuel: the tie branch of the first trip of the
augmenting row reduction reads `j2`, which the row scan has not written. -/
theorem jvlapC_wide_cost (fuel : Nat) :
    jvlapC 100000 fuel 2 (getCost [[-100001, -100000], [0, 0]]) (fun _ => 0) (fun _ => 0)
      (fun _ => 0) (fun _ => 0) = none := by
  cases fuel with
  | zero => rfl
  | succ f => rfl

/-- C20 fails as stated. At the end of the column reduction: for the cost matrix
`[[-1,0],[1,1]]` both columns select row `0`, so after the column-reduction loop no column is
assigned to row `1`, while `numfree` is still `0` and `free_[0..numfree)` lists no row (the
list is filled by the reduction transfer). And without a condition on `BIG`: for the cost
matrix `[[-100001,-100000],[0,0]]` and `BIG = 100000` the first row scan of the augmenting
row reduction finds no reduced cost below `BIG`, so the tie branch reads `j2`, which no
statement has written (the run with checked reads fails for every fuel); when `j2` holds
`7`, the first pass
ends with row `0` listed as free while column `0` is still assigned to it. -/
theorem free_list_counterexample :
    ((columnReduction 2 (getCost [[-1, 0], [1, 1]])
      { rowsol := fun _ => 0, colsol := fun _ => 0, v := fun _ => 0, free_ := fun _ => 0,
        numfree := 0, matchCnt := forUp (fun i m => upd m i 0) 2 0 (fun _ => 0) }).numfree = 0 ∧
    (∀ j, j < 2 → (columnReduction 2 (getCost [[-1, 0], [1, 1]])
      { rowsol := fun _ => 0, colsol := fun _ => 0, v := fun _ => 0, free_ := fun _ => 0,
        numfree := 0, matchCnt := forUp (fun i m => upd m i 0) 2 0 (fun _ => 0) }).colsol j
        ≠ ((1 : Nat) : Int)) ∧
    ¬ Checkpoint 2 (columnReduction 2 (getCost [[-1, 0], [1, 1]])
      { rowsol := fun _ => 0, colsol := fun _ => 0, v := fun _ => 0, free_ := fun _ => 0,
        numfree := 0, matchCnt := forUp (fun i m => upd m i 0) 2 0 (fun _ => 0) }) 0) ∧
    (∀ fuel, jvlapC 100000 fuel 2 (getCost [[-100001, -100000], [0, 0]]) (fun _ => 0)
        (fun _ => 0) (fun _ => 0) (fun _ => 0) = none) ∧
    (arrPass 100000 2 (getCost [[-100001, -100000], [0, 0]]) 10
      (transferState 100000 2 (getCost [[-100001, -100000], [0, 0]]) (fun _ => 0) (fun _ => 0)
        (fun _ => 0) 2) 7).map (fun p => (p.1.numfree, p.1.free_ 0, p.1.colsol 0))
      = some (1, 0, 0) := by
  have h1 : (columnReduction 2 (getCost [[-1, 0], [1, 1]])
      { rowsol := fun _ => 0, colsol := fun _ => 0, v := fun _ => 0, free_ := fun _ => 0,
        numfree := 0, matchCnt := forUp (fun i m => upd m i 0) 2 0 (fun _ => 0) }).numfree = 0 := by
    decide
  have h2 : ∀ j, j < 2 → (columnReduction 2 (getCost [[-1, 0], [1, 1]])
      { rowsol := fun _ => 0, colsol := fun _ => 0, v := fun _ => 0, free_ := fun _ => 0,
        numfree := 0, matchCnt := forUp (fun i m => upd m i 0) 2 0 (fun _ => 0) }).colsol j
        ≠ ((1 : Nat) : Int) := by
    intro j hj
    interval_cases j <;> decide
  refine ⟨⟨h1, h2, ?_⟩, jvlapC_wide_cost, by decide⟩
  intro hc
  obtain ⟨p, _, hp, _⟩ := hc.free_listed 1 (by decide) h2
  rw [h1] at hp
  exact Nat.not_lt_zero p hp

/-- The checkpoints of `jvlap`, for `BIG >= 0`. -/
theorem checkpoints_core (BIG : Int) (N : Nat) (cost : Nat → Nat → Int)
    (rowsol colsol v : Nat → Int) (hN : 1 ≤ N) (hB0 : 0 ≤ BIG)
    (hH : BelowBig BIG N cost rowsol colsol v) :
    (let s1 := columnReduction N cost
      { rowsol := rowsol, colsol := colsol, v := v, free_ := fun _ => 0, numfree := 0,
        matchCnt := forUp (fun i m => upd m i 0) N 0 (fun _ => 0) }
    let s2 := reductionTransfer BIG N cost s1
    ((∀ i j : Nat, j < N → s1.colsol j = (i : Int) → s1.rowsol i = (j : Int)) ∧
      (∀ i j j' : Nat, j < N → j' < N → s1.colsol j = (i : Int) → s1.colsol j' = (i : Int) →
        j = j') ∧
      (∀ i, i < N → (s1.matchCnt i = 0 ↔ ∀ j, j < N → s1.colsol j ≠ (i : Int))) ∧
      ((Finset.range N).filter (fun i => s1.matchCnt i = 0)).card =
        ((Finset.range N).filter (fun j => s1.colsol j = -1)).card) ∧
    Checkpoint N s2 0 ∧
    ∃ (p1 p2 : Lap × Nat) (M : Nat),
      (∀ fuel, M ≤ fuel →
        arrPass BIG N cost fuel s2 0 = some p1 ∧ arrPass BIG N cost fuel p1.1 p1.2 = some p2) ∧
      Checkpoint N p1.1 0 ∧ Checkpoint N p2.1 0 ∧
      ∀ f, f ≤ p2.1.numfree →
        ∃ s : Lap, (∀ fuel, N ≤ fuel →
            forUp (augmentStep N cost fuel) f 0 (some p2.1) = some s) ∧
          Checkpoint N s f) := by
  intro s1 s2
  have hc1 : ColRedInv N cost 0 s1 := columnReduction_spec N cost rowsol colsol v hN
  obtain ⟨hp2, _, hf2⟩ := reductionTransfer_spec BIG N cost rowsol colsol v hN hB0
  obtain ⟨p1, p2, M, hrun, hp1, hf1, hp3, hf3⟩ :=
    arrPasses_spec BIG N cost rowsol colsol v hN hB0 hH
  have hinj1 : ∀ i j j' : Nat, j < N → j' < N → s1.colsol j = (i : Int) →
      s1.colsol j' = (i : Int) → j = j' := by
    intro i j j' hj hj' e e'
    have a := hc1.row_back i j (Nat.zero_le _) hj e
    have b := hc1.row_back i j' (Nat.zero_le _) hj' e'
    omega
  have hfree1 : ∀ i, i < N → (s1.matchCnt i = 0 ↔ ∀ j, j < N → s1.colsol j ≠ (i : Int)) := by
    intro i hi
    constructor
    · intro hz j hj
      exact hc1.cnt_zero i hi hz j (Nat.zero_le _) hj
    · intro hfree
      by_contra hnz
      obtain ⟨j, _, hj, _, hc⟩ := hc1.cnt_pos i hi hnz
      exact hfree j hj hc
  refine ⟨⟨?_, hinj1, hfree1, ?_⟩, ?_, p1, p2, M,
    fun fuel hf => ⟨(hrun fuel hf).1, (hrun fuel hf).2.1⟩, ?_, ?_, ?_⟩
  · intro i j hj e
    exact hc1.row_back i j (Nat.zero_le _) hj e
  · apply card_free_eq N s1.colsol (fun j hj => hc1.col_range j (Nat.zero_le _) hj) hinj1
    intro i
    rw [Finset.mem_filter, Finset.mem_range]
    constructor
    · rintro ⟨hi, hz⟩
      exact ⟨hi, (hfree1 i hi).mp hz⟩
    · rintro ⟨hi, hfree⟩
      exact ⟨hi, (hfree1 i hi).mpr hfree⟩
  · exact checkpoint_of N cost s2 0 hp2 (hf2.congr (by intro p; simp))
  · exact checkpoint_of N cost p1.1 0 hp1 (hf1.congr (by intro p; simp))
  · exact checkpoint_of N cost p2.1 0 hp3 (hf3.congr (by intro p; simp))
  · intro f hf
    obtain ⟨s, hs, hps, hfs, _⟩ := augmentPrefix_spec N cost f 0 p2.1 hp3
      (hf3.congr (by intro p; simp)) (by omega)
    exact ⟨s, hs, checkpoint_of N cost s f hps (hfs.congr (by intro p; omega))⟩

/-- The checkpoints of the run in which `j2` holds `0` at entry. -/
theorem checkpoints_run (BIG : Int) (N : Nat) (cost : Nat → Nat → Int)
    (rowsol colsol v : Nat → Int) (hN : 1 ≤ N) (hH : BelowBig BIG N cost rowsol colsol v) :
    (let s1 := columnReduction N cost
      { rowsol := rowsol, colsol := colsol, v := v, free_ := fun _ => 0, numfree := 0,
        matchCnt := forUp (fun i m => upd m i 0) N 0 (fun _ => 0) }
    let s2 := reductionTransfer BIG N cost s1
    ((∀ i j : Nat, j < N → s1.colsol j = (i : Int) → s1.rowsol i = (j : Int)) ∧
      (∀ i j j' : Nat, j < N → j' < N → s1.colsol j = (i : Int) → s1.colsol j' = (i : Int) →
        j = j') ∧
      (∀ i, i < N → (s1.matchCnt i = 0 ↔ ∀ j, j < N → s1.colsol j ≠ (i : Int))) ∧
      ((Finset.range N).filter (fun i => s1.matchCnt i = 0)).card =
        ((Finset.range N).filter (fun j => s1.colsol j = -1)).card) ∧
    Checkpoint N s2 0 ∧
    ∃ (p1 p2 : Lap × Nat) (M : Nat),
      (∀ fuel, M ≤ fuel →
        arrPass BIG N cost fuel s2 0 = some p1 ∧ arrPass BIG N cost fuel p1.1 p1.2 = some p2) ∧
      Checkpoint N p1.1 0 ∧ Checkpoint N p2.1 0 ∧
      ∀ f, f ≤ p2.1.numfree →
        ∃ s : Lap, (∀ fuel, N ≤ fuel →
            forUp (augmentStep N cost fuel) f 0 (some p2.1) = some s) ∧
          Checkpoint N s f) := by
  by_cases h2 : 2 ≤ N
  · exact checkpoints_core BIG N cost rowsol colsol v hN (hH.big_nonneg h2) hH
  · have h1 : N = 1 := by omega
    subst h1
    intro s1 s2
    obtain ⟨t1, t2, t3⟩ := transfer_one BIG cost rowsol colsol v
    have hc := (checkpoints_core 0 1 cost rowsol colsol v hN (le_refl _)
      (belowBig_one 0 cost rowsol colsol v)).1
    refine ⟨hc, checkpoint_one s2 t2 t3 t1, (_, 0), (_, 0), 0,
      fun fuel _ => ⟨arrPass_idle BIG 1 cost fuel s2 0 t1,
        arrPass_idle BIG 1 cost fuel _ 0 rfl⟩,
      checkpoint_one _ t2 t3 rfl, checkpoint_one _ t2 t3 rfl, ?_⟩
    intro f hf
    have hf0 : f = 0 := Nat.le_zero.mp hf
    subst hf0
    exact ⟨_, fun fuel _ => rfl, checkpoint_one _ t2 t3 rfl⟩

/-- C20 as amended, for `N >= 1` and a run in which every reduced cost computed in the
reduction transfer and in the row scans of the augmenting row reduction is below `BIG`,
whatever the local `j2` holds at entry (`g`): an assigned column points to a row that points
back (so `colsol` is one-to-one on the assigned columns) at the end of the column reduction,
where the rows without a column are the rows with `matches = 0`, as many as the unassigned
columns; and at the end of the reduction transfer, of each of the two passes of the
augmenting row reduction (states `p1`, `p2`) and of each augmentation, the rows listed in
`free_[0..numfree)` (in `free_[f..numfree)` after `f` augmentations) are moreover pairwise
distinct, are exactly the rows without a column, and are as many as the unassigned
columns. -/
theorem partial_matching_checkpoints (BIG : Int) (N : Nat) (cost : Nat → Nat → Int)
    (rowsol colsol v : Nat → Int) (hN : 1 ≤ N) (hH : BelowBig BIG N cost rowsol colsol v) :
    (let s1 := columnReduction N cost
      { rowsol := rowsol, colsol := colsol, v := v, free_ := fun _ => 0, numfree := 0,
        matchCnt := forUp (fun i m => upd m i 0) N 0 (fun _ => 0) }
    let s2 := reductionTransfer BIG N cost s1
    ((∀ i j : Nat, j < N → s1.colsol j = (i : Int) → s1.rowsol i = (j : Int)) ∧
      (∀ i j j' : Nat, j < N → j' < N → s1.colsol j = (i : Int) → s1.colsol j' = (i : Int) →
        j = j') ∧
      (∀ i, i < N → (s1.matchCnt i = 0 ↔ ∀ j, j < N → s1.colsol j ≠ (i : Int))) ∧
      ((Finset.range N).filter (fun i => s1.matchCnt i = 0)).card =
        ((Finset.range N).filter (fun j => s1.colsol j = -1)).card) ∧
    Checkpoint N s2 0 ∧
    ∃ (p1 p2 : Lap) (M : Nat),
      (∀ fuel, M ≤ fuel → ∀ g : Nat, ∃ ja jb : Nat,
        arrPass BIG N cost fuel s2 g = some (p1, ja) ∧
        arrPass BIG N cost fuel p1 ja = some (p2, jb)) ∧
      Checkpoint N p1 0 ∧ Checkpoint N p2 0 ∧
      ∀ f, f ≤ p2.numfree →
        ∃ s : Lap, (∀ fuel, N ≤ fuel →
            forUp (augmentStep N cost fuel) f 0 (some p2) = some s) ∧
          Checkpoint N s f) := by
  intro s1 s2
  obtain ⟨hc1, hc2, p1, p2, M, hpass, hp1, hp2, haug⟩ :=
    checkpoints_run BIG N cost rowsol colsol v hN hH
  refine ⟨hc1, hc2, p1.1, p2.1, M, ?_, hp1, hp2, haug⟩
  intro fuel hf g
  exact arrPasses_j2 BIG N cost fuel s2 (hH.first_scan hN) p1 p2 (hpass fuel hf).1
    (hpass fuel hf).2 g

/-- Instance of C20 as amended: the cost matrix `[[2,1,0],[2,1,0],[0,0,0]]` with
`BIG = 100000`; a row is free after the reduction transfer and after the augmenting row
reduction, and one augmentation runs. -/
theorem partial_matching_checkpoints_witness :
    (transferState 100000 3 (getCost [[2, 1, 0], [2, 1, 0], [0, 0, 0]]) (fun _ => 0)
      (fun _ => 0) (fun _ => 0) 3).numfree = 1 ∧
    Checkpoint 3 (reductionTransfer 100000 3 (getCost [[2, 1, 0], [2, 1, 0], [0, 0, 0]])
      (columnReduction 3 (getCost [[2, 1, 0], [2, 1, 0], [0, 0, 0]])
        { rowsol := fun _ => 0, colsol := fun _ => 0, v := fun _ => 0, free_ := fun _ => 0,
          numfree := 0, matchCnt := forUp (fun i m => upd m i 0) 3 0 (fun _ => 0) })) 0 :=
  ⟨by decide,
   (partial_matching_checkpoints 100000 3 (getCost [[2, 1, 0], [2, 1, 0], [0, 0, 0]])
    (fun _ => 0) (fun _ => 0) (fun _ => 0) (by decide)
    (belowBig_of_bigEnough 100000 3 _ _ _ _ (by decide) cost3_bigEnough)).2.1⟩

end RLAPSolverJV

/-! ### Index safety: the run with checked subscripts -/

theorem forUpC_eq {σ : Type} (bodyC : Nat → σ → Option σ) (body : Nat → σ → σ)
    (P : Nat → σ → Prop) (hi : Nat)
    (hstep : ∀ i s, i < hi → P i s → bodyC i s = some (body i s) ∧ P (i + 1) (body i s)) :
    ∀ (n start : Nat) (s : σ), start + n ≤ hi → P start s →
      forUpC bodyC n start s = some (forUp body n start s) ∧
      P (start + n) (forUp body n start s) := by
  intro n
  induction n with
  | zero => intro start s _ h0; exact ⟨rfl, h0⟩
  | succ n ih =>
    intro start s hle h0
    obtain ⟨h1, h2⟩ := hstep start s (by omega) h0
    obtain ⟨h3, h4⟩ := ih (start + 1) (body start s) (by omega) h2
    refine ⟨?_, ?_⟩
    · simp only [forUpC, forUp, h1, Option.some_bind]
      exact h3
    · simp only [forUp]
      have e : start + (n + 1) = start + 1 + n := by omega
      rw [e]
      exact h4

theorem forDownC_eq {σ : Type} (bodyC : Nat → σ → Option σ) (body : Nat → σ → σ)
    (P : Nat → σ → Prop) (hi : Nat)
    (hstep : ∀ j s, j < hi → P (j + 1) s → bodyC j s = some (body j s) ∧ P j (body j s)) :
    ∀ (n : Nat) (s : σ), n ≤ hi → P n s →
      forDownC bodyC n s = some (forDown body n s) ∧ P 0 (forDown body n s) := by
  intro n
  induction n with
  | zero => intro s _ h0; exact ⟨rfl, h0⟩
  | succ n ih =>
    intro s hle h0
    obtain ⟨h1, h2⟩ := hstep n s (by omega) h0
    obtain ⟨h3, h4⟩ := ih (body n s) (by omega) h2
    refine ⟨?_, ?_⟩
    · simp only [forDownC, forDown, h1, Option.some_bind]
      exact h3
    · simp only [forDown]
      exact h4

namespace RLAPSolverJV

theorem inRange_ofNat (dim j : Nat) (h : j < dim) : inRange dim (j : Int) = true := by
  simp only [inRange, Bool.and_eq_true, decide_eq_true_eq]
  omega

/-- Column reduction: the checked step takes the step. -/
theorem columnReductionStepC_eq (N : Nat) (cost : Nat → Nat → Int) (j : Nat) (s : Lap)
    (hN : 1 ≤ N) (hj : j < N) (h : ColRedInv N cost (j + 1) s) :
    columnReductionStepC N cost j s = some (columnReductionStep N cost j s) := by
  have himin := (colMin_spec N cost j hN).1
  have hg : (decide (s.matchCnt (colMin N cost j).2 + 1 = 1) ||
      inRange N (s.rowsol (colMin N cost j).2)) = true := by
    by_cases e : s.matchCnt (colMin N cost j).2 = 0
    · simp [e]
    · obtain ⟨j', _, hj', hr, _⟩ := h.cnt_pos _ himin e
      rw [hr, inRange_ofNat N j' hj']
      simp
  unfold columnReductionStepC
  simp only
  rw [if_pos]
  simp only [Bool.and_eq_true, decide_eq_true_eq]
  exact ⟨⟨⟨by omega, hj⟩, himin⟩, hg⟩

/-- Column reduction: the checked loop runs through. -/
theorem columnReductionC_eq (N : Nat) (cost : Nat → Nat → Int) (rowsol colsol v : Nat → Int)
    (hN : 1 ≤ N) :
    forDownC (columnReductionStepC N cost) N
      { rowsol := rowsol, colsol := colsol, v := v, free_ := fun _ => 0, numfree := 0,
        matchCnt := forUp (fun i m => upd m i 0) N 0 (fun _ => 0) } =
    some (columnReduction N cost
      { rowsol := rowsol, colsol := colsol, v := v, free_ := fun _ => 0, numfree := 0,
        matchCnt := forUp (fun i m => upd m i 0) N 0 (fun _ => 0) }) :=
  (forDownC_eq (columnReductionStepC N cost) (columnReductionStep N cost)
    (fun j s => ColRedInv N cost j s) N
    (fun j s hj h => ⟨columnReductionStepC_eq N cost j s hN hj h,
      colRedInv_step N cost j s hN hj h⟩)
    N _ (le_refl _) (colRedInv_init N cost rowsol colsol v)).1

/-- Reduction transfer: the free rows listed so far are fewer than the rows processed. -/
theorem TransferInv.numfree_le {N : Nat} {cost : Nat → Nat → Int} {i0 : Nat} {s : Lap}
    (h : TransferInv N cost i0 s) : s.numfree ≤ i0 := by
  have hmono : ∀ p, p < s.numfree → p ≤ s.free_ p := by
    intro p
    induction p with
    | zero => intro _; omega
    | succ p ih =>
      intro hp
      have := ih (by omega)
      have := h.free_mono p (p + 1) (by omega) hp
      omega
  by_contra hlt
  have h1 := hmono (s.numfree - 1) (by omega)
  have h2 := (h.free_lt (s.numfree - 1) (by omega)).1
  omega

/-- Reduction transfer: the checked step takes the step. -/
theorem reductionTransferStepC_eq (BIG : Int) (N : Nat) (cost : Nat → Nat → Int) (i : Nat)
    (s : Lap) (hi : i < N) (h : TransferInv N cost i s) :
    reductionTransferStepC BIG N cost i s = some (reductionTransferStep BIG N cost i s) := by
  have hnf := h.numfree_le
  unfold reductionTransferStepC
  rw [if_pos]
  simp only [Bool.and_eq_true, decide_eq_true_eq]
  refine ⟨hi, ?_⟩
  by_cases e : s.matchCnt i = 0
  · rw [if_pos e]
    simp only [decide_eq_true_eq]
    omega
  · rw [if_neg e]
    obtain ⟨j', hj', hr, _⟩ := h.cnt_pos i hi e
    rw [hr, inRange_ofNat N j' hj']
    simp

/-- Reduction transfer: the checked loop runs through. -/
theorem reductionTransferC_eq (BIG : Int) (N : Nat) (cost : Nat → Nat → Int)
    (rowsol colsol v : Nat → Int) (hN : 1 ≤ N) (hB : 0 ≤ BIG) :
    forUpC (reductionTransferStepC BIG N cost) N 0 (columnReduction N cost
      { rowsol := rowsol, colsol := colsol, v := v, free_ := fun _ => 0, numfree := 0,
        matchCnt := forUp (fun i m => upd m i 0) N 0 (fun _ => 0) }) =
    some (reductionTransfer BIG N cost (columnReduction N cost
      { rowsol := rowsol, colsol := colsol, v := v, free_ := fun _ => 0, numfree := 0,
        matchCnt := forUp (fun i m => upd m i 0) N 0 (fun _ => 0) })) :=
  (forUpC_eq (reductionTransferStepC BIG N cost) (reductionTransferStep BIG N cost)
    (fun i s => TransferInv N cost i s) N
    (fun i s hi h => ⟨reductionTransferStepC_eq BIG N cost i s hi h,
      transferInv_step BIG N cost i s hB hi h⟩)
    N 0 _ (by omega)
    (transferInv_init N cost _ (columnReduction_spec N cost rowsol colsol v hN))).1

/-- The scan with the ghost flag computes the scan. -/
theorem scanLoopG_fst (cost : Nat → Nat → Int) (v : Nat → Int) (i : Nat) :
    ∀ (n start : Nat) (g : Scan × Bool),
      (forUp (scanStepG cost v i) n start g).1 = forUp (scanStep cost v i) n start g.1 := by
  intro n
  induction n with
  | zero => intro start g; rfl
  | succ n ih =>
    intro start g
    simp only [forUp]
    rw [ih]
    congr 1
    unfold scanStepG scanStep
    simp only
    split_ifs <;> rfl

theorem scanRowG_fst (BIG : Int) (N : Nat) (cost : Nat → Nat → Int) (v : Nat → Int)
    (i j2 : Nat) : (scanRowG BIG N cost v i j2).1 = scanRow BIG N cost v i j2 :=
  scanLoopG_fst cost v i (N - 1) 1 _

/-- After the scan of a row, `usubmin` is still `BIG` or `j2` has been assigned. -/
theorem scanRowG_flag (BIG : Int) (N : Nat) (cost : Nat → Nat → Int) (v : Nat → Int)
    (i j2 : Nat) :
    (scanRowG BIG N cost v i j2).1.usubmin = BIG ∨ (scanRowG BIG N cost v i j2).2 = true := by
  have := forUp_induction (scanStepG cost v i)
    (fun _ (g : Scan × Bool) => g.1.usubmin = BIG ∨ g.2 = true) (N - 1) 1
    ({ umin := cost i 0 - v 0, usubmin := BIG, j1 := 0, j2 := j2 }, false) (Or.inl rfl)
    (by
      intro k g _ _ hg
      unfold scanStepG
      simp only
      split_ifs
      · exact Or.inr rfl
      · exact Or.inr rfl
      · exact hg)
  exact this

/-- A list of distinct free rows has at most `N` entries. -/
theorem FreeList.length_le {N : Nat} {cost : Nat → Nat → Int} {s : Lap}
    (hp : PInv N cost s.rowsol s.colsol s.v)
    (hf : FreeList N s.colsol s.free_ (fun p => p < s.numfree)) : s.numfree ≤ N := by
  have hc := (checkpoint_of N cost s 0 hp (hf.congr (by intro p; simp))).count
  have h1 := Finset.card_filter_le (Finset.range N) (fun j => s.colsol j = -1)
  rw [Finset.card_range] at h1
  omega

/-- Augmenting row reduction: the checked step takes the step. -/
theorem arrStepC_eq (BIG : Int) (N : Nat) (cost : Nat → Nat → Int) (prv : Nat) (a : Arr)
    (hN : 1 ≤ N) (hbig : ScanBelow BIG N cost a) (h : ArrInv N cost prv a) (hk : a.k < prv)
    (hprv : prv ≤ N) :
    arrStepC BIG N cost a = some (arrStep BIG N cost a) := by
  have hposk : (fun p => p < a.lap.numfree ∨ (a.k ≤ p ∧ p < prv)) a.k := Or.inr ⟨le_refl _, hk⟩
  obtain ⟨hiN, hifree⟩ := h.freeList.free a.k hposk
  have hsc := scanRow_spec BIG N cost a.lap.v (a.lap.free_ a.k) a.j2 hN
    (le_of_lt (hbig 0 (by omega)))
  have hflag := scanRowG_flag BIG N cost a.lap.v (a.lap.free_ a.k) a.j2
  have hfst := scanRowG_fst BIG N cost a.lap.v (a.lap.free_ a.k) a.j2
  have hnf := h.nf_le
  unfold arrStepC
  simp only
  rw [hfst] at hflag ⊢
  generalize scanRow BIG N cost a.lap.v (a.lap.free_ a.k) a.j2 = c at hsc hflag ⊢
  generalize (scanRowG BIG N cost a.lap.v (a.lap.free_ a.k) a.j2).2 = w at hflag ⊢
  obtain ⟨hj1, humin, hmin, hsub, hle, hj2⟩ := hsc
  have h0 := hmin 0 (by omega)
  have hb0 := hbig 0 (by omega)
  have htie : ¬ c.umin < c.usubmin → w = true ∧ c.j2 < N := by
    intro hs
    have hne : c.usubmin ≠ BIG := by omega
    rcases hflag with e | e
    · exact absurd e hne
    · rcases hj2 with e' | ⟨e', _⟩
      · exact absurd e' hne
      · exact ⟨e, e'⟩
  rw [if_pos]
  simp only [Bool.and_eq_true, decide_eq_true_eq]
  refine ⟨⟨⟨⟨⟨⟨by omega, hiN⟩, by omega⟩, hj1⟩, ?_⟩, ?_⟩, ?_⟩
  · by_cases hs : c.umin < c.usubmin
    · simp [hs]
    · obtain ⟨e1, e2⟩ := htie hs
      simp [hs, e1, e2]
  · by_cases hs : c.umin < c.usubmin
    · simp [hs, hj1]
    · obtain ⟨e1, e2⟩ := htie hs
      by_cases hi0 : a.lap.colsol c.j1 > -1
      · simp [hs, hi0, e2]
      · simp [hs, hi0, hj1]
  · have e1 : decide (0 < a.k + 1) = true := by simp
    have e2 : decide (a.k + 1 - 1 < N) = true := by
      simp only [Nat.add_sub_cancel, decide_eq_true_eq]; omega
    have e3 : decide (a.lap.numfree < a.k + 1) = true := by
      simp only [decide_eq_true_eq]; omega
    have e4 : decide (a.lap.numfree < N) = true := by
      simp only [decide_eq_true_eq]; omega
    rw [e1, e2, e3, e4]
    simp

/-- Augmenting row reduction: the checked loop is the loop. -/
theorem arrLoopC_eq (BIG : Int) (N : Nat) (cost : Nat → Nat → Int) (prv : Nat)
    (hN : 1 ≤ N) (hprv : prv ≤ N) :
    ∀ (fuel : Nat) (a : Arr), ArrInv N cost prv a →
      (∀ a', ArrReach BIG N cost prv a a' → a'.k < prv → ScanBelow BIG N cost a') →
      arrLoopC BIG N cost prv fuel a = arrLoop BIG N cost prv fuel a := by
  intro fuel
  induction fuel with
  | zero => intro a _ _; rfl
  | succ fuel ih =>
    intro a h hbelow
    simp only [arrLoopC, arrLoop]
    by_cases hk : a.k < prv
    · have hbig := hbelow a ArrReach.start hk
      rw [if_pos hk, if_pos hk, arrStepC_eq BIG N cost prv a hN hbig h hk hprv]
      simp only [Option.some_bind]
      exact ih _ (arrStep_spec BIG N cost prv a hN hbig h hk).1
        (fun a' hr hk' => hbelow a' (ArrReach.head hk hr) hk')
    · rw [if_neg hk, if_neg hk]

/-- One pass of the augmenting row reduction: the checked pass is the pass. -/
theorem arrPassC_eq (BIG : Int) (N : Nat) (cost : Nat → Nat → Int)
    (hN : 1 ≤ N) (s : Lap) (j2 : Nat) (hH : PassBelow BIG N cost s j2)
    (hp : PInv N cost s.rowsol s.colsol s.v) (hu : UnassignedPrice N cost s.colsol s.v)
    (hf : FreeList N s.colsol s.free_ (fun p => p < s.numfree)) (fuel : Nat) :
    arrPassC BIG N cost fuel s j2 = arrPass BIG N cost fuel s j2 := by
  unfold arrPassC arrPass
  rw [arrLoopC_eq BIG N cost s.numfree hN (FreeList.length_le hp hf) fuel _
    ⟨hp, hu, hf.congr (by intro p; simp), Nat.zero_le _, Nat.zero_le _⟩ hH]

/-- The augmenting row reduction after column reduction and reduction transfer: the checked
run is the run. -/
theorem augmentingRowReductionC_eq (BIG : Int) (N : Nat) (cost : Nat → Nat → Int)
    (hN : 1 ≤ N) (s : Lap) (hH : ArrBelow BIG N cost s)
    (hp : PInv N cost s.rowsol s.colsol s.v) (hu : UnassignedPrice N cost s.colsol s.v)
    (hf : FreeList N s.colsol s.free_ (fun p => p < s.numfree)) (fuel : Nat) :
    augmentingRowReductionC BIG N cost fuel s = augmentingRowReduction BIG N cost fuel s := by
  unfold augmentingRowReductionC augmentingRowReduction
  rw [arrPassC_eq BIG N cost hN s 0 hH.1 hp hu hf fuel]
  cases h1 : arrPass BIG N cost fuel s 0 with
  | none => rfl
  | some p =>
    simp only [Option.some_bind]
    obtain ⟨s', j2', M, hrun, hp', hu', hf', _⟩ := arrPass_spec BIG N cost hN s 0 hH.1 hp hu hf
    have hmono : ∀ n, arrPass BIG N cost (fuel + n) s 0 = some p := by
      intro n
      induction n with
      | zero => exact h1
      | succ n ih => exact arrPass_mono BIG N cost (fuel + n) s 0 p ih
    have e : (s', j2') = p := by
      have a1 := hrun (fuel + M) (by omega)
      rw [hmono M] at a1
      exact (Option.some.inj a1).symm
    subst e
    rw [arrPassC_eq BIG N cost hN s' j2' (hH.2 fuel (s', j2') h1) hp' hu' hf' fuel]

/-- Search for a new minimum: the checked step takes the step. -/
theorem minScanStepC_eq (N : Nat) (t0 : Search) (k : Nat) (t : Search) (hk : k < N)
    (h : MInv N t0 k t) : minScanStepC N k t = some (minScanStep k t) := by
  have h1 := h.low_eq
  have h2 := h.low_lt
  have h3 := h.up_le
  have h4 := h.perm.lt k hk
  unfold minScanStepC
  simp only
  rw [if_pos]
  simp only [Bool.and_eq_true, decide_eq_true_eq, Bool.or_eq_true, Bool.not_eq_true']
  refine ⟨⟨hk, h4⟩, Or.inr ?_⟩
  split_ifs <;> omega

/-- The check for an unassigned column among the listed ones: the checked loop is the loop. -/
theorem findUnassignedC_eq (N : Nat) (colsol : Nat → Int) (collist : Nat → Nat) :
    ∀ (n k : Nat), (∀ p, k ≤ p → p < k + n → p < N ∧ collist p < N) →
      findUnassignedC N colsol collist n k = some (findUnassigned colsol collist n k) := by
  intro n
  induction n with
  | zero => intro k _; rfl
  | succ n ih =>
    intro k h
    obtain ⟨a, b⟩ := h k (le_refl _) (by omega)
    simp only [findUnassignedC, findUnassigned]
    rw [if_pos (by simp only [Bool.and_eq_true, decide_eq_true_eq]; exact ⟨a, b⟩)]
    split_ifs
    · rfl
    · exact ih (k + 1) (fun p hp1 hp2 => h p (by omega) (by omega))

/-- The branch `up == low`: the checked scan is the scan, and it assigns `last` and `min_`,
and `endofpath` when it finds an unassigned column. -/
theorem minScanC_eq (N : Nat) (cost : Nat → Nat → Int) (colsol v : Nat → Int) (fr : Nat)
    (t : Search) (w : Written) (hs : SInv N cost v colsol fr N t)
    (heq : t.up = t.low) (hlt : t.up < N) :
    ∃ w', minScanC N colsol t w = some (minScan N colsol t, w') ∧ w'.last = true ∧
      w'.min_ = true ∧ ((minScan N colsol t).unassignedfound = true → w'.endofpath = true) := by
  have hinit : MInv N t (t.up + 1)
      { t with last := (t.low : Int) - 1, min_ := t.d (t.collist t.up), up := t.up + 1 } := by
    constructor
    · exact hs.core.perm
    · rfl
    · simp only; omega
    · exact le_refl _
    · omega
    · rfl
    · rfl
    · rfl
    · rfl
    · intro p _; rfl
    · intro p hp1 hp2; exact ⟨p, hp1, hp2, rfl⟩
    · intro p hp1 hp2
      simp only at hp2 ⊢
      have : p = t.up := by omega
      subst this; rfl
    · intro p hp1 hp2
      simp only at hp1
      omega
  obtain ⟨hrun, hloop⟩ := forUpC_eq (minScanStepC N) minScanStep (fun k s => MInv N t k s) N
    (fun k s hk h => ⟨minScanStepC_eq N t k s hk h, minScanStep_spec N t k s hk h⟩)
    (N - (t.up + 1)) (t.up + 1) _ (by omega) hinit
  have hN : t.up + 1 + (N - (t.up + 1)) = N := by omega
  rw [hN] at hloop
  unfold minScanC minScan
  simp only
  rw [if_pos (by
    simp only [Bool.and_eq_true, decide_eq_true_eq]
    exact ⟨hlt, hs.core.perm.lt _ hlt⟩)]
  rw [hrun]
  simp only [Option.some_bind]
  generalize forUp minScanStep (N - (t.up + 1)) (t.up + 1)
    { t with last := (t.low : Int) - 1, min_ := t.d (t.collist t.up), up := t.up + 1 } = t2
    at hloop ⊢
  have hfu := findUnassignedC_eq N colsol t2.collist (t2.up - t2.low) t2.low (by
    intro p hp1 hp2
    have h1 := hloop.up_le
    have h2 := hloop.low_lt
    have h3 := hloop.low_eq
    have hpN : p < N := by omega
    exact ⟨hpN, hloop.perm.lt p hpN⟩)
  rw [hfu]
  simp only [Option.map_some']
  cases findUnassigned colsol t2.collist (t2.up - t2.low) t2.low with
  | some j => exact ⟨_, rfl, rfl, rfl, fun _ => rfl⟩
  | none =>
    refine ⟨_, rfl, rfl, rfl, ?_⟩
    intro hf
    simp only at hf
    rw [hloop.found_eq, hs.not_found] at hf
    exact absurd hf (by decide)

/-- The relaxation loop: the checked loop is the loop; it assigns `endofpath` where it sets
`unassignedfound`. -/
theorem relaxC_eq (N : Nat) (cost : Nat → Nat → Int) (v colsol : Nat → Int) (i : Nat) (h : Int)
    (hi : i < N) :
    ∀ (n k : Nat) (t : Search) (w : Written), IsPerm N t.collist → t.up ≤ k → k + n = N →
      (t.unassignedfound = true → w.endofpath = true) →
      ∃ w', relaxC N cost v colsol i h n k t w = some (relax cost v colsol i h n k t, w') ∧
        w'.last = w.last ∧ w'.min_ = w.min_ ∧
        ((relax cost v colsol i h n k t).unassignedfound = true → w'.endofpath = true) := by
  intro n
  induction n with
  | zero => intro k t w _ _ _ hw; exact ⟨w, rfl, rfl, rfl, hw⟩
  | succ n ih =>
    intro k t w hperm hup hkn hw
    have hkN : k < N := by omega
    have hg : (decide (k < N) && decide (t.collist k < N) && decide (i < N)) = true := by
      simp only [Bool.and_eq_true, decide_eq_true_eq]
      exact ⟨⟨hkN, hperm.lt k hkN⟩, hi⟩
    simp only [relaxC, relax]
    rw [if_pos hg]
    by_cases h1 : cost i (t.collist k) - v (t.collist k) - h < t.d (t.collist k)
    · rw [if_pos h1, if_pos h1]
      by_cases h2 : cost i (t.collist k) - v (t.collist k) - h = t.min_
      · rw [if_pos h2, if_pos h2]
        by_cases h3 : colsol (t.collist k) < 0
        · rw [if_pos h3, if_pos h3]
          exact ⟨_, rfl, rfl, rfl, fun _ => rfl⟩
        · rw [if_neg h3, if_neg h3, if_pos (show t.up < N by omega)]
          exact ih (k + 1) _ w (hperm.swap t.up k (by omega) hkN) (by simp only; omega)
            (by omega) hw
      · rw [if_neg h2, if_neg h2]
        exact ih (k + 1) _ w hperm (by simp only; omega) (by omega) hw
    · rw [if_neg h1, if_neg h1]
      exact ih (k + 1) t w hperm (by omega) (by omega) hw

/-- The branch that scans a column: the checked branch is the branch. -/
theorem scanColumnC_eq (N : Nat) (cost : Nat → Nat → Int) (colsol v : Nat → Int) (fr : Nat)
    (t : Search) (w : Written) (hs : SInv N cost v colsol fr N t) (hlt : t.low < t.up)
    (hw : w.min_ = true) :
    ∃ w', scanColumnC N cost v colsol t w = some (scanColumn N cost v colsol t, w') ∧
      w'.last = w.last ∧ w'.min_ = w.min_ ∧
      ((scanColumn N cost v colsol t).unassignedfound = true → w'.endofpath = true) := by
  have hc := hs.core
  have hupN := hc.up_le
  obtain ⟨i1, hi1, hcol⟩ := hs.todo t.low (le_refl _) hlt
  have htn : (colsol (t.collist t.low)).toNat = i1 := by omega
  unfold scanColumnC scanColumn
  simp only
  rw [if_pos (by
    simp only [Bool.and_eq_true, decide_eq_true_eq]
    refine ⟨⟨⟨by omega, hc.perm.lt _ (by omega)⟩, ?_⟩, hw⟩
    rw [hcol]
    exact inRange_ofNat N i1 hi1)]
  exact relaxC_eq N cost v colsol _ _ (by omega) (N - t.up) t.up { t with low := t.low + 1 } w
    hc.perm (le_refl _) (by omega)
    (by intro hf; simp only at hf; rw [hs.not_found] at hf; exact absurd hf (by decide))

/-- One trip of the search loop: the checked trip is the trip, after which `last` and
`min_` have been assigned, and `endofpath` too if the trip ends the search. -/
theorem searchStepC_eq (N : Nat) (cost : Nat → Nat → Int) (rowsol colsol v : Nat → Int)
    (fr : Nat) (hp : PInv N cost rowsol colsol v) (hfr : fr < N) (hfree : RowFree N colsol fr)
    (t : Search) (w : Written) (hs : SInv N cost v colsol fr N t)
    (hw : t.up ≠ t.low → w.last = true ∧ w.min_ = true) :
    ∃ w', searchStepC N cost v colsol (t, w) = some (searchStep N cost v colsol t, w') ∧
      w'.last = true ∧ w'.min_ = true ∧
      ((searchStep N cost v colsol t).unassignedfound = true → w'.endofpath = true) := by
  have hlowN := hs.low_lt hp hfr hfree
  have hle := hs.core.low_le
  unfold searchStepC searchStep
  simp only
  by_cases he : t.up = t.low
  · rw [if_pos he, if_pos he]
    obtain ⟨w1, hrun1, hl1, hm1, he1⟩ := minScanC_eq N cost colsol v fr t w hs he (by omega)
    rw [hrun1]
    simp only [Option.some_bind]
    rcases minScan_spec N cost rowsol colsol v fr t hp hs he (by omega) with
      ⟨hf, _⟩ | ⟨hf, hs', _, hlt⟩
    · simp only [hf, Bool.not_true, Bool.false_eq_true, if_false]
      exact ⟨w1, rfl, hl1, hm1, fun _ => he1 hf⟩
    · simp only [hf, Bool.not_false, if_true]
      obtain ⟨w2, hrun2, hl2, hm2, he2⟩ := scanColumnC_eq N cost colsol v fr _ w1 hs' hlt hm1
      exact ⟨w2, hrun2, by rw [hl2]; exact hl1, by rw [hm2]; exact hm1, he2⟩
  · rw [if_neg he, if_neg he]
    simp only [Option.some_bind, hs.not_found, Bool.not_false, if_true]
    obtain ⟨hl, hm⟩ := hw he
    obtain ⟨w2, hrun2, hl2, hm2, he2⟩ := scanColumnC_eq N cost colsol v fr t w hs (by omega) hm
    exact ⟨w2, hrun2, by rw [hl2]; exact hl, by rw [hm2]; exact hm, he2⟩

/-- The search loop: the checked loop is the loop, and when it returns an unassigned column
has been reached and `last`, `min_` and `endofpath` have been assigned. -/
theorem searchLoopC_eq (N : Nat) (cost : Nat → Nat → Int) (rowsol colsol v : Nat → Int)
    (fr : Nat) (hp : PInv N cost rowsol colsol v) (hfr : fr < N) (hfree : RowFree N colsol fr) :
    ∀ (fuel : Nat) (t : Search) (w : Written), SInv N cost v colsol fr N t →
      (t.up ≠ t.low → w.last = true ∧ w.min_ = true) →
      (searchLoopC N cost v colsol fuel (t, w)).map Prod.fst = searchLoop N cost v colsol fuel t ∧
      ∀ p, searchLoopC N cost v colsol fuel (t, w) = some p →
        SPost N cost v colsol fr p.1 ∧ p.2.last = true ∧ p.2.min_ = true ∧
        p.2.endofpath = true := by
  intro fuel
  induction fuel with
  | zero =>
    intro t w _ _
    refine ⟨rfl, ?_⟩
    intro p hp'
    simp [searchLoopC] at hp'
  | succ fuel ih =>
    intro t w hs hw
    obtain ⟨w1, hrun, hl, hm, he⟩ := searchStepC_eq N cost rowsol colsol v fr hp hfr hfree t w hs hw
    simp only [searchLoopC, searchLoop]
    rw [hrun]
    simp only [Option.some_bind]
    rcases searchStep_spec N cost rowsol colsol v fr hp hfr hfree t hs with
      ⟨hf, hpost⟩ | ⟨hf, hs', _⟩
    · simp only [hf, Bool.not_true, Bool.false_eq_true, if_false]
      refine ⟨rfl, ?_⟩
      intro p hp'
      have e := Option.some.inj hp'
      subst e
      exact ⟨hpost, hl, hm, he hf⟩
    · simp only [hf, Bool.not_false, if_true]
      exact ih _ w1 hs' (fun _ => ⟨hl, hm⟩)

/-- The price update: the checked loop is the loop. -/
theorem priceUpdateC_eq (N : Nat) (cost : Nat → Nat → Int) (v colsol : Nat → Int) (fr : Nat)
    (t : Search) (w : Written) (vv : Nat → Int) (h : SPost N cost v colsol fr t)
    (hl : w.last = true) (hm : w.min_ = true) :
    priceUpdateC N t w vv = some (priceUpdate t vv) := by
  obtain ⟨h1, h2, _⟩ := h.last_ok
  have h3 := h.low_le
  unfold priceUpdateC priceUpdate
  rw [if_pos (by
    simp only [Bool.and_eq_true, decide_eq_true_eq]
    exact ⟨⟨hl, hm⟩, h1⟩)]
  exact (forDownC_eq _ _ (fun _ _ => True) (t.last + 1).toNat
    (fun j s hj _ => ⟨by
      have hjN : j < N := by omega
      rw [if_pos (by
        simp only [Bool.and_eq_true, decide_eq_true_eq]
        exact ⟨hjN, h.perm.lt j hjN⟩)], trivial⟩)
    (t.last + 1).toNat vv (le_refl _) trivial).1

/-- The path flip: the checked walk is the walk. -/
theorem flipPathC_eq (N : Nat) (rowsol colsol : Nat → Int) (c : Nat → Nat) (low ke : Nat)
    (pred : Nat → Nat) (fr : Nat) (G : Nat → Nat → Prop)
    (hx : FlipCtx N rowsol colsol c low ke pred fr G) :
    ∀ (k : Nat) (rs cs : Nat → Int), k < N → (k < low ∨ k = ke) →
      (∀ k' i : Nat, k' < k → k' < low → colsol (c k') = (i : Int) → rs i = (c k' : Int)) →
      ∀ fuel, flipPathC N pred fr fuel (rs, cs, (c k : Int)) =
        flipPath pred fr fuel (rs, cs, (c k : Int)) := by
  intro k
  induction k using Nat.strong_induction_on with
  | _ k ih =>
    intro rs cs hk hlab hrows fuel
    cases fuel with
    | zero => rfl
    | succ f =>
      have hckN := hx.perm.lt k hk
      have hpN : pred (c k) < N := by
        rcases hx.pred_ok k hk hlab with hfr | ⟨k1, i1, hk1, _, hcol1, hpi⟩
        · rw [hfr]; exact hx.fr_lt
        · rw [hpi]
          rcases hx.col_range (c k1) (hx.perm.lt k1 (by omega)) with a | ⟨i', hi', a⟩ <;> omega
      simp only [flipPathC, flipPath, Int.toNat_ofNat]
      rw [if_pos (by
        simp only [Bool.and_eq_true, decide_eq_true_eq]
        exact ⟨inRange_ofNat N (c k) hckN, hpN⟩)]
      by_cases e : pred (c k) = fr
      · simp only [e, ne_eq, not_true_eq_false, if_false]
      · simp only [e, ne_eq, not_false_eq_true, if_true]
        rcases hx.pred_ok k hk hlab with hfr | ⟨k1, i1, hk1, hk1low, hcol1, hpi⟩
        · exact absurd hfr e
        · have hk1N : k1 < N := by omega
          have hck1N := hx.perm.lt k1 hk1N
          have hrs := hrows k1 i1 hk1 hk1low hcol1
          rw [hpi, hrs]
          apply ih k1 hk1 _ _ hk1N (Or.inl hk1low)
          intro k' i hk' hk'low hc
          have hne' : i ≠ i1 := by
            intro e'; subst e'
            have a := hx.row_back i (c k') (hx.perm.lt k' (by omega)) hc
            have b := hx.row_back i (c k1) hck1N hcol1
            have := hx.perm.inj k' k1 (by omega) hk1N (by omega)
            omega
          rw [upd_other _ _ _ _ hne']
          exact hrows k' i (by omega) hk'low hc

/-- More fuel keeps the result of an augmentation. -/
theorem augmentStep_mono_add (N : Nat) (cost : Nat → Nat → Int) (fuel f : Nat) (os : Option Lap)
    (r : Lap) (h : augmentStep N cost fuel f os = some r) :
    ∀ n, augmentStep N cost (fuel + n) f os = some r := by
  intro n
  induction n with
  | zero => exact h
  | succ n ih => exact augmentStep_mono N cost (fuel + n) f os r ih

/-- More fuel keeps the result of the augmenting row reduction. -/
theorem augmentingRowReduction_mono_add (BIG : Int) (N : Nat) (cost : Nat → Nat → Int)
    (fuel : Nat) (s r : Lap) (h : augmentingRowReduction BIG N cost fuel s = some r) :
    ∀ n, augmentingRowReduction BIG N cost (fuel + n) s = some r := by
  intro n
  induction n with
  | zero => exact h
  | succ n ih => exact augmentingRowReduction_mono BIG N cost (fuel + n) s r ih

/-- One augmentation: the checked body is the body. -/
theorem augmentStepC_eq (N : Nat) (cost : Nat → Nat → Int) (s : Lap) (f : Nat)
    (hp : PInv N cost s.rowsol s.colsol s.v)
    (hfl : FreeList N s.colsol s.free_ (fun p => f ≤ p ∧ p < s.numfree))
    (hf : f < s.numfree) (hnf : s.numfree ≤ N) (fuel : Nat) :
    augmentStepC N cost fuel f (some s) = augmentStep N cost fuel f (some s) := by
  have hposf : (fun p => f ≤ p ∧ p < s.numfree) f := ⟨le_refl _, hf⟩
  obtain ⟨hfr, hfree⟩ := hfl.free f hposf
  obtain ⟨_, hlow0, hup0, _⟩ := searchInit_fields N cost s.v (s.free_ f)
  obtain ⟨hmap, hres⟩ := searchLoopC_eq N cost s.rowsol s.colsol s.v (s.free_ f) hp hfr hfree fuel
    (searchInit N cost s.v (s.free_ f)) { last := false, min_ := false, endofpath := false }
    (searchInit_spec N cost s.v s.colsol (s.free_ f))
    (by intro hne; exact absurd (hup0.trans hlow0.symm) hne)
  unfold augmentStepC augmentStep
  simp only [Option.some_bind]
  rw [if_pos (by
    simp only [Bool.and_eq_true, decide_eq_true_eq]
    exact ⟨by omega, hfr⟩)]
  rw [← hmap]
  cases hsl : searchLoopC N cost s.v s.colsol fuel (searchInit N cost s.v (s.free_ f),
      { last := false, min_ := false, endofpath := false }) with
  | none => rfl
  | some p =>
    obtain ⟨hpost, hl, hm, he⟩ := hres p hsl
    simp only [Option.map_some', Option.some_bind]
    rw [priceUpdateC_eq N cost s.v s.colsol (s.free_ f) p.1 p.2 s.v hpost hl hm]
    simp only [Option.some_bind]
    rw [if_pos he]
    obtain ⟨ke, hke1, hke2, hke3, hke4⟩ := hpost.end_pos
    have hctx : FlipCtx N s.rowsol s.colsol p.1.collist p.1.low ke p.1.pred (s.free_ f)
        (fun _ _ => True) := by
      constructor
      · exact hpost.perm
      · exact hp.col_range
      · exact hp.row_back
      · exact hfr
      · exact hfree
      · exact hke1
      · exact hke2
      · rw [hke3]; exact hpost.end_free
      · intro q hqN hlab
        have hpa : ∃ lab, PredAt cost s.v s.colsol (s.free_ f) p.1 q (p.1.collist q) lab := by
          by_cases e : q < p.1.low
          · exact ⟨_, hpost.pred_ready q e⟩
          · have e1 : q = ke := by omega
            subst e1
            rw [hke3]
            exact ⟨_, hke4⟩
        obtain ⟨lab, hpa⟩ := hpa
        rcases hpa with ⟨a, _⟩ | ⟨k1, i1, a1, a2, a3, a4, _⟩
        · exact Or.inl a
        · exact Or.inr ⟨k1, i1, a1, a2, a3, a4⟩
      · intro _ _ _; trivial
      · intro _ _ _ _; trivial
    rw [← hke3, flipPathC_eq N s.rowsol s.colsol p.1.collist p.1.low ke p.1.pred (s.free_ f) _
      hctx ke s.rowsol s.colsol hke2 (Or.inr rfl)
      (fun k' i _ _ hc => hp.row_back i (p.1.collist k') (hpost.perm.lt k' (by omega)) hc) fuel]

theorem augmentLoopC_none (N : Nat) (cost : Nat → Nat → Int) (fuel : Nat) :
    ∀ (n f : Nat), forUp (augmentStepC N cost fuel) n f none = none := by
  intro n
  induction n with
  | zero => intro f; rfl
  | succ n ih => intro f; simp only [forUp]; exact ih (f + 1)

/-- The augmentations: the checked loop is the loop. -/
theorem augmentLoopC_eq (N : Nat) (cost : Nat → Nat → Int) (fuel : Nat) :
    ∀ (n f : Nat) (s : Lap), PInv N cost s.rowsol s.colsol s.v →
      FreeList N s.colsol s.free_ (fun p => f ≤ p ∧ p < s.numfree) → f + n ≤ s.numfree →
      s.numfree ≤ N →
      forUp (augmentStepC N cost fuel) n f (some s) =
        forUp (augmentStep N cost fuel) n f (some s) := by
  intro n
  induction n with
  | zero => intro f s _ _ _ _; rfl
  | succ n ih =>
    intro f s hp hfl hn hnf
    simp only [forUp]
    rw [augmentStepC_eq N cost s f hp hfl (by omega) hnf fuel]
    cases h1 : augmentStep N cost fuel f (some s) with
    | none => rw [augmentLoopC_none, augmentLoop_none]
    | some s1 =>
      obtain ⟨s', hrun, hp', hfl', hnf', _, _⟩ := augmentStep_spec N cost s f hp hfl (by omega)
      have e : s' = s1 := by
        have a1 := hrun (fuel + N) (by omega)
        rw [augmentStep_mono_add N cost fuel f (some s) s1 h1 N] at a1
        exact (Option.some.inj a1).symm
      subst e
      exact ih (f + 1) s' hp' hfl' (by omega) (by omega)

/-- The function `jvlap`: the checked run is the run, whatever the fuel. -/
theorem jvlapC_eq (BIG : Int) (N : Nat) (cost : Nat → Nat → Int) (rowsol colsol u v : Nat → Int)
    (hN : 1 ≤ N) (hB0 : 0 ≤ BIG) (hH : BelowBig BIG N cost rowsol colsol v) (fuel : Nat) :
    jvlapC BIG fuel N cost rowsol colsol u v = jvlap BIG fuel N cost rowsol colsol u v := by
  obtain ⟨hp2, hu2, hf2⟩ := reductionTransfer_spec BIG N cost rowsol colsol v hN hB0
  unfold jvlapC jvlap
  simp only
  rw [columnReductionC_eq N cost rowsol colsol v hN]
  simp only [Option.some_bind]
  rw [reductionTransferC_eq BIG N cost rowsol colsol v hN hB0]
  simp only [Option.some_bind]
  rw [augmentingRowReductionC_eq BIG N cost hN _ hH.arr hp2 hu2 hf2 fuel]
  cases h3 : augmentingRowReduction BIG N cost fuel (reductionTransfer BIG N cost
      (columnReduction N cost
        { rowsol := rowsol, colsol := colsol, v := v, free_ := fun _ => 0, numfree := 0,
          matchCnt := forUp (fun i m => upd m i 0) N 0 (fun _ => 0) })) with
  | none => rfl
  | some s3 =>
    obtain ⟨s', M, hrun, hp3, hf3, _⟩ :=
      augmentingRowReduction_spec BIG N cost hN _ hH.arr hp2 hu2 hf2
    have e : s' = s3 := by
      have a1 := hrun (fuel + M) (by omega)
      rw [augmentingRowReduction_mono_add BIG N cost fuel _ s3 h3 M] at a1
      exact (Option.some.inj a1).symm
    subst e
    simp only [Option.some_bind]
    unfold augmentSolutionC augmentSolution
    rw [augmentLoopC_eq N cost fuel s'.numfree 0 s' hp3 (hf3.congr (by intro p; simp))
      (by omega) (FreeList.length_le hp3 hf3)]

/-- The condition on `BIG` cannot be dropped: on the `3 x 3` matrix of ones with `BIG = 0` the
run of `jvlap` returns, but the tie branch of the augmenting row reduction reads `j2` in a
scan that has not assigned it, and the checked run fails. -/
theorem jvlapC_fails_small_big :
    (jvlap 0 10 3 (fun _ _ => 1) (fun _ => 0) (fun _ => 0) (fun _ => 0) (fun _ => 0)).isSome
      = true ∧
    (jvlapC 0 10 3 (fun _ _ => 1) (fun _ => 0) (fun _ => 0) (fun _ => 0) (fun _ => 0)).isSome
      = false := by
  decide

/-- C21, index safety: for `N >= 1` and a run in which every reduced cost computed in the
reduction transfer and in the row scans of the augmenting row reduction is below `BIG`, the
run of `jvlap` in which every subscript is checked against `[0, N)` and every read of `j2`,
`last`, `min_` and `endofpath` against the ghost flag of its assignment returns, with the
result of `jvlap`, for every fuel from a bound on, and for every fuel it is the run of
`jvlap`: no check fails. The checks are, in the augmenting row reduction, that `j2` has been
assigned in the scan when the tie branch reads it, that `free_[--k]` and `free_[numfree++]`
are cells of `free_`, the latter below `k`; in the augmentation, that `up < N` when a scan
for a new minimum starts, that `colsol[collist[low]]` is a row in `[0, N)` when a column is
scanned, and that `last`, `min_` and `endofpath` have been assigned in this augmentation when
the price update and the path flip read them. -/
theorem jvlap_index_safe (BIG : Int) (N : Nat) (cost : Nat → Nat → Int)
    (rowsol colsol u v : Nat → Int) (hN : 1 ≤ N) (hH : BelowBig BIG N cost rowsol colsol v) :
    (∃ (r : Lap) (M : Nat), ∀ fuel, M ≤ fuel →
      jvlapC BIG fuel N cost rowsol colsol u v = some (r, u) ∧
      jvlap BIG fuel N cost rowsol colsol u v = some (r, u)) ∧
    ∀ fuel, jvlapC BIG fuel N cost rowsol colsol u v =
      jvlap BIG fuel N cost rowsol colsol u v := by
  by_cases h2 : 2 ≤ N
  · have hB0 := hH.big_nonneg h2
    obtain ⟨r, M, hrun, _, _⟩ := jvlap_spec BIG N cost rowsol colsol u v hN hB0 hH
    refine ⟨⟨r, M, ?_⟩, jvlapC_eq BIG N cost rowsol colsol u v hN hB0 hH⟩
    intro fuel hfuel
    rw [jvlapC_eq BIG N cost rowsol colsol u v hN hB0 hH fuel]
    exact ⟨hrun fuel hfuel, hrun fuel hfuel⟩
  · have h1 : N = 1 := by omega
    subst h1
    obtain ⟨r, hr, _, _⟩ := jvlap_one BIG 0 cost rowsol colsol u v
    refine ⟨⟨r, 0, ?_⟩, fun fuel => jvlapC_one BIG fuel cost rowsol colsol u v⟩
    intro fuel _
    rw [jvlapC_one, jvlap_one_fuel]
    exact ⟨hr, hr⟩

/-- Instance of C21: the cost matrix `[[2,1,0],[2,1,0],[0,0,0]]` with `BIG = 100000`; the
reduction transfer and the augmenting row reduction each leave a free row, so the checks of
the row scans, of the free list and of one augmentation are all met; and the cost matrix
`[[0,0],[100,100]]` with `BIG = 101`, just above the largest reduced cost `100` of the run. -/
theorem jvlap_index_safe_witness :
    ((transferState 100000 3 (getCost [[2, 1, 0], [2, 1, 0], [0, 0, 0]]) (fun _ => 0)
        (fun _ => 0) (fun _ => 0) 3).numfree = 1 ∧
      (augmentingRowReduction 100000 3 (getCost [[2, 1, 0], [2, 1, 0], [0, 0, 0]]) 10
        (transferState 100000 3 (getCost [[2, 1, 0], [2, 1, 0], [0, 0, 0]]) (fun _ => 0)
          (fun _ => 0) (fun _ => 0) 3)).map (fun s => s.numfree) = some 1) ∧
    (∃ (r : Lap) (M : Nat), ∀ fuel, M ≤ fuel →
      jvlapC 100000 fuel 3 (getCost [[2, 1, 0], [2, 1, 0], [0, 0, 0]]) (fun _ => 0)
        (fun _ => 0) (fun _ => 0) (fun _ => 0) = some (r, fun _ => 0) ∧
      jvlap 100000 fuel 3 (getCost [[2, 1, 0], [2, 1, 0], [0, 0, 0]]) (fun _ => 0)
        (fun _ => 0) (fun _ => 0) (fun _ => 0) = some (r, fun _ => 0)) ∧
    (∀ fuel, jvlapC 100000 fuel 3 (getCost [[2, 1, 0], [2, 1, 0], [0, 0, 0]]) (fun _ => 0)
        (fun _ => 0) (fun _ => 0) (fun _ => 0) =
      jvlap 100000 fuel 3 (getCost [[2, 1, 0], [2, 1, 0], [0, 0, 0]]) (fun _ => 0)
        (fun _ => 0) (fun _ => 0) (fun _ => 0)) ∧
    ∀ fuel, jvlapC 101 fuel (max 2 2) (getCost (Solver.new weightsTight22).costMat)
        (fun _ => 0) (fun _ => 0) (fun _ => 0) (fun _ => 0) =
      jvlap 101 fuel (max 2 2) (getCost (Solver.new weightsTight22).costMat) (fun _ => 0)
        (fun _ => 0) (fun _ => 0) (fun _ => 0) :=
  ⟨⟨by decide, by decide⟩,
   (jvlap_index_safe 100000 3 (getCost [[2, 1, 0], [2, 1, 0], [0, 0, 0]]) (fun _ => 0)
    (fun _ => 0) (fun _ => 0) (fun _ => 0) (by decide)
    (belowBig_of_bigEnough 100000 3 _ _ _ _ (by decide) cost3_bigEnough)).1,
   (jvlap_index_safe 100000 3 (getCost [[2, 1, 0], [2, 1, 0], [0, 0, 0]]) (fun _ => 0)
    (fun _ => 0) (fun _ => 0) (fun _ => 0) (by decide)
    (belowBig_of_bigEnough 100000 3 _ _ _ _ (by decide) cost3_bigEnough)).2,
   (jvlap_index_safe 101 (max 2 2) (getCost (Solver.new weightsTight22).costMat) (fun _ => 0)
    (fun _ => 0) (fun _ => 0) (fun _ => 0) (by decide) belowBig_tight.1).2⟩

/-! ### Summary statements and instances -/

/-- A solver for a `1 × 1` weight matrix is left in the same state, with the same pair
written, whatever `BIG` is. -/
theorem solve_small (BIG : Int) (mat : Tensor Int) (R C : Nat) (r0 c0 : Nat → Int)
    (a : Tensor Nat) (hd : mat.getDims = [R, C]) (h1 : max R C = 1) (fuel : Nat) :
    solve BIG fuel (solverWith mat r0 c0) a = solve 0 fuel (solverWith mat r0 c0) a :=
  solve_one BIG 0 fuel _ a (by rw [(solverWith_fields mat R C r0 c0 hd).2.2.1]; exact h1)

theorem belowBig_small (N : Nat) (cost : Nat → Nat → Int) (rowsol colsol v : Nat → Int)
    (h1 : N = 1) : BelowBig 0 N cost rowsol colsol v := by
  subst h1
  exact belowBig_one 0 cost rowsol colsol v

/-- The state `jvlap` returns for `N = 1`. -/
theorem jvlap_one_form (BIG : Int) (fuel : Nat) (cost : Nat → Nat → Int)
    (rs cs u v : Nat → Int) :
    jvlap BIG fuel 1 cost rs cs u v = some (
      { rowsol := upd rs 0 0, colsol := upd cs 0 0,
        v := upd (upd v 0 (cost 0 0)) 0 (cost 0 0 - BIG),
        free_ := fun _ => 0, numfree := 0,
        matchCnt := upd (upd (fun _ => 0) 0 0) 0 1 }, u) := by
  cases fuel with
  | zero => rfl
  | succ f => rfl

theorem upd_tail_congr (f g : Nat → Int) (x : Int) (h : ∀ i, 1 ≤ i → f i = g i) :
    upd f 0 x = upd g 0 x := by
  funext i
  unfold upd
  by_cases hi : i = 0
  · rw [if_pos hi, if_pos hi]
  · rw [if_neg hi, if_neg hi]
    exact h i (by omega)

/-- For the weight matrix `[[100001,100000],[0,0]]` and `BIG = 100000` the run of `jvlap`
with checked reads fails whatever the fuel: the tie branch of the first trip of the
augmenting row reduction reads `j2`, which the row scan has not written. -/
theorem jvlapC_wide (fuel : Nat) :
    jvlapC 100000 fuel 2 (getCost (Solver.new weightsWide22).costMat) (fun _ => 0) (fun _ => 0)
      (fun _ => 0) (fun _ => 0) = none := by
  cases fuel with
  | zero => rfl
  | succ f => rfl

/-- C1 as amended, optimality: for an `R × C` matrix of 32 bit weights above `INT_MIN`, a run
in which every reduced cost computed in the reduction transfer and in the row scans of the
augmenting row reduction is below `BIG`, and an assignments tensor of `min R C` rows, `solve`
returns (for every fuel from some bound on), the pairs it writes are a one-to-one pairing of
the smaller index set into the larger one, and their total weight is at least the total
weight of every such pairing, so it is the maximum. -/
theorem solve_optimal (BIG : Int) (mat : Tensor Int) (R C : Nat) (a : Tensor Nat)
    (r0 c0 : Nat → Int) (hd : mat.getDims = [R, C]) (hR : 1 ≤ R)
    (hsz : max R C < 4294967296) (hw : AboveMin mat R C)
    (hH : BelowBig BIG (max R C) (getCost (Solver.new mat).costMat) r0 c0 (fun _ => 0))
    (ha : a.getDims = [min R C, 2]) :
    (∃ M, ∀ fuel, M ≤ fuel → (solve BIG fuel (solverWith mat r0 c0) a).isSome = true) ∧
    ∀ fuel res, solve BIG fuel (solverWith mat r0 c0) a = some res →
      (R ≤ C →
        (∃ f0 : Nat → Nat, (∀ i, i < R → f0 i < C) ∧
          (∀ i i', i < R → i' < R → f0 i = f0 i' → i = i') ∧
          pairsOf res.2 = (List.range R).map (fun i => (i, f0 i)) ∧
          pairWeight mat (pairsOf res.2) = ∑ i in Finset.range R, mat.at2 i (f0 i)) ∧
        ∀ f : Nat → Nat, (∀ i, i < R → f i < C) →
          (∀ i i', i < R → i' < R → f i = f i' → i = i') →
          ∑ i in Finset.range R, mat.at2 i (f i) ≤ pairWeight mat (pairsOf res.2)) ∧
      (C < R →
        (∃ g0 : Nat → Nat, (∀ j, j < C → g0 j < R) ∧
          (∀ j j', j < C → j' < C → g0 j = g0 j' → j = j') ∧
          pairsOf res.2 = (List.range C).map (fun j => (g0 j, j)) ∧
          pairWeight mat (pairsOf res.2) = ∑ j in Finset.range C, mat.at2 (g0 j) j) ∧
        ∀ g : Nat → Nat, (∀ j, j < C → g j < R) →
          (∀ j j', j < C → j' < C → g j = g j' → j = j') →
          ∑ j in Finset.range C, mat.at2 (g j) j ≤ pairWeight mat (pairsOf res.2)) := by
  by_cases h2 : 2 ≤ max R C
  · exact solve_optimal_core BIG mat R C a r0 c0 hd hR hsz hw (hH.big_nonneg h2) hH ha
  · have h1 : max R C = 1 := by
      have := le_trans hR (le_max_left R C)
      omega
    have e := solve_small BIG mat R C r0 c0 a hd h1
    simp only [e]
    exact solve_optimal_core 0 mat R C a r0 c0 hd hR hsz hw (le_refl _)
      (belowBig_small _ _ _ _ _ h1) ha

/-- C1 fails as stated at the weight `INT_MIN`, whose negation in 32 bit `int` is `INT_MIN`
again: for the `1 × 2` weight matrix `[[INT_MIN, 0]]` and `BIG = 10000000000`, above every
reduced cost of the run, the cost matrix holds `INT_MIN` at `[0][0]` and `solve` writes the
pair `(0,0)` of weight `INT_MIN`, while the pair `(0,1)` has weight `0`. -/
theorem optimality_counterexample :
    BelowBig 10000000000 (max 1 2) (getCost (Solver.new weightsMin12).costMat) (fun _ => 0)
      (fun _ => 0) (fun _ => 0) ∧
    getCost (Solver.new weightsMin12).costMat 0 0 = -2147483648 ∧
    (solve 10000000000 10 (solverWith weightsMin12 (fun _ => 0) (fun _ => 0))
        (pairsTensor 1 0)).map
      (fun p => (pairsOf p.2, pairWeight weightsMin12 (pairsOf p.2)))
      = some ([(0, 0)], -2147483648) ∧
    weightsMin12.at2 0 1 = 0 := by
  refine ⟨?_, by decide, by decide, by decide⟩
  apply belowBig_of_bigEnough 10000000000 (max 1 2) _ _ _ _ (by decide)
  apply bigEnough_of_bounds 10000000000 (max 1 2) _ (-2147483648) 0 _ (by decide)
  intro i j hi hj
  have hi2 : i < 2 := hi
  have hj2 : j < 2 := hj
  interval_cases i <;> interval_cases j <;> decide

/-- Instance of C1 as amended: the weight matrix `[[3,1],[1,3],[2,2]]` with `BIG = 100000`,
and the weight matrix `[[0,0],[-100,-100]]` with `BIG = 101`, just above the largest reduced
cost `100` of the run (and not above twice the spread of the cost matrix). -/
theorem solve_optimal_witness :
    (AboveMin weights32 3 2 ∧
    (∃ M, ∀ fuel, M ≤ fuel →
      (solve 100000 fuel (solverWith weights32 (fun _ => 0) (fun _ => 0))
        (pairsTensor 2 0)).isSome = true) ∧
    ∀ fuel res, solve 100000 fuel (solverWith weights32 (fun _ => 0) (fun _ => 0))
        (pairsTensor 2 0) = some res →
      ∀ g : Nat → Nat, (∀ j, j < 2 → g j < 3) →
        (∀ j j', j < 2 → j' < 2 → g j = g j' → j = j') →
        ∑ j in Finset.range 2, weights32.at2 (g j) j ≤ pairWeight weights32 (pairsOf res.2)) ∧
    (AboveMin weightsTight22 2 2 ∧
    ¬ BigEnough 101 (max 2 2) (getCost (Solver.new weightsTight22).costMat) ∧
    (∃ M, ∀ fuel, M ≤ fuel →
      (solve 101 fuel (solverWith weightsTight22 (fun _ => 0) (fun _ => 0))
        (pairsTensor 2 0)).isSome = true) ∧
    ∀ fuel res, solve 101 fuel (solverWith weightsTight22 (fun _ => 0) (fun _ => 0))
        (pairsTensor 2 0) = some res →
      ∀ f : Nat → Nat, (∀ i, i < 2 → f i < 2) →
        (∀ i i', i < 2 → i' < 2 → f i = f i' → i = i') →
        ∑ i in Finset.range 2, weightsTight22.at2 i (f i)
          ≤ pairWeight weightsTight22 (pairsOf res.2)) :=
  ⟨⟨aboveMin32,
   (solve_optimal 100000 weights32 3 2 (pairsTensor 2 0) (fun _ => 0) (fun _ => 0) rfl
      (by decide) (by decide) aboveMin32
      (belowBig_of_bigEnough 100000 _ _ _ _ _ (by decide) (bigEnough32 100000 (by decide)))
      rfl).1,
   fun fuel res h => ((solve_optimal 100000 weights32 3 2 (pairsTensor 2 0) (fun _ => 0)
      (fun _ => 0) rfl (by decide) (by decide) aboveMin32
      (belowBig_of_bigEnough 100000 _ _ _ _ _ (by decide) (bigEnough32 100000 (by decide)))
      rfl).2 fuel res h).2 (by decide) |>.2⟩,
   ⟨aboveMinTight, belowBig_tight.2,
   (solve_optimal 101 weightsTight22 2 2 (pairsTensor 2 0) (fun _ => 0) (fun _ => 0) rfl
      (by decide) (by decide) aboveMinTight belowBig_tight.1 rfl).1,
   fun fuel res h => ((solve_optimal 101 weightsTight22 2 2 (pairsTensor 2 0) (fun _ => 0)
      (fun _ => 0) rfl (by decide) (by decide) aboveMinTight belowBig_tight.1 rfl).2
      fuel res h).1 (by decide) |>.2⟩⟩

/-- The assignment returned by the run in which `j2` holds `0` at entry is a bijection. -/
theorem bijection_run (BIG : Int) (N : Nat) (cost : Nat → Nat → Int)
    (rowsol colsol u v : Nat → Int) (hN : 1 ≤ N) (hH : BelowBig BIG N cost rowsol colsol v) :
    (∃ M, ∀ fuel, M ≤ fuel → (jvlap BIG fuel N cost rowsol colsol u v).isSome = true) ∧
    ∀ fuel r, jvlap BIG fuel N cost rowsol colsol u v = some r →
      (∀ i, i < N → 0 ≤ r.1.rowsol i ∧ r.1.rowsol i < N ∧
        r.1.colsol (r.1.rowsol i).toNat = (i : Int)) ∧
      (∀ j, j < N → 0 ≤ r.1.colsol j ∧ r.1.colsol j < N ∧
        r.1.rowsol (r.1.colsol j).toNat = (j : Int)) := by
  by_cases h2 : 2 ≤ N
  · exact bijection_core BIG N cost rowsol colsol u v hN (hH.big_nonneg h2) hH
  · have h1 : N = 1 := by omega
    subst h1
    refine ⟨⟨0, fun fuel _ => ?_⟩, ?_⟩
    · rw [jvlap_one_form]
      rfl
    · intro fuel r hr
      rw [jvlap_one_form] at hr
      have e := (Option.some.inj hr).symm
      subst e
      constructor
      · intro i hi
        have hi0 : i = 0 := by omega
        subst hi0
        exact ⟨le_refl _, (show (0 : Int) < 1 by decide), rfl⟩
      · intro j hj
        have hj0 : j = 0 := by omega
        subst hj0
        exact ⟨le_refl _, (show (0 : Int) < 1 by decide), rfl⟩

/-- C2 as amended, bijection invariant: for `N >= 1` and a run in which every reduced cost
computed in the reduction transfer and in the row scans of the augmenting row reduction is
below `BIG`, whatever the local `j2` holds at entry (`g`), `jvlap` returns (for every fuel
from some bound on) and whenever it returns, `rowsol` and `colsol` map `[0, N)` into `[0, N)`
and are inverse to each other. -/
theorem jvlap_bijection (BIG : Int) (N : Nat) (cost : Nat → Nat → Int)
    (rowsol colsol u v : Nat → Int) (hN : 1 ≤ N) (hH : BelowBig BIG N cost rowsol colsol v) :
    (∃ M, ∀ fuel, M ≤ fuel → ∀ g : Nat,
      (jvlapFrom g BIG fuel N cost rowsol colsol u v).isSome = true) ∧
    ∀ (g fuel : Nat) r, jvlapFrom g BIG fuel N cost rowsol colsol u v = some r →
      (∀ i, i < N → 0 ≤ r.1.rowsol i ∧ r.1.rowsol i < N ∧
        r.1.colsol (r.1.rowsol i).toNat = (i : Int)) ∧
      (∀ j, j < N → 0 ≤ r.1.colsol j ∧ r.1.colsol j < N ∧
        r.1.rowsol (r.1.colsol j).toNat = (j : Int)) := by
  obtain ⟨⟨M, hM⟩, hall⟩ := bijection_run BIG N cost rowsol colsol u v hN hH
  have e := jvlapFrom_eq BIG N cost rowsol colsol u v hN hH
  refine ⟨⟨M, fun fuel hf g => ?_⟩, fun g fuel r hr => ?_⟩
  · rw [e]
    exact hM fuel hf
  · rw [e] at hr
    exact hall fuel r hr

/-- C2 fails as stated: for the cost matrix `[[-100001,-100000],[0,0]]` and `BIG = 100000`
the first row scan of the augmenting row reduction finds no reduced cost below `BIG`, so the
tie branch reads `j2`, which no statement has written (the run with checked reads fails
for every fuel), and uses it as a column; when `j2` holds `7`, `jvlap` returns with `rowsol[1] = 7`, outside
`[0, 2)`, and with `colsol[0] = colsol[1] = 0`. -/
theorem bijection_counterexample :
    (∀ fuel, jvlapC 100000 fuel 2 (getCost (Solver.new weightsWide22).costMat) (fun _ => 0)
      (fun _ => 0) (fun _ => 0) (fun _ => 0) = none) ∧
    (jvlapFrom 7 100000 10 2 (getCost (Solver.new weightsWide22).costMat) (fun _ => 0)
        (fun _ => 0) (fun _ => 0) (fun _ => 0)).map
      (fun r => (r.1.rowsol 1, r.1.colsol 0, r.1.colsol 1)) = some (7, 0, 0) :=
  ⟨jvlapC_wide, by decide⟩

/-- Instance of C2 as amended: the cost matrix `[[2,1,0],[2,1,0],[0,0,0]]` with
`BIG = 100000`, a run through the reduction transfer, both passes of the augmenting row
reduction and one augmentation. -/
theorem jvlap_bijection_witness :
    (∃ M, ∀ fuel, M ≤ fuel → ∀ g : Nat,
      (jvlapFrom g 100000 fuel 3 (getCost [[2, 1, 0], [2, 1, 0], [0, 0, 0]]) (fun _ => 0) (fun _ => 0)
        (fun _ => 0) (fun _ => 0)).isSome = true) ∧
    ∀ (g fuel : Nat) r, jvlapFrom g 100000 fuel 3 (getCost [[2, 1, 0], [2, 1, 0], [0, 0, 0]]) (fun _ => 0)
        (fun _ => 0) (fun _ => 0) (fun _ => 0) = some r →
      (∀ i, i < 3 → 0 ≤ r.1.rowsol i ∧ r.1.rowsol i < (3 : Nat) ∧
        r.1.colsol (r.1.rowsol i).toNat = (i : Int)) ∧
      (∀ j, j < 3 → 0 ≤ r.1.colsol j ∧ r.1.colsol j < (3 : Nat) ∧
        r.1.rowsol (r.1.colsol j).toNat = (j : Int)) :=
  jvlap_bijection 100000 3 (getCost [[2, 1, 0], [2, 1, 0], [0, 0, 0]]) (fun _ => 0) (fun _ => 0)
    (fun _ => 0) (fun _ => 0) (by decide) (belowBig_of_bigEnough 100000 3 _ _ _ _ (by decide) cost3_bigEnough)

/-- C3 fails as stated. `jvlap` has no assignment to `u`: on the cost matrix of
`[[1,2],[2,1]]`, called as `solve` calls it, it returns with `rowsol[0] = 1` and
`cost[0][1] - u[0] - v[1] = 1`, not `0`. Without a condition on `BIG` the prices `v` fail as
well: for the weights `[[250000,0,250000],[200000,200000,150000],[50000,150000,150000]]` and
`BIG = 100000` no read of the run is unchecked, and `jvlap` returns with row `2` at column
`0` of reduced cost `200000`, while column `1` has reduced cost `100000`. And for `N = 1`,
the cost matrix `[[0]]` and `BIG = -1`, `jvlap` returns with `cost[0][0] - u[0] - v[0] = -1`. -/
theorem dual_equality_counterexample :
    (jvlap 100000 10 2 (getCost (Solver.new weights22).costMat) (fun _ => 0) (fun _ => 0)
        (fun _ => 0) (fun _ => 0)).map
      (fun r => (r.1.rowsol 0, getCost (Solver.new weights22).costMat 0 1 - r.2 0 - r.1.v 1))
    = some (1, 1) ∧
    (jvlapC 100000 10 3 (getCost (Solver.new weightsWide33).costMat) (fun _ => 0) (fun _ => 0)
      (fun _ => 0) (fun _ => 0)).isSome = true ∧
    (jvlap 100000 10 3 (getCost (Solver.new weightsWide33).costMat) (fun _ => 0) (fun _ => 0)
        (fun _ => 0) (fun _ => 0)).map
      (fun r => (r.1.rowsol 2, getCost (Solver.new weightsWide33).costMat 2 0 - r.1.v 0,
        getCost (Solver.new weightsWide33).costMat 2 1 - r.1.v 1))
    = some (0, 200000, 100000) ∧
    (jvlap (-1) 10 1 (fun _ _ => 0) (fun _ => 0) (fun _ => 0) (fun _ => 0) (fun _ => 0)).map
      (fun r => (0 : Int) - r.2 0 - r.1.v 0) = some (-1) := by
  decide

/-- C3 as amended: for `N >= 1`, `BIG >= 0` and a run in which every reduced cost computed in
the reduction transfer and in the row scans of the augmenting row reduction is below `BIG`,
`jvlap` returns and leaves `u` as `solve` passed it (all zero), the reduced costs
`cost[i][j] - u[i] - v[j]` are nonnegative, and the column assigned to a row has the least
value of `cost[i][j] - v[j]` in that row (not the value `0`, which equality would ask for). -/
theorem dual_feasible_with_idle_u (BIG : Int) (N : Nat) (cost : Nat → Nat → Int)
    (rowsol colsol v : Nat → Int) (hN : 1 ≤ N) (hB0 : 0 ≤ BIG)
    (hH : BelowBig BIG N cost rowsol colsol v) :
    (∃ M, ∀ fuel, M ≤ fuel →
      (jvlap BIG fuel N cost rowsol colsol (fun _ => 0) v).isSome = true) ∧
    ∀ fuel r, jvlap BIG fuel N cost rowsol colsol (fun _ => 0) v = some r →
      (∀ i, r.2 i = 0) ∧
      (∀ i j, i < N → j < N → cost i j - r.2 i - r.1.v j ≥ 0) ∧
      (∀ i j, i < N → j < N →
        cost i (r.1.rowsol i).toNat - r.1.v (r.1.rowsol i).toNat ≤ cost i j - r.1.v j) := by
  obtain ⟨hret, hprop⟩ := jvlap_total BIG N cost rowsol colsol (fun _ => 0) v hN hB0 hH
  refine ⟨hret, ?_⟩
  intro fuel r hr
  obtain ⟨hu, hp, hall⟩ := hprop fuel r hr
  obtain ⟨hb1, _⟩ := hp.bijection hall
  refine ⟨fun i => by rw [hu], ?_, ?_⟩
  · intro i j hi hj
    have := hp.nonneg i j hi hj
    rw [hu]
    simp only
    omega
  · intro i j hi hj
    obtain ⟨j0, hj0, h1, h2⟩ := hb1 i hi
    rw [h1, Int.toNat_ofNat]
    exact hp.dual i j0 hj0 h2 j hj

/-- Instance of C3 as amended: the cost matrix `[[2,1,0],[2,1,0],[0,0,0]]` with
`BIG = 100000`. -/
theorem dual_feasible_with_idle_u_witness :
    (∃ M, ∀ fuel, M ≤ fuel →
      (jvlap 100000 fuel 3 (getCost [[2, 1, 0], [2, 1, 0], [0, 0, 0]]) (fun _ => 0) (fun _ => 0)
        (fun _ => 0) (fun _ => 0)).isSome = true) ∧
    ∀ fuel r, jvlap 100000 fuel 3 (getCost [[2, 1, 0], [2, 1, 0], [0, 0, 0]]) (fun _ => 0)
        (fun _ => 0) (fun _ => 0) (fun _ => 0) = some r →
      (∀ i, r.2 i = 0) ∧
      (∀ i j, i < 3 → j < 3 →
        getCost [[2, 1, 0], [2, 1, 0], [0, 0, 0]] i j - r.2 i - r.1.v j ≥ 0) ∧
      (∀ i j, i < 3 → j < 3 →
        getCost [[2, 1, 0], [2, 1, 0], [0, 0, 0]] i (r.1.rowsol i).toNat
            - r.1.v (r.1.rowsol i).toNat ≤
          getCost [[2, 1, 0], [2, 1, 0], [0, 0, 0]] i j - r.1.v j) :=
  dual_feasible_with_idle_u 100000 3 (getCost [[2, 1, 0], [2, 1, 0], [0, 0, 0]]) (fun _ => 0)
    (fun _ => 0) (fun _ => 0) (by decide) (by decide) (belowBig_of_bigEnough 100000 3 _ _ _ _ (by decide) cost3_bigEnough)

/-- The pairs written by the run in which `j2` holds `0` at entry. -/
theorem extractor_run (BIG : Int) (mat : Tensor Int) (R C : Nat) (a : Tensor Nat)
    (r0 c0 : Nat → Int) (hd : mat.getDims = [R, C]) (hR : 1 ≤ R)
    (hsz : max R C < 4294967296)
    (hH : BelowBig BIG (max R C) (getCost (Solver.new mat).costMat) r0 c0 (fun _ => 0))
    (ha : a.getDims = [min R C, 2]) :
    (∃ M, ∀ fuel, M ≤ fuel → (solve BIG fuel (solverWith mat r0 c0) a).isSome = true) ∧
    ∀ fuel res, solve BIG fuel (solverWith mat r0 c0) a = some res →
      (∀ k, k < min R C → res.2.at2 k 0 < R ∧ res.2.at2 k 1 < C) ∧
      (∀ k k', k < min R C → k' < min R C → res.2.at2 k 0 = res.2.at2 k' 0 → k = k') ∧
      (∀ k k', k < min R C → k' < min R C → res.2.at2 k 1 = res.2.at2 k' 1 → k = k') ∧
      (R ≤ C → ∀ k, k < R → res.2.at2 k 0 = k ∧ (res.2.at2 k 1 : Int) = res.1.rowsol k) ∧
      (C < R → ∀ k, k < C → res.2.at2 k 1 = k ∧ (res.2.at2 k 0 : Int) = res.1.colsol k) := by
  by_cases h2 : 2 ≤ max R C
  · exact extractor_core BIG mat R C a r0 c0 hd hR hsz (hH.big_nonneg h2) hH ha
  · have h1 : max R C = 1 := by
      have := le_trans hR (le_max_left R C)
      omega
    have e := solve_small BIG mat R C r0 c0 a hd h1
    simp only [e]
    exact extractor_core 0 mat R C a r0 c0 hd hR hsz (le_refl _)
      (belowBig_small _ _ _ _ _ h1) ha

/-- C4 as amended, extractor soundness: for a run in which every reduced cost computed in the
reduction transfer and in the row scans of the augmenting row reduction is below `BIG`,
whatever the local `j2` of `jvlap` holds at entry (`g`), and an assignments tensor of
`min R C` rows, `solve` returns and the `k`-th pair `(a_k, b_k)` it writes lies in
`[0, R) × [0, C)`, the `a_k` are pairwise distinct, the `b_k` are pairwise distinct, and the
component of the smaller set is `k` itself, the other one being `rowsol[k]` (when `R ≤ C`)
or `colsol[k]` (when `R > C`). -/
theorem extractor_sound (BIG : Int) (mat : Tensor Int) (R C : Nat) (a : Tensor Nat)
    (r0 c0 : Nat → Int) (hd : mat.getDims = [R, C]) (hR : 1 ≤ R)
    (hsz : max R C < 4294967296)
    (hH : BelowBig BIG (max R C) (getCost (Solver.new mat).costMat) r0 c0 (fun _ => 0))
    (ha : a.getDims = [min R C, 2]) :
    (∃ M, ∀ fuel, M ≤ fuel → ∀ g : Nat,
      (solveFrom g BIG fuel (solverWith mat r0 c0) a).isSome = true) ∧
    ∀ (g fuel : Nat) res, solveFrom g BIG fuel (solverWith mat r0 c0) a = some res →
      (∀ k, k < min R C → res.2.at2 k 0 < R ∧ res.2.at2 k 1 < C) ∧
      (∀ k k', k < min R C → k' < min R C → res.2.at2 k 0 = res.2.at2 k' 0 → k = k') ∧
      (∀ k k', k < min R C → k' < min R C → res.2.at2 k 1 = res.2.at2 k' 1 → k = k') ∧
      (R ≤ C → ∀ k, k < R → res.2.at2 k 0 = k ∧ (res.2.at2 k 1 : Int) = res.1.rowsol k) ∧
      (C < R → ∀ k, k < C → res.2.at2 k 1 = k ∧ (res.2.at2 k 0 : Int) = res.1.colsol k) := by
  obtain ⟨⟨M, hM⟩, hall⟩ := extractor_run BIG mat R C a r0 c0 hd hR hsz hH ha
  have e := solveFrom_eq BIG mat R C r0 c0 a hd hR hH
  refine ⟨⟨M, fun fuel hf g => ?_⟩, fun g fuel res hr => ?_⟩
  · rw [e]
    exact hM fuel hf
  · rw [e] at hr
    exact hall fuel res hr

/-- C4 fails as stated: for the weight matrix `[[100001,100000],[0,0]]` and `BIG = 100000`
the tie branch of the augmenting row reduction reads `j2`, which no statement has written
(the run with checked reads fails for every fuel); when `j2` holds `7`, `solve` writes the
pairs `(0,1)` and `(1,7)`, the second outside `[0, 2) × [0, 2)`. -/
theorem extractor_counterexample :
    (∀ fuel, jvlapC 100000 fuel 2 (getCost (Solver.new weightsWide22).costMat) (fun _ => 0)
      (fun _ => 0) (fun _ => 0) (fun _ => 0) = none) ∧
    (solveFrom 7 100000 10 (solverWith weightsWide22 (fun _ => 0) (fun _ => 0))
        (pairsTensor 2 0)).map (fun p => pairsOf p.2) = some [(0, 1), (1, 7)] :=
  ⟨jvlapC_wide, by decide⟩

/-- Instance of C4 as amended: the weight matrix `[[3,1],[1,3],[2,2]]` with `BIG = 100000`. -/
theorem extractor_sound_witness :
    (∃ M, ∀ fuel, M ≤ fuel → ∀ g : Nat,
      (solveFrom g 100000 fuel (solverWith weights32 (fun _ => 0) (fun _ => 0))
        (pairsTensor 2 0)).isSome = true) ∧
    ∀ (g fuel : Nat) res,
      solveFrom g 100000 fuel (solverWith weights32 (fun _ => 0) (fun _ => 0))
        (pairsTensor 2 0) = some res →
      (∀ k, k < min 3 2 → res.2.at2 k 0 < 3 ∧ res.2.at2 k 1 < 2) ∧
      (∀ k k', k < min 3 2 → k' < min 3 2 → res.2.at2 k 0 = res.2.at2 k' 0 → k = k') ∧
      (∀ k k', k < min 3 2 → k' < min 3 2 → res.2.at2 k 1 = res.2.at2 k' 1 → k = k') ∧
      (3 ≤ 2 → ∀ k, k < 3 → res.2.at2 k 0 = k ∧ (res.2.at2 k 1 : Int) = res.1.rowsol k) ∧
      (2 < 3 → ∀ k, k < 2 → res.2.at2 k 1 = k ∧ (res.2.at2 k 0 : Int) = res.1.colsol k) :=
  extractor_sound 100000 weights32 3 2 (pairsTensor 2 0) (fun _ => 0) (fun _ => 0) rfl
    (by decide) (by decide)
    (belowBig_of_bigEnough 100000 _ _ _ _ _ (by decide) (bigEnough32 100000 (by decide))) rfl

/-- C5 fails as stated: for the `2 × 2` weight matrix `[[1,2],[2,1]]` and an assignments
tensor of dims `[1, 2]`, `solve` writes one pair, not `min R C = 2`; the cells `2` and `3`
keep the value `7` they held. -/
theorem output_length_counterexample :
    (solve 100000 10 (Solver.new weights22) (pairsTensor 1 7)).map
      (fun p => ((pairsOf p.2).length, p.2.data 2, p.2.data 3)) = some (1, 7, 7) := by
  decide

/-- C5 as amended: for an assignments tensor of dims `[m, 2]`, `assignMatching` writes the
`m` pairs of the rows `0..m-1` and leaves every later cell as it was when `m` is at most
`size`, the length of `rowsol` and `colsol`, so the number of pairs written is the first
dimension of the tensor; for `m` above `size` the call throws. -/
theorem pairs_written_is_tensor_rows (s : Solver) (a : Tensor Nat) (m : Nat)
    (ha : a.getDims = [m, 2]) :
    (m ≤ s.size →
      ∃ a' : Tensor Nat, assignMatching s a = some a' ∧ (pairsOf a').length = m ∧
        (∀ k, k < m →
          a'.at2 k 0 = (if s.rows > s.cols then toUnsigned (s.colsol k) else k) ∧
          a'.at2 k 1 = (if s.rows > s.cols then k else toUnsigned (s.rowsol k))) ∧
        (∀ cell, m * 2 ≤ cell → a'.data cell = a.data cell)) ∧
    (s.size < m → assignMatching s a = none) := by
  constructor
  · intro hm
    obtain ⟨a', h1, hdims, hrows, hrest⟩ := assignMatching_spec s a m ha hm
    refine ⟨a', h1, ?_, hrows, hrest⟩
    unfold pairsOf
    rw [hdims]
    simp
  · intro hm
    have hn : a.getDims.getD 0 0 = m := by rw [ha]; rfl
    unfold assignMatching
    rw [hn]
    by_cases hrc : s.rows > s.cols
    · rw [if_pos hrc]
      rcases writeRows_throws s.size (fun i => toUnsigned (s.colsol i)) (fun i => i) m 0
        (some a) (by omega) with h | h
      · exact h
      · omega
    · rw [if_neg hrc]
      rcases writeRows_throws s.size (fun i => i) (fun i => toUnsigned (s.rowsol i)) m 0
        (some a) (by omega) with h | h
      · exact h
      · omega

/-- Instance of C5 as amended: the solver of the weight matrix `[[1,2],[2,1]]` with an
assignments tensor of one row, and one of three rows. -/
theorem pairs_written_is_tensor_rows_witness :
    (∃ a' : Tensor Nat, assignMatching (Solver.new weights22) (pairsTensor 1 7) = some a' ∧
      (pairsOf a').length = 1) ∧
    assignMatching (Solver.new weights22) (pairsTensor 3 7) = none :=
  ⟨(((pairs_written_is_tensor_rows (Solver.new weights22) (pairsTensor 1 7) 1 rfl).1
      (by decide)).imp fun _ h => ⟨h.1, h.2.1⟩),
   (pairs_written_is_tensor_rows (Solver.new weights22) (pairsTensor 3 7) 3 rfl).2
      (by decide)⟩

/-- Instance of C7: `BIG = 100000` and an assignments tensor of dims `[2, 2]`. -/
theorem scenario_3x2_witness :
    (Solver.new weights32).costMat = ([[-3, -1, 0], [-1, -3, 0], [-2, -2, 0]] : List (List Int)) ∧
    (∃ M, ∀ fuel, M ≤ fuel →
      (solve 100000 fuel (Solver.new weights32) (pairsTensor 2 0)).isSome = true) ∧
    ∀ fuel res, solve 100000 fuel (Solver.new weights32) (pairsTensor 2 0) = some res →
      pairsOf res.2 = [(0, 0), (1, 1)] ∧ pairWeight weights32 (pairsOf res.2) = 6 ∧
      ∀ p, p ∈ pairsOf res.2 → p.1 ≠ 2 :=
  scenario_3x2 100000 (pairsTensor 2 0) (by decide) rfl

/-- Instance of C8: `BIG = 100000` and an assignments tensor of dims `[2, 2]`. -/
theorem scenario_2x2_witness :
    (∃ M, ∀ fuel, M ≤ fuel →
      (solve 100000 fuel (Solver.new weights22) (pairsTensor 2 0)).isSome = true) ∧
    ∀ fuel res, solve 100000 fuel (Solver.new weights22) (pairsTensor 2 0) = some res →
      pairsOf res.2 = [(0, 1), (1, 0)] ∧ pairWeight weights22 (pairsOf res.2) = 4 :=
  scenario_2x2 100000 (pairsTensor 2 0) (by decide) rfl

/-! ### Permutations, determinism and termination: statements and instances -/

/-- The weight matrix `[[1,2],[2,1]]` has one pairing of maximum total weight. -/
theorem uniqueOptimum22 : UniqueOptimum weights22 2 2 := by
  have v : ∀ i j, weights22.at2 i j = [1, 2, 2, 1].getD (i * 2 + j) 0 := fun _ _ => rfl
  have key : ∀ f, OptRows weights22 2 2 f → f 0 = 1 ∧ f 1 = 0 := by
    intro f hf
    obtain ⟨hr, hinj, hopt⟩ := hf
    have h0 := hr 0 (by decide)
    have h1 := hr 1 (by decide)
    have hne : f 0 ≠ f 1 := fun e => absurd (hinj 0 1 (by decide) (by decide) e) (by decide)
    have hs := hopt (fun i => 1 - i) (by intro i hi; show 1 - i < 2; omega)
      (by intro i i' hi hi' h; simp only at h; omega)
    simp only [Finset.sum_range_succ, Finset.sum_range_zero, v] at hs
    generalize f 0 = a at h0 hne hs ⊢
    generalize f 1 = b at h1 hne hs ⊢
    interval_cases a <;> interval_cases b <;>
      first
      | exact ⟨rfl, rfl⟩
      | exact absurd rfl hne
      | exact absurd hs (by decide)
  constructor
  · intro _ f f' hf hf' i hi
    obtain ⟨a0, a1⟩ := key f hf
    obtain ⟨b0, b1⟩ := key f' hf'
    interval_cases i
    · rw [a0, b0]
    · rw [a1, b1]
  · intro h
    omega

/-- C9 fails as stated. The pairs: the matrix `[[1,1],[1,1]]` is its own image under the
swap of its two rows, `solve` writes the pairs `(0,1)`, `(1,0)` for it, and these are not
their own image under the swap of rows (that image holds `(0,0)`). The total weight, without
a condition on `BIG`: for `W = [[250000,0,250000],[200000,200000,150000],
[50000,150000,150000]]`, its image `W'` under the reversal of the columns and `BIG = 100000`
no read of either run is unchecked, and `solve` writes pairs of total weight `500000` for `W`
and `600000` for `W'`. The total weight, at the weight `INT_MIN`: for
`W = [[0,INT_MIN,2^30],[2^30,2^30,0],[INT_MIN,INT_MAX,2^30]]`, its image `W'` under the
reversal of rows and columns and `BIG = 10000000000`, above every reduced cost of both runs,
`solve` writes pairs of total weight `0` for `W` and `-2^32` for `W'`. -/
theorem equivariance_counterexample :
    ((∀ i j, i < 2 → j < 2 → ones22.at2 (1 - i) j = ones22.at2 i j) ∧
      (solve 100000 10 (Solver.new ones22) (pairsTensor 2 0)).map (fun p => pairsOf p.2)
        = some [(0, 1), (1, 0)] ∧
      ¬ (∀ p : Nat × Nat, p ∈ [(0, 1), (1, 0)] ↔
          ∃ q : Nat × Nat, q ∈ [(0, 1), (1, 0)] ∧ p = (1 - q.1, q.2))) ∧
    ((∀ i j, i < 3 → j < 3 → weightsWide33r.at2 i (2 - j) = weightsWide33.at2 i j) ∧
      (jvlapC 100000 10 3 (getCost (Solver.new weightsWide33).costMat) (fun _ => 0) (fun _ => 0)
        (fun _ => 0) (fun _ => 0)).isSome = true ∧
      (jvlapC 100000 10 3 (getCost (Solver.new weightsWide33r).costMat) (fun _ => 0) (fun _ => 0)
        (fun _ => 0) (fun _ => 0)).isSome = true ∧
      (solve 100000 10 (solverWith weightsWide33 (fun _ => 0) (fun _ => 0)) (pairsTensor 3 0)).map
        (fun p => (pairsOf p.2, pairWeight weightsWide33 (pairsOf p.2)))
        = some ([(0, 2), (1, 1), (2, 0)], 500000) ∧
      (solve 100000 10 (solverWith weightsWide33r (fun _ => 0) (fun _ => 0)) (pairsTensor 3 0)).map
        (fun p => (pairsOf p.2, pairWeight weightsWide33r (pairsOf p.2)))
        = some ([(0, 2), (1, 1), (2, 0)], 600000)) ∧
    ((∀ i j, i < 3 → j < 3 → weightsMin33r.at2 (2 - i) (2 - j) = weightsMin33.at2 i j) ∧
      BelowBig 10000000000 (max 3 3) (getCost (Solver.new weightsMin33).costMat) (fun _ => 0)
        (fun _ => 0) (fun _ => 0) ∧
      BelowBig 10000000000 (max 3 3) (getCost (Solver.new weightsMin33r).costMat) (fun _ => 0)
        (fun _ => 0) (fun _ => 0) ∧
      (solve 10000000000 10 (solverWith weightsMin33 (fun _ => 0) (fun _ => 0)) (pairsTensor 3 0)).map
        (fun p => (pairsOf p.2, pairWeight weightsMin33 (pairsOf p.2)))
        = some ([(0, 2), (1, 1), (2, 0)], 0) ∧
      (solve 10000000000 10 (solverWith weightsMin33r (fun _ => 0) (fun _ => 0)) (pairsTensor 3 0)).map
        (fun p => (pairsOf p.2, pairWeight weightsMin33r (pairsOf p.2)))
        = some ([(0, 2), (1, 0), (2, 1)], -4294967296)) := by
  refine ⟨⟨fun _ _ _ _ => rfl, by decide, ?_⟩, ⟨?_, by decide, by decide, by decide, by decide⟩,
    ⟨?_, ?_, ?_, by decide, by decide⟩⟩
  · intro h
    exact absurd ((h (0, 0)).mpr ⟨(1, 0), by decide, rfl⟩) (by decide)
  · intro i j hi hj
    interval_cases i <;> interval_cases j <;> rfl
  · intro i j hi hj
    interval_cases i <;> interval_cases j <;> rfl
  · apply belowBig_of_bigEnough 10000000000 (max 3 3) _ _ _ _ (by decide)
    apply bigEnough_of_bounds 10000000000 (max 3 3) _ (-2147483648) 0 _ (by decide)
    intro i j hi hj
    have hi2 : i < 3 := hi
    have hj2 : j < 3 := hj
    interval_cases i <;> interval_cases j <;> decide
  · apply belowBig_of_bigEnough 10000000000 (max 3 3) _ _ _ _ (by decide)
    apply bigEnough_of_bounds 10000000000 (max 3 3) _ (-2147483648) 0 _ (by decide)
    intro i j hi hj
    have hi2 : i < 3 := hi
    have hj2 : j < 3 := hj
    interval_cases i <;> interval_cases j <;> decide

/-- C9 as amended: for a matrix `W` of 32 bit weights above `INT_MIN`, the matrix `W'` with
`W'[s(i)][t(j)] = W[i][j]`, `s` and `t` permutations of the rows and columns, and runs for
`W` and for `W'` in which every reduced cost computed in the reduction transfer and in the
row scans of the augmenting row reduction is below `BIG`, both calls of `solve` return (for
every fuel from some bound on) and the total weight of the pairs written is the same for `W`
and `W'`; when `W` has one pairing of maximum total weight only, the pairs written for `W'`
are exactly the pairs `(s(a), t(b))`, `(a, b)` written for `W`. -/
theorem permuted_total_weight (BIG : Int) (mat mat' : Tensor Int) (R C : Nat) (s t : Nat → Nat)
    (a a' : Tensor Nat) (r0 c0 r0' c0' : Nat → Int)
    (hd : mat.getDims = [R, C]) (hd' : mat'.getDims = [R, C]) (hR : 1 ≤ R)
    (hsz : max R C < 4294967296) (hw : AboveMin mat R C)
    (hH : BelowBig BIG (max R C) (getCost (Solver.new mat).costMat) r0 c0 (fun _ => 0))
    (hH' : BelowBig BIG (max R C) (getCost (Solver.new mat').costMat) r0' c0' (fun _ => 0))
    (ha : a.getDims = [min R C, 2]) (ha' : a'.getDims = [min R C, 2])
    (hs : ∀ i, i < R → s i < R) (hsinj : ∀ i i', i < R → i' < R → s i = s i' → i = i')
    (ht : ∀ j, j < C → t j < C) (htinj : ∀ j j', j < C → j' < C → t j = t j' → j = j')
    (hperm : ∀ i j, i < R → j < C → mat'.at2 (s i) (t j) = mat.at2 i j) :
    (∃ M, ∀ fuel, M ≤ fuel →
      (solve BIG fuel (solverWith mat r0 c0) a).isSome = true ∧
      (solve BIG fuel (solverWith mat' r0' c0') a').isSome = true) ∧
    ∀ fuel fuel' res res', solve BIG fuel (solverWith mat r0 c0) a = some res →
      solve BIG fuel' (solverWith mat' r0' c0') a' = some res' →
      pairWeight mat (pairsOf res.2) = pairWeight mat' (pairsOf res'.2) ∧
      (UniqueOptimum mat R C →
        ∀ p : Nat × Nat, p ∈ pairsOf res'.2 ↔ ∃ q, q ∈ pairsOf res.2 ∧ p = (s q.1, t q.2)) := by
  by_cases h2 : 2 ≤ max R C
  · exact solve_weight_perm BIG mat mat' R C s t a a' r0 c0 r0' c0' hd hd' hR hsz hw
      (hH.big_nonneg h2) hH hH' ha ha' hs hsinj ht htinj hperm
  · have h1 : max R C = 1 := by
      have := le_trans hR (le_max_left R C)
      omega
    have e := solve_small BIG mat R C r0 c0 a hd h1
    have e' := solve_small BIG mat' R C r0' c0' a' hd' h1
    simp only [e, e']
    exact solve_weight_perm 0 mat mat' R C s t a a' r0 c0 r0' c0' hd hd' hR hsz hw
      (le_refl _) (belowBig_small _ _ _ _ _ h1) (belowBig_small _ _ _ _ _ h1) ha ha'
      hs hsinj ht htinj hperm

/-- Instance of C9 as amended: the matrix `[[1,2],[2,1]]`, whose only pairing of maximum
weight is `(0,1)`, `(1,0)`, and its image `[[2,1],[1,2]]` under the swap of the two rows. -/
theorem permuted_total_weight_witness :
    (∀ i j, i < 2 → j < 2 → weights22s.at2 (1 - i) j = weights22.at2 i j) ∧
    UniqueOptimum weights22 2 2 ∧
    (∃ M, ∀ fuel, M ≤ fuel →
      (solve 100000 fuel (solverWith weights22 (fun _ => 0) (fun _ => 0))
        (pairsTensor 2 0)).isSome = true ∧
      (solve 100000 fuel (solverWith weights22s (fun _ => 1) (fun _ => 1))
        (pairsTensor 2 7)).isSome = true) ∧
    ∀ fuel fuel' res res',
      solve 100000 fuel (solverWith weights22 (fun _ => 0) (fun _ => 0)) (pairsTensor 2 0)
        = some res →
      solve 100000 fuel' (solverWith weights22s (fun _ => 1) (fun _ => 1)) (pairsTensor 2 7)
        = some res' →
      pairWeight weights22 (pairsOf res.2) = pairWeight weights22s (pairsOf res'.2) ∧
      ∀ p : Nat × Nat, p ∈ pairsOf res'.2 ↔ ∃ q, q ∈ pairsOf res.2 ∧ p = (1 - q.1, q.2) := by
  have hB' : BigEnough 100000 (max 2 2) (getCost (Solver.new weights22s).costMat) := by
    apply bigEnough_of_bounds 100000 (max 2 2) _ (-2) (-1) _ (by decide)
    intro i j hi hj
    have hi2 : i < 2 := hi
    have hj2 : j < 2 := hj
    interval_cases i <;> interval_cases j <;> decide
  have h := permuted_total_weight 100000 weights22 weights22s 2 2 (fun i => 1 - i)
    (fun j => j) (pairsTensor 2 0) (pairsTensor 2 7) (fun _ => 0) (fun _ => 0) (fun _ => 1)
    (fun _ => 1) rfl rfl (by decide) (by decide) aboveMin22
    (belowBig_of_bigEnough 100000 _ _ _ _ _ (by decide) (bigEnough22 100000 (by decide)))
    (belowBig_of_bigEnough 100000 _ _ _ _ _ (by decide) hB') rfl rfl
    (by intro i hi; show 1 - i < 2; omega)
    (by intro i i' hi hi' h; simp only at h; omega)
    (fun j hj => hj)
    (fun j j' _ _ h => h)
    (by intro i j hi hj; interval_cases i <;> interval_cases j <;> rfl)
  refine ⟨by intro i j hi hj; interval_cases i <;> interval_cases j <;> rfl,
    uniqueOptimum22, h.1, ?_⟩
  intro fuel fuel' res res' hres hres'
  obtain ⟨h1, h2⟩ := h.2 fuel fuel' res res' hres hres'
  exact ⟨h1, h2 uniqueOptimum22⟩

/-- Two calls of `jvlap` for `N = 1` from different contents of `rowsol`, `colsol`, `u` and
`v`, whatever `BIG` is. -/
theorem jvlap_two_runs_one (BIG : Int) (cost : Nat → Nat → Int)
    (rs cs u v rs' cs' u' v' : Nat → Int)
    (hrs : ∀ i, 1 ≤ i → rs i = rs' i) (hcs : ∀ i, 1 ≤ i → cs i = cs' i)
    (hv : ∀ i, 1 ≤ i → v i = v' i) :
    ∃ (lap : Lap) (M : Nat),
      (∀ fuel, M ≤ fuel →
        jvlap BIG fuel 1 cost rs cs u v = some (lap, u) ∧
        jvlap BIG fuel 1 cost rs' cs' u' v' = some (lap, u')) ∧
      ∀ fuel r,
        (jvlap BIG fuel 1 cost rs cs u v = some r → r = (lap, u)) ∧
        (jvlap BIG fuel 1 cost rs' cs' u' v' = some r → r = (lap, u')) := by
  have e1 : upd rs' 0 (0 : Int) = upd rs 0 0 :=
    upd_tail_congr rs' rs 0 (fun i hi => (hrs i hi).symm)
  have e2 : upd cs' 0 (0 : Int) = upd cs 0 0 :=
    upd_tail_congr cs' cs 0 (fun i hi => (hcs i hi).symm)
  have e3 : upd (upd v' 0 (cost 0 0)) 0 (cost 0 0 - BIG)
      = upd (upd v 0 (cost 0 0)) 0 (cost 0 0 - BIG) := by
    funext i
    unfold upd
    by_cases hi : i = 0
    · rw [if_pos hi, if_pos hi]
    · rw [if_neg hi, if_neg hi, if_neg hi, if_neg hi]
      exact (hv i (by omega)).symm
  have k1 := fun fuel => jvlap_one_form BIG fuel cost rs cs u v
  have k2 := fun fuel => jvlap_one_form BIG fuel cost rs' cs' u' v'
  rw [e1, e2, e3] at k2
  refine ⟨_, 0, fun fuel _ => ⟨k1 fuel, k2 fuel⟩, ?_⟩
  intro fuel r
  constructor
  · intro h
    rw [k1 fuel] at h
    exact (Option.some.inj h).symm
  · intro h
    rw [k2 fuel] at h
    exact (Option.some.inj h).symm

/-- C10 fails as stated: for the weight matrix `[[100001,100000],[0,0]]` and `BIG = 100000`
the first row scan of the augmenting row reduction finds no reduced cost below `BIG`, so the
tie branch reads `j2`, which no statement has written (the run with checked reads fails
for every fuel), and the pairs written depend on what `j2` holds: `(0,1)`, `(1,0)` when it holds `0`, and `(0,0)`,
`(1,1)` when it holds `1`. -/
theorem determinism_counterexample :
    (∀ fuel, jvlapC 100000 fuel 2 (getCost (Solver.new weightsWide22).costMat) (fun _ => 0)
      (fun _ => 0) (fun _ => 0) (fun _ => 0) = none) ∧
    (solveFrom 0 100000 10 (solverWith weightsWide22 (fun _ => 0) (fun _ => 0))
        (pairsTensor 2 0)).map (fun p => pairsOf p.2) = some [(0, 1), (1, 0)] ∧
    (solveFrom 1 100000 10 (solverWith weightsWide22 (fun _ => 0) (fun _ => 0))
        (pairsTensor 2 0)).map (fun p => pairsOf p.2) = some [(0, 0), (1, 1)] :=
  ⟨jvlapC_wide, by decide, by decide⟩

/-- Two calls of `jvlap` and of `solve` in runs in which `j2` holds `0` at entry. -/
theorem deterministic_run (BIG : Int) (mat : Tensor Int) (R C m : Nat)
    (rs cs u v rs' cs' u' v' : Nat → Int) (a a' : Tensor Nat)
    (hd : mat.getDims = [R, C]) (hR : 1 ≤ R)
    (hH : BelowBig BIG (max R C) (getCost (Solver.new mat).costMat) rs cs v)
    (hH0 : BelowBig BIG (max R C) (getCost (Solver.new mat).costMat) rs cs (fun _ => 0))
    (ha : a.getDims = [m, 2]) (ha' : a'.getDims = [m, 2]) (hm : m ≤ max R C)
    (hrs : ∀ i, max R C ≤ i → rs i = rs' i) (hcs : ∀ i, max R C ≤ i → cs i = cs' i)
    (hv : ∀ i, max R C ≤ i → v i = v' i) :
    (∃ (lap : Lap) (M : Nat),
      (∀ fuel, M ≤ fuel →
        jvlap BIG fuel (max R C) (getCost (Solver.new mat).costMat) rs cs u v = some (lap, u) ∧
        jvlap BIG fuel (max R C) (getCost (Solver.new mat).costMat) rs' cs' u' v'
          = some (lap, u')) ∧
      ∀ fuel r,
        (jvlap BIG fuel (max R C) (getCost (Solver.new mat).costMat) rs cs u v = some r →
          r = (lap, u)) ∧
        (jvlap BIG fuel (max R C) (getCost (Solver.new mat).costMat) rs' cs' u' v' = some r →
          r = (lap, u'))) ∧
    (∃ (s1 : Solver) (t t' : Tensor Nat) (M : Nat),
      pairsOf t = pairsOf t' ∧
      (∃ rs1 cs1 : Nat → Int, s1 = solverWith mat rs1 cs1 ∧
        (∀ i, max R C ≤ i → rs i = rs1 i) ∧ (∀ i, max R C ≤ i → cs i = cs1 i)) ∧
      (∀ fuel, M ≤ fuel →
        solve BIG fuel (solverWith mat rs cs) a = some (s1, t) ∧
        solve BIG fuel (solverWith mat rs' cs') a' = some (s1, t') ∧
        solve BIG fuel s1 a' = some (s1, t')) ∧
      ∀ fuel res,
        (solve BIG fuel (solverWith mat rs cs) a = some res → res = (s1, t)) ∧
        (solve BIG fuel (solverWith mat rs' cs') a' = some res → res = (s1, t')) ∧
        (solve BIG fuel s1 a' = some res → res = (s1, t'))) := by
  by_cases h2 : 2 ≤ max R C
  · exact ⟨jvlap_two_runs BIG (max R C) (getCost (Solver.new mat).costMat) rs cs u v rs' cs'
        u' v' (le_trans hR (le_max_left _ _)) (hH.big_nonneg h2) hH hrs hcs hv,
      solve_congr BIG mat R C m rs cs rs' cs' a a' hd hR (hH.big_nonneg h2) hH0 ha ha' hm
        hrs hcs⟩
  · have h1 : max R C = 1 := by
      have := le_trans hR (le_max_left R C)
      omega
    constructor
    · rw [h1] at hrs hcs hv ⊢
      exact jvlap_two_runs_one BIG _ rs cs u v rs' cs' u' v' hrs hcs hv
    · obtain ⟨s1, t, t', M, hp, hs, hrun, hall⟩ := solve_congr 0 mat R C m rs cs rs' cs' a a'
        hd hR (le_refl _) (belowBig_small _ _ _ _ _ h1) ha ha' hm hrs hcs
      have hs1 : s1.size = 1 := by
        obtain ⟨rs1, cs1, e1, _, _⟩ := hs
        rw [e1, (solverWith_fields mat R C rs1 cs1 hd).2.2.1]
        exact h1
      have e := solve_small BIG mat R C rs cs a hd h1
      have e' := solve_small BIG mat R C rs' cs' a' hd h1
      have e'' := fun fuel => solve_one BIG 0 fuel s1 a' hs1
      refine ⟨s1, t, t', M, hp, hs, ?_, ?_⟩
      · intro fuel hf
        rw [e, e', e'']
        exact hrun fuel hf
      · intro fuel res
        rw [e, e', e'']
        exact hall fuel res

/-- C10 as amended, determinism: for one weight matrix and runs in which every reduced cost
computed in the reduction transfer and in the row scans of the augmenting row reduction is
below `BIG`, whatever the local `j2` holds at the entry of each call (`g`, `g1`, `g2`), two
calls of `jvlap` from different contents of `rowsol`, `colsol`, `u` and `v` return (for every
fuel from some bound on, and whenever they return) the same `rowsol`, `colsol` and `v`; two
calls of `solve` from different contents of `rowsol` and `colsol` (`u` and `v` are allocated
by `solve`) into tensors of the same dims leave the same solver behind and write the same
pairs, and so does a further call on the solver left behind. The vectors have `N = max R C`
cells: the cells of the model from `N` on are no cells of the program and are taken equal in
both calls. -/
theorem solve_deterministic (BIG : Int) (mat : Tensor Int) (R C m : Nat)
    (rs cs u v rs' cs' u' v' : Nat → Int) (a a' : Tensor Nat)
    (hd : mat.getDims = [R, C]) (hR : 1 ≤ R)
    (hH : BelowBig BIG (max R C) (getCost (Solver.new mat).costMat) rs cs v)
    (hH0 : BelowBig BIG (max R C) (getCost (Solver.new mat).costMat) rs cs (fun _ => 0))
    (ha : a.getDims = [m, 2]) (ha' : a'.getDims = [m, 2]) (hm : m ≤ max R C)
    (hrs : ∀ i, max R C ≤ i → rs i = rs' i) (hcs : ∀ i, max R C ≤ i → cs i = cs' i)
    (hv : ∀ i, max R C ≤ i → v i = v' i) :
    (∃ (lap : Lap) (M : Nat),
      (∀ fuel, M ≤ fuel → ∀ g g1 : Nat,
        jvlapFrom g BIG fuel (max R C) (getCost (Solver.new mat).costMat) rs cs u v
          = some (lap, u) ∧
        jvlapFrom g1 BIG fuel (max R C) (getCost (Solver.new mat).costMat) rs' cs' u' v'
          = some (lap, u')) ∧
      ∀ (fuel g : Nat) r,
        (jvlapFrom g BIG fuel (max R C) (getCost (Solver.new mat).costMat) rs cs u v = some r →
          r = (lap, u)) ∧
        (jvlapFrom g BIG fuel (max R C) (getCost (Solver.new mat).costMat) rs' cs' u' v'
          = some r → r = (lap, u'))) ∧
    (∃ (s1 : Solver) (t t' : Tensor Nat) (M : Nat),
      pairsOf t = pairsOf t' ∧
      (∀ fuel, M ≤ fuel → ∀ g g1 g2 : Nat,
        solveFrom g BIG fuel (solverWith mat rs cs) a = some (s1, t) ∧
        solveFrom g1 BIG fuel (solverWith mat rs' cs') a' = some (s1, t') ∧
        solveFrom g2 BIG fuel s1 a' = some (s1, t')) ∧
      ∀ (fuel g : Nat) res,
        (solveFrom g BIG fuel (solverWith mat rs cs) a = some res → res = (s1, t)) ∧
        (solveFrom g BIG fuel (solverWith mat rs' cs') a' = some res → res = (s1, t')) ∧
        (solveFrom g BIG fuel s1 a' = some res → res = (s1, t'))) := by
  obtain ⟨⟨lap, M, hrun, hall⟩, s1, t, t', M', hp, ⟨rs1, cs1, es, ht1, ht2⟩, hrun', hall'⟩ :=
    deterministic_run BIG mat R C m rs cs u v rs' cs' u' v' a a' hd hR hH hH0 ha ha' hm
      hrs hcs hv
  have hN : 1 ≤ max R C := le_trans hR (le_max_left _ _)
  have j1 := jvlapFrom_eq BIG (max R C) (getCost (Solver.new mat).costMat) rs cs u v hN hH
  have j2 := jvlapFrom_eq_tail BIG (max R C) (getCost (Solver.new mat).costMat) rs cs v
    rs' cs' u' v' hN hH hrs hcs hv
  have k1 := solveFrom_eq BIG mat R C rs cs a hd hR hH0
  have k2 := solveFrom_eq_tail BIG mat R C rs cs rs' cs' a' hd hR hH0 hrs hcs
  have k3 : ∀ g fuel, solveFrom g BIG fuel s1 a' = solve BIG fuel s1 a' := by
    rw [es]
    exact solveFrom_eq_tail BIG mat R C rs cs rs1 cs1 a' hd hR hH0 ht1 ht2
  constructor
  · refine ⟨lap, M, fun fuel hf g g1 => ?_, fun fuel g r => ?_⟩
    · rw [j1, j2]
      exact hrun fuel hf
    · rw [j1, j2]
      exact hall fuel r
  · refine ⟨s1, t, t', M', hp, fun fuel hf g g1 g2 => ?_, fun fuel g res => ?_⟩
    · rw [k1, k2, k3]
      exact hrun' fuel hf
    · rw [k1, k2, k3]
      exact hall' fuel res

/-- Instance of C10 as amended: the weight matrix `[[3,1],[1,3],[2,2]]` with `BIG = 100000`,
whose run scans the free row `2` in the augmenting row reduction; one call from vectors of
zeros and one from a `rowsol` that holds the column `1` in its three cells. -/
theorem solve_deterministic_witness :
    ∃ (s1 : Solver) (t t' : Tensor Nat) (M : Nat),
      pairsOf t = pairsOf t' ∧
      (∀ fuel, M ≤ fuel → ∀ g g1 g2 : Nat,
        solveFrom g 100000 fuel (solverWith weights32 (fun _ => 0) (fun _ => 0))
          (pairsTensor 2 0) = some (s1, t) ∧
        solveFrom g1 100000 fuel (solverWith weights32 (fun i => if i < 3 then 1 else 0)
          (fun _ => 0)) (pairsTensor 2 7) = some (s1, t') ∧
        solveFrom g2 100000 fuel s1 (pairsTensor 2 7) = some (s1, t')) ∧
      ∀ (fuel g : Nat) res,
        (solveFrom g 100000 fuel (solverWith weights32 (fun _ => 0) (fun _ => 0))
          (pairsTensor 2 0) = some res → res = (s1, t)) ∧
        (solveFrom g 100000 fuel (solverWith weights32 (fun i => if i < 3 then 1 else 0)
          (fun _ => 0)) (pairsTensor 2 7) = some res → res = (s1, t')) ∧
        (solveFrom g 100000 fuel s1 (pairsTensor 2 7) = some res → res = (s1, t')) :=
  (solve_deterministic 100000 weights32 3 2 2 (fun _ => 0) (fun _ => 0) (fun _ => 0)
    (fun _ => 0) (fun i => if i < 3 then 1 else 0) (fun _ => 0) (fun _ => 5) (fun _ => 0)
    (pairsTensor 2 0) (pairsTensor 2 7) rfl (by decide)
    (belowBig_of_bigEnough 100000 _ _ _ _ _ (by decide) (bigEnough32 100000 (by decide)))
    (belowBig_of_bigEnough 100000 _ _ _ _ _ (by decide) (bigEnough32 100000 (by decide)))
    rfl rfl (by decide)
    (by intro i hi; have h2 : ¬ i < 3 := by (have : max 3 2 = 3 := rfl); omega
        simp only [h2, if_false])
    (fun _ _ => rfl) (fun _ _ => rfl)).2

/-- C11 fails as stated: for the cost matrix `[[-100001,-100000],[0,0]]` and `BIG = 100000`
row `1` is free after the reduction transfer, its scan in the augmenting row reduction
computes the reduced costs `100001` and `100000`, none below `BIG`, so `j2` is not written,
and the tie branch reads it: the run with checked reads returns for no fuel. What the
program does from there on depends on the indeterminate value of `j2`, used as a subscript of
`colsol`. -/
theorem termination_counterexample :
    ((transferState 100000 2 (getCost (Solver.new weightsWide22).costMat) (fun _ => 0) (fun _ => 0)
        (fun _ => 0) 2).numfree = 1 ∧
      (transferState 100000 2 (getCost (Solver.new weightsWide22).costMat) (fun _ => 0) (fun _ => 0)
        (fun _ => 0) 2).free_ 0 = 1 ∧
      getCost (Solver.new weightsWide22).costMat 1 0 -
        (transferState 100000 2 (getCost (Solver.new weightsWide22).costMat) (fun _ => 0)
          (fun _ => 0) (fun _ => 0) 2).v 0 = 100001 ∧
      getCost (Solver.new weightsWide22).costMat 1 1 -
        (transferState 100000 2 (getCost (Solver.new weightsWide22).costMat) (fun _ => 0)
          (fun _ => 0) (fun _ => 0) 2).v 1 = 100000) ∧
    ¬ ∃ fuel, (jvlapC 100000 fuel 2 (getCost (Solver.new weightsWide22).costMat) (fun _ => 0)
      (fun _ => 0) (fun _ => 0) (fun _ => 0)).isSome = true := by
  refine ⟨by decide, ?_⟩
  rintro ⟨fuel, h⟩
  rw [jvlapC_wide fuel] at h
  exact absurd h (by decide)

end RLAPSolverJV
